import Mathlib

/-!
# Control-file interpreter of bpp (`src/cfile.c`)

A shallow embedding of the control-file reader.  C strings are modelled as
`List Char` holding the characters that precede the terminating NUL; a
`char *` cursor into such a string is the suffix that starts at the cursor,
so `p += n` is `p.drop n` and `*p == 0` is `p = []`.
-/

namespace Bpp

/-! ## C library -/

/-- The character set `" \t\r\n"` that `cfile.c` passes to `strspn`/`strcspn`. -/
def WS : List Char := [' ', '\t', '\r', '\n']

/-- The character set `" \t\r\n*#"` that bounds a numeric token. -/
def WS_STAR_HASH : List Char := [' ', '\t', '\r', '\n', '*', '#']

/-- C `strspn`: length of the longest prefix made of characters of `accept`. -/
def strspn (s accept : List Char) : Nat :=
  (s.takeWhile (fun c => accept.contains c)).length

/-- C `strcspn`: length of the longest prefix free of characters of `reject`. -/
def strcspn (s reject : List Char) : Nat :=
  (s.takeWhile (fun c => !reject.contains c)).length

/-- C `isspace` in the "C" locale. -/
def isspace (c : Char) : Bool :=
  c == ' ' || c == '\t' || c == '\n' || c == '\x0b' || c == '\x0c' || c == '\r'

/-- C `isdigit`. -/
def isdigit (c : Char) : Bool := decide ('0'.toNat ≤ c.toNat ∧ c.toNat ≤ '9'.toNat)

/-- C `tolower` in the "C" locale. -/
def tolower (c : Char) : Char :=
  if 'A'.toNat ≤ c.toNat ∧ c.toNat ≤ 'Z'.toNat then Char.ofNat (c.toNat + 32) else c

/-- Largest value of a 64-bit `long`. -/
def LONG_MAX : Int := 9223372036854775807

/-- Smallest value of a 64-bit `long`. -/
def LONG_MIN : Int := -9223372036854775808

/-- Value of a run of decimal digits. -/
def digits_val (ds : List Char) : Nat :=
  ds.foldl (fun a c => 10 * a + (c.toNat - '0'.toNat)) 0

/-- The call `sscanf(s, "%ld%n", value, &len)` on a NUL-terminated string:
white space is skipped, an optional sign and a non-empty run of decimal digits
are read, and the result is the pair of the converted number (out-of-range
numbers are clamped as `strtol` does) and the count of characters read.
`none` stands for a call that converts nothing (it returns 0 or `EOF` and
leaves `len` unchanged). -/
def sscanf_ld (s : List Char) : Option (Int × Nat) :=
  let sp := (s.takeWhile isspace).length
  let r := s.drop sp
  let neg := r.head? == some '-'
  let sgn := if r.head? == some '-' || r.head? == some '+' then 1 else 0
  let ds := (r.drop sgn).takeWhile isdigit
  if ds.isEmpty then none
  else
    let mag : Int := (digits_val ds : Nat)
    let v : Int := if neg then -mag else mag
    some (max LONG_MIN (min LONG_MAX v), sp + sgn + ds.length)

/-- C `strncasecmp`: zero exactly when the first `n` characters (or the whole
strings, when shorter) agree after `tolower`. -/
def strncasecmp : List Char → List Char → Nat → Int
  | _, _, 0 => 0
  | [], [], _ + 1 => 0
  | [], c2 :: _, _ + 1 => 0 - ((tolower c2).toNat : Int)
  | c1 :: _, [], _ + 1 => ((tolower c1).toNat : Int)
  | c1 :: s1, c2 :: s2, n + 1 =>
    if tolower c1 = tolower c2 then strncasecmp s1 s2 n
    else ((tolower c1).toNat : Int) - ((tolower c2).toNat : Int)

/-- C `strcasecmp`. -/
def strcasecmp : List Char → List Char → Int
  | [], [] => 0
  | [], c2 :: _ => 0 - ((tolower c2).toNat : Int)
  | c1 :: _, [] => ((tolower c1).toNat : Int)
  | c1 :: s1, c2 :: s2 =>
    if tolower c1 = tolower c2 then strcasecmp s1 s2
    else ((tolower c1).toNat : Int) - ((tolower c2).toNat : Int)

/-! ## Field validators -/

/-- The test `!p[0] || p[0] == '*' || p[0] == '#'` at a cursor. -/
def at_end_or_comment (p : List Char) : Bool :=
  match p with
  | [] => true
  | c :: _ => c == '*' || c == '#'

/-- Source `is_emptyline`. -/
def is_emptyline (line : List Char) : Bool :=
  let ws := strspn line WS
  at_end_or_comment (line.drop ws)

/-- The loop `for (--p; *p is white space; --p);` started with the cursor at
index `p` of `s`: the index at which it stops, or `none` when the cursor is
moved before the first character of the buffer. -/
def scan_back (s : List Char) : Nat → Option Nat
  | 0 => none
  | p + 1 =>
    match s.get? p with
    | some c => if c == ' ' || c == '\t' || c == '\r' || c == '\n' then scan_back s p else some p
    | none => some p

/-- Source `get_string`: the returned count and the string stored in `*value`
(`value` is the previous content of the target, kept when nothing is stored).
The backward scan starts behind a character that is not white space, so it
cannot leave the buffer (`scan_back_get_string`) and the default index is
never used. -/
def get_string (line : List Char) (value : Option (List Char)) :
    Nat × Option (List Char) :=
  let ws := strspn line WS
  if at_end_or_comment (line.drop ws) then (0, value)
  else
    let start := ws
    let p := strcspn line ['*', '#']
    let e := (scan_back line p).getD 0 + 1
    (ws + (e - start), some ((line.take e).drop start))

/-- Source `get_long`: the returned count and the content of `*value`
afterwards (`sscanf` stores a converted number even when the token has
trailing characters). -/
def get_long (line : List Char) (value : Int) : Nat × Int :=
  let ws := strspn line WS
  if at_end_or_comment (line.drop ws) then (0, value)
  else
    let start := line.drop ws
    let e := strcspn start WS_STAR_HASH
    let tok := start.take e
    match sscanf_ld tok with
    | none => (0, value)
    | some (v, len) => if len < tok.length then (0, v) else (ws + e, v)

/-- Source `get_double`; `lf` is the C library call
`sscanf(s, "%lf%n", value, &len)`, giving the converted number and the
count of characters read, or `none` when nothing is converted. -/
def get_double {D : Type} (lf : List Char → Option (D × Nat)) (line : List Char) (value : D) :
    Nat × D :=
  let ws := strspn line WS
  if at_end_or_comment (line.drop ws) then (0, value)
  else
    let start := line.drop ws
    let e := strcspn start WS_STAR_HASH
    let tok := start.take e
    match lf tok with
    | none => (0, value)
    | some (v, len) => if len < tok.length then (0, v) else (ws + e, v)

/-- Source `get_e`: the returned count and the value stored in `*value`. -/
def get_e (line : List Char) : Nat × Int :=
  let ws := strspn line WS
  if at_end_or_comment (line.drop ws) then (0, 0)
  else
    let start := line.drop ws
    let e := strcspn start WS_STAR_HASH
    if (start.head? != some 'E' && start.head? != some 'e') || 1 != e then (0, 2)
    else (ws + e, 1)

/-! ## Configuration -/

/-- The option variables (`opt_*` globals of `bpp.c`) that the control-file
reader can write, together with the print and locus-rate variables it leaves
alone.  `D` is the type of C `double` values; a `char *` option is `none`
while it is `NULL`. -/
structure Config (D : Type) where
  opt_seed : Int
  opt_arch : Int
  opt_burnin : Int
  opt_msafile : Option (List Char)
  opt_outfile : Option (List Char)
  opt_usedata : Int
  opt_samples : Int
  opt_mapfile : Option (List Char)
  opt_mcmcfile : Option (List Char)
  opt_tau_alpha : D
  opt_tau_beta : D
  opt_finetune_reset : Int
  opt_finetune_gtage : D
  opt_finetune_gtspr : D
  opt_finetune_theta : D
  opt_finetune_tau : D
  opt_finetune_mix : D
  opt_finetune_locusrate : D
  opt_samplefreq : Int
  opt_cleandata : Int
  opt_theta_alpha : D
  opt_theta_beta : D
  opt_est_theta : Int
  opt_stree : Int
  opt_reorder : Option (List Char)
  opt_streenewick : Option (List Char)
  opt_delimit_prior : Int
  opt_delimit : Int
  opt_rjmcmc_method : Int
  opt_rjmcmc_alpha : D
  opt_rjmcmc_epsilon : D
  opt_rjmcmc_mean : D
  opt_print_samples : Int
  opt_print_locusrate : Int
  opt_print_hscalars : Int
  opt_print_genetrees : Int
  deriving DecidableEq

/-! ## Record grammars

Each grammar returns its C return value together with the configuration as
the call leaves it. -/

section Grammars

variable {D : Type}

/-- Source `parse_speciestree`. -/
def parse_speciestree (line : List Char) (c : Config D) : Int × Config D :=
  let p := line
  let r := get_long p c.opt_stree
  let c := { c with opt_stree := r.2 }
  if r.1 = 0 then (0, c)
  else
    if c.opt_stree = 0 ∨ c.opt_stree = 1 then (1, c) else (0, c)

/-- Source `parse_speciesdelimitation`. -/
def parse_speciesdelimitation (lf : List Char → Option (D × Nat)) (line : List Char)
    (c : Config D) : Int × Config D :=
  let p := line
  let r := get_long p c.opt_delimit
  let c := { c with opt_delimit := r.2 }
  if r.1 = 0 then (0, c)
  else
    let p := p.drop r.1
    if c.opt_delimit = 0 then ((if is_emptyline p then 1 else 0), c)
    else if c.opt_delimit ≠ 1 then (0, c)
    else
      let r := get_long p c.opt_rjmcmc_method
      let c := { c with opt_rjmcmc_method := r.2 }
      if r.1 = 0 then (0, c)
      else
        let p := p.drop r.1
        if c.opt_rjmcmc_method ≠ 0 ∧ c.opt_rjmcmc_method ≠ 1 then (0, c)
        else
          let r := get_double lf p
            (if c.opt_rjmcmc_method ≠ 0 then c.opt_rjmcmc_alpha else c.opt_rjmcmc_epsilon)
          let c := if c.opt_rjmcmc_method ≠ 0 then { c with opt_rjmcmc_alpha := r.2 }
            else { c with opt_rjmcmc_epsilon := r.2 }
          if r.1 = 0 then (0, c)
          else
            let p := p.drop r.1
            if c.opt_rjmcmc_method = 0 then ((if is_emptyline p then 1 else 0), c)
            else
              let r := get_double lf p c.opt_rjmcmc_mean
              let c := { c with opt_rjmcmc_mean := r.2 }
              if r.1 = 0 then (0, c)
              else
                let p := p.drop r.1
                ((if is_emptyline p then 1 else 0), c)

/-- Source `parse_thetaprior`. -/
def parse_thetaprior (lf : List Char → Option (D × Nat)) (line : List Char)
    (c : Config D) : Int × Config D :=
  let p := line
  let r := get_double lf p c.opt_theta_alpha
  let c := { c with opt_theta_alpha := r.2 }
  if r.1 = 0 then (0, c)
  else
    let p := p.drop r.1
    let r := get_double lf p c.opt_theta_beta
    let c := { c with opt_theta_beta := r.2 }
    if r.1 = 0 then (0, c)
    else
      let p := p.drop r.1
      let ret : Int := if is_emptyline p then 1 else 0
      let r := get_e p
      let c := { c with opt_est_theta := r.2 }
      if c.opt_est_theta > 1 then (ret, c)
      else
        let p := p.drop r.1
        let ret : Int := if is_emptyline p then 1 else ret
        (ret, c)

/-- Source `parse_tauprior`. -/
def parse_tauprior (lf : List Char → Option (D × Nat)) (line : List Char)
    (c : Config D) : Int × Config D :=
  let p := line
  let r := get_double lf p c.opt_tau_alpha
  let c := { c with opt_tau_alpha := r.2 }
  if r.1 = 0 then (0, c)
  else
    let p := p.drop r.1
    let r := get_double lf p c.opt_tau_beta
    let c := { c with opt_tau_beta := r.2 }
    if r.1 = 0 then (0, c)
    else
      let p := p.drop r.1
      ((if is_emptyline p then 1 else 0), c)

/-- Source `parse_finetune`.  Every exit gives the option variables as the
assignments made up to it leave them.  The sixth and seventh numbers go to the
local variables `opt_finetune_locusrate` and `opt_finetune_seqerr` of the C
function, which are dropped on return; they are uninitialised before the call,
and `c.opt_finetune_mix` stands for that immaterial content. -/
def parse_finetune (lf : List Char → Option (D × Nat)) (line : List Char)
    (c : Config D) : Int × Config D :=
  let p := line
  let ws := strspn p WS
  if (p.drop ws).head? ≠ some '0' ∧ (p.drop ws).head? ≠ some '1' then (0, c)
  else
    let reset : Int := if (p.drop ws).head? = some '1' then 1 else c.opt_finetune_reset
    let p := p.drop (ws + 1)
    let ws := strspn p WS
    if (p.drop ws).head? ≠ some ':' then (0, { c with opt_finetune_reset := reset })
    else
      let p := p.drop (ws + 1)
      let r1 := get_double lf p c.opt_finetune_gtage
      if r1.1 = 0 then
        (0, { c with opt_finetune_reset := reset, opt_finetune_gtage := r1.2 })
      else
        let p := p.drop r1.1
        let r2 := get_double lf p c.opt_finetune_gtspr
        if r2.1 = 0 then
          (0, { c with opt_finetune_reset := reset, opt_finetune_gtage := r1.2,
                       opt_finetune_gtspr := r2.2 })
        else
          let p := p.drop r2.1
          let r3 := get_double lf p c.opt_finetune_theta
          if r3.1 = 0 then
            (0, { c with opt_finetune_reset := reset, opt_finetune_gtage := r1.2,
                         opt_finetune_gtspr := r2.2, opt_finetune_theta := r3.2 })
          else
            let p := p.drop r3.1
            let r4 := get_double lf p c.opt_finetune_tau
            if r4.1 = 0 then
              (0, { c with opt_finetune_reset := reset, opt_finetune_gtage := r1.2,
                           opt_finetune_gtspr := r2.2, opt_finetune_theta := r3.2,
                           opt_finetune_tau := r4.2 })
            else
              let p := p.drop r4.1
              let r5 := get_double lf p c.opt_finetune_mix
              let c5 : Config D :=
                { c with opt_finetune_reset := reset, opt_finetune_gtage := r1.2,
                         opt_finetune_gtspr := r2.2, opt_finetune_theta := r3.2,
                         opt_finetune_tau := r4.2, opt_finetune_mix := r5.2 }
              if r5.1 = 0 then (0, c5)
              else
                let p := p.drop r5.1
                let r6 := get_double lf p c.opt_finetune_mix
                if r6.1 = 0 then (0, c5)
                else
                  let p := p.drop r6.1
                  let r7 := get_double lf p c.opt_finetune_mix
                  if r7.1 = 0 then (0, c5)
                  else
                    let p := p.drop r7.1
                    ((if is_emptyline p then 1 else 0), c5)

/-- Source `parse_print`.  The four numbers go to local variables of the C
function, which are dropped on return, so the configuration is not touched. -/
def parse_print (line : List Char) (c : Config D) : Int × Config D :=
  let p := line
  let r := get_long p 0
  if r.1 = 0 then (0, c)
  else
    let p := p.drop r.1
    let r := get_long p 0
    if r.1 = 0 then (0, c)
    else
      let p := p.drop r.1
      let r := get_long p 0
      if r.1 = 0 then (0, c)
      else
        let p := p.drop r.1
        let r := get_long p 0
        if r.1 = 0 then (0, c)
        else
          let p := p.drop r.1
          ((if is_emptyline p then 1 else 0), c)

/-- The character set `" \t\n\r"` used by the label loop. -/
def WS_LABEL : List Char := [' ', '\t', '\n', '\r']

/-- The `while (*p)` loop of `parse_speciesandtree` over the cursor `p`, the
counter `seq_count` and the text of `opt_reorder`.  The result tells whether
the loop ran to the end of the string (`false`: it left through
`goto l_unwind`) and gives the final counter and text; `none` only when the
iteration budget is used up.  The counter is decremented without wrap-around:
a `long` can only wrap after more than `2^63` labels. -/
def reorder_loop : Nat → List Char → Int → List Char → Option (Bool × Int × List Char)
  | 0, _, _, _ => none
  | fuel + 1, p, seq_count, opt_reorder =>
    if p.isEmpty then some (true, seq_count, opt_reorder)
    else
      let count := strcspn p WS_LABEL
      if count = 0 ∧ seq_count ≠ 0 then some (false, seq_count, opt_reorder)
      else
        let seq_count := seq_count - 1
        let label := p.take count
        let comma : Nat := if seq_count ≠ 0 then 1 else 0
        let opt_reorder := opt_reorder ++ label ++ (if comma = 1 then [','] else [])
        let p := p.drop count
        let count := strspn p WS_LABEL
        let p := p.drop count
        reorder_loop fuel p seq_count opt_reorder

/-- Source `parse_speciesandtree`.  Each pass of the loop moves the cursor by
at least one character, so a budget of one pass per character plus one is
enough (`reorder_loop_isSome`). -/
def parse_speciesandtree (line : List Char) (c : Config D) : Int × Config D :=
  let p := line
  let r := get_long p 0
  let seq_count := r.2
  if r.1 = 0 then (0, c)
  else
    let p := p.drop r.1
    let g := get_string p none
    if g.1 = 0 then (0, c)
    else
      let seqnames := g.2.getD []
      match reorder_loop (seqnames.length + 1) seqnames seq_count [] with
      | none => (0, c)
      | some (finished, seq_count, opt_reorder) =>
        let c := { c with opt_reorder := some opt_reorder }
        if finished ∧ seq_count = 0 then (1, c) else (0, c)

/-- Source `parse_long`. -/
def parse_long (line : List Char) (value : Int) : Int × Int :=
  let p := line
  let r := get_long p value
  if r.1 = 0 then (0, r.2)
  else
    let p := p.drop r.1
    ((if is_emptyline p then 1 else 0), r.2)

end Grammars

/-! ## Lines -/

/-- Source `get_token`: the returned length with the cursors stored in
`*token` and `*value` (the empty string stands for a cursor that is not
stored).  `none` when the backward scan that strips the white space before
`=` moves before the first character of the line. -/
def get_token (line : List Char) : Option (Int × List Char × List Char) :=
  let p := (line.takeWhile
    (fun c => c == ' ' || c == '\t' || c == '\r' || c == '\n')).length
  if at_end_or_comment (line.drop p) then some (0, [], [])
  else
    let token := p
    let p := p + ((line.drop p).takeWhile (fun c => c != '=')).length
    if (line.drop p).isEmpty then some (-1, line.drop token, [])
    else
      let value := p + 1
      match scan_back line p with
      | none => none
      | some p => some ((p : Int) - (token : Int) + 1, line.drop token, line.drop value)

/-- C `fgets(buffer, n, fp)` on the unread part `fp` of a stream: at most
`n - 1` characters are read, stopping behind a newline. -/
def fgets_read : Nat → List Char → List Char × List Char
  | 0, fp => ([], fp)
  | _ + 1, [] => ([], [])
  | k + 1, c :: fp =>
    if c = '\n' then ([c], fp)
    else ((c :: (fgets_read k fp).1), (fgets_read k fp).2)

/-- C `fgets(buffer, n, fp)`: the characters stored in `buffer` and the unread
rest, or `none` for a `NULL` result (end of file with nothing read). -/
def fgets (n : Nat) (fp : List Char) : Option (List Char × List Char) :=
  if n = 0 then none
  else if n = 1 then some ([], fp)
  else if fp.isEmpty then none
  else some (fgets_read (n - 1) fp)

/-- C `strlen` of a buffer whose content may hold a NUL character. -/
def strlen (buffer : List Char) : Nat :=
  (buffer.takeWhile (fun c => c != '\x00')).length

/-- What one call of `getnextline` gives. -/
inductive ReadResult where
  /-- the call returns `NULL` -/
  | eof : ReadResult
  /-- the call returns the line `line`; `rest` is the unread part of the stream -/
  | line (line rest : List Char) : ReadResult
  /-- the call reads `buffer[-1]` -/
  | undefined : ReadResult
  deriving DecidableEq

/-- The `while (fgets(...))` loop of `getnextline` with the chunk size
`LINEALLOC`, the characters gathered in `line` so far and the unread stream;
`none` only when the iteration budget is used up. -/
def getnextline_loop (LINEALLOC : Nat) : Nat → List Char → List Char → Option ReadResult
  | 0, _, _ => none
  | fuel + 1, line, fp =>
    match fgets LINEALLOC fp with
    | none => if line.length = 0 then some .eof else some (.line line fp)
    | some (buffer, fp) =>
      let len := strlen buffer
      let line := line ++ buffer.take len
      if len = 0 then some .undefined
      else if buffer.get? (len - 1) = some '\n' then some (.line line.dropLast fp)
      else getnextline_loop LINEALLOC fuel line fp

/-- Source `getnextline` on the unread part of the stream.  Every pass of the
loop that does not return reads at least one character, so one pass per
character plus one is enough (`getnextline_loop_isSome`). -/
def getnextline (LINEALLOC : Nat) (fp : List Char) : ReadResult :=
  (getnextline_loop LINEALLOC (fp.length + 1) [] fp).getD .undefined

/-! ## Control-file interpreter -/

/-- What `load_cfile` takes from outside `cfile.c`: the `%lf` conversion of
the C library, the chunk size `LINEALLOC` of `bpp.h`, the architecture
constants of `pll.h` and the value of `time(NULL)`. -/
structure Env (D : Type) where
  sscanf_lf : List Char → Option (D × Nat)
  LINEALLOC : Nat
  PLL_ATTRIB_ARCH_CPU : Int
  PLL_ATTRIB_ARCH_SSE : Int
  PLL_ATTRIB_ARCH_AVX : Int
  PLL_ATTRIB_ARCH_AVX2 : Int
  time : Int

/-- The calls of `fatal` in `load_cfile`, each with the line number it prints
(the "Not implemented" message prints none). -/
inductive Fatal where
  | no_equals (line_count : Int)
  | seed (line_count : Int)
  | expects_string (line_count : Int)
  | invalid_arch (line_count : Int)
  | nloci (line_count : Int)
  | print (line_count : Int)
  | burnin (line_count : Int)
  | usedata (line_count : Int)
  | nsample (line_count : Int)
  | tauprior (line_count : Int)
  | not_implemented
  | finetune (line_count : Int)
  | sampfreq (line_count : Int)
  | cleandata (line_count : Int)
  | thetaprior (line_count : Int)
  | speciestree (line_count : Int)
  | speciesandtree (line_count : Int)
  | incomplete_record (line_count : Int)
  | expected_newick (line_count : Int)
  | speciesmodelprior (line_count : Int)
  | speciesdelimitation (line_count : Int)
  deriving DecidableEq

/-- How a piece of `load_cfile` ends: normally, in a call of `fatal`, or in
an access outside a buffer. -/
inductive Outcome (α : Type) where
  | ok (a : α) : Outcome α
  | fatal (e : Fatal) : Outcome α
  | undefined : Outcome α
  deriving DecidableEq

/-- The variables of the main loop of `load_cfile`: the unread part of the
stream, the line counter and the configuration. -/
structure State (D : Type) where
  fp : List Char
  line_count : Int
  cfg : Config D
  deriving DecidableEq

section Interpreter

variable {D : Type}

/-- The string options share one shape: `get_string` into the target, fatal
when it returns 0. -/
def string_option (value : List Char) (old : Option (List Char)) (line_count : Int)
    (store : Option (List Char) → State D) : Outcome (State D) :=
  if (get_string value old).1 = 0 then .fatal (.expects_string line_count)
  else .ok (store (get_string value old).2)

/-- The body of the `while (getnextline(fp))` loop of `load_cfile`, run on the
line just read; `st.fp` is the stream behind that line. -/
def load_body (E : Env D) (line : List Char) (st : State D) : Outcome (State D) :=
  let line_count := st.line_count + 1
  let st := { st with line_count := line_count }
  let c := st.cfg
  match get_token line with
  | none => .undefined
  | some (token_len, token, value) =>
    if token_len = 0 then .ok st
    else if token_len < 0 then .fatal (.no_equals line_count)
    else if token_len = 4 then
      if strncasecmp token "seed".toList 4 = 0 then
        if (parse_long value c.opt_seed).1 = 0 then .fatal (.seed line_count)
        else
          let opt_seed := (parse_long value c.opt_seed).2
          .ok { st with cfg := { c with opt_seed := if opt_seed = -1 then E.time else opt_seed } }
      else if strncasecmp token "arch".toList 4 = 0 then
        if (get_string value none).1 = 0 then .fatal (.expects_string line_count)
        else
          let temp := (get_string value none).2.getD []
          if temp = "cpu".toList then
            .ok { st with cfg := { c with opt_arch := E.PLL_ATTRIB_ARCH_CPU } }
          else if strcasecmp temp "sse".toList = 0 then
            .ok { st with cfg := { c with opt_arch := E.PLL_ATTRIB_ARCH_SSE } }
          else if strcasecmp temp "avx".toList = 0 then
            .ok { st with cfg := { c with opt_arch := E.PLL_ATTRIB_ARCH_AVX } }
          else if strcasecmp temp "avx2".toList = 0 then
            .ok { st with cfg := { c with opt_arch := E.PLL_ATTRIB_ARCH_AVX2 } }
          else .fatal (.invalid_arch line_count)
      else .ok st
    else if token_len = 5 then
      if strncasecmp token "nloci".toList 5 = 0 then
        if (parse_long value 0).1 = 0 ∨ (parse_long value 0).2 < 1 then
          .fatal (.nloci line_count)
        else .ok st
      else if strncasecmp token "print".toList 5 = 0 then
        if (parse_print value c).1 = 0 then .fatal (.print line_count)
        else .ok { st with cfg := (parse_print value c).2 }
      else .ok st
    else if token_len = 6 then
      if strncasecmp token "burnin".toList 6 = 0 then
        if (parse_long value c.opt_burnin).1 = 0 ∨ (parse_long value c.opt_burnin).2 < 0 then
          .fatal (.burnin line_count)
        else .ok { st with cfg := { c with opt_burnin := (parse_long value c.opt_burnin).2 } }
      else .ok st
    else if token_len = 7 then
      if strncasecmp token "seqfile".toList 7 = 0 then
        string_option value c.opt_msafile line_count
          (fun v => { st with cfg := { c with opt_msafile := v } })
      else if strncasecmp token "outfile".toList 7 = 0 then
        string_option value c.opt_outfile line_count
          (fun v => { st with cfg := { c with opt_outfile := v } })
      else if strncasecmp token "usedata".toList 7 = 0 then
        let r := parse_long value c.opt_usedata
        if r.1 = 0 ∨ (r.2 ≠ 0 ∧ r.2 ≠ 1) then .fatal (.usedata line_count)
        else .ok { st with cfg := { c with opt_usedata := r.2 } }
      else if strncasecmp token "nsample".toList 7 = 0 then
        let r := parse_long value c.opt_samples
        if r.1 = 0 ∨ r.2 ≤ 0 then .fatal (.nsample line_count)
        else .ok { st with cfg := { c with opt_samples := r.2 } }
      else .ok st
    else if token_len = 8 then
      if strncasecmp token "imapfile".toList 8 = 0 then
        string_option value c.opt_mapfile line_count
          (fun v => { st with cfg := { c with opt_mapfile := v } })
      else if strncasecmp token "mcmcfile".toList 8 = 0 then
        string_option value c.opt_mcmcfile line_count
          (fun v => { st with cfg := { c with opt_mcmcfile := v } })
      else if strncasecmp token "tauprior".toList 8 = 0 then
        if (parse_tauprior E.sscanf_lf value c).1 = 0 then .fatal (.tauprior line_count)
        else .ok { st with cfg := (parse_tauprior E.sscanf_lf value c).2 }
      else if strncasecmp token "heredity".toList 8 = 0 then .fatal .not_implemented
      else if strncasecmp token "finetune".toList 8 = 0 then
        if (parse_finetune E.sscanf_lf value c).1 = 0 then .fatal (.finetune line_count)
        else .ok { st with cfg := (parse_finetune E.sscanf_lf value c).2 }
      else if strncasecmp token "sampfreq".toList 8 = 0 then
        let r := parse_long value c.opt_samplefreq
        if r.1 = 0 ∨ r.2 ≤ 0 then .fatal (.sampfreq line_count)
        else .ok { st with cfg := { c with opt_samplefreq := r.2 } }
      else .ok st
    else if token_len = 9 then
      if strncasecmp token "cleandata".toList 9 = 0 then
        let r := parse_long value c.opt_cleandata
        if r.1 = 0 ∨ (r.2 ≠ 0 ∧ r.2 ≠ 1) then .fatal (.cleandata line_count)
        else .ok { st with cfg := { c with opt_cleandata := r.2 } }
      else if strncasecmp token "locusrate".toList 9 = 0 then .fatal .not_implemented
      else .ok st
    else if token_len = 10 then
      if strncasecmp token "thetaprior".toList 10 = 0 then
        if (parse_thetaprior E.sscanf_lf value c).1 = 0 then .fatal (.thetaprior line_count)
        else .ok { st with cfg := (parse_thetaprior E.sscanf_lf value c).2 }
      else .ok st
    else if token_len = 11 then
      if strncasecmp token "speciestree".toList 11 = 0 then
        if (parse_speciestree value c).1 = 0 then .fatal (.speciestree line_count)
        else .ok { st with cfg := (parse_speciestree value c).2 }
      else .ok st
    else if token_len = 12 then
      if strncasecmp token "species&tree".toList 12 = 0 then
        if (parse_speciesandtree value c).1 = 0 then .fatal (.speciesandtree line_count)
        else
          let c := (parse_speciesandtree value c).2
          match getnextline E.LINEALLOC st.fp with
          | .undefined => .undefined
          | .eof => .fatal (.incomplete_record line_count)
          | .line _ fp =>
            let line_count := line_count + 1
            match getnextline E.LINEALLOC fp with
            | .undefined => .undefined
            | .eof => .fatal (.incomplete_record line_count)
            | .line line fp =>
              if (get_string line c.opt_streenewick).1 = 0 then
                .fatal (.expected_newick line_count)
              else
                .ok { fp := fp, line_count := line_count,
                      cfg := { c with opt_streenewick := (get_string line c.opt_streenewick).2 } }
      else .ok st
    else if token_len = 13 then
      if strncasecmp token "sequenceerror".toList 13 = 0 then .fatal .not_implemented
      else .ok st
    else if token_len = 17 then
      if strncasecmp token "speciesmodelprior".toList 17 = 0 then
        let r := parse_long value c.opt_delimit_prior
        if r.1 = 0 ∨ (r.2 < 0 ∨ r.2 > 1) then .fatal (.speciesmodelprior line_count)
        else .ok { st with cfg := { c with opt_delimit_prior := r.2 } }
      else .ok st
    else if token_len = 19 then
      if strncasecmp token "speciesdelimitation".toList 19 = 0 then
        if (parse_speciesdelimitation E.sscanf_lf value c).1 = 0 then
          .fatal (.speciesdelimitation line_count)
        else .ok { st with cfg := (parse_speciesdelimitation E.sscanf_lf value c).2 }
      else .ok st
    else .ok st

/-- The main loop of `load_cfile`; `none` only when the iteration budget is
used up. -/
def load_loop (E : Env D) : Nat → State D → Option (Outcome (Config D))
  | 0, _ => none
  | fuel + 1, st =>
    match getnextline E.LINEALLOC st.fp with
    | .undefined => some .undefined
    | .eof => some (.ok st.cfg)
    | .line line fp =>
      match load_body E line { st with fp := fp } with
      | .ok st => load_loop E fuel st
      | .fatal e => some (.fatal e)
      | .undefined => some .undefined

/-- Source `load_cfile` on the content of the control file (taken as opened
successfully) and the configuration before the call.  Every pass of the loop
reads at least one character, so one pass per character plus one is enough
(`load_loop_isSome`). -/
def load_cfile (E : Env D) (content : List Char) (cfg : Config D) : Outcome (Config D) :=
  (load_loop E (content.length + 1) { fp := content, line_count := 0, cfg := cfg }).getD
    .undefined

end Interpreter

/-! ## The control-file format, as the specification words it -/

/-- White space of the format: space, tab, carriage return, line feed. -/
def is_ws (c : Char) : Bool := c == ' ' || c == '\t' || c == '\r' || c == '\n'

/-- A character that bounds a token: white space, `*` or `#`. -/
def is_delim (c : Char) : Bool := is_ws c || c == '*' || c == '#'

/-- The text in front of the first comment marker `*` or `#`. -/
def cut_comment (s : List Char) : List Char :=
  s.takeWhile (fun c => !(c == '*' || c == '#'))

/-- The maximal runs of characters other than white space, in order. -/
def words : List Char → List (List Char)
  | [] => []
  | c :: s =>
    if is_ws c then words s
    else
      match s with
      | [] => [[c]]
      | d :: _ =>
        if is_ws d then [c] :: words s
        else
          match words s with
          | w :: ws => (c :: w) :: ws
          | [] => [[c]]

/-- The white-space separated fields of a value, its comment cut off: the
tokens that the validators read one after the other (`fields_nil_iff` and
`fields_cons_iff` spell this out); a value is blank or a comment exactly when
it has no field. -/
def fields (s : List Char) : List (List Char) := words (cut_comment s)

/-- A text with its leading and trailing white space removed. -/
def trim (s : List Char) : List Char :=
  ((s.dropWhile is_ws).reverse.dropWhile is_ws).reverse

/-- The conversion `lf` accepts the token `t`: it converts a number and reads
every character of the token. -/
def converts {D : Type} (lf : List Char → Option (D × Nat)) (t : List Char) : Bool :=
  match lf t with
  | some (_, len) => !decide (len < t.length)
  | none => false

/-- The number that the conversion `lf` stores for the token `t` (`old`, the
previous content of the target, when it converts nothing). -/
def stored {D : Type} (lf : List Char → Option (D × Nat)) (t : List Char) (old : D) : D :=
  match lf t with
  | some (v, _) => v
  | none => old

/-- A decimal numeral `digits` or `digits.digits` with an optional sign, read
as the exact pair of its digits taken as an integer and the number of digits
behind the point; an instance of the `%lf%n` conversion on such numerals,
used to run the interpreter on examples. -/
def decimal_lf (s : List Char) : Option ((Int × Nat) × Nat) :=
  let neg := s.head? == some '-'
  let sgn := if s.head? == some '-' || s.head? == some '+' then 1 else 0
  let ip := (s.drop sgn).takeWhile isdigit
  let r := (s.drop sgn).drop ip.length
  let fp := if r.head? == some '.' then (r.drop 1).takeWhile isdigit else []
  let dot := if r.head? == some '.' then 1 else 0
  if ip.isEmpty && fp.isEmpty then none
  else
    let mag : Int := (digits_val (ip ++ fp) : Nat)
    some ((if neg then -mag else mag, fp.length), sgn + ip.length + dot + fp.length)

/-- An environment for examples: exact decimal numerals, chunks of 8 bytes,
the architecture constants of libpll and a fixed clock. -/
def example_env : Env (Int × Nat) :=
  { sscanf_lf := decimal_lf, LINEALLOC := 8, PLL_ATTRIB_ARCH_CPU := 0,
    PLL_ATTRIB_ARCH_SSE := 1, PLL_ATTRIB_ARCH_AVX := 2, PLL_ATTRIB_ARCH_AVX2 := 4,
    time := 1500000000 }

/-- The configuration that `args_init` of `bpp.c` sets up, for the variables
of `Config`, with the numbers written as exact decimals (`0.33` is `(33, 2)`).
The variables `opt_stree` and `opt_delimit`, which `args_init` does not
assign, and the constant `BPP_SPECIES_PRIOR_UNIFORM` are taken as 0. -/
def args_init_config : Config (Int × Nat) :=
  { opt_seed := -1, opt_arch := -1, opt_burnin := 100, opt_msafile := none,
    opt_outfile := none, opt_usedata := 1, opt_samples := 0, opt_mapfile := none,
    opt_mcmcfile := none, opt_tau_alpha := (0, 0), opt_tau_beta := (0, 0),
    opt_finetune_reset := 0, opt_finetune_gtage := (5, 0), opt_finetune_gtspr := (1, 3),
    opt_finetune_theta := (1, 3), opt_finetune_tau := (1, 3), opt_finetune_mix := (3, 1),
    opt_finetune_locusrate := (33, 2), opt_samplefreq := 10, opt_cleandata := 0,
    opt_theta_alpha := (0, 0), opt_theta_beta := (0, 0), opt_est_theta := 1,
    opt_stree := 0, opt_reorder := none, opt_streenewick := none, opt_delimit_prior := 0,
    opt_delimit := 0, opt_rjmcmc_method := -1, opt_rjmcmc_alpha := (-1, 0),
    opt_rjmcmc_epsilon := (-1, 0), opt_rjmcmc_mean := (-1, 0), opt_print_samples := 1,
    opt_print_locusrate := 0, opt_print_hscalars := 0, opt_print_genetrees := 0 }

/-! ## Further notions used in the statements -/

/-- A key of an option line: not empty, without `=`, starting with a character
other than white space, `*` and `#`, and not ending in white space. -/
def is_key (key : List Char) : Bool :=
  !key.isEmpty && !key.contains '=' && key.head?.all (fun c => !is_delim c) &&
    key.getLast?.all (fun c => !is_ws c)

/-- An option line `key = value`: optional white space, the key, optional
white space, `=`, the value. -/
def KeyLine (line key value : List Char) : Prop :=
  ∃ w w', line = w ++ key ++ w' ++ '=' :: value ∧
    (∀ c ∈ w, is_ws c = true) ∧ (∀ c ∈ w', is_ws c = true) ∧ is_key key = true

/-- The names of the options that `load_cfile` recognises. -/
def option_names : List (List Char) :=
  ["seed".toList, "arch".toList, "nloci".toList, "print".toList, "burnin".toList,
   "seqfile".toList, "outfile".toList, "usedata".toList, "nsample".toList,
   "imapfile".toList, "mcmcfile".toList, "tauprior".toList, "heredity".toList,
   "finetune".toList, "sampfreq".toList, "cleandata".toList, "locusrate".toList,
   "thetaprior".toList, "speciestree".toList, "species&tree".toList,
   "sequenceerror".toList, "speciesmodelprior".toList, "speciesdelimitation".toList]

/-- The text that the label loop builds from the counter `n` and the labels:
each label, followed by a comma unless the counter has just reached zero. -/
def join_counted : Int → List (List Char) → List Char
  | _, [] => []
  | n, l :: ls => l ++ (if n - 1 ≠ 0 then [','] else []) ++ join_counted (n - 1) ls

/-- A physical line of a text file: no newline and no NUL inside. -/
def is_text_line (l : List Char) : Bool := l.all (fun c => c != '\n' && c != '\x00')

/-- A line without comment marker and without white space at its ends. -/
def is_bare (l : List Char) : Bool :=
  l.all (fun c => !(c == '*' || c == '#')) && l.head?.all (fun c => !is_ws c) &&
    l.getLast?.all (fun c => !is_ws c)

/-- An outcome that, when normal, hands back a stream of at most `n`
characters. -/
def StreamAtMost {D : Type} (n : Nat) (o : Outcome (State D)) : Prop :=
  ∀ st', o = .ok st' → st'.fp.length ≤ n

/-- A blank line: white space followed by nothing or by a comment that starts
with `*` or `#`. -/
def BlankLine (line : List Char) : Prop :=
  ∃ w r, line = w ++ r ∧ (∀ c ∈ w, is_ws c = true) ∧
    (r = [] ∨ ∃ c r', r = c :: r' ∧ (c = '*' ∨ c = '#'))

/-! ## Rooted trees (`src/rtree.c`) -/

/-- A pointer to an `rnode_t`: `null`, or a node with the fields that
`rtree.c` reads.  `addr` stands for the address of the node, by which two
nodes of equal content differ; `label` is `none` for a `NULL` label; `D` is
the type of C `double` values. -/
inductive rnode_t (D : Type) where
  | null : rnode_t D
  | node (addr : Nat) (label : Option (List Char)) (length : D) (left right : rnode_t D) :
      rnode_t D
  deriving DecidableEq

/-- The test `!p` on a pointer. -/
def rnode_t.is_null {D : Type} : rnode_t D → Bool
  | .null => true
  | .node _ _ _ _ _ => false

/-- The field `left` of a node. -/
def rnode_t.left {D : Type} : rnode_t D → rnode_t D
  | .null => .null
  | .node _ _ _ l _ => l

/-- The field `right` of a node. -/
def rnode_t.right {D : Type} : rnode_t D → rnode_t D
  | .null => .null
  | .node _ _ _ _ r => r

/-- The assignment `outbuffer[index] = node`; `none` when `index` lies outside
the buffer. -/
def store {D : Type} (outbuffer : List (rnode_t D)) (index : Nat) (node : rnode_t D) :
    Option (List (rnode_t D)) :=
  if index < outbuffer.length then some (outbuffer.set index node) else none

/-- Source `rtree_traverse_postorder`, with `*index` and the content of
`outbuffer` passed in and handed back; `cbtrav` is taken as a function without
side effects.  `none` when a `NULL` pointer is dereferenced or a slot outside
the buffer is written.  The index is counted without wrap-around: an
`unsigned int` can only wrap after `2^32` stored nodes. -/
def rtree_traverse_postorder {D : Type} (cbtrav : rnode_t D → Int) :
    rnode_t D → Nat → List (rnode_t D) → Option (Nat × List (rnode_t D))
  | .null, _, _ => none
  | .node addr label length left right, index, outbuffer =>
    if left.is_null then
      if cbtrav (.node addr label length left right) ≠ 0 then
        (store outbuffer index (.node addr label length left right)).map
          (fun outbuffer => (index + 1, outbuffer))
      else some (index, outbuffer)
    else if cbtrav (.node addr label length left right) = 0 then some (index, outbuffer)
    else
      match rtree_traverse_postorder cbtrav left index outbuffer with
      | none => none
      | some (index, outbuffer) =>
        match rtree_traverse_postorder cbtrav right index outbuffer with
        | none => none
        | some (index, outbuffer) =>
          (store outbuffer index (.node addr label length left right)).map
            (fun outbuffer => (index + 1, outbuffer))

/-- Source `rtree_traverse_preorder`, modelled as `rtree_traverse_postorder`. -/
def rtree_traverse_preorder {D : Type} (cbtrav : rnode_t D → Int) :
    rnode_t D → Nat → List (rnode_t D) → Option (Nat × List (rnode_t D))
  | .null, _, _ => none
  | .node addr label length left right, index, outbuffer =>
    if left.is_null then
      if cbtrav (.node addr label length left right) ≠ 0 then
        (store outbuffer index (.node addr label length left right)).map
          (fun outbuffer => (index + 1, outbuffer))
      else some (index, outbuffer)
    else if cbtrav (.node addr label length left right) = 0 then some (index, outbuffer)
    else
      match store outbuffer index (.node addr label length left right) with
      | none => none
      | some outbuffer =>
        match rtree_traverse_preorder cbtrav left (index + 1) outbuffer with
        | none => none
        | some (index, outbuffer) => rtree_traverse_preorder cbtrav right index outbuffer

/-- The constants of `bpp.h` that `rtree_traverse` uses. -/
structure TraverseConsts where
  BPP_SUCCESS : Int
  BPP_FAILURE : Int
  TREE_TRAVERSE_POSTORDER : Int
  TREE_TRAVERSE_PREORDER : Int

/-- How a call of `rtree_traverse` ends: it returns `ret` with `*trav_size` and
the buffer as given, it calls `fatal`, or it dereferences `NULL` or writes
outside the buffer. -/
inductive TraverseResult (D : Type) where
  | returned (ret : Int) (trav_size : Nat) (outbuffer : List (rnode_t D)) : TraverseResult D
  | fatal : TraverseResult D
  | undefined : TraverseResult D
  deriving DecidableEq

/-- Source `rtree_traverse`. -/
def rtree_traverse {D : Type} (K : TraverseConsts) (root : rnode_t D) (traversal : Int)
    (cbtrav : rnode_t D → Int) (outbuffer : List (rnode_t D)) : TraverseResult D :=
  match root with
  | .null => .undefined
  | .node _ _ _ left _ =>
    if left.is_null then .returned K.BPP_FAILURE 0 outbuffer
    else if traversal = K.TREE_TRAVERSE_POSTORDER then
      match rtree_traverse_postorder cbtrav root 0 outbuffer with
      | none => .undefined
      | some (trav_size, outbuffer) => .returned K.BPP_SUCCESS trav_size outbuffer
    else if traversal = K.TREE_TRAVERSE_PREORDER then
      match rtree_traverse_preorder cbtrav root 0 outbuffer with
      | none => .undefined
      | some (trav_size, outbuffer) => .returned K.BPP_SUCCESS trav_size outbuffer
    else .fatal

/-- How a call of the Newick export ends: it returns a string or `NULL`, the
process is ended by `assert` or `fatal`, or the behaviour is undefined (a
`NULL` string is read). -/
inductive ExportResult where
  | string (newick : List Char) : ExportResult
  | null : ExportResult
  | aborted : ExportResult
  | undefined : ExportResult
  deriving DecidableEq

/-- Source `rtree_export_newick_recursive`.  `fmt` is the `%f` rendering of
the C library; `cb_serialize` is `none` for a `NULL` callback, and a callback
gives `none` for a `NULL` string.  `asprintf` is taken to succeed, so
`size_alloced` is never negative. -/
def rtree_export_newick_recursive {D : Type} (fmt : D → List Char)
    (cb_serialize : Option (rnode_t D → Option (List Char))) : rnode_t D → ExportResult
  | .null => .aborted
  | .node addr label length left right =>
    if left.is_null ∨ right.is_null then
      match cb_serialize with
      | some cb =>
        match cb (.node addr label length left right) with
        | none => .undefined
        | some newick => .string newick
      | none =>
        match label with
        | none => .undefined
        | some label => .string (label ++ [':'] ++ fmt length)
    else
      match rtree_export_newick_recursive fmt cb_serialize left with
      | .string subtree1 =>
        match rtree_export_newick_recursive fmt cb_serialize right with
        | .string subtree2 =>
          match cb_serialize with
          | some cb =>
            match cb (.node addr label length left right) with
            | none => .undefined
            | some temp =>
              .string (['('] ++ subtree1 ++ [','] ++ subtree2 ++ [')'] ++ temp)
          | none =>
            .string (['('] ++ subtree1 ++ [','] ++ subtree2 ++ [')'] ++ label.getD [] ++
              [':'] ++ fmt length)
        | .null => .null
        | r => r
      | .null => .null
      | r => r

/-- Source `rtree_export_newick`. -/
def rtree_export_newick {D : Type} (fmt : D → List Char)
    (cb_serialize : Option (rnode_t D → Option (List Char))) : rnode_t D → ExportResult
  | .null => .null
  | .node addr label length left right =>
    if left.is_null ∨ right.is_null then
      match cb_serialize with
      | some cb =>
        match cb (.node addr label length left right) with
        | none => .undefined
        | some newick => .string newick
      | none =>
        match label with
        | none => .undefined
        | some label => .string (label ++ [':'] ++ fmt length)
    else
      match rtree_export_newick_recursive fmt cb_serialize left with
      | .string subtree1 =>
        match rtree_export_newick_recursive fmt cb_serialize right with
        | .string subtree2 =>
          match cb_serialize with
          | some cb =>
            match cb (.node addr label length left right) with
            | none => .undefined
            | some temp =>
              .string (['('] ++ subtree1 ++ [','] ++ subtree2 ++ [')'] ++ temp)
          | none =>
            .string (['('] ++ subtree1 ++ [','] ++ subtree2 ++ [')'] ++ label.getD [] ++
              [':'] ++ fmt length ++ [';'])
        | .null => .aborted
        | r => r
      | .null => .aborted
      | r => r

/-! ## Rooted trees, as the specification words them -/

/-- The nodes of the tree under a pointer, each once (left subtree, node, right
subtree). -/
def nodes {D : Type} : rnode_t D → List (rnode_t D)
  | .null => []
  | .node addr label length left right =>
    nodes left ++ [.node addr label length left right] ++ nodes right

/-- The address of a node. -/
def rnode_t.addr {D : Type} : rnode_t D → Nat
  | .null => 0
  | .node addr _ _ _ _ => addr

/-- A strictly binary tree: every node has both children or none. -/
def is_binary {D : Type} : rnode_t D → Bool
  | .null => true
  | .node _ _ _ left right => (left.is_null == right.is_null) && is_binary left && is_binary right

/-- An internal node: a node with a left child (in a binary tree, with both
children). -/
def is_internal {D : Type} (n : rnode_t D) : Bool := !n.is_null && !n.left.is_null

/-- The two traversal orders. -/
inductive Order where
  | postorder : Order
  | preorder : Order
  deriving DecidableEq

/-- The traversal of the specification: the predicate decides for every
visited node whether it appears and, for an internal node, whether its subtree
is entered; postorder is left, right, self and preorder is self, left,
right. -/
def traverse {D : Type} (order : Order) (predicate : rnode_t D → Bool) :
    rnode_t D → List (rnode_t D)
  | .null => []
  | .node addr label length left right =>
    if predicate (.node addr label length left right) then
      if left.is_null && right.is_null then [.node addr label length left right]
      else
        match order with
        | .postorder =>
          traverse order predicate left ++ traverse order predicate right ++
            [.node addr label length left right]
        | .preorder =>
          .node addr label length left right ::
            (traverse order predicate left ++ traverse order predicate right)
    else []

/-- The postorder listing: left subtree, right subtree, node. -/
def postorder {D : Type} : rnode_t D → List (rnode_t D)
  | .null => []
  | .node addr label length left right =>
    postorder left ++ postorder right ++ [.node addr label length left right]

/-- The preorder listing: node, left subtree, right subtree. -/
def preorder {D : Type} : rnode_t D → List (rnode_t D)
  | .null => []
  | .node addr label length left right =>
    .node addr label length left right :: (preorder left ++ preorder right)

/-- In the list `xs` an occurrence of `a` stands strictly in front of an
occurrence of `b`. -/
def Before {α : Type} (xs : List α) (a b : α) : Prop :=
  ∃ p q r, xs = p ++ a :: q ++ b :: r

/-- The text `rec(node)` of the Newick export without callback: `label:length`
for a leaf (a node that lacks a child) and `(left,right)label:length` for an
internal node, whose missing label counts as the empty string. -/
def newick_text {D : Type} (fmt : D → List Char) : rnode_t D → List Char
  | .null => []
  | .node _ label length left right =>
    if left.is_null ∨ right.is_null then label.getD [] ++ ":".toList ++ fmt length
    else
      "(".toList ++ newick_text fmt left ++ ",".toList ++ newick_text fmt right ++
        ")".toList ++ label.getD [] ++ ":".toList ++ fmt length

/-- The text of the Newick export with the callback `cb`: `cb(node)` for a
leaf and `(left,right)cb(node)` for an internal node. -/
def newick_text_cb {D : Type} (cb : rnode_t D → List Char) : rnode_t D → List Char
  | .null => []
  | .node addr label length left right =>
    if left.is_null ∨ right.is_null then cb (.node addr label length left right)
    else
      "(".toList ++ newick_text_cb cb left ++ ",".toList ++ newick_text_cb cb right ++
        ")".toList ++ cb (.node addr label length left right)

/-- Every leaf of the tree (a node that lacks a child) has a label. -/
def leaves_labelled {D : Type} : rnode_t D → Bool
  | .null => true
  | .node _ label _ left right =>
    if left.is_null ∨ right.is_null then label.isSome
    else leaves_labelled left && leaves_labelled right

/-- A tree for examples: the root `R` at address 1 with the leaves `A` and `B`
at addresses 2 and 3; lengths are whole numbers. -/
def example_tree : rnode_t Nat :=
  .node 1 (some "R".toList) 0
    (.node 2 (some "A".toList) 1 .null .null) (.node 3 (some "B".toList) 2 .null .null)

/-- The constants of `bpp.h`, for examples. -/
def example_consts : TraverseConsts :=
  { BPP_SUCCESS := 1, BPP_FAILURE := 0, TREE_TRAVERSE_POSTORDER := 1,
    TREE_TRAVERSE_PREORDER := 2 }

/-- A larger tree for examples: `((A,B)X,C)R`, with `R` at address 1, `X` at
address 2 and the leaves `A`, `B`, `C` at addresses 3, 4 and 5. -/
def example_tree5 : rnode_t Nat :=
  .node 1 (some "R".toList) 0
    (.node 2 (some "X".toList) 1
      (.node 3 (some "A".toList) 2 .null .null) (.node 4 (some "B".toList) 3 .null .null))
    (.node 5 (some "C".toList) 4 .null .null)

/-- A rendering of lengths for examples: the decimal digits of a whole
number. -/
def example_fmt (length : Nat) : List Char := (Nat.repr length).toList

/-- A tree of one node for examples: the leaf `A` at address 1. -/
def example_leaf : rnode_t Nat := .node 1 (some "A".toList) 1 .null .null

/-! ## The option table of `load_cfile` -/

/-- The options that `load_cfile` knows: one for every comparison of the token
with an option name. -/
inductive OptionName where
  | seed | arch | nloci | print | burnin | seqfile | outfile | usedata | nsample
  | imapfile | mcmcfile | tauprior | heredity | finetune | sampfreq | cleandata
  | locusrate | thetaprior | speciestree | speciesandtree | sequenceerror
  | speciesmodelprior | speciesdelimitation
  deriving DecidableEq

/-- The name that the token is compared with. -/
def OptionName.text : OptionName → List Char
  | .seed => "seed".toList
  | .arch => "arch".toList
  | .nloci => "nloci".toList
  | .print => "print".toList
  | .burnin => "burnin".toList
  | .seqfile => "seqfile".toList
  | .outfile => "outfile".toList
  | .usedata => "usedata".toList
  | .nsample => "nsample".toList
  | .imapfile => "imapfile".toList
  | .mcmcfile => "mcmcfile".toList
  | .tauprior => "tauprior".toList
  | .heredity => "heredity".toList
  | .finetune => "finetune".toList
  | .sampfreq => "sampfreq".toList
  | .cleandata => "cleandata".toList
  | .locusrate => "locusrate".toList
  | .thetaprior => "thetaprior".toList
  | .speciestree => "speciestree".toList
  | .speciesandtree => "species&tree".toList
  | .sequenceerror => "sequenceerror".toList
  | .speciesmodelprior => "speciesmodelprior".toList
  | .speciesdelimitation => "speciesdelimitation".toList

/-- The options in the order of their comparisons in `load_cfile`. -/
def OptionName.all : List OptionName :=
  [.seed, .arch, .nloci, .print, .burnin, .seqfile, .outfile, .usedata, .nsample,
   .imapfile, .mcmcfile, .tauprior, .heredity, .finetune, .sampfreq, .cleandata,
   .locusrate, .thetaprior, .speciestree, .speciesandtree, .sequenceerror,
   .speciesmodelprior, .speciesdelimitation]

/-- The handler of an option: the block of `load_cfile` that the comparison of
the token with the name of `o` guards, run on the value of the line; `st` holds
the line counter as already advanced for this line. -/
def run_option {D : Type} (E : Env D) (o : OptionName) (value : List Char) (st : State D) :
    Outcome (State D) :=
  let line_count := st.line_count
  let c := st.cfg
  match o with
  | .seed =>
    if (parse_long value c.opt_seed).1 = 0 then .fatal (.seed line_count)
    else
      let opt_seed := (parse_long value c.opt_seed).2
      .ok { st with cfg := { c with opt_seed := if opt_seed = -1 then E.time else opt_seed } }
  | .arch =>
    if (get_string value none).1 = 0 then .fatal (.expects_string line_count)
    else
      let temp := (get_string value none).2.getD []
      if temp = "cpu".toList then
        .ok { st with cfg := { c with opt_arch := E.PLL_ATTRIB_ARCH_CPU } }
      else if strcasecmp temp "sse".toList = 0 then
        .ok { st with cfg := { c with opt_arch := E.PLL_ATTRIB_ARCH_SSE } }
      else if strcasecmp temp "avx".toList = 0 then
        .ok { st with cfg := { c with opt_arch := E.PLL_ATTRIB_ARCH_AVX } }
      else if strcasecmp temp "avx2".toList = 0 then
        .ok { st with cfg := { c with opt_arch := E.PLL_ATTRIB_ARCH_AVX2 } }
      else .fatal (.invalid_arch line_count)
  | .nloci =>
    if (parse_long value 0).1 = 0 ∨ (parse_long value 0).2 < 1 then .fatal (.nloci line_count)
    else .ok st
  | .print =>
    if (parse_print value c).1 = 0 then .fatal (.print line_count)
    else .ok { st with cfg := (parse_print value c).2 }
  | .burnin =>
    if (parse_long value c.opt_burnin).1 = 0 ∨ (parse_long value c.opt_burnin).2 < 0 then
      .fatal (.burnin line_count)
    else .ok { st with cfg := { c with opt_burnin := (parse_long value c.opt_burnin).2 } }
  | .seqfile =>
    string_option value c.opt_msafile line_count
      (fun v => { st with cfg := { c with opt_msafile := v } })
  | .outfile =>
    string_option value c.opt_outfile line_count
      (fun v => { st with cfg := { c with opt_outfile := v } })
  | .usedata =>
    let r := parse_long value c.opt_usedata
    if r.1 = 0 ∨ (r.2 ≠ 0 ∧ r.2 ≠ 1) then .fatal (.usedata line_count)
    else .ok { st with cfg := { c with opt_usedata := r.2 } }
  | .nsample =>
    let r := parse_long value c.opt_samples
    if r.1 = 0 ∨ r.2 ≤ 0 then .fatal (.nsample line_count)
    else .ok { st with cfg := { c with opt_samples := r.2 } }
  | .imapfile =>
    string_option value c.opt_mapfile line_count
      (fun v => { st with cfg := { c with opt_mapfile := v } })
  | .mcmcfile =>
    string_option value c.opt_mcmcfile line_count
      (fun v => { st with cfg := { c with opt_mcmcfile := v } })
  | .tauprior =>
    if (parse_tauprior E.sscanf_lf value c).1 = 0 then .fatal (.tauprior line_count)
    else .ok { st with cfg := (parse_tauprior E.sscanf_lf value c).2 }
  | .heredity => .fatal .not_implemented
  | .finetune =>
    if (parse_finetune E.sscanf_lf value c).1 = 0 then .fatal (.finetune line_count)
    else .ok { st with cfg := (parse_finetune E.sscanf_lf value c).2 }
  | .sampfreq =>
    let r := parse_long value c.opt_samplefreq
    if r.1 = 0 ∨ r.2 ≤ 0 then .fatal (.sampfreq line_count)
    else .ok { st with cfg := { c with opt_samplefreq := r.2 } }
  | .cleandata =>
    let r := parse_long value c.opt_cleandata
    if r.1 = 0 ∨ (r.2 ≠ 0 ∧ r.2 ≠ 1) then .fatal (.cleandata line_count)
    else .ok { st with cfg := { c with opt_cleandata := r.2 } }
  | .locusrate => .fatal .not_implemented
  | .thetaprior =>
    if (parse_thetaprior E.sscanf_lf value c).1 = 0 then .fatal (.thetaprior line_count)
    else .ok { st with cfg := (parse_thetaprior E.sscanf_lf value c).2 }
  | .speciestree =>
    if (parse_speciestree value c).1 = 0 then .fatal (.speciestree line_count)
    else .ok { st with cfg := (parse_speciestree value c).2 }
  | .speciesandtree =>
    if (parse_speciesandtree value c).1 = 0 then .fatal (.speciesandtree line_count)
    else
      let c := (parse_speciesandtree value c).2
      match getnextline E.LINEALLOC st.fp with
      | .undefined => .undefined
      | .eof => .fatal (.incomplete_record line_count)
      | .line _ fp =>
        let line_count := line_count + 1
        match getnextline E.LINEALLOC fp with
        | .undefined => .undefined
        | .eof => .fatal (.incomplete_record line_count)
        | .line line fp =>
          if (get_string line c.opt_streenewick).1 = 0 then
            .fatal (.expected_newick line_count)
          else
            .ok { fp := fp, line_count := line_count,
                  cfg := { c with opt_streenewick := (get_string line c.opt_streenewick).2 } }
  | .sequenceerror => .fatal .not_implemented
  | .speciesmodelprior =>
    let r := parse_long value c.opt_delimit_prior
    if r.1 = 0 ∨ (r.2 < 0 ∨ r.2 > 1) then .fatal (.speciesmodelprior line_count)
    else .ok { st with cfg := { c with opt_delimit_prior := r.2 } }
  | .speciesdelimitation =>
    if (parse_speciesdelimitation E.sscanf_lf value c).1 = 0 then
      .fatal (.speciesdelimitation line_count)
    else .ok { st with cfg := (parse_speciesdelimitation E.sscanf_lf value c).2 }

/-- Equality of two texts under ASCII case-insensitive comparison. -/
def eq_ignoring_case (a b : List Char) : Bool := a.map tolower == b.map tolower

/-- The single lookup of the specification: the option whose name equals the
key ignoring case, if there is one. -/
def lookup_option (key : List Char) : Option OptionName :=
  OptionName.all.find? (fun o => eq_ignoring_case key o.text)

/-! ## Integer tokens, as the specification words them -/

/-- The digits of a token behind its optional sign. -/
def unsigned_part (t : List Char) : List Char :=
  if t.head? = some '-' ∨ t.head? = some '+' then t.drop 1 else t

/-- An optionally signed decimal integer: an optional `+` or `-` followed by
one or more decimal digits and nothing else. -/
def is_signed_decimal (t : List Char) : Bool :=
  !(unsigned_part t).isEmpty && (unsigned_part t).all isdigit

/-- The number that a run of decimal digits denotes: every digit counts with
the power of ten of its place. -/
def digits_denote : List Char → Nat
  | [] => 0
  | c :: r => (c.toNat - '0'.toNat) * 10 ^ r.length + digits_denote r

/-- The integer that an optionally signed decimal integer denotes. -/
def decimal_denote (t : List Char) : Int :=
  if t.head? = some '-' then -(digits_denote (unsigned_part t) : Int)
  else (digits_denote (unsigned_part t) : Int)

/-- An integer limited to the range of a 64-bit `long`. -/
def clamp_long (v : Int) : Int := max LONG_MIN (min LONG_MAX v)

/-- The characters that `%ld` skips and that may stand inside a token: vertical
tab and form feed. -/
def is_vt_ff (c : Char) : Bool := c == '\x0b' || c == '\x0c'

/-! ## Reading a stream line by line -/

/-- The lines that repeated calls of `getnextline` return, up to the call that
returns `NULL` (the shape of the loop `while (getnextline(fp))` of
`load_cfile`); `none` when a call reads outside its buffer, or when the
iteration budget is used up.  Every call that returns a line takes at least one
character from the stream, so one call per character plus one is enough. -/
def getnextline_all (LINEALLOC : Nat) : Nat → List Char → Option (List (List Char))
  | 0, _ => none
  | fuel + 1, fp =>
    match getnextline LINEALLOC fp with
    | .eof => some []
    | .undefined => none
    | .line line rest => (getnextline_all LINEALLOC fuel rest).map (fun lines => line :: lines)

/-- The content of a stream split at `\n`, the newlines removed: a newline ends
a line, and characters behind the last newline form a last line. -/
def split_lines : List Char → List (List Char)
  | [] => []
  | c :: s =>
    if c = '\n' then [] :: split_lines s
    else
      match split_lines s with
      | [] => [[c]]
      | l :: ls => (c :: l) :: ls

/-! ## The calls of the traversal predicate -/

/-- The nodes on which `rtree_traverse_postorder` calls `cbtrav`, in the order
of the calls: the node itself and then, when the node has a left child and the
answer is not 0, the calls made for the left and for the right child.
`rtree_traverse_preorder` calls `cbtrav` at the same points. -/
def cbtrav_calls {D : Type} (cbtrav : rnode_t D → Int) : rnode_t D → List (rnode_t D)
  | .null => []
  | .node addr label length left right =>
    if left.is_null then [.node addr label length left right]
    else if cbtrav (.node addr label length left right) = 0 then
      [.node addr label length left right]
    else
      .node addr label length left right ::
        (cbtrav_calls cbtrav left ++ cbtrav_calls cbtrav right)

/-- The nodes on which a call of `rtree_traverse` calls `cbtrav`: none when it
returns `BPP_FAILURE` or ends in `fatal`, those of the walk otherwise. -/
def rtree_traverse_calls {D : Type} (K : TraverseConsts) (root : rnode_t D) (traversal : Int)
    (cbtrav : rnode_t D → Int) : List (rnode_t D) :=
  match root with
  | .null => []
  | .node _ _ _ left _ =>
    if left.is_null then []
    else if traversal = K.TREE_TRAVERSE_POSTORDER then cbtrav_calls cbtrav root
    else if traversal = K.TREE_TRAVERSE_PREORDER then cbtrav_calls cbtrav root
    else []

/-! ## The Newick importer -/

/-- What the Newick importer takes from the C library: the conversion `atof`
of the text of a branch length, and the number 0 of a node without length. -/
structure NewickEnv (D : Type) where
  atof : List Char → D
  zero : D

/-- The characters that structure a Newick string. -/
def newick_special (c : Char) : Bool :=
  c == '(' || c == ')' || c == ',' || c == ':' || c == ';'

/-- The input behind the character `c`, when the input starts with `c`. -/
def expect (c : Char) (s : List Char) : Option (List Char) :=
  match s with
  | [] => none
  | d :: r => if d = c then some r else none

/-- Modelled from the spec: the optional label and the optional branch length
behind a subtree of a Newick string (the importer is not among the sources).
A label is a run of characters other than `(`, `)`, `,`, `:` and `;`; a length
is `:` and such a run, which may not be empty; a node without length has the
length 0. -/
def import_tail {D : Type} (I : NewickEnv D) (s : List Char) :
    Option (Option (List Char) × D × List Char) :=
  let label := s.takeWhile (fun c => !newick_special c)
  let s1 := s.dropWhile (fun c => !newick_special c)
  match expect ':' s1 with
  | some s2 =>
    if (s2.takeWhile (fun c => !newick_special c)).isEmpty then none
    else
      some (if label.isEmpty then none else some label,
        I.atof (s2.takeWhile (fun c => !newick_special c)),
        s2.dropWhile (fun c => !newick_special c))
  | none => some (if label.isEmpty then none else some label, I.zero, s1)

/-- Modelled from the spec: the Newick importer on a subtree (the importer is
not among the sources): "a standard parenthesized text notation for binary
tree topologies with optional labels/branch lengths", where a label is
"required for leaves, optional for internal nodes" and the two children are
"either both present or both absent".  A subtree is `(subtree,subtree)` with an
optional label and length, or a leaf, a label with an optional length.  The
result is the node built, the rest of the input and the next free address;
nodes get the addresses `next`, `next + 1`, ... in the order in which they
begin.  Every nested subtree takes a `(` from the input, so a budget of one
call per character plus one is enough. -/
def import_subtree {D : Type} (I : NewickEnv D) :
    Nat → List Char → Nat → Option (rnode_t D × List Char × Nat)
  | 0, _, _ => none
  | fuel + 1, s, next =>
    match expect '(' s with
    | some s1 =>
      (import_subtree I fuel s1 (next + 1)).bind fun (left, s2, n2) =>
      (expect ',' s2).bind fun s3 =>
      (import_subtree I fuel s3 n2).bind fun (right, s4, n3) =>
      (expect ')' s4).bind fun s5 =>
      (import_tail I s5).bind fun (label, length, s6) =>
      some (.node next label length left right, s6, n3)
    | none =>
      (import_tail I s).bind fun (label, length, s1) =>
      match label with
      | some l => some (.node next (some l) length .null .null, s1, next + 1)
      | none => none

/-- Modelled from the spec: the Newick importer (not among the sources): a
valid Newick string is a parenthesized pair of subtrees with an optional label
and length of the root, ended by `;`; `none` for every other string. -/
def rtree_import {D : Type} (I : NewickEnv D) (s : List Char) : Option (rnode_t D) :=
  match expect '(' s with
  | none => none
  | some _ =>
    match import_subtree I (s.length + 1) s 1 with
    | some (root, rest, _) => if rest = [';'] then some root else none
    | none => none

/-- The branch lengths of the nodes of a tree. -/
def lengths {D : Type} : rnode_t D → List D
  | .null => []
  | .node _ _ length left right => lengths left ++ [length] ++ lengths right

/-- Two trees of the same topology and the same labels, the branch lengths of
the second being those of the first taken through `f`; addresses are not
compared. -/
def same_tree {D : Type} (f : D → D) : rnode_t D → rnode_t D → Prop
  | .null, .null => True
  | .node _ label1 length1 left1 right1, .node _ label2 length2 left2 right2 =>
    label1 = label2 ∧ length2 = f length1 ∧ same_tree f left1 left2 ∧ same_tree f right1 right2
  | _, _ => False

/-- A text that the importer reads as one label or one length: not empty and
without `(`, `)`, `,`, `:` and `;`. -/
def is_newick_token (x : List Char) : Bool :=
  !x.isEmpty && x.all (fun c => !newick_special c)

/-- An importer for examples: lengths are whole numbers in decimal digits. -/
def example_newick : NewickEnv Nat := { atof := digits_val, zero := 0 }

/-- A label as the importer stores it: absent, or a text that it reads as one
label. -/
def label_ok (label : Option (List Char)) : Bool :=
  match label with
  | none => true
  | some l => is_newick_token l

/-- A tree as the importer builds it: every node has both children or none, a
leaf has a label, and every label is a text that the importer reads as one
label. -/
def importable {D : Type} : rnode_t D → Bool
  | .null => true
  | .node _ label _ left right =>
    if left.is_null then right.is_null && label.isSome && label_ok label
    else !right.is_null && label_ok label && importable left && importable right

/-! ## The ASCII drawing of a tree (`src/rtree.c`) -/

/-- The option bits of `bpp.h` that `print_node_info` tests. -/
structure ShowConsts where
  RTREE_SHOW_LABEL : Nat
  RTREE_SHOW_BRANCH_LENGTH : Nat

/-- What makes a run of the drawing code undefined: an index outside the marker
array, a read of a marker that was never written, a `NULL` pointer that is
dereferenced or printed with `%s`. -/
inductive Fault where
  | out_of_bounds : Fault
  | uninitialised : Fault
  | null_pointer : Fault
  deriving DecidableEq

/-- The end of a run of the drawing code: normal, with a result, or in a
fault. -/
inductive Checked (α : Type) where
  | ok (a : α) : Checked α
  | fault (e : Fault) : Checked α
  deriving DecidableEq

/-- The static variable `indent_space`. -/
def indent_space : Nat := 4

/-- Source `print_node_info`: the text printed; `fmt` is the `%f` rendering.
The node is dereferenced only for an option bit that is set. -/
def print_node_info {D : Type} (K : ShowConsts) (fmt : D → List Char) (root : rnode_t D)
    (options : Nat) : Checked (List Char) :=
  match (if options &&& K.RTREE_SHOW_LABEL ≠ 0 then
      match root with
      | .null => .fault .null_pointer
      | .node _ none _ _ _ => .fault .null_pointer
      | .node _ (some label) _ _ _ => .ok (' ' :: label)
    else .ok [] : Checked (List Char)) with
  | .fault e => .fault e
  | .ok text1 =>
    match (if options &&& K.RTREE_SHOW_BRANCH_LENGTH ≠ 0 then
        match root with
        | .null => .fault .null_pointer
        | .node _ _ length _ _ => .ok (' ' :: fmt length)
      else .ok [] : Checked (List Char)) with
    | .fault e => .fault e
    | .ok text2 => .ok (text1 ++ text2 ++ ['\n'])

/-- A read `active_node_order[i]` of the marker array, whose entries are `none`
until they are written. -/
def marker_get (active_node_order : List (Option Int)) (i : Int) : Checked Int :=
  if i < 0 then .fault .out_of_bounds
  else
    match active_node_order.get? i.toNat with
    | none => .fault .out_of_bounds
    | some none => .fault .uninitialised
    | some (some v) => .ok v

/-- A write `active_node_order[i] = v`. -/
def marker_set (active_node_order : List (Option Int)) (i : Int) (v : Int) :
    Checked (List (Option Int)) :=
  if i < 0 then .fault .out_of_bounds
  else if active_node_order.length ≤ i.toNat then .fault .out_of_bounds
  else .ok (active_node_order.set i.toNat (some v))

/-- The passes `i`, `i + 1`, ... of a loop `for (i = 0; i < n; ++i)` of
`print_tree_recurse`, `count` of them: for each a `|` or a blank, by the
marker of the level, and `indent_space - 1` blanks. -/
def print_columns_loop (active_node_order : List (Option Int)) :
    Nat → Nat → Checked (List Char)
  | 0, _ => .ok []
  | count + 1, i =>
    match marker_get active_node_order (i : Int) with
    | .fault e => .fault e
    | .ok v =>
      match print_columns_loop active_node_order count (i + 1) with
      | .fault e => .fault e
      | .ok text =>
        .ok ((if v ≠ 0 then '|' else ' ') :: (List.replicate (indent_space - 1) ' ' ++ text))

/-- The loop `for (i = 0; i < n; ++i)` of `print_tree_recurse`; it makes no
pass when `n` is not positive. -/
def print_columns (active_node_order : List (Option Int)) (n : Int) : Checked (List Char) :=
  print_columns_loop active_node_order n.toNat 0

/-- Source `print_tree_recurse`: the marker array as the call leaves it and the
text that the call prints. -/
def print_tree_recurse {D : Type} (K : ShowConsts) (fmt : D → List Char) (options : Nat) :
    rnode_t D → Int → List (Option Int) → Checked (List (Option Int) × List Char)
  | .null, _, active_node_order => .ok (active_node_order, [])
  | .node addr label length left right, indent_level, active_node_order =>
    match print_columns active_node_order indent_level with
    | .fault e => .fault e
    | .ok columns1 =>
      match print_columns active_node_order (indent_level - 1) with
      | .fault e => .fault e
      | .ok columns2 =>
        match print_node_info K fmt (.node addr label length left right) options with
        | .fault e => .fault e
        | .ok info =>
          match marker_get active_node_order (indent_level - 1) with
          | .fault e => .fault e
          | .ok v =>
            match (if v = 2 then marker_set active_node_order (indent_level - 1) 0
                else .ok active_node_order : Checked (List (Option Int))) with
            | .fault e => .fault e
            | .ok a1 =>
              match marker_set a1 indent_level 1 with
              | .fault e => .fault e
              | .ok a2 =>
                match print_tree_recurse K fmt options left (indent_level + 1) a2 with
                | .fault e => .fault e
                | .ok (a3, text_left) =>
                  match marker_set a3 indent_level 2 with
                  | .fault e => .fault e
                  | .ok a4 =>
                    match print_tree_recurse K fmt options right (indent_level + 1) a4 with
                    | .fault e => .fault e
                    | .ok (a5, text_right) =>
                      .ok (a5, columns1 ++ ['\n'] ++ columns2 ++ ['+'] ++
                        List.replicate (indent_space - 1) '-' ++
                        (if !left.is_null ∨ !right.is_null then ['+'] else []) ++ info ++
                        text_left ++ text_right)

/-- Source `tree_indent_level`; the count is taken without wrap-around, which
an `unsigned int` only shows on a path of `2^32` nodes. -/
def tree_indent_level {D : Type} : rnode_t D → Nat → Nat
  | .null, indent => indent
  | .node _ _ _ left right, indent =>
    if tree_indent_level left (indent + 1) > tree_indent_level right (indent + 1) then
      tree_indent_level left (indent + 1)
    else tree_indent_level right (indent + 1)

/-- Source `rtree_show_ascii`: the text printed.  The marker array has
`indent_max + 1` entries, none of them written by `xmalloc`. -/
def rtree_show_ascii {D : Type} (K : ShowConsts) (fmt : D → List Char) (root : rnode_t D)
    (options : Nat) : Checked (List Char) :=
  let indent_max := tree_indent_level root 0
  match marker_set (List.replicate (indent_max + 1) none) 0 1 with
  | .fault e => .fault e
  | .ok a0 =>
    match marker_set a0 1 1 with
    | .fault e => .fault e
    | .ok a1 =>
      match print_node_info K fmt root options with
      | .fault e => .fault e
      | .ok info =>
        match root with
        | .null => .fault .null_pointer
        | .node _ _ _ left right =>
          match print_tree_recurse K fmt options left 1 a1 with
          | .fault e => .fault e
          | .ok (a2, text_left) =>
            match print_tree_recurse K fmt options right 1 a2 with
            | .fault e => .fault e
            | .ok (_, text_right) => .ok (info ++ text_left ++ text_right)

/-- The number of nodes on the longest path from a node down to a leaf. -/
def height {D : Type} : rnode_t D → Nat
  | .null => 0
  | .node _ _ _ left right => 1 + max (height left) (height right)

/-- Option bits for examples. -/
def example_show : ShowConsts := { RTREE_SHOW_LABEL := 1, RTREE_SHOW_BRANCH_LENGTH := 2 }

/-- A tree for examples: `((A,B)X,(C,D)Y)R`. -/
def example_tree7 : rnode_t Nat :=
  .node 1 (some "R".toList) 0
    (.node 2 (some "X".toList) 1
      (.node 3 (some "A".toList) 1 .null .null) (.node 4 (some "B".toList) 1 .null .null))
    (.node 5 (some "Y".toList) 1
      (.node 6 (some "C".toList) 1 .null .null) (.node 7 (some "D".toList) 1 .null .null))

/-- A tree for examples: `(((A,B)X,(C,D)Y)Z,E)R`. -/
def example_tree9 : rnode_t Nat :=
  .node 1 (some "R".toList) 0
    (.node 2 (some "Z".toList) 1
      (.node 3 (some "X".toList) 1
        (.node 4 (some "A".toList) 1 .null .null) (.node 5 (some "B".toList) 1 .null .null))
      (.node 6 (some "Y".toList) 1
        (.node 7 (some "C".toList) 1 .null .null) (.node 8 (some "D".toList) 1 .null .null)))
    (.node 9 (some "E".toList) 1 .null .null)

/-- Every node of the tree has a label. -/
def all_labelled {D : Type} : rnode_t D → Bool
  | .null => true
  | .node _ label _ left right => label.isSome && all_labelled left && all_labelled right

/-! ## The integer options, as the specification words them -/

/-- The integer of a value that is a single integer token followed by a blank
or comment remainder: the value has exactly one field, `%ld` converts the
whole of it, and the integer is the number converted. -/
def single_integer (value : List Char) : Option Int :=
  match fields value with
  | [t] => if converts sscanf_ld t then some (stored sscanf_ld t 0) else none
  | _ => none

/-- A buffer of five slots for examples. -/
def example_outbuffer : List (rnode_t Nat) := [.null, .null, .null, .null, .null]

/-! ## The assertion and the labels of `parse_speciesandtree` -/

/-- The string `seqnames` with which `parse_speciesandtree` reaches its
`assert`; `none` when the function leaves before it, through
`goto l_unwind`. -/
def parse_speciesandtree_seqnames (line : List Char) : Option (List Char) :=
  let p := line
  let r := get_long p 0
  if r.1 = 0 then none
  else
    let p := p.drop r.1
    let g := get_string p none
    if g.1 = 0 then none else some (g.2.getD [])

/-- The condition of the `assert` of `parse_speciesandtree`,
`strlen(seqnames) > 0 && strcspn(seqnames+strlen(seqnames)-1," \t\n\r") > 0`;
the length of the C string is the length of the list. -/
def seqnames_assertion (seqnames : List Char) : Bool :=
  decide (seqnames.length > 0) &&
    decide (strcspn (seqnames.drop (seqnames.length - 1)) WS_LABEL > 0)

/-- The labels `xstrndup(p,count)` that the passes of the `while (*p)` loop of
`parse_speciesandtree` take, in order; the cursor and the counter move as in
`reorder_loop`, which gives the text built from the labels. -/
def reorder_loop_labels : Nat → List Char → Int → List (List Char)
  | 0, _, _ => []
  | fuel + 1, p, seq_count =>
    if p.isEmpty then []
    else
      let count := strcspn p WS_LABEL
      if count = 0 ∧ seq_count ≠ 0 then []
      else
        let seq_count := seq_count - 1
        let label := p.take count
        let p := p.drop count
        let count := strspn p WS_LABEL
        let p := p.drop count
        label :: reorder_loop_labels fuel p seq_count

/-! ## Scanning: tokens and fields -/

theorem WS_contains (c : Char) : WS.contains c = is_ws c := by
  simp only [WS, is_ws, List.contains, List.elem]
  cases (c == ' ') <;> cases (c == '\t') <;> cases (c == '\r') <;> cases (c == '\n') <;> rfl

theorem WS_LABEL_contains (c : Char) : WS_LABEL.contains c = is_ws c := by
  simp only [WS_LABEL, is_ws, List.contains, List.elem]
  cases (c == ' ') <;> cases (c == '\t') <;> cases (c == '\r') <;> cases (c == '\n') <;> rfl

theorem WS_STAR_HASH_contains (c : Char) : WS_STAR_HASH.contains c = is_delim c := by
  simp only [WS_STAR_HASH, is_delim, is_ws, List.contains, List.elem]
  cases (c == ' ') <;> cases (c == '\t') <;> cases (c == '\r') <;> cases (c == '\n') <;>
    cases (c == '*') <;> cases (c == '#') <;> rfl

theorem strspn_WS (s : List Char) : strspn s WS = (s.takeWhile is_ws).length := by
  simp only [strspn, WS_contains]

theorem strcspn_delim (s : List Char) :
    strcspn s WS_STAR_HASH = (s.takeWhile (fun c => !is_delim c)).length := by
  simp only [strcspn, WS_STAR_HASH_contains]

theorem drop_length_takeWhile (p : Char → Bool) (s : List Char) :
    s.drop (s.takeWhile p).length = s.dropWhile p := by
  induction s with
  | nil => rfl
  | cons c s ih =>
    by_cases h : p c = true
    · simp [List.takeWhile, List.dropWhile, h, ih]
    · simp [List.takeWhile, List.dropWhile, h]

theorem take_length_takeWhile (p : Char → Bool) (s : List Char) :
    s.take (s.takeWhile p).length = s.takeWhile p := by
  induction s with
  | nil => rfl
  | cons c s ih =>
    by_cases h : p c = true
    · simp [List.takeWhile, h, ih]
    · simp [List.takeWhile, h]

theorem dropWhile_head (p : Char → Bool) (s : List Char) :
    s.dropWhile p = [] ∨ ∃ d r, s.dropWhile p = d :: r ∧ p d = false := by
  induction s with
  | nil => exact Or.inl rfl
  | cons c s ih =>
    by_cases h : p c = true
    · simpa [List.dropWhile, h] using ih
    · right; exact ⟨c, s, by simp [List.dropWhile, h], by simpa using h⟩

theorem takeWhile_append_of_all (p : Char → Bool) (w s : List Char) (hw : ∀ c ∈ w, p c = true) :
    (w ++ s).takeWhile p = w ++ s.takeWhile p := by
  induction w with
  | nil => rfl
  | cons c w ih =>
    have hc : p c = true := hw c (List.mem_cons_self _ _)
    simp [List.takeWhile, hc, ih (fun d hd => hw d (List.mem_cons_of_mem _ hd))]

theorem takeWhile_stop (p : Char → Bool) (t r : List Char) (ht : ∀ c ∈ t, p c = true)
    (hr : r = [] ∨ ∃ d r', r = d :: r' ∧ p d = false) :
    (t ++ r).takeWhile p = t := by
  rw [takeWhile_append_of_all p t r ht]
  rcases hr with rfl | ⟨d, r', rfl, hd⟩
  · simp
  · simp [List.takeWhile, hd]

theorem words_ws_append (w s : List Char) (hw : ∀ c ∈ w, is_ws c = true) :
    words (w ++ s) = words s := by
  induction w with
  | nil => rfl
  | cons c w ih =>
    have hc : is_ws c = true := hw c (List.mem_cons_self _ _)
    simp only [List.cons_append, words, hc, if_true]
    exact ih (fun d hd => hw d (List.mem_cons_of_mem _ hd))

theorem words_token (t r : List Char) (hne : t ≠ []) (ht : ∀ c ∈ t, is_ws c = false)
    (hr : r = [] ∨ ∃ d r', r = d :: r' ∧ is_ws d = true) :
    words (t ++ r) = t :: words r := by
  induction t with
  | nil => exact absurd rfl hne
  | cons c t ih =>
    have hc : is_ws c = false := ht c (List.mem_cons_self _ _)
    cases t with
    | nil =>
      rcases hr with rfl | ⟨d, r', rfl, hd⟩
      · simp [words, hc]
      · simp [words, hc, hd]
    | cons d t =>
      have hd : is_ws d = false := ht d (by simp)
      have ih' := ih (by simp) (fun e he => ht e (List.mem_cons_of_mem _ he))
      simp only [List.cons_append] at ih' ⊢
      simp only [words, hc, hd] at ih' ⊢
      simp only [Bool.false_eq_true, if_false] at ih' ⊢
      rw [ih']

theorem cut_comment_append (w s : List Char) (hw : ∀ c ∈ w, (c == '*' || c == '#') = false) :
    cut_comment (w ++ s) = w ++ cut_comment s := by
  unfold cut_comment
  exact takeWhile_append_of_all _ w s (fun c hc => by simp [hw c hc])

theorem is_ws_not_comment {c : Char} (h : is_ws c = true) : (c == '*' || c == '#') = false := by
  simp only [is_ws, Bool.or_eq_true, beq_iff_eq] at h
  rcases h with ((rfl | rfl) | rfl) | rfl <;> decide

theorem not_delim_iff {c : Char} :
    is_delim c = false ↔ is_ws c = false ∧ (c == '*' || c == '#') = false := by
  simp only [is_delim]
  cases is_ws c <;> cases (c == '*') <;> cases (c == '#') <;> simp

/-- One token step: either the cursor stands before a blank-or-comment rest and
the value has no field left, or the first field is the token the validators
cut out and the other fields are those behind it. -/
theorem scan_token (s : List Char) :
    (at_end_or_comment (s.dropWhile is_ws) = true ∧ fields s = []) ∨
    (at_end_or_comment (s.dropWhile is_ws) = false ∧
      (s.dropWhile is_ws).takeWhile (fun c => !is_delim c) ≠ [] ∧
      fields s = (s.dropWhile is_ws).takeWhile (fun c => !is_delim c) ::
        fields (s.drop ((s.takeWhile is_ws).length +
          ((s.dropWhile is_ws).takeWhile (fun c => !is_delim c)).length))) := by
  have hs : s = s.takeWhile is_ws ++ s.dropWhile is_ws := (List.takeWhile_append_dropWhile _ _).symm
  have hw : ∀ c ∈ s.takeWhile is_ws, is_ws c = true := fun c hc => List.mem_takeWhile_imp hc
  have hwc : ∀ c ∈ s.takeWhile is_ws, (c == '*' || c == '#') = false :=
    fun c hc => is_ws_not_comment (hw c hc)
  have hdrop : ∀ n, s.drop ((s.takeWhile is_ws).length + n) = (s.dropWhile is_ws).drop n := by
    intro n
    rw [← List.drop_drop, drop_length_takeWhile]
  generalize hst : s.dropWhile is_ws = start at *
  generalize s.takeWhile is_ws = w at *
  have hhead := dropWhile_head is_ws s
  rw [hst] at hhead
  subst hs
  rcases hhead with rfl | ⟨d, r, rfl, hd⟩
  · left
    refine ⟨rfl, ?_⟩
    simp only [fields]
    rw [cut_comment_append w [] hwc, words_ws_append w _ hw]
    rfl
  · by_cases hcm : (d == '*' || d == '#') = true
    · left
      refine ⟨by simpa [at_end_or_comment] using hcm, ?_⟩
      simp only [fields]
      rw [cut_comment_append w _ hwc, words_ws_append w _ hw]
      simp [cut_comment, List.takeWhile, hcm, words]
    · right
      have hcm' : (d == '*' || d == '#') = false := by simpa using hcm
      have hdd : is_delim d = false := not_delim_iff.mpr ⟨hd, hcm'⟩
      refine ⟨by simpa [at_end_or_comment] using hcm', ?_, ?_⟩
      · simp [List.takeWhile, hdd]
      · rw [hdrop, drop_length_takeWhile]
        generalize htk : (d :: r).takeWhile (fun c => !is_delim c) = tok
        have htok : ∀ c ∈ tok, is_delim c = false := by
          intro c hc
          rw [← htk] at hc
          simpa using List.mem_takeWhile_imp hc
        have hne : tok ≠ [] := by rw [← htk]; simp [List.takeWhile, hdd]
        have hsplit : d :: r = tok ++ (d :: r).dropWhile (fun c => !is_delim c) := by
          rw [← htk]; exact (List.takeWhile_append_dropWhile _ _).symm
        have hrest := dropWhile_head (fun c => !is_delim c) (d :: r)
        generalize (d :: r).dropWhile (fun c => !is_delim c) = rest at *
        rw [hsplit]
        have htw : ∀ c ∈ tok, is_ws c = false := fun c hc => (not_delim_iff.mp (htok c hc)).1
        have htc : ∀ c ∈ tok, (c == '*' || c == '#') = false :=
          fun c hc => (not_delim_iff.mp (htok c hc)).2
        simp only [fields]
        rw [cut_comment_append w _ hwc, cut_comment_append tok _ htc, words_ws_append w _ hw]
        apply words_token tok _ hne htw
        rcases hrest with rfl | ⟨e, r', rfl, he⟩
        · left; rfl
        · by_cases hec : (e == '*' || e == '#') = true
          · left; simp [cut_comment, List.takeWhile, hec]
          · right
            have hec' : (e == '*' || e == '#') = false := by simpa using hec
            have hew : is_ws e = true := by
              have : is_delim e = true := by simpa using he
              simp only [is_delim, Bool.or_assoc, hec', Bool.or_false] at this
              exact this
            exact ⟨e, cut_comment r', by simp [cut_comment, List.takeWhile, hec'], hew⟩

theorem is_emptyline_iff (s : List Char) : is_emptyline s = true ↔ fields s = [] := by
  simp only [is_emptyline, strspn_WS, drop_length_takeWhile]
  rcases scan_token s with ⟨h1, h2⟩ | ⟨h1, _, h3⟩
  · simp [h1, h2]
  · simp [h1, h3]

theorem is_emptyline_false_iff (s : List Char) : is_emptyline s = false ↔ fields s ≠ [] := by
  rw [Ne, ← is_emptyline_iff]; simp

theorem get_double_unfold {D : Type} (lf : List Char → Option (D × Nat)) (s : List Char)
    (old : D) :
    get_double lf s old =
      if at_end_or_comment (s.dropWhile is_ws) then (0, old)
      else
        match lf ((s.dropWhile is_ws).takeWhile (fun c => !is_delim c)) with
        | none => (0, old)
        | some (v, len) =>
          if len < ((s.dropWhile is_ws).takeWhile (fun c => !is_delim c)).length then (0, v)
          else ((s.takeWhile is_ws).length +
            ((s.dropWhile is_ws).takeWhile (fun c => !is_delim c)).length, v) := by
  simp only [get_double, strspn_WS, drop_length_takeWhile, strcspn_delim, take_length_takeWhile]

theorem get_long_eq (s : List Char) (old : Int) :
    get_long s old = get_double sscanf_ld s old := by
  simp only [get_long, get_double]
  split
  · rfl
  · generalize sscanf_ld _ = x
    rcases x with _ | ⟨v, len⟩ <;> rfl

theorem conversion_result {D : Type} (x : Option (D × Nat)) (n m : Nat) (old : D) :
    (match x with
      | none => (0, old)
      | some (v, len) => if len < m then (0, v) else (n, v)) =
    (if (match x with
          | some (_, len) => !decide (len < m)
          | none => false) = true then n else 0,
      match x with
      | some (v, _) => v
      | none => old) := by
  rcases x with _ | ⟨v, len⟩
  · simp
  · by_cases hl : len < m <;> simp [hl]

theorem get_double_nil {D : Type} (lf : List Char → Option (D × Nat)) (s : List Char) (old : D)
    (h : fields s = []) : get_double lf s old = (0, old) := by
  rw [get_double_unfold]
  rcases scan_token s with ⟨h1, _⟩ | ⟨_, _, h3⟩
  · simp [h1]
  · rw [h] at h3; exact absurd h3 (by simp)

theorem get_double_cons {D : Type} (lf : List Char → Option (D × Nat)) (s : List Char) (old : D)
    (tok : List Char) (rest : List (List Char)) (h : fields s = tok :: rest) :
    ∃ n, 0 < n ∧ fields (s.drop n) = rest ∧
      get_double lf s old = (if converts lf tok then n else 0, stored lf tok old) := by
  rcases scan_token s with ⟨_, h2⟩ | ⟨h1, hne, h3⟩
  · rw [h] at h2; exact absurd h2 (by simp)
  · rw [h] at h3
    injection h3 with ht hr
    refine ⟨(s.takeWhile is_ws).length +
      ((s.dropWhile is_ws).takeWhile (fun c => !is_delim c)).length, ?_, hr.symm, ?_⟩
    · have : 0 < ((s.dropWhile is_ws).takeWhile (fun c => !is_delim c)).length :=
        List.length_pos.mpr hne
      omega
    · rw [get_double_unfold, h1, ← ht]
      simp only [Bool.false_eq_true, if_false, converts, stored]
      exact conversion_result (lf tok) _ _ old

theorem get_e_unfold (s : List Char) :
    get_e s =
      if at_end_or_comment (s.dropWhile is_ws) then (0, 0)
      else if ((s.dropWhile is_ws).head? != some 'E' && (s.dropWhile is_ws).head? != some 'e') ||
          1 != ((s.dropWhile is_ws).takeWhile (fun c => !is_delim c)).length then (0, 2)
      else ((s.takeWhile is_ws).length +
        ((s.dropWhile is_ws).takeWhile (fun c => !is_delim c)).length, 1) := by
  simp only [get_e, strspn_WS, drop_length_takeWhile, strcspn_delim]

theorem get_e_nil (s : List Char) (h : fields s = []) : get_e s = (0, 0) := by
  rw [get_e_unfold]
  rcases scan_token s with ⟨h1, _⟩ | ⟨_, _, h3⟩
  · simp [h1]
  · rw [h] at h3; exact absurd h3 (by simp)

theorem get_e_cons (s : List Char) (tok : List Char) (rest : List (List Char))
    (h : fields s = tok :: rest) :
    ∃ n, 0 < n ∧ fields (s.drop n) = rest ∧
      get_e s = if tok = ['E'] ∨ tok = ['e'] then (n, 1) else (0, 2) := by
  rcases scan_token s with ⟨_, h2⟩ | ⟨h1, hne, h3⟩
  · rw [h] at h2; exact absurd h2 (by simp)
  · rw [h] at h3
    injection h3 with ht hr
    refine ⟨(s.takeWhile is_ws).length +
      ((s.dropWhile is_ws).takeWhile (fun c => !is_delim c)).length, ?_, hr.symm, ?_⟩
    · have : 0 < ((s.dropWhile is_ws).takeWhile (fun c => !is_delim c)).length :=
        List.length_pos.mpr hne
      omega
    · rw [get_e_unfold, h1]
      simp only [Bool.false_eq_true, if_false]
      have hhd : (s.dropWhile is_ws).head? = tok.head? := by
        rw [ht]
        cases hd : s.dropWhile is_ws with
        | nil => simp
        | cons d r =>
          rw [hd] at hne
          by_cases hdd : is_delim d = true
          · simp [List.takeWhile, hdd] at hne
          · simp [List.takeWhile, hdd]
      rw [hhd, ← ht]
      rw [← ht] at hne
      match tok, hne with
      | [], hn => exact absurd rfl hn
      | [c], _ =>
        by_cases h1 : c = 'E'
        · simp [h1]
        · by_cases h2 : c = 'e'
          · simp [h2]
          · simp [h1, h2]
      | c :: d :: t, _ => simp

/-- A validator call that returns a non-zero count has read the first field
of its input: the field converts, the number stored is its value, and the
fields behind the count are the remaining ones. -/
theorem get_double_inv {D : Type} (lf : List Char → Option (D × Nat)) (s : List Char) (old : D)
    (h : (get_double lf s old).1 ≠ 0) :
    ∃ t rest, fields s = t :: rest ∧ converts lf t = true ∧
      fields (s.drop (get_double lf s old).1) = rest ∧
      (get_double lf s old).2 = stored lf t old := by
  rcases hf : fields s with _ | ⟨t, rest⟩
  · rw [get_double_nil lf s old hf] at h; exact absurd rfl h
  · obtain ⟨n, _, hr, hg⟩ := get_double_cons lf s old t rest hf
    rw [hg] at h ⊢
    by_cases hc : converts lf t = true
    · exact ⟨t, rest, rfl, hc, by simpa [hc] using hr, rfl⟩
    · simp [hc] at h

/-- A validator call on an input whose first field converts returns a non-zero
count, stores the value of the field and leaves the remaining fields. -/
theorem get_double_ok {D : Type} (lf : List Char → Option (D × Nat)) (s : List Char) (old : D)
    (t : List Char) (rest : List (List Char)) (hf : fields s = t :: rest)
    (hc : converts lf t = true) :
    (get_double lf s old).1 ≠ 0 ∧ fields (s.drop (get_double lf s old).1) = rest ∧
      (get_double lf s old).2 = stored lf t old := by
  obtain ⟨n, hn, hr, hg⟩ := get_double_cons lf s old t rest hf
  rw [hg]
  simp only [hc, if_true]
  exact ⟨by omega, hr, trivial⟩

theorem get_long_inv (s : List Char) (old : Int) (h : (get_long s old).1 ≠ 0) :
    ∃ t rest, fields s = t :: rest ∧ converts sscanf_ld t = true ∧
      fields (s.drop (get_long s old).1) = rest ∧
      (get_long s old).2 = stored sscanf_ld t old := by
  rw [get_long_eq] at h ⊢
  exact get_double_inv sscanf_ld s old h

theorem get_long_ok (s : List Char) (old : Int) (t : List Char) (rest : List (List Char))
    (hf : fields s = t :: rest) (hc : converts sscanf_ld t = true) :
    (get_long s old).1 ≠ 0 ∧ fields (s.drop (get_long s old).1) = rest ∧
      (get_long s old).2 = stored sscanf_ld t old := by
  rw [get_long_eq]
  exact get_double_ok sscanf_ld s old t rest hf hc

theorem get_e_cases (s : List Char) :
    (fields s = [] ∧ get_e s = (0, 0)) ∨
    (∃ t rest, fields s = t :: rest ∧ (t = ['E'] ∨ t = ['e']) ∧ (get_e s).2 = 1 ∧
      fields (s.drop (get_e s).1) = rest) ∨
    (∃ t rest, fields s = t :: rest ∧ ¬ (t = ['E'] ∨ t = ['e']) ∧ get_e s = (0, 2)) := by
  rcases hf : fields s with _ | ⟨t, rest⟩
  · exact Or.inl ⟨rfl, get_e_nil s hf⟩
  · obtain ⟨n, _, hr, hg⟩ := get_e_cons s t rest hf
    by_cases ht : t = ['E'] ∨ t = ['e']
    · right; left
      rw [if_pos ht] at hg
      rw [hg]
      exact ⟨t, rest, rfl, ht, rfl, hr⟩
    · right; right
      rw [if_neg ht] at hg
      exact ⟨t, rest, rfl, ht, hg⟩

/-- What a successful `parse_thetaprior` has read and stored. -/
theorem parse_thetaprior_inv {D : Type} (lf : List Char → Option (D × Nat)) (value : List Char)
    (c : Config D) (h : (parse_thetaprior lf value c).1 = 1) :
    ∃ t1 t2, converts lf t1 = true ∧ converts lf t2 = true ∧
      ((fields value = [t1, t2] ∧ (parse_thetaprior lf value c).2.opt_est_theta = 0) ∨
        ((fields value = [t1, t2, ['E']] ∨ fields value = [t1, t2, ['e']]) ∧
          (parse_thetaprior lf value c).2.opt_est_theta = 1)) ∧
      (parse_thetaprior lf value c).2.opt_theta_alpha = stored lf t1 c.opt_theta_alpha ∧
      (parse_thetaprior lf value c).2.opt_theta_beta = stored lf t2 c.opt_theta_beta := by
  simp only [parse_thetaprior] at h ⊢
  by_cases h1 : (get_double lf value c.opt_theta_alpha).1 = 0
  · simp [h1] at h
  obtain ⟨t1, r1, hf1, hc1, hd1, hv1⟩ := get_double_inv lf value _ h1
  simp only [h1, if_false] at h ⊢
  generalize List.drop (get_double lf value c.opt_theta_alpha).1 value = p1 at *
  by_cases h2 : (get_double lf p1 c.opt_theta_beta).1 = 0
  · simp [h2] at h
  obtain ⟨t2, r2, hf2, hc2, hd2, hv2⟩ := get_double_inv lf p1 _ h2
  simp only [h2, if_false] at h ⊢
  generalize List.drop (get_double lf p1 c.opt_theta_beta).1 p1 = p2 at *
  have hr1 : r1 = t2 :: r2 := hd1.symm.trans hf2
  subst hr1
  refine ⟨t1, t2, hc1, hc2, ?_, ?_, ?_⟩
  · rcases get_e_cases p2 with ⟨hf3, hg3⟩ | ⟨t3, r3, hf3, ht3, hg3, hd3⟩ | ⟨t3, r3, hf3, ht3, hg3⟩
    · left
      rw [hf3] at hd2
      subst hd2
      simp [hf1, hg3]
    · right
      have hne : is_emptyline p2 = false := (is_emptyline_false_iff p2).mpr (by simp [hf3])
      simp only [hne, hg3] at h ⊢
      simp only [Bool.false_eq_true, if_false, gt_iff_lt, lt_self_iff_false] at h ⊢
      have he : is_emptyline (List.drop (get_e p2).1 p2) = true := by
        by_contra hx
        simp [hx] at h
      rw [is_emptyline_iff, hd3] at he
      rw [hf3] at hd2
      subst he hd2
      rw [hf1]
      refine ⟨?_, trivial⟩
      rcases ht3 with rfl | rfl <;> simp
    · exfalso
      have hne : is_emptyline p2 = false := (is_emptyline_false_iff p2).mpr (by simp [hf3])
      simp [hne, hg3] at h
  · split_ifs <;> simpa using hv1
  · split_ifs <;> simpa using hv2

/-- Return values of `parse_thetaprior` are 0 and 1. -/
theorem parse_thetaprior_range {D : Type} (lf : List Char → Option (D × Nat))
    (value : List Char) (c : Config D) :
    (parse_thetaprior lf value c).1 = 0 ∨ (parse_thetaprior lf value c).1 = 1 := by
  simp only [parse_thetaprior]
  split_ifs <;> simp

/-- `parse_thetaprior` on two convertible fields with an optional `E`/`e`. -/
theorem parse_thetaprior_ok {D : Type} (lf : List Char → Option (D × Nat)) (value : List Char)
    (c : Config D) (t1 t2 : List Char) (hc1 : converts lf t1 = true)
    (hc2 : converts lf t2 = true)
    (hf : fields value = [t1, t2] ∨ fields value = [t1, t2, ['E']] ∨
      fields value = [t1, t2, ['e']]) :
    (parse_thetaprior lf value c).1 = 1 := by
  have key : ∀ r, fields value = t1 :: t2 :: r → (r = [] ∨ r = [['E']] ∨ r = [['e']]) →
      (parse_thetaprior lf value c).1 = 1 := by
    intro r hfv hr
    simp only [parse_thetaprior]
    obtain ⟨h1, hd1, _⟩ := get_double_ok lf value c.opt_theta_alpha t1 _ hfv hc1
    simp only [h1, if_false]
    generalize List.drop (get_double lf value c.opt_theta_alpha).1 value = p1 at *
    obtain ⟨h2, hd2, _⟩ := get_double_ok lf p1 c.opt_theta_beta t2 _ hd1 hc2
    simp only [h2, if_false]
    generalize List.drop (get_double lf p1 c.opt_theta_beta).1 p1 = p2 at *
    rcases get_e_cases p2 with ⟨hf3, hg3⟩ | ⟨t3, r3, hf3, ht3, hg3, hd3⟩ | ⟨t3, r3, hf3, ht3, hg3⟩
    · have he : is_emptyline p2 = true := (is_emptyline_iff p2).mpr hf3
      simp [hg3, he]
    · have hr3 : r3 = [] := by
        rw [hf3] at hd2
        rcases hr with rfl | rfl | rfl <;> simp_all
      have he : is_emptyline (List.drop (get_e p2).1 p2) = true := by
        rw [is_emptyline_iff, hd3, hr3]
      simp [hg3, he]
    · exfalso
      rw [hf3] at hd2
      rcases hr with rfl | rfl | rfl <;> simp_all
  rcases hf with h | h | h
  · exact key [] h (Or.inl rfl)
  · exact key _ h (Or.inr (Or.inl rfl))
  · exact key _ h (Or.inr (Or.inr rfl))

/-! ## Option lines and the dispatch on the key -/

theorem get?_append_length (x : List Char) (d : Char) (r : List Char) :
    (x ++ d :: r).get? x.length = some d := by
  induction x with
  | nil => rfl
  | cons a x ih => simpa using ih

theorem scan_back_stop (a : List Char) (c : Char) (r : List Char) (hc : is_ws c = false) :
    scan_back (a ++ c :: r) (a.length + 1) = some a.length := by
  have hc' : (c == ' ' || c == '\t' || c == '\r' || c == '\n') = false := hc
  simp only [scan_back, get?_append_length, hc']
  rfl

/-- The backward scan over a run of white space stops on the character in
front of the run. -/
theorem scan_back_ws (a : List Char) (c : Char) (w r : List Char) (hc : is_ws c = false)
    (hw : ∀ d ∈ w, is_ws d = true) :
    scan_back (a ++ c :: (w ++ r)) (a.length + 1 + w.length) = some a.length := by
  induction w using List.reverseRecOn generalizing r with
  | nil => simpa using scan_back_stop a c r hc
  | append_singleton w d ih =>
    have hd : (d == ' ' || d == '\t' || d == '\r' || d == '\n') = true :=
      hw d (by simp)
    have hidx : a.length + 1 + (w ++ [d]).length = (a ++ c :: w).length + 1 := by
      simp; omega
    have hl : a ++ c :: (w ++ [d] ++ r) = (a ++ c :: w) ++ d :: r := by simp
    rw [hidx, hl]
    simp only [scan_back, get?_append_length, hd, if_true]
    have := ih (d :: r) (fun e he => hw e (by simp [he]))
    have hidx2 : (a ++ c :: w).length = a.length + 1 + w.length := by simp; omega
    rw [hidx2]
    simpa using this

theorem is_key_spec {key : List Char} (h : is_key key = true) :
    key ≠ [] ∧ '=' ∉ key ∧ (∀ c, key.head? = some c → is_delim c = false) ∧
      (∀ c, key.getLast? = some c → is_ws c = false) := by
  simp only [is_key, Bool.and_eq_true] at h
  obtain ⟨⟨⟨h1, h2⟩, h3⟩, h4⟩ := h
  refine ⟨by intro e; simp [e] at h1, by simpa using h2, ?_, ?_⟩
  · intro c hc
    rw [hc] at h3
    simpa using h3
  · intro c hc
    rw [hc] at h4
    simpa using h4

theorem get_token_unfold (line : List Char) :
    get_token line =
      if at_end_or_comment (line.dropWhile is_ws) then some (0, [], [])
      else if (line.drop ((line.takeWhile is_ws).length +
          ((line.dropWhile is_ws).takeWhile (fun c => c != '=')).length)).isEmpty
        then some (-1, line.dropWhile is_ws, [])
      else
        match scan_back line ((line.takeWhile is_ws).length +
          ((line.dropWhile is_ws).takeWhile (fun c => c != '=')).length) with
        | none => none
        | some p => some ((p : Int) - ((line.takeWhile is_ws).length : Int) + 1,
            line.dropWhile is_ws,
            line.drop ((line.takeWhile is_ws).length +
              ((line.dropWhile is_ws).takeWhile (fun c => c != '=')).length + 1)) := by
  have h : (fun c => c == ' ' || c == '\t' || c == '\r' || c == '\n') = is_ws := rfl
  simp only [get_token, h, drop_length_takeWhile]

/-- On an option line `get_token` returns the length of the key, the cursor
on the key and the cursor behind `=`. -/
theorem get_token_keyline (line key value : List Char) (h : KeyLine line key value) :
    ∃ rest, get_token line = some ((key.length : Int), key ++ rest, value) := by
  obtain ⟨w, w', hl, hw, hw', hkey⟩ := h
  obtain ⟨hne, heq, hhead, hlast⟩ := is_key_spec hkey
  refine ⟨w' ++ '=' :: value, ?_⟩
  obtain ⟨k, ks, rfl⟩ := List.exists_cons_of_ne_nil hne
  have hk0 : is_delim k = false := hhead k rfl
  have hkw : is_ws k = false := (not_delim_iff.mp hk0).1
  have htw : line.takeWhile is_ws = w := by
    rw [hl, List.append_assoc, List.append_assoc]
    exact takeWhile_stop is_ws w _ hw (Or.inr ⟨k, _, rfl, hkw⟩)
  have hdw : line.dropWhile is_ws = (k :: ks) ++ (w' ++ '=' :: value) := by
    have := drop_length_takeWhile is_ws line
    rw [htw] at this
    rw [← this, hl, List.append_assoc, List.append_assoc, List.drop_left]
  have hk : ((k :: ks) ++ (w' ++ '=' :: value)).takeWhile (fun c => c != '=') =
      (k :: ks) ++ w' := by
    rw [← List.append_assoc]
    apply takeWhile_stop
    · intro c hc
      rcases List.mem_append.mp hc with hc | hc
      · have : c ≠ '=' := fun e => heq (e ▸ hc)
        simpa using this
      · have hcw := hw' c hc
        have : c ≠ '=' := by
          rintro rfl
          exact absurd hcw (by decide)
        simpa using this
    · exact Or.inr ⟨'=', value, rfl, by decide⟩
  have hcm : at_end_or_comment ((k :: ks) ++ (w' ++ '=' :: value)) = false := by
    have := (not_delim_iff.mp hk0).2
    simpa [at_end_or_comment] using this
  rw [get_token_unfold, hdw, htw, hk, hcm]
  have hd : line.drop (w.length + ((k :: ks) ++ w').length) = '=' :: value := by
    rw [hl]
    have : w ++ (k :: ks) ++ w' ++ '=' :: value = (w ++ ((k :: ks) ++ w')) ++ '=' :: value := by
      simp
    rw [this, ← List.length_append, List.drop_left]
  have hd1 : line.drop (w.length + ((k :: ks) ++ w').length + 1) = value := by
    rw [← List.drop_drop, hd]
    rfl
  rw [hd, hd1]
  obtain ⟨ini, l, hil⟩ : ∃ ini l, k :: ks = ini ++ [l] :=
    ⟨(k :: ks).dropLast, (k :: ks).getLast (by simp), (List.dropLast_append_getLast _).symm⟩
  have hlw : is_ws l = false := hlast l (by rw [hil]; simp)
  have hsb : scan_back line (w.length + ((k :: ks) ++ w').length) =
      some (w.length + ini.length) := by
    have h1 : line = (w ++ ini) ++ l :: (w' ++ '=' :: value) := by
      rw [hl, hil]; simp
    have h2 : w.length + ((k :: ks) ++ w').length = (w ++ ini).length + 1 + w'.length := by
      rw [hil]; simp; omega
    rw [h1, h2, scan_back_ws (w ++ ini) l w' _ hlw hw']
    simp
  rw [hsb]
  have hlen : (k :: ks).length = ini.length + 1 := by rw [hil]; simp
  simp only [Bool.false_eq_true, if_false, List.isEmpty_cons]
  congr 2
  rw [hlen]
  push_cast
  ring

theorem char_toNat_inj {a b : Char} (h : a.toNat = b.toNat) : a = b := by
  rw [← Char.ofNat_toNat a, ← Char.ofNat_toNat b, h]

/-- `strncasecmp` over the full length of a key is zero exactly when key and
name agree after `tolower`. -/
theorem strncasecmp_key (key rest name : List Char) (h : key.length = name.length) :
    strncasecmp (key ++ rest) name key.length = 0 ↔ key.map tolower = name.map tolower := by
  induction key generalizing name with
  | nil =>
    cases name with
    | nil => simp [strncasecmp]
    | cons d ns => simp at h
  | cons c ks ih =>
    cases name with
    | nil => simp at h
    | cons d ns =>
      have h' : ks.length = ns.length := by simpa using h
      by_cases hcd : tolower c = tolower d
      · simp [strncasecmp, hcd, ih ns h']
      · have hne : ((tolower c).toNat : Int) - ((tolower d).toNat : Int) ≠ 0 := by
          intro e
          apply hcd
          apply char_toNat_inj
          omega
        simp [strncasecmp, hcd, hne]

/-- `strncasecmp` against a lower-case name. -/
theorem strncasecmp_name (key rest name : List Char) (h : key.length = name.length)
    (hn : name.map tolower = name) :
    strncasecmp (key ++ rest) name key.length = 0 ↔ key.map tolower = name := by
  rw [strncasecmp_key key rest name h, hn]

/-- A key that is no option name, whatever the case of its letters, is skipped:
the line counter advances and nothing else changes. -/
theorem load_body_unknown_key {D : Type} (E : Env D) (line key value : List Char) (st : State D)
    (hl : KeyLine line key value) (hk : ∀ name ∈ option_names, key.map tolower ≠ name) :
    load_body E line st = .ok { st with line_count := st.line_count + 1 } := by
  obtain ⟨rest, hg⟩ := get_token_keyline line key value hl
  have hpos : key ≠ [] := by
    obtain ⟨_, _, _, _, _, hkey⟩ := hl
    exact (is_key_spec hkey).1
  have hlen : 0 < key.length := List.length_pos.mpr hpos
  have cmp : ∀ (name : List Char) (n : Nat), name ∈ option_names → name.map tolower = name →
      name.length = n → key.length = n → strncasecmp (key ++ rest) name n ≠ 0 := by
    intro name n hmem hlow hnl hkl
    rw [← hkl]
    intro e
    exact hk name hmem ((strncasecmp_name key rest name (hkl.trans hnl.symm) hlow).mp e)
  simp only [load_body, hg]
  by_cases h4 : key.length = 4
  · simp only [h4, Nat.cast_ofNat, Int.reduceEq, Int.reduceLT, if_false, if_true, cmp "seed".toList 4 (by decide) (by decide) (by decide) h4, cmp "arch".toList 4 (by decide) (by decide) (by decide) h4]
  by_cases h5 : key.length = 5
  · simp only [h5, Nat.cast_ofNat, Int.reduceEq, Int.reduceLT, if_false, if_true, cmp "nloci".toList 5 (by decide) (by decide) (by decide) h5, cmp "print".toList 5 (by decide) (by decide) (by decide) h5]
  by_cases h6 : key.length = 6
  · simp only [h6, Nat.cast_ofNat, Int.reduceEq, Int.reduceLT, if_false, if_true, cmp "burnin".toList 6 (by decide) (by decide) (by decide) h6]
  by_cases h7 : key.length = 7
  · simp only [h7, Nat.cast_ofNat, Int.reduceEq, Int.reduceLT, if_false, if_true, cmp "seqfile".toList 7 (by decide) (by decide) (by decide) h7, cmp "outfile".toList 7 (by decide) (by decide) (by decide) h7, cmp "usedata".toList 7 (by decide) (by decide) (by decide) h7, cmp "nsample".toList 7 (by decide) (by decide) (by decide) h7]
  by_cases h8 : key.length = 8
  · simp only [h8, Nat.cast_ofNat, Int.reduceEq, Int.reduceLT, if_false, if_true, cmp "imapfile".toList 8 (by decide) (by decide) (by decide) h8, cmp "mcmcfile".toList 8 (by decide) (by decide) (by decide) h8, cmp "tauprior".toList 8 (by decide) (by decide) (by decide) h8, cmp "heredity".toList 8 (by decide) (by decide) (by decide) h8, cmp "finetune".toList 8 (by decide) (by decide) (by decide) h8, cmp "sampfreq".toList 8 (by decide) (by decide) (by decide) h8]
  by_cases h9 : key.length = 9
  · simp only [h9, Nat.cast_ofNat, Int.reduceEq, Int.reduceLT, if_false, if_true, cmp "cleandata".toList 9 (by decide) (by decide) (by decide) h9, cmp "locusrate".toList 9 (by decide) (by decide) (by decide) h9]
  by_cases h10 : key.length = 10
  · simp only [h10, Nat.cast_ofNat, Int.reduceEq, Int.reduceLT, if_false, if_true, cmp "thetaprior".toList 10 (by decide) (by decide) (by decide) h10]
  by_cases h11 : key.length = 11
  · simp only [h11, Nat.cast_ofNat, Int.reduceEq, Int.reduceLT, if_false, if_true, cmp "speciestree".toList 11 (by decide) (by decide) (by decide) h11]
  by_cases h12 : key.length = 12
  · simp only [h12, Nat.cast_ofNat, Int.reduceEq, Int.reduceLT, if_false, if_true, cmp "species&tree".toList 12 (by decide) (by decide) (by decide) h12]
  by_cases h13 : key.length = 13
  · simp only [h13, Nat.cast_ofNat, Int.reduceEq, Int.reduceLT, if_false, if_true, cmp "sequenceerror".toList 13 (by decide) (by decide) (by decide) h13]
  by_cases h17 : key.length = 17
  · simp only [h17, Nat.cast_ofNat, Int.reduceEq, Int.reduceLT, if_false, if_true, cmp "speciesmodelprior".toList 17 (by decide) (by decide) (by decide) h17]
  by_cases h19 : key.length = 19
  · simp only [h19, Nat.cast_ofNat, Int.reduceEq, Int.reduceLT, if_false, if_true, cmp "speciesdelimitation".toList 19 (by decide) (by decide) (by decide) h19]
  have hc : ∀ n : Nat, key.length ≠ n → ((key.length : Int) = (n : Int)) = False := by
    intro n hn
    simp only [Nat.cast_inj, hn]
  have hz : ((key.length : Int) = 0) = False := hc 0 (by omega)
  have hneg : ((key.length : Int) < 0) = False := by
    simp only [eq_iff_iff, iff_false, not_lt]
    exact Int.natCast_nonneg _
  have e4 : ((key.length : Int) = 4) = False := hc 4 h4
  have e5 : ((key.length : Int) = 5) = False := hc 5 h5
  have e6 : ((key.length : Int) = 6) = False := hc 6 h6
  have e7 : ((key.length : Int) = 7) = False := hc 7 h7
  have e8 : ((key.length : Int) = 8) = False := hc 8 h8
  have e9 : ((key.length : Int) = 9) = False := hc 9 h9
  have e10 : ((key.length : Int) = 10) = False := hc 10 h10
  have e11 : ((key.length : Int) = 11) = False := hc 11 h11
  have e12 : ((key.length : Int) = 12) = False := hc 12 h12
  have e13 : ((key.length : Int) = 13) = False := hc 13 h13
  have e17 : ((key.length : Int) = 17) = False := hc 17 h17
  have e19 : ((key.length : Int) = 19) = False := hc 19 h19
  simp only [hz, hneg, e4, e5, e6, e7, e8, e9, e10, e11, e12, e13, e17, e19, if_false]

/-- On a line whose key is `name` up to the case of letters, `get_token` gives
the length of `name`, and `strncasecmp` of the token against an option name
of that length is zero exactly for `name` itself. -/
theorem get_token_named (line key value name : List Char) (hl : KeyLine line key value)
    (hk : key.map tolower = name) :
    ∃ token, get_token line = some ((name.length : Int), token, value) ∧
      ∀ other : List Char, other.length = name.length → other.map tolower = other →
        (strncasecmp token other name.length = 0 ↔ name = other) := by
  obtain ⟨rest, hg⟩ := get_token_keyline line key value hl
  have hlen : key.length = name.length := by rw [← hk]; simp
  refine ⟨key ++ rest, by rw [hg, hlen], ?_⟩
  intro other ho hlow
  rw [← hlen, strncasecmp_name key rest other (hlen.trans ho.symm) hlow, hk]

/-- The `thetaprior` branch of `load_cfile`. -/
theorem load_body_thetaprior {D : Type} (E : Env D) (line key value : List Char) (st : State D)
    (hl : KeyLine line key value) (hk : key.map tolower = "thetaprior".toList) :
    load_body E line st =
      if (parse_thetaprior E.sscanf_lf value st.cfg).1 = 0 then
        .fatal (.thetaprior (st.line_count + 1))
      else .ok { st with line_count := st.line_count + 1,
                         cfg := (parse_thetaprior E.sscanf_lf value st.cfg).2 } := by
  obtain ⟨token, hg, hcmp⟩ := get_token_named line key value _ hl hk
  have c1 : strncasecmp token "thetaprior".toList 10 = 0 :=
    (hcmp "thetaprior".toList (by decide) (by decide)).mpr rfl
  have hn : "thetaprior".toList.length = 10 := by decide
  rw [hn] at hg
  simp only [load_body, hg, Nat.cast_ofNat, Int.reduceEq, Int.reduceLT, if_false, if_true, c1]

/-- The `print` branch of `load_cfile`. -/
theorem load_body_print {D : Type} (E : Env D) (line key value : List Char) (st : State D)
    (hl : KeyLine line key value) (hk : key.map tolower = "print".toList) :
    load_body E line st =
      if (parse_print value st.cfg).1 = 0 then .fatal (.print (st.line_count + 1))
      else .ok { st with line_count := st.line_count + 1,
                         cfg := (parse_print value st.cfg).2 } := by
  obtain ⟨token, hg, hcmp⟩ := get_token_named line key value _ hl hk
  have c1 : strncasecmp token "print".toList 5 = 0 :=
    (hcmp "print".toList (by decide) (by decide)).mpr rfl
  have c2 : strncasecmp token "nloci".toList 5 ≠ 0 :=
    fun e => absurd ((hcmp "nloci".toList (by decide) (by decide)).mp e) (by decide)
  have hn : "print".toList.length = 5 := by decide
  rw [hn] at hg
  simp only [load_body, hg, Nat.cast_ofNat, Int.reduceEq, Int.reduceLT, if_false, if_true, c1, c2]

/-- The `finetune` branch of `load_cfile`. -/
theorem load_body_finetune {D : Type} (E : Env D) (line key value : List Char) (st : State D)
    (hl : KeyLine line key value) (hk : key.map tolower = "finetune".toList) :
    load_body E line st =
      if (parse_finetune E.sscanf_lf value st.cfg).1 = 0 then
        .fatal (.finetune (st.line_count + 1))
      else .ok { st with line_count := st.line_count + 1,
                         cfg := (parse_finetune E.sscanf_lf value st.cfg).2 } := by
  obtain ⟨token, hg, hcmp⟩ := get_token_named line key value _ hl hk
  have c1 : strncasecmp token "finetune".toList 8 = 0 :=
    (hcmp "finetune".toList (by decide) (by decide)).mpr rfl
  have c2 : strncasecmp token "imapfile".toList 8 ≠ 0 :=
    fun e => absurd ((hcmp "imapfile".toList (by decide) (by decide)).mp e) (by decide)
  have c3 : strncasecmp token "mcmcfile".toList 8 ≠ 0 :=
    fun e => absurd ((hcmp "mcmcfile".toList (by decide) (by decide)).mp e) (by decide)
  have c4 : strncasecmp token "tauprior".toList 8 ≠ 0 :=
    fun e => absurd ((hcmp "tauprior".toList (by decide) (by decide)).mp e) (by decide)
  have c5 : strncasecmp token "heredity".toList 8 ≠ 0 :=
    fun e => absurd ((hcmp "heredity".toList (by decide) (by decide)).mp e) (by decide)
  have hn : "finetune".toList.length = 8 := by decide
  rw [hn] at hg
  simp only [load_body, hg, Nat.cast_ofNat, Int.reduceEq, Int.reduceLT, if_false, if_true,
    c1, c2, c3, c4, c5]

/-- The `species&tree` branch of `load_cfile`. -/
theorem load_body_speciesandtree {D : Type} (E : Env D) (line key value : List Char)
    (st : State D) (hl : KeyLine line key value)
    (hk : key.map tolower = "species&tree".toList) :
    load_body E line st =
      if (parse_speciesandtree value st.cfg).1 = 0 then
        .fatal (.speciesandtree (st.line_count + 1))
      else
        match getnextline E.LINEALLOC st.fp with
        | .undefined => .undefined
        | .eof => .fatal (.incomplete_record (st.line_count + 1))
        | .line _ fp =>
          match getnextline E.LINEALLOC fp with
          | .undefined => .undefined
          | .eof => .fatal (.incomplete_record (st.line_count + 1 + 1))
          | .line line2 fp =>
            if (get_string line2 (parse_speciesandtree value st.cfg).2.opt_streenewick).1 = 0 then
              .fatal (.expected_newick (st.line_count + 1 + 1))
            else
              .ok { fp := fp, line_count := st.line_count + 1 + 1,
                    cfg := { (parse_speciesandtree value st.cfg).2 with
                      opt_streenewick :=
                        (get_string line2
                          (parse_speciesandtree value st.cfg).2.opt_streenewick).2 } } := by
  obtain ⟨token, hg, hcmp⟩ := get_token_named line key value _ hl hk
  have c1 : strncasecmp token "species&tree".toList 12 = 0 :=
    (hcmp "species&tree".toList (by decide) (by decide)).mpr rfl
  have hn : "species&tree".toList.length = 12 := by decide
  rw [hn] at hg
  simp only [load_body, hg, Nat.cast_ofNat, Int.reduceEq, Int.reduceLT, if_false, if_true, c1]

theorem stored_of_converts {D : Type} (lf : List Char → Option (D × Nat)) (t : List Char)
    (old : D) (h : converts lf t = true) : (lf t).map Prod.fst = some (stored lf t old) := by
  unfold converts at h
  unfold stored
  rcases hx : lf t with _ | ⟨v, len⟩
  · rw [hx] at h; exact absurd h (by simp)
  · rfl

/-! ## Unknown keys and the theta prior -/

/-- Claim C1. An option line `key = value` whose key equals no recognised
option name under ASCII case-insensitive comparison, in particular every key
whose length is none of 4, 5, 6, 7, 8, 9, 10, 11, 12, 13, 17 and 19, is
processed by the loop body of `load_cfile` without abort: the body ends
normally, the configuration and the unread stream are what they were (no
further line is consumed) and only the line counter advances, whatever the
value text is. -/
theorem load_cfile_unknown_key_is_noop {D : Type} (E : Env D) (line key value : List Char)
    (st : State D) (hl : KeyLine line key value)
    (hk : key.length ∉ [4, 5, 6, 7, 8, 9, 10, 11, 12, 13, 17, 19] ∨
      ∀ name ∈ option_names, key.map tolower ≠ name) :
    load_body E line st =
      .ok { fp := st.fp, line_count := st.line_count + 1, cfg := st.cfg } := by
  apply load_body_unknown_key E line key value st hl
  rcases hk with hk | hk
  · intro name hn e
    apply hk
    have h1 : key.length = name.length := by rw [← e]; simp
    have h2 : ∀ n ∈ option_names, n.length ∈ [4, 5, 6, 7, 8, 9, 10, 11, 12, 13, 17, 19] := by
      decide
    rw [h1]
    exact h2 name hn
  · exact hk

/-- Claim C1, run on the line `foo = 1`. -/
theorem load_cfile_unknown_key_is_noop_witness :
    load_body example_env "foo = 1".toList
        { fp := "seed = 2\n".toList, line_count := 0, cfg := args_init_config } =
      .ok { fp := "seed = 2\n".toList, line_count := 1, cfg := args_init_config } :=
  load_cfile_unknown_key_is_noop example_env "foo = 1".toList "foo".toList " 1".toList
    { fp := "seed = 2\n".toList, line_count := 0, cfg := args_init_config }
    ⟨[], [' '], by decide, by decide, by decide, by decide⟩ (Or.inl (by decide))

/-- Claim C2 as stated fails: on the value `2.0 3.0` (two float tokens, no
flag) `parse_thetaprior` succeeds but changes `opt_est_theta` from its default
1 to 0. -/
theorem parse_thetaprior_no_flag_counterexample :
    fields "2.0 3.0".toList = ["2.0".toList, "3.0".toList] ∧
    converts decimal_lf "2.0".toList = true ∧ converts decimal_lf "3.0".toList = true ∧
    (parse_thetaprior decimal_lf "2.0 3.0".toList args_init_config).1 = 1 ∧
    args_init_config.opt_est_theta = 1 ∧
    (parse_thetaprior decimal_lf "2.0 3.0".toList args_init_config).2.opt_est_theta ≠
      args_init_config.opt_est_theta := by
  decide

/-- Claim C2, amended. For every thetaprior value made of two float tokens
followed by a blank-or-comment remainder (no flag field), `parse_thetaprior`
succeeds, stores the two numbers in `opt_theta_alpha` and `opt_theta_beta` in
that order, and sets `opt_est_theta` to 0, whatever it was before the call. -/
theorem parse_thetaprior_no_flag {D : Type} (lf : List Char → Option (D × Nat))
    (value : List Char) (c : Config D) (t1 t2 : List Char) (hf : fields value = [t1, t2])
    (h1 : converts lf t1 = true) (h2 : converts lf t2 = true) :
    (parse_thetaprior lf value c).1 = 1 ∧
    (lf t1).map Prod.fst = some (parse_thetaprior lf value c).2.opt_theta_alpha ∧
    (lf t2).map Prod.fst = some (parse_thetaprior lf value c).2.opt_theta_beta ∧
    (parse_thetaprior lf value c).2.opt_est_theta = 0 := by
  have hret := parse_thetaprior_ok lf value c t1 t2 h1 h2 (Or.inl hf)
  obtain ⟨u1, u2, _, _, hshape, ha, hb⟩ := parse_thetaprior_inv lf value c hret
  have hu : u1 = t1 ∧ u2 = t2 := by
    rcases hshape with ⟨hs, _⟩ | ⟨hs | hs, _⟩ <;> rw [hf] at hs <;> simp at hs
    exact ⟨hs.1.symm, hs.2.symm⟩
  obtain ⟨rfl, rfl⟩ := hu
  refine ⟨hret, ?_, ?_, ?_⟩
  · rw [ha]; exact stored_of_converts lf u1 _ h1
  · rw [hb]; exact stored_of_converts lf u2 _ h2
  · rcases hshape with ⟨_, he⟩ | ⟨hs | hs, _⟩
    · exact he
    · rw [hf] at hs; simp at hs
    · rw [hf] at hs; simp at hs

/-- Claim C2, amended, run on the value `2.0 3.0`. -/
theorem parse_thetaprior_no_flag_witness :
    (parse_thetaprior decimal_lf "2.0 3.0".toList args_init_config).1 = 1 ∧
    (decimal_lf "2.0".toList).map Prod.fst =
      some (parse_thetaprior decimal_lf "2.0 3.0".toList args_init_config).2.opt_theta_alpha ∧
    (decimal_lf "3.0".toList).map Prod.fst =
      some (parse_thetaprior decimal_lf "2.0 3.0".toList args_init_config).2.opt_theta_beta ∧
    (parse_thetaprior decimal_lf "2.0 3.0".toList args_init_config).2.opt_est_theta = 0 :=
  parse_thetaprior_no_flag decimal_lf "2.0 3.0".toList args_init_config "2.0".toList
    "3.0".toList (by decide) (by decide) (by decide)

/-- Claim C3. `parse_thetaprior` succeeds exactly when its value is two float
tokens followed either by a blank-or-comment remainder or by a lone `E` or `e`
token and then a blank-or-comment remainder; it returns 0 in every other case;
after a success with the flag token `opt_est_theta` is 1; and on a
`thetaprior` line of the control file a return of 0 ends `load_cfile` in the
fatal error of that option. -/
theorem parse_thetaprior_succeeds_iff {D : Type} (E : Env D) (value : List Char)
    (c : Config D) :
    ((parse_thetaprior E.sscanf_lf value c).1 = 1 ↔
      ∃ t1 t2, converts E.sscanf_lf t1 = true ∧ converts E.sscanf_lf t2 = true ∧
        (fields value = [t1, t2] ∨ fields value = [t1, t2, ['E']] ∨
          fields value = [t1, t2, ['e']])) ∧
    ((parse_thetaprior E.sscanf_lf value c).1 ≠ 1 → (parse_thetaprior E.sscanf_lf value c).1 = 0) ∧
    (∀ t1 t2 t3, fields value = [t1, t2, t3] → (parse_thetaprior E.sscanf_lf value c).1 = 1 →
      (parse_thetaprior E.sscanf_lf value c).2.opt_est_theta = 1) ∧
    (∀ (line key : List Char) (st : State D), KeyLine line key value →
      key.map tolower = "thetaprior".toList → st.cfg = c →
      (parse_thetaprior E.sscanf_lf value c).1 = 0 →
      load_body E line st = .fatal (.thetaprior (st.line_count + 1))) := by
  refine ⟨⟨?_, ?_⟩, ?_, ?_, ?_⟩
  · intro h
    obtain ⟨t1, t2, h1, h2, hshape, _⟩ := parse_thetaprior_inv E.sscanf_lf value c h
    refine ⟨t1, t2, h1, h2, ?_⟩
    rcases hshape with ⟨hs, _⟩ | ⟨hs | hs, _⟩
    · exact Or.inl hs
    · exact Or.inr (Or.inl hs)
    · exact Or.inr (Or.inr hs)
  · rintro ⟨t1, t2, h1, h2, hf⟩
    exact parse_thetaprior_ok E.sscanf_lf value c t1 t2 h1 h2 hf
  · intro h
    rcases parse_thetaprior_range E.sscanf_lf value c with h0 | h1
    · exact h0
    · exact absurd h1 h
  · intro t1 t2 t3 hf h
    obtain ⟨u1, u2, _, _, hshape, _⟩ := parse_thetaprior_inv E.sscanf_lf value c h
    rcases hshape with ⟨hs, _⟩ | ⟨_, he⟩
    · rw [hf] at hs; simp at hs
    · exact he
  · intro line key st hl hk hc h
    subst hc
    rw [load_body_thetaprior E line key value st hl hk, if_pos h]

/-- Claim C3, run on `thetaprior = 2.0 3.0 X` (fatal) and on the value
`2.0 3.0 E` (success with `opt_est_theta = 1`). -/
theorem parse_thetaprior_succeeds_iff_witness :
    load_body example_env "thetaprior = 2.0 3.0 X".toList
        { fp := [], line_count := 6, cfg := args_init_config } = .fatal (.thetaprior 7) ∧
    (parse_thetaprior decimal_lf "2.0 3.0 E".toList args_init_config).2.opt_est_theta = 1 :=
  ⟨(parse_thetaprior_succeeds_iff example_env " 2.0 3.0 X".toList args_init_config).2.2.2
      "thetaprior = 2.0 3.0 X".toList "thetaprior".toList
      { fp := [], line_count := 6, cfg := args_init_config }
      ⟨[], [' '], by decide, by decide, by decide, by decide⟩ (by decide) rfl (by decide),
    (parse_thetaprior_succeeds_iff example_env "2.0 3.0 E".toList args_init_config).2.2.1
      "2.0".toList "3.0".toList "E".toList (by decide) (by decide)⟩

/-! ## The finetune record -/

theorem drop_length_takeWhile_succ (p : Char → Bool) (s : List Char) :
    s.drop ((s.takeWhile p).length + 1) = (s.dropWhile p).drop 1 := by
  rw [← drop_length_takeWhile p s, List.drop_drop, Nat.add_comm]

/-- A cursor whose first character behind leading white space is `ch` splits
into that white space, `ch` and the text behind. -/
theorem head_after_ws (s : List Char) (ch : Char)
    (h : (s.dropWhile is_ws).head? = some ch) :
    s = s.takeWhile is_ws ++ ch :: (s.dropWhile is_ws).drop 1 := by
  have hs := (List.takeWhile_append_dropWhile is_ws s).symm
  rcases hd : s.dropWhile is_ws with _ | ⟨d, r⟩
  · rw [hd] at h; simp at h
  · rw [hd] at h hs
    simp only [List.head?_cons, Option.some.injEq] at h
    subst h
    simpa using hs

/-- Scanning white space in front of a character that is none: the count of
`strspn` is the length of the white space. -/
theorem ws_front (w : List Char) (ch : Char) (r : List Char) (hw : ∀ c ∈ w, is_ws c = true)
    (hc : is_ws ch = false) :
    (w ++ ch :: r).takeWhile is_ws = w ∧ (w ++ ch :: r).dropWhile is_ws = ch :: r := by
  have h1 : (w ++ ch :: r).takeWhile is_ws = w :=
    takeWhile_stop is_ws w _ hw (Or.inr ⟨ch, r, rfl, hc⟩)
  refine ⟨h1, ?_⟩
  have := drop_length_takeWhile is_ws (w ++ ch :: r)
  rw [h1, List.drop_left] at this
  exact this.symm


/-- Either `parse_finetune` returns 0, or it returns 1 and the value has the
selector, the colon and seven convertible fields, the first five of which are
stored. -/
theorem parse_finetune_cases {D : Type} (lf : List Char → Option (D × Nat)) (value : List Char)
    (c : Config D) :
    (parse_finetune lf value c).1 = 0 ∨
    ((parse_finetune lf value c).1 = 1 ∧
      ∃ w0 sel w1 rest t1 t2 t3 t4 t5 t6 t7,
        value = w0 ++ sel :: (w1 ++ ':' :: rest) ∧
        (∀ x ∈ w0, is_ws x = true) ∧ (sel = '0' ∨ sel = '1') ∧ (∀ x ∈ w1, is_ws x = true) ∧
        fields rest = [t1, t2, t3, t4, t5, t6, t7] ∧
        (∀ t ∈ [t1, t2, t3, t4, t5, t6, t7], converts lf t = true) ∧
        (parse_finetune lf value c).2 =
          { c with
            opt_finetune_reset := if sel = '1' then 1 else c.opt_finetune_reset,
            opt_finetune_gtage := stored lf t1 c.opt_finetune_gtage,
            opt_finetune_gtspr := stored lf t2 c.opt_finetune_gtspr,
            opt_finetune_theta := stored lf t3 c.opt_finetune_theta,
            opt_finetune_tau := stored lf t4 c.opt_finetune_tau,
            opt_finetune_mix := stored lf t5 c.opt_finetune_mix }) := by
  simp only [parse_finetune, strspn_WS, drop_length_takeWhile, drop_length_takeWhile_succ]
  by_cases h0 : (value.dropWhile is_ws).head? ≠ some '0' ∧ (value.dropWhile is_ws).head? ≠ some '1'
  · rw [if_pos h0]; exact Or.inl rfl
  rw [if_neg h0]
  obtain ⟨sel, hsel, hsel01⟩ : ∃ sel, (value.dropWhile is_ws).head? = some sel ∧
      (sel = '0' ∨ sel = '1') := by
    by_cases ha : (value.dropWhile is_ws).head? = some '0'
    · exact ⟨'0', ha, Or.inl rfl⟩
    · by_cases hb : (value.dropWhile is_ws).head? = some '1'
      · exact ⟨'1', hb, Or.inr rfl⟩
      · exact absurd ⟨ha, hb⟩ h0
  have hval := head_after_ws value sel hsel
  rw [hsel]
  generalize (value.dropWhile is_ws).drop 1 = q at *
  by_cases hcol : (q.dropWhile is_ws).head? ≠ some ':'
  · rw [if_pos hcol]; exact Or.inl rfl
  rw [if_neg hcol]
  have hq := head_after_ws q ':' (by simpa using hcol)
  generalize (q.dropWhile is_ws).drop 1 = p0 at *
  by_cases h1 : (get_double lf p0 c.opt_finetune_gtage).1 = 0
  · rw [if_pos h1]; exact Or.inl rfl
  rw [if_neg h1]
  obtain ⟨t1, r1, hf1, hc1, hd1, hv1⟩ := get_double_inv lf _ _ h1
  generalize List.drop (get_double lf p0 c.opt_finetune_gtage).1 p0 = p1 at *
  by_cases h2 : (get_double lf p1 c.opt_finetune_gtspr).1 = 0
  · rw [if_pos h2]; exact Or.inl rfl
  rw [if_neg h2]
  obtain ⟨t2, r2, hf2, hc2, hd2, hv2⟩ := get_double_inv lf _ _ h2
  generalize List.drop (get_double lf p1 c.opt_finetune_gtspr).1 p1 = p2 at *
  by_cases h3 : (get_double lf p2 c.opt_finetune_theta).1 = 0
  · rw [if_pos h3]; exact Or.inl rfl
  rw [if_neg h3]
  obtain ⟨t3, r3, hf3, hc3, hd3, hv3⟩ := get_double_inv lf _ _ h3
  generalize List.drop (get_double lf p2 c.opt_finetune_theta).1 p2 = p3 at *
  by_cases h4 : (get_double lf p3 c.opt_finetune_tau).1 = 0
  · rw [if_pos h4]; exact Or.inl rfl
  rw [if_neg h4]
  obtain ⟨t4, r4, hf4, hc4, hd4, hv4⟩ := get_double_inv lf _ _ h4
  generalize List.drop (get_double lf p3 c.opt_finetune_tau).1 p3 = p4 at *
  by_cases h5 : (get_double lf p4 c.opt_finetune_mix).1 = 0
  · rw [if_pos h5]; exact Or.inl rfl
  rw [if_neg h5]
  obtain ⟨t5, r5, hf5, hc5, hd5, hv5⟩ := get_double_inv lf _ _ h5
  generalize List.drop (get_double lf p4 c.opt_finetune_mix).1 p4 = p5 at *
  by_cases h6 : (get_double lf p5 c.opt_finetune_mix).1 = 0
  · rw [if_pos h6]; exact Or.inl rfl
  rw [if_neg h6]
  obtain ⟨t6, r6, hf6, hc6, hd6, hv6⟩ := get_double_inv lf _ _ h6
  generalize List.drop (get_double lf p5 c.opt_finetune_mix).1 p5 = p6 at *
  by_cases h7 : (get_double lf p6 c.opt_finetune_mix).1 = 0
  · rw [if_pos h7]; exact Or.inl rfl
  rw [if_neg h7]
  obtain ⟨t7, r7, hf7, hc7, hd7, hv7⟩ := get_double_inv lf _ _ h7
  generalize List.drop (get_double lf p6 c.opt_finetune_mix).1 p6 = p7 at *
  by_cases he : is_emptyline p7 = true
  swap
  · rw [if_neg he]; exact Or.inl rfl
  rw [if_pos he]
  right
  refine ⟨rfl, value.takeWhile is_ws, sel, q.takeWhile is_ws, p0, t1, t2, t3, t4, t5, t6, t7,
    ?_, fun x hx => List.mem_takeWhile_imp hx, hsel01, fun x hx => List.mem_takeWhile_imp hx,
    ?_, ?_, ?_⟩
  · rw [← hq]; exact hval
  · rw [is_emptyline_iff] at he
    rw [hf1, ← hd1, hf2, ← hd2, hf3, ← hd3, hf4, ← hd4, hf5, ← hd5, hf6, ← hd6, hf7, ← hd7, he]
  · intro t ht
    simp only [List.mem_cons, List.mem_singleton, List.not_mem_nil, or_false] at ht
    rcases ht with rfl | rfl | rfl | rfl | rfl | rfl | rfl <;> assumption
  · simp only [hv1, hv2, hv3, hv4, hv5, Option.some.injEq]

/-- `parse_finetune` on a selector, a colon and seven convertible fields. -/
theorem parse_finetune_ok {D : Type} (lf : List Char → Option (D × Nat)) (value : List Char)
    (c : Config D) (w0 : List Char) (sel : Char) (w1 p0 : List Char)
    (t1 t2 t3 t4 t5 t6 t7 : List Char)
    (hv : value = w0 ++ sel :: (w1 ++ ':' :: p0)) (hw0 : ∀ x ∈ w0, is_ws x = true)
    (hsel : sel = '0' ∨ sel = '1') (hw1 : ∀ x ∈ w1, is_ws x = true)
    (hd0 : fields p0 = [t1, t2, t3, t4, t5, t6, t7])
    (hc : ∀ t ∈ [t1, t2, t3, t4, t5, t6, t7], converts lf t = true) :
    (parse_finetune lf value c).1 = 1 := by
  have hselw : is_ws sel = false := by rcases hsel with rfl | rfl <;> decide
  obtain ⟨_, ha⟩ := ws_front w0 sel (w1 ++ ':' :: p0) hw0 hselw
  obtain ⟨_, hb⟩ := ws_front w1 ':' p0 hw1 (by decide)
  subst hv
  simp only [parse_finetune, strspn_WS, drop_length_takeWhile, drop_length_takeWhile_succ, ha,
    List.head?_cons, List.drop_succ_cons, List.drop_zero, hb]
  have h0 : ¬ (some sel ≠ some '0' ∧ some sel ≠ some '1') := by
    rcases hsel with rfl | rfl <;> simp
  rw [if_neg h0, if_neg (by simp)]
  obtain ⟨h1, hd1, _⟩ := get_double_ok lf p0 c.opt_finetune_gtage t1 _ hd0
    (hc t1 (by simp))
  rw [if_neg h1]
  generalize List.drop (get_double lf p0 c.opt_finetune_gtage).1 p0 = p1 at *
  obtain ⟨h2, hd2, _⟩ := get_double_ok lf p1 c.opt_finetune_gtspr t2 _ hd1
    (hc t2 (by simp))
  rw [if_neg h2]
  generalize List.drop (get_double lf p1 c.opt_finetune_gtspr).1 p1 = p2 at *
  obtain ⟨h3, hd3, _⟩ := get_double_ok lf p2 c.opt_finetune_theta t3 _ hd2
    (hc t3 (by simp))
  rw [if_neg h3]
  generalize List.drop (get_double lf p2 c.opt_finetune_theta).1 p2 = p3 at *
  obtain ⟨h4, hd4, _⟩ := get_double_ok lf p3 c.opt_finetune_tau t4 _ hd3
    (hc t4 (by simp))
  rw [if_neg h4]
  generalize List.drop (get_double lf p3 c.opt_finetune_tau).1 p3 = p4 at *
  obtain ⟨h5, hd5, _⟩ := get_double_ok lf p4 c.opt_finetune_mix t5 _ hd4
    (hc t5 (by simp))
  rw [if_neg h5]
  generalize List.drop (get_double lf p4 c.opt_finetune_mix).1 p4 = p5 at *
  obtain ⟨h6, hd6, _⟩ := get_double_ok lf p5 c.opt_finetune_mix t6 _ hd5
    (hc t6 (by simp))
  rw [if_neg h6]
  generalize List.drop (get_double lf p5 c.opt_finetune_mix).1 p5 = p6 at *
  obtain ⟨h7, hd7, _⟩ := get_double_ok lf p6 c.opt_finetune_mix t7 _ hd6
    (hc t7 (by simp))
  rw [if_neg h7]
  generalize List.drop (get_double lf p6 c.opt_finetune_mix).1 p6 = p7 at *
  have he : is_emptyline p7 = true := (is_emptyline_iff p7).mpr hd7
  rw [if_pos he]

/-- The selector, colon and rest of a finetune value are determined by the
value. -/
theorem finetune_shape_unique (w0 : List Char) (sel : Char) (w1 rest : List Char)
    (w0' : List Char) (sel' : Char) (w1' rest' : List Char)
    (h : w0 ++ sel :: (w1 ++ ':' :: rest) = w0' ++ sel' :: (w1' ++ ':' :: rest'))
    (hw0 : ∀ x ∈ w0, is_ws x = true) (hsel : sel = '0' ∨ sel = '1')
    (hw1 : ∀ x ∈ w1, is_ws x = true)
    (hw0' : ∀ x ∈ w0', is_ws x = true) (hsel' : sel' = '0' ∨ sel' = '1')
    (hw1' : ∀ x ∈ w1', is_ws x = true) :
    sel = sel' ∧ rest = rest' := by
  have hs : is_ws sel = false := by rcases hsel with rfl | rfl <;> decide
  have hs' : is_ws sel' = false := by rcases hsel' with rfl | rfl <;> decide
  have a := (ws_front w0 sel (w1 ++ ':' :: rest) hw0 hs).2
  have a' := (ws_front w0' sel' (w1' ++ ':' :: rest') hw0' hs').2
  rw [h, a'] at a
  injection a with e1 e2
  have b := (ws_front w1 ':' rest hw1 (by decide)).2
  have b' := (ws_front w1' ':' rest' hw1' (by decide)).2
  rw [e2, b] at b'
  injection b' with _ e3
  exact ⟨e1.symm, e3⟩

/-- Claim C4. `parse_finetune` succeeds exactly when its value is optional
white space, one character `0` or `1`, optional white space, a `:`, exactly
seven float tokens and a blank-or-comment remainder; it returns 0 in every
other case (six or eight floats, no colon, a selector such as `10` or `2`);
and on a `finetune` line of the control file a return of 0 ends `load_cfile`
in the fatal error of that option. -/
theorem parse_finetune_succeeds_iff {D : Type} (E : Env D) (value : List Char) (c : Config D) :
    ((parse_finetune E.sscanf_lf value c).1 = 1 ↔
      ∃ w0 sel w1 rest, value = w0 ++ sel :: (w1 ++ ':' :: rest) ∧
        (∀ x ∈ w0, is_ws x = true) ∧ (sel = '0' ∨ sel = '1') ∧ (∀ x ∈ w1, is_ws x = true) ∧
        (fields rest).length = 7 ∧ ∀ t ∈ fields rest, converts E.sscanf_lf t = true) ∧
    ((parse_finetune E.sscanf_lf value c).1 ≠ 1 → (parse_finetune E.sscanf_lf value c).1 = 0) ∧
    (∀ (line key : List Char) (st : State D), KeyLine line key value →
      key.map tolower = "finetune".toList → st.cfg = c →
      (parse_finetune E.sscanf_lf value c).1 = 0 →
      load_body E line st = .fatal (.finetune (st.line_count + 1))) := by
  refine ⟨⟨?_, ?_⟩, ?_, ?_⟩
  · intro h
    rcases parse_finetune_cases E.sscanf_lf value c with h0 | ⟨_, w0, sel, w1, rest, t1, t2, t3,
      t4, t5, t6, t7, hv, hw0, hsel, hw1, hf, hc, _⟩
    · rw [h0] at h; exact absurd h (by decide)
    · exact ⟨w0, sel, w1, rest, hv, hw0, hsel, hw1, by rw [hf]; rfl, by rw [hf]; exact hc⟩
  · rintro ⟨w0, sel, w1, rest, hv, hw0, hsel, hw1, hlen, hc⟩
    obtain ⟨t1, t2, t3, t4, t5, t6, t7, hf⟩ :
        ∃ t1 t2 t3 t4 t5 t6 t7, fields rest = [t1, t2, t3, t4, t5, t6, t7] := by
      match hm : fields rest, hlen with
      | [t1, t2, t3, t4, t5, t6, t7], _ => exact ⟨t1, t2, t3, t4, t5, t6, t7, rfl⟩
    rw [hf] at hc
    exact parse_finetune_ok E.sscanf_lf value c w0 sel w1 rest t1 t2 t3 t4 t5 t6 t7 hv hw0 hsel
      hw1 hf hc
  · intro h
    rcases parse_finetune_cases E.sscanf_lf value c with h0 | ⟨h1, _⟩
    · exact h0
    · exact absurd h1 h
  · intro line key st hl hk hc h
    subst hc
    rw [load_body_finetune E line key value st hl hk, if_pos h]

/-- Claim C4, run on a `finetune` line with six numbers behind the colon
(fatal) and on the values `10: ...` and `2: ...` (return 0). -/
theorem parse_finetune_succeeds_iff_witness :
    load_body example_env "finetune = 1: 5 0.001 0.001 0.001 0.3 0.33".toList
        { fp := [], line_count := 3, cfg := args_init_config } = .fatal (.finetune 4) ∧
    (parse_finetune decimal_lf "10: 5 0.001 0.001 0.001 0.3 0.33 0.001".toList
      args_init_config).1 = 0 ∧
    (parse_finetune decimal_lf "2: 5 0.001 0.001 0.001 0.3 0.33 0.001".toList
      args_init_config).1 = 0 :=
  ⟨(parse_finetune_succeeds_iff example_env " 1: 5 0.001 0.001 0.001 0.3 0.33".toList
      args_init_config).2.2 "finetune = 1: 5 0.001 0.001 0.001 0.3 0.33".toList
      "finetune".toList { fp := [], line_count := 3, cfg := args_init_config }
      ⟨[], [' '], by decide, by decide, by decide, by decide⟩ (by decide) rfl (by decide),
    (parse_finetune_succeeds_iff example_env "10: 5 0.001 0.001 0.001 0.3 0.33 0.001".toList
      args_init_config).2.1 (by decide),
    (parse_finetune_succeeds_iff example_env "2: 5 0.001 0.001 0.001 0.3 0.33 0.001".toList
      args_init_config).2.1 (by decide)⟩

/-- Claim C5. When `parse_finetune` succeeds on a value with the selector
`sel` and the text `rest` behind the colon, `rest` has seven fields, and
afterwards `opt_finetune_gtage`, `opt_finetune_gtspr`, `opt_finetune_theta`,
`opt_finetune_tau` and `opt_finetune_mix` hold the numbers of the first,
second, third, fourth and fifth field; `opt_finetune_reset` is 1 for the
selector `1` and is unchanged for the selector `0`. -/
theorem parse_finetune_stores {D : Type} (lf : List Char → Option (D × Nat))
    (value : List Char) (c : Config D) (w0 : List Char) (sel : Char) (w1 rest : List Char)
    (hv : value = w0 ++ sel :: (w1 ++ ':' :: rest)) (hw0 : ∀ x ∈ w0, is_ws x = true)
    (hsel : sel = '0' ∨ sel = '1') (hw1 : ∀ x ∈ w1, is_ws x = true)
    (h : (parse_finetune lf value c).1 = 1) :
    ∃ t1 t2 t3 t4 t5 t6 t7, fields rest = [t1, t2, t3, t4, t5, t6, t7] ∧
      (lf t1).map Prod.fst = some (parse_finetune lf value c).2.opt_finetune_gtage ∧
      (lf t2).map Prod.fst = some (parse_finetune lf value c).2.opt_finetune_gtspr ∧
      (lf t3).map Prod.fst = some (parse_finetune lf value c).2.opt_finetune_theta ∧
      (lf t4).map Prod.fst = some (parse_finetune lf value c).2.opt_finetune_tau ∧
      (lf t5).map Prod.fst = some (parse_finetune lf value c).2.opt_finetune_mix ∧
      (sel = '1' → (parse_finetune lf value c).2.opt_finetune_reset = 1) ∧
      (sel = '0' → (parse_finetune lf value c).2.opt_finetune_reset = c.opt_finetune_reset) := by
  rcases parse_finetune_cases lf value c with h0 | ⟨_, w0', sel', w1', rest', t1, t2, t3,
    t4, t5, t6, t7, hv', hw0', hsel', hw1', hf, hc, hcfg⟩
  · rw [h0] at h; exact absurd h (by decide)
  · rw [hv] at hv'
    obtain ⟨rfl, rfl⟩ := finetune_shape_unique w0 sel w1 rest w0' sel' w1' rest' hv' hw0 hsel hw1
      hw0' hsel' hw1'
    refine ⟨t1, t2, t3, t4, t5, t6, t7, hf, ?_, ?_, ?_, ?_, ?_, ?_, ?_⟩
    · rw [hcfg]; exact stored_of_converts lf t1 _ (hc t1 (by simp))
    · rw [hcfg]; exact stored_of_converts lf t2 _ (hc t2 (by simp))
    · rw [hcfg]; exact stored_of_converts lf t3 _ (hc t3 (by simp))
    · rw [hcfg]; exact stored_of_converts lf t4 _ (hc t4 (by simp))
    · rw [hcfg]; exact stored_of_converts lf t5 _ (hc t5 (by simp))
    · intro e; rw [hcfg]; simp [e]
    · intro e; rw [hcfg]; simp [e]

/-- Claim C5, run on the value `1: 5 0.001 0.001 0.001 0.3 0.33 0.001`. -/
theorem parse_finetune_stores_witness :
    ∃ t1 t2 t3 t4 t5 t6 t7,
      fields " 5 0.001 0.001 0.001 0.3 0.33 0.001".toList = [t1, t2, t3, t4, t5, t6, t7] ∧
      (decimal_lf t1).map Prod.fst = some (parse_finetune decimal_lf
        " 1: 5 0.001 0.001 0.001 0.3 0.33 0.001".toList args_init_config).2.opt_finetune_gtage ∧
      (decimal_lf t2).map Prod.fst = some (parse_finetune decimal_lf
        " 1: 5 0.001 0.001 0.001 0.3 0.33 0.001".toList args_init_config).2.opt_finetune_gtspr ∧
      (decimal_lf t3).map Prod.fst = some (parse_finetune decimal_lf
        " 1: 5 0.001 0.001 0.001 0.3 0.33 0.001".toList args_init_config).2.opt_finetune_theta ∧
      (decimal_lf t4).map Prod.fst = some (parse_finetune decimal_lf
        " 1: 5 0.001 0.001 0.001 0.3 0.33 0.001".toList args_init_config).2.opt_finetune_tau ∧
      (decimal_lf t5).map Prod.fst = some (parse_finetune decimal_lf
        " 1: 5 0.001 0.001 0.001 0.3 0.33 0.001".toList args_init_config).2.opt_finetune_mix ∧
      ('1' = '1' → (parse_finetune decimal_lf
        " 1: 5 0.001 0.001 0.001 0.3 0.33 0.001".toList args_init_config).2.opt_finetune_reset
          = 1) ∧
      ('1' = '0' → (parse_finetune decimal_lf
        " 1: 5 0.001 0.001 0.001 0.3 0.33 0.001".toList args_init_config).2.opt_finetune_reset
          = args_init_config.opt_finetune_reset) :=
  parse_finetune_stores decimal_lf " 1: 5 0.001 0.001 0.001 0.3 0.33 0.001".toList
    args_init_config [' '] '1' [] " 5 0.001 0.001 0.001 0.3 0.33 0.001".toList (by decide)
    (by decide) (by decide) (by decide) (by decide)

/-! ## The print record -/

/-- Either `parse_print` returns 0, or it returns 1 and the value has four
integer fields; the configuration is untouched in both cases. -/
theorem parse_print_cases {D : Type} (p0 : List Char) (c : Config D) :
    ((parse_print p0 c).1 = 0 ∧ (parse_print p0 c).2 = c) ∨
    ((parse_print p0 c).1 = 1 ∧ (parse_print p0 c).2 = c ∧
      ∃ t1 t2 t3 t4, fields p0 = [t1, t2, t3, t4] ∧
        ∀ t ∈ [t1, t2, t3, t4], converts sscanf_ld t = true) := by
  simp only [parse_print]
  by_cases h1 : (get_long p0 0).1 = 0
  · rw [if_pos h1]; exact Or.inl ⟨rfl, rfl⟩
  rw [if_neg h1]
  obtain ⟨t1, r1, hf1, hc1, hd1, _⟩ := get_long_inv _ _ h1
  generalize List.drop (get_long p0 0).1 p0 = p1 at *
  by_cases h2 : (get_long p1 0).1 = 0
  · rw [if_pos h2]; exact Or.inl ⟨rfl, rfl⟩
  rw [if_neg h2]
  obtain ⟨t2, r2, hf2, hc2, hd2, _⟩ := get_long_inv _ _ h2
  generalize List.drop (get_long p1 0).1 p1 = p2 at *
  by_cases h3 : (get_long p2 0).1 = 0
  · rw [if_pos h3]; exact Or.inl ⟨rfl, rfl⟩
  rw [if_neg h3]
  obtain ⟨t3, r3, hf3, hc3, hd3, _⟩ := get_long_inv _ _ h3
  generalize List.drop (get_long p2 0).1 p2 = p3 at *
  by_cases h4 : (get_long p3 0).1 = 0
  · rw [if_pos h4]; exact Or.inl ⟨rfl, rfl⟩
  rw [if_neg h4]
  obtain ⟨t4, r4, hf4, hc4, hd4, _⟩ := get_long_inv _ _ h4
  generalize List.drop (get_long p3 0).1 p3 = p4 at *
  by_cases he : is_emptyline p4 = true
  swap
  · rw [if_neg he]; exact Or.inl ⟨rfl, rfl⟩
  rw [if_pos he]
  right
  refine ⟨rfl, rfl, t1, t2, t3, t4, ?_, ?_⟩
  · rw [is_emptyline_iff] at he
    rw [hf1, ← hd1, hf2, ← hd2, hf3, ← hd3, hf4, ← hd4, he]
  · intro t ht
    simp only [List.mem_cons, List.mem_singleton, List.not_mem_nil, or_false] at ht
    rcases ht with rfl | rfl | rfl | rfl <;> assumption

/-- `parse_print` on four integer fields. -/
theorem parse_print_ok {D : Type} (p0 : List Char) (c : Config D) (t1 t2 t3 t4 : List Char)
    (hd0 : fields p0 = [t1, t2, t3, t4])
    (hc : ∀ t ∈ [t1, t2, t3, t4], converts sscanf_ld t = true) :
    (parse_print p0 c).1 = 1 := by
  simp only [parse_print]
  obtain ⟨h1, hd1, _⟩ := get_long_ok p0 0 t1 _ hd0 (hc t1 (by simp))
  rw [if_neg h1]
  generalize List.drop (get_long p0 0).1 p0 = p1 at *
  obtain ⟨h2, hd2, _⟩ := get_long_ok p1 0 t2 _ hd1 (hc t2 (by simp))
  rw [if_neg h2]
  generalize List.drop (get_long p1 0).1 p1 = p2 at *
  obtain ⟨h3, hd3, _⟩ := get_long_ok p2 0 t3 _ hd2 (hc t3 (by simp))
  rw [if_neg h3]
  generalize List.drop (get_long p2 0).1 p2 = p3 at *
  obtain ⟨h4, hd4, _⟩ := get_long_ok p3 0 t4 _ hd3 (hc t4 (by simp))
  rw [if_neg h4]
  generalize List.drop (get_long p3 0).1 p3 = p4 at *
  have he : is_emptyline p4 = true := (is_emptyline_iff p4).mpr hd4
  rw [if_pos he]

/-- Claim C6. `parse_print` succeeds exactly when its value is four integer
tokens followed by a blank-or-comment remainder; three integers (`1 0 0`), five
integers or a token that is no integer make it return 0; and on a `print` line
of the control file a return of 0 ends `load_cfile` in the fatal error of that
option. -/
theorem parse_print_succeeds_iff {D : Type} (E : Env D) (value : List Char) (c : Config D) :
    ((parse_print value c).1 = 1 ↔
      (fields value).length = 4 ∧ ∀ t ∈ fields value, converts sscanf_ld t = true) ∧
    ((parse_print value c).1 ≠ 1 → (parse_print value c).1 = 0) ∧
    (∀ (line key : List Char) (st : State D), KeyLine line key value →
      key.map tolower = "print".toList → st.cfg = c → (parse_print value c).1 = 0 →
      load_body E line st = .fatal (.print (st.line_count + 1))) := by
  refine ⟨⟨?_, ?_⟩, ?_, ?_⟩
  · intro h
    rcases parse_print_cases value c with ⟨h0, _⟩ | ⟨_, _, t1, t2, t3, t4, hf, hc⟩
    · rw [h0] at h; exact absurd h (by decide)
    · exact ⟨by rw [hf]; rfl, by rw [hf]; exact hc⟩
  · rintro ⟨hlen, hc⟩
    obtain ⟨t1, t2, t3, t4, hf⟩ : ∃ t1 t2 t3 t4, fields value = [t1, t2, t3, t4] := by
      match hm : fields value, hlen with
      | [t1, t2, t3, t4], _ => exact ⟨t1, t2, t3, t4, rfl⟩
    rw [hf] at hc
    exact parse_print_ok value c t1 t2 t3 t4 hf hc
  · intro h
    rcases parse_print_cases value c with ⟨h0, _⟩ | ⟨h1, _⟩
    · exact h0
    · exact absurd h1 h
  · intro line key st hl hk hc h
    subst hc
    rw [load_body_print E line key value st hl hk, if_pos h]

/-- Claim C6, run on the line `print = 1 0 0` (fatal) and on the values
`1 0 0 1 1` and `1 0 x 1` (return 0). -/
theorem parse_print_succeeds_iff_witness :
    load_body example_env "print = 1 0 0".toList
        { fp := [], line_count := 0, cfg := args_init_config } = .fatal (.print 1) ∧
    (parse_print "1 0 0 1 1".toList args_init_config).1 = 0 ∧
    (parse_print "1 0 x 1".toList args_init_config).1 = 0 :=
  ⟨(parse_print_succeeds_iff example_env " 1 0 0".toList args_init_config).2.2
      "print = 1 0 0".toList "print".toList { fp := [], line_count := 0, cfg := args_init_config }
      ⟨[], [' '], by decide, by decide, by decide, by decide⟩ (by decide) rfl (by decide),
    (parse_print_succeeds_iff example_env "1 0 0 1 1".toList args_init_config).2.1 (by decide),
    (parse_print_succeeds_iff example_env "1 0 x 1".toList args_init_config).2.1 (by decide)⟩

/-! ## The species&tree record: count and labels -/

theorem words_cons_cons (c d : Char) (s : List Char) (hc : is_ws c = false) :
    words (c :: d :: s) =
      if is_ws d then [c] :: words (d :: s)
      else
        match words (d :: s) with
        | w :: ws => (c :: w) :: ws
        | [] => [[c]] := by
  rw [words]
  simp only [hc, Bool.false_eq_true, if_false]

theorem words_append_ws (t w : List Char) (hw : ∀ c ∈ w, is_ws c = true) :
    words (t ++ w) = words t := by
  induction t with
  | nil => simpa [words] using words_ws_append w [] hw
  | cons c t ih =>
    by_cases hc : is_ws c = true
    · simp only [List.cons_append, words, hc, if_true]; exact ih
    · have hc' : is_ws c = false := by simpa using hc
      cases t with
      | nil =>
        cases w with
        | nil => rfl
        | cons d w =>
          have hd : is_ws d = true := hw d (List.mem_cons_self _ _)
          have hw' : words (d :: w) = [] := by
            simpa [words] using words_ws_append (d :: w) [] hw
          simp only [List.nil_append, List.cons_append, words, hc', hd, if_true]
          simp only [words, hd, if_true] at hw'
          simp [hw']
      | cons d t =>
        simp only [List.cons_append] at ih ⊢
        rw [words_cons_cons c d _ hc', words_cons_cons c d _ hc', ih]

/-- Trailing white space splits off: the rest is empty or ends in a character
that is no white space. -/
theorem rstrip_split (l : List Char) :
    ∃ core w, l = core ++ w ∧ (∀ c ∈ w, is_ws c = true) ∧
      (core = [] ∨ ∃ ini z, core = ini ++ [z] ∧ is_ws z = false) ∧
      (l.reverse.dropWhile is_ws).reverse = core := by
  refine ⟨(l.reverse.dropWhile is_ws).reverse, (l.reverse.takeWhile is_ws).reverse, ?_, ?_, ?_, rfl⟩
  · rw [← List.reverse_append, List.takeWhile_append_dropWhile, List.reverse_reverse]
  · intro c hc
    exact List.mem_takeWhile_imp (List.mem_reverse.mp hc)
  · rcases dropWhile_head is_ws l.reverse with h | ⟨d, r, h, hd⟩
    · left; rw [h]; rfl
    · right; exact ⟨r.reverse, d, by rw [h]; simp, hd⟩

theorem strcspn_comment (s : List Char) : strcspn s ['*', '#'] = (cut_comment s).length := by
  have h : (fun c : Char => !(['*', '#'] : List Char).contains c) =
      (fun c => !(c == '*' || c == '#')) := by
    funext c
    simp only [List.contains, List.elem]
    cases (c == '*') <;> cases (c == '#') <;> rfl
  simp only [strcspn, cut_comment, h]

/-- On a value that is not blank `get_string` returns a non-zero count and
stores the text in front of the comment, trimmed; on a blank value it returns
0 and stores nothing. -/
theorem get_string_spec (s : List Char) (old : Option (List Char)) :
    (fields s = [] ∧ get_string s old = (0, old)) ∨
    (fields s ≠ [] ∧ (get_string s old).1 ≠ 0 ∧
      (get_string s old).2 = some (trim (cut_comment s)) ∧ trim (cut_comment s) ≠ [] ∧
      words (trim (cut_comment s)) = fields s ∧
      ∃ c r, trim (cut_comment s) = c :: r ∧ is_ws c = false) := by
  rcases scan_token s with ⟨h1, h2⟩ | ⟨h1, hne, h3⟩
  · left
    refine ⟨h2, ?_⟩
    simp [get_string, strspn_WS, drop_length_takeWhile, h1]
  · right
    have hf : fields s ≠ [] := by rw [h3]; simp
    refine ⟨hf, ?_⟩
    -- the first character behind the white space
    rcases hd : s.dropWhile is_ws with _ | ⟨k, ks⟩
    · rw [hd] at h1; simp [at_end_or_comment] at h1
    rw [hd] at h1
    have hkc : (k == '*' || k == '#') = false := by simpa [at_end_or_comment] using h1
    have hkw : is_ws k = false := by
      rcases dropWhile_head is_ws s with h | ⟨d, r, h, hdw⟩
      · rw [hd] at h; simp at h
      · rw [hd] at h; injection h with e1 _; rw [e1]; exact hdw
    have hs : s = s.takeWhile is_ws ++ k :: ks := by
      rw [← hd]; exact (List.takeWhile_append_dropWhile _ _).symm
    have hwc : ∀ c ∈ s.takeWhile is_ws, (c == '*' || c == '#') = false :=
      fun c hc => is_ws_not_comment (List.mem_takeWhile_imp hc)
    have hww : ∀ c ∈ s.takeWhile is_ws, is_ws c = true := fun c hc => List.mem_takeWhile_imp hc
    generalize s.takeWhile is_ws = w at *
    have hcc : cut_comment s = w ++ k :: cut_comment ks := by
      rw [hs, cut_comment_append w _ hwc]
      simp [cut_comment, List.takeWhile, hkc]
    obtain ⟨core, w2, hsplit, hw2, hcore, hrev⟩ := rstrip_split (k :: cut_comment ks)
    have htrim : trim (cut_comment s) = core := by
      unfold trim
      rw [hcc, (ws_front w k _ hww hkw).2]
      exact hrev
    have hcne : core ≠ [] := by
      intro e
      rw [e, List.nil_append] at hsplit
      have : is_ws k = true := hw2 k (by rw [← hsplit]; simp)
      rw [hkw] at this; exact absurd this (by decide)
    obtain ⟨ini, z, hiz, hz⟩ : ∃ ini z, core = ini ++ [z] ∧ is_ws z = false := by
      rcases hcore with h | h
      · exact absurd h hcne
      · exact h
    have hck : ∃ r, core = k :: r := by
      cases core with
      | nil => exact absurd rfl hcne
      | cons a r =>
        simp only [List.cons_append, List.cons.injEq] at hsplit
        exact ⟨r, by rw [hsplit.1]⟩
    have hcut : cut_comment s = w ++ core ++ w2 := by
      rw [hcc, hsplit, List.append_assoc]
    have htail : s = cut_comment s ++ s.dropWhile (fun c => !(c == '*' || c == '#')) :=
      (List.takeWhile_append_dropWhile _ _).symm
    generalize s.dropWhile (fun c => !(c == '*' || c == '#')) = tl at htail
    have hs2 : s = (w ++ ini) ++ z :: (w2 ++ tl) := by
      rw [htail, hcut, hiz]; simp
    have hlen : (cut_comment s).length = (w ++ ini).length + 1 + w2.length := by
      rw [hcut, hiz]; simp; omega
    have hsb : scan_back s (cut_comment s).length = some (w ++ ini).length := by
      rw [hlen]
      conv_lhs => rw [hs2]
      exact scan_back_ws (w ++ ini) z w2 tl hz hw2
    have he : (w ++ ini).length + 1 = (w ++ core).length := by rw [hiz]; simp; omega
    have htake : (s.take (w ++ core).length).drop w.length = core := by
      have : s = (w ++ core) ++ (w2 ++ tl) := by rw [htail, hcut]; simp
      conv_lhs => rw [this]
      rw [List.take_left, List.drop_left]
    have hwtw : s.takeWhile is_ws = w := by
      rw [hs]; exact (ws_front w k ks hww hkw).1
    have h1' : at_end_or_comment (s.drop w.length) = false := by
      have : s.drop w.length = k :: ks := by
        conv_lhs => rw [hs]
        rw [List.drop_left]
      rw [this]; exact h1
    have hgs : get_string s old = (w.length + ((w ++ core).length - w.length), some core) := by
      simp only [get_string, strspn_WS, strcspn_comment, hwtw, h1', hsb,
        Option.getD_some, he, Bool.false_eq_true, if_false, htake]
    refine ⟨?_, ?_, ?_, ?_, ?_⟩
    · rw [hgs]
      have : 0 < core.length := List.length_pos.mpr hcne
      simp only [List.length_append]
      omega
    · rw [hgs, htrim]
    · rw [htrim]; exact hcne
    · rw [htrim]
      simp only [fields]
      rw [hcut, List.append_assoc, words_ws_append w _ hww, words_append_ws core w2 hw2]
    · obtain ⟨r, hr⟩ := hck
      exact ⟨k, r, by rw [htrim, hr], hkw⟩

theorem join_counted_length (ls : List (List Char)) :
    join_counted (ls.length : Int) ls = List.intercalate [','] ls := by
  induction ls with
  | nil => rfl
  | cons l ls ih =>
    have e : ((l :: ls).length : Int) - 1 = (ls.length : Int) := by simp
    rw [join_counted, e, ih]
    cases ls with
    | nil => simp [List.intercalate]
    | cons m ms =>
      have : ((m :: ms).length : Int) ≠ 0 := by simp; omega
      rw [if_pos this]
      simp [List.intercalate, List.intersperse]

/-- The first label of a cursor that stands on a character other than white
space, and the cursor behind that label and the white space after it. -/
theorem words_step (c : Char) (r : List Char) (hc : is_ws c = false) :
    (c :: r).takeWhile (fun x => !is_ws x) ≠ [] ∧
    words (c :: r) = (c :: r).takeWhile (fun x => !is_ws x) ::
      words (((c :: r).dropWhile (fun x => !is_ws x)).dropWhile is_ws) := by
  have hne : (c :: r).takeWhile (fun x => !is_ws x) ≠ [] := by simp [List.takeWhile, hc]
  refine ⟨hne, ?_⟩
  have hsplit := (List.takeWhile_append_dropWhile (fun x => !is_ws x) (c :: r)).symm
  have ht : ∀ x ∈ (c :: r).takeWhile (fun x => !is_ws x), is_ws x = false := by
    intro x hx; simpa using List.mem_takeWhile_imp hx
  have hrest := dropWhile_head (fun x => !is_ws x) (c :: r)
  generalize (c :: r).takeWhile (fun x => !is_ws x) = t at *
  generalize (c :: r).dropWhile (fun x => !is_ws x) = rest at *
  rw [hsplit, words_token t rest hne ht (by
    rcases hrest with h | ⟨d, r', h, hd⟩
    · exact Or.inl h
    · exact Or.inr ⟨d, r', h, by simpa using hd⟩)]
  congr 1
  have h2 := (List.takeWhile_append_dropWhile is_ws rest).symm
  conv_lhs => rw [h2]
  exact words_ws_append _ _ (fun x hx => List.mem_takeWhile_imp hx)

theorem strcspn_label (p : List Char) :
    strcspn p WS_LABEL = (p.takeWhile (fun x => !is_ws x)).length := by
  simp only [strcspn, WS_LABEL_contains]

theorem strspn_label (p : List Char) : strspn p WS_LABEL = (p.takeWhile is_ws).length := by
  simp only [strspn, WS_LABEL_contains]

/-- The label loop, started on a cursor that is at the end or on a character
other than white space, runs to the end of the string within one pass per
character: it counts the labels down and appends them with their commas. -/
theorem reorder_loop_spec (fuel : Nat) (p : List Char) (n : Int) (acc : List Char)
    (hp : p = [] ∨ ∃ c r, p = c :: r ∧ is_ws c = false) (hfuel : p.length < fuel) :
    reorder_loop fuel p n acc =
      some (true, n - (words p).length, acc ++ join_counted n (words p)) := by
  induction fuel generalizing p n acc with
  | zero => omega
  | succ fuel ih =>
    rcases hp with rfl | ⟨c, r, rfl, hc⟩
    · simp [reorder_loop, words, join_counted]
    · obtain ⟨hne, hw⟩ := words_step c r hc
      have hpos : 0 < ((c :: r).takeWhile (fun x => !is_ws x)).length := List.length_pos.mpr hne
      have hcount : ¬ (((c :: r).takeWhile (fun x => !is_ws x)).length = 0 ∧ n ≠ 0) := by omega
      rw [reorder_loop]
      simp only [List.isEmpty_cons, Bool.false_eq_true, if_false, strcspn_label, hcount,
        take_length_takeWhile, drop_length_takeWhile, strspn_label]
      have hlen : (((c :: r).dropWhile (fun x => !is_ws x)).dropWhile is_ws).length < fuel := by
        have h1 : ((c :: r).dropWhile (fun x => !is_ws x)).length < (c :: r).length := by
          have := congrArg List.length
            (List.takeWhile_append_dropWhile (fun x => !is_ws x) (c :: r))
          rw [List.length_append] at this
          omega
        have h2 : (((c :: r).dropWhile (fun x => !is_ws x)).dropWhile is_ws).length ≤
            ((c :: r).dropWhile (fun x => !is_ws x)).length := by
          have := congrArg List.length
            (List.takeWhile_append_dropWhile is_ws ((c :: r).dropWhile (fun x => !is_ws x)))
          rw [List.length_append] at this
          omega
        omega
      rw [ih _ _ _ (dropWhile_head is_ws _) hlen, hw]
      simp only [join_counted, List.length_cons, Nat.cast_add, Nat.cast_one]
      have e1 : n - 1 - ((words (List.dropWhile is_ws
          (List.dropWhile (fun x => !is_ws x) (c :: r)))).length : Int) =
          n - (((words (List.dropWhile is_ws
            (List.dropWhile (fun x => !is_ws x) (c :: r)))).length : Int) + 1) := by omega
      rw [e1]
      by_cases hn : n - 1 = 0 <;> simp [hn]

/-- `parse_speciesandtree` on a value whose first field is an integer token
followed by at least one label. -/
theorem parse_speciesandtree_labels {D : Type} (value : List Char) (c : Config D)
    (t : List Char) (labels : List (List Char)) (hf : fields value = t :: labels)
    (hc : converts sscanf_ld t = true) (hl : labels ≠ []) :
    parse_speciesandtree value c =
      (if stored sscanf_ld t 0 - (labels.length : Int) = 0 then 1 else 0,
        { c with opt_reorder := some (join_counted (stored sscanf_ld t 0) labels) }) := by
  obtain ⟨h1, hd1, hv1⟩ := get_long_ok value 0 t labels hf hc
  simp only [parse_speciesandtree]
  rw [if_neg h1, hv1]
  generalize List.drop (get_long value 0).1 value = p at *
  rcases get_string_spec p none with ⟨hb, _⟩ | ⟨_, hg1, hg2, _, hw, k, r, hk, hkw⟩
  · rw [hd1] at hb; exact absurd hb hl
  · rw [if_neg hg1, hg2]
    simp only [Option.getD_some]
    rw [reorder_loop_spec _ _ _ _ (Or.inr ⟨k, r, hk, hkw⟩) (Nat.lt_succ_self _), hw, hd1]
    simp only [List.nil_append, true_and]
    split <;> rfl

/-- `parse_speciesandtree` returns 0 when its value has no field, when the
first field is no integer token, or when no label follows. -/
theorem parse_speciesandtree_zero {D : Type} (value : List Char) (c : Config D)
    (h : fields value = [] ∨ ∃ t labels, fields value = t :: labels ∧
      (converts sscanf_ld t = false ∨ labels = [])) :
    (parse_speciesandtree value c).1 = 0 := by
  simp only [parse_speciesandtree]
  by_cases h1 : (get_long value 0).1 = 0
  · rw [if_pos h1]
  rw [if_neg h1]
  obtain ⟨t, rest, hf, hc, hd, _⟩ := get_long_inv value 0 h1
  rcases h with h | ⟨t', labels, hf', h⟩
  · rw [h] at hf; exact absurd hf (by simp)
  · rw [hf] at hf'
    injection hf' with e1 e2
    subst e1 e2
    rcases h with h | h
    · rw [hc] at h; exact absurd h (by decide)
    · subst h
      rcases get_string_spec (List.drop (get_long value 0).1 value) none with
        ⟨_, hg⟩ | ⟨hne, _⟩
      · rw [hg]; rfl
      · exact absurd hd hne

/-- Claim C7. `parse_speciesandtree` succeeds exactly when its value is an
integer token followed by a remainder that is not blank and that, cut at the
first `*` or `#` and trimmed, consists of as many white-space separated labels
as the integer says; a count that differs from the number of labels in either
direction (`2 A B C`, `4 A B C`) makes it return 0; and on a `species&tree`
line of the control file a return of 0 ends `load_cfile` in the fatal error of
that option. -/
theorem parse_speciesandtree_succeeds_iff {D : Type} (E : Env D) (value : List Char)
    (c : Config D) :
    ((parse_speciesandtree value c).1 = 1 ↔
      ∃ t labels, fields value = t :: labels ∧ converts sscanf_ld t = true ∧ labels ≠ [] ∧
        (sscanf_ld t).map Prod.fst = some (labels.length : Int)) ∧
    ((parse_speciesandtree value c).1 ≠ 1 → (parse_speciesandtree value c).1 = 0) ∧
    (∀ (line key : List Char) (st : State D), KeyLine line key value →
      key.map tolower = "species&tree".toList → st.cfg = c →
      (parse_speciesandtree value c).1 = 0 →
      load_body E line st = .fatal (.speciesandtree (st.line_count + 1))) := by
  have main : ∀ t labels, fields value = t :: labels → converts sscanf_ld t = true →
      labels ≠ [] →
      ((parse_speciesandtree value c).1 = 1 ↔
        (sscanf_ld t).map Prod.fst = some (labels.length : Int)) ∧
      ((parse_speciesandtree value c).1 ≠ 1 → (parse_speciesandtree value c).1 = 0) := by
    intro t labels hf hc hl
    rw [parse_speciesandtree_labels value c t labels hf hc hl,
      stored_of_converts sscanf_ld t 0 hc]
    simp only [Option.some.injEq]
    by_cases e : stored sscanf_ld t 0 - (labels.length : Int) = 0
    · rw [if_pos e]
      exact ⟨⟨fun _ => by omega, fun _ => rfl⟩, fun h => absurd rfl h⟩
    · rw [if_neg e]
      exact ⟨⟨fun h => absurd h (by decide), fun h => absurd (by omega) e⟩, fun _ => rfl⟩
  have zero : (¬ ∃ t labels, fields value = t :: labels ∧ converts sscanf_ld t = true ∧
      labels ≠ []) → (parse_speciesandtree value c).1 = 0 := by
    intro hno
    apply parse_speciesandtree_zero
    rcases hf : fields value with _ | ⟨t, labels⟩
    · exact Or.inl rfl
    · right
      refine ⟨t, labels, rfl, ?_⟩
      by_cases hc : converts sscanf_ld t = true
      · right
        by_contra hl
        exact hno ⟨t, labels, hf, hc, hl⟩
      · left; simpa using hc
  refine ⟨⟨?_, ?_⟩, ?_, ?_⟩
  · intro h
    by_cases hex : ∃ t labels, fields value = t :: labels ∧ converts sscanf_ld t = true ∧
        labels ≠ []
    · obtain ⟨t, labels, hf, hc, hl⟩ := hex
      exact ⟨t, labels, hf, hc, hl, ((main t labels hf hc hl).1).mp h⟩
    · rw [zero hex] at h; exact absurd h (by decide)
  · rintro ⟨t, labels, hf, hc, hl, hn⟩
    exact ((main t labels hf hc hl).1).mpr hn
  · intro h
    by_cases hex : ∃ t labels, fields value = t :: labels ∧ converts sscanf_ld t = true ∧
        labels ≠ []
    · obtain ⟨t, labels, hf, hc, hl⟩ := hex
      exact (main t labels hf hc hl).2 h
    · exact zero hex
  · intro line key st hl hk hc h
    subst hc
    rw [load_body_speciesandtree E line key value st hl hk, if_pos h]

/-- Claim C7, run on the line `species&tree = 2 A B C` (fatal) and on the
value `4 A B C` (return 0). -/
theorem parse_speciesandtree_succeeds_iff_witness :
    load_body example_env "species&tree = 2 A B C".toList
        { fp := "\n(A,B);\n".toList, line_count := 0, cfg := args_init_config } =
      .fatal (.speciesandtree 1) ∧
    (parse_speciesandtree "4 A B C".toList args_init_config).1 = 0 :=
  ⟨(parse_speciesandtree_succeeds_iff example_env " 2 A B C".toList args_init_config).2.2
      "species&tree = 2 A B C".toList "species&tree".toList
      { fp := "\n(A,B);\n".toList, line_count := 0, cfg := args_init_config }
      ⟨[], [' '], by decide, by decide, by decide, by decide⟩ (by decide) rfl (by decide),
    (parse_speciesandtree_succeeds_iff example_env "4 A B C".toList args_init_config).2.1
      (by decide)⟩

/-- No white space occurs inside a word. -/
theorem words_no_ws (s : List Char) : ∀ w ∈ words s, ∀ x ∈ w, is_ws x = false := by
  induction s with
  | nil => intro w hw; simp [words] at hw
  | cons c s ih =>
    intro w hw
    by_cases hc : is_ws c = true
    · simp only [words, hc, if_true] at hw
      exact ih w hw
    · have hc' : is_ws c = false := by simpa using hc
      cases s with
      | nil =>
        simp only [words, hc', Bool.false_eq_true, if_false, List.mem_singleton] at hw
        subst hw
        intro x hx
        simp only [List.mem_singleton] at hx
        subst hx; exact hc'
      | cons d s =>
        rw [words_cons_cons c d s hc'] at hw
        by_cases hd : is_ws d = true
        · rw [if_pos hd] at hw
          rcases List.mem_cons.mp hw with rfl | hw
          · intro x hx
            simp only [List.mem_singleton] at hx
            subst hx; exact hc'
          · exact ih w hw
        · rw [if_neg hd] at hw
          rcases hws : words (d :: s) with _ | ⟨v, vs⟩
          · rw [hws] at hw
            simp only [List.mem_singleton] at hw
            subst hw
            intro x hx
            simp only [List.mem_singleton] at hx
            subst hx; exact hc'
          · rw [hws] at hw ih
            rcases List.mem_cons.mp hw with rfl | hw
            · intro x hx
              rcases List.mem_cons.mp hx with rfl | hx
              · exact hc'
              · exact ih v (List.mem_cons_self _ _) x hx
            · exact ih w (List.mem_cons_of_mem _ hw)

theorem mem_intersperse_imp (sep : List Char) (ls : List (List Char)) :
    ∀ l ∈ List.intersperse sep ls, l = sep ∨ l ∈ ls := by
  induction ls with
  | nil => intro l hl; simp at hl
  | cons a ls ih =>
    cases ls with
    | nil => intro l hl; simp at hl; exact Or.inr (by simp [hl])
    | cons b ls =>
      intro l hl
      rw [List.intersperse_cons_cons] at hl
      rcases List.mem_cons.mp hl with rfl | hl
      · exact Or.inr (List.mem_cons_self _ _)
      · rcases List.mem_cons.mp hl with rfl | hl
        · exact Or.inl rfl
        · rcases ih l hl with h | h
          · exact Or.inl h
          · exact Or.inr (List.mem_cons_of_mem _ h)

/-- Claim C8. When `parse_speciesandtree` succeeds, its value is an integer
token followed by labels `l1 .. ln`, and `opt_reorder` is the text
`l1,l2,...,ln`: the labels in their order, joined by single commas, with no
comma in front or behind and without white space. -/
theorem parse_speciesandtree_reorder {D : Type} (value : List Char) (c : Config D)
    (h : (parse_speciesandtree value c).1 = 1) :
    ∃ t labels, fields value = t :: labels ∧
      (parse_speciesandtree value c).2.opt_reorder = some (List.intercalate [','] labels) ∧
      ∀ x ∈ List.intercalate [','] labels, is_ws x = false := by
  rcases hf : fields value with _ | ⟨t, labels⟩
  · rw [parse_speciesandtree_zero value c (Or.inl hf)] at h; exact absurd h (by decide)
  by_cases hc : converts sscanf_ld t = true
  swap
  · rw [parse_speciesandtree_zero value c (Or.inr ⟨t, labels, hf, Or.inl (by simpa using hc)⟩)]
      at h
    exact absurd h (by decide)
  by_cases hl : labels = []
  · rw [parse_speciesandtree_zero value c (Or.inr ⟨t, labels, hf, Or.inr hl⟩)] at h
    exact absurd h (by decide)
  rw [parse_speciesandtree_labels value c t labels hf hc hl] at h ⊢
  have hn : stored sscanf_ld t 0 = (labels.length : Int) := by
    by_contra hne
    have : ¬ (stored sscanf_ld t 0 - (labels.length : Int) = 0) := by omega
    rw [if_neg this] at h
    simp at h
  refine ⟨t, labels, rfl, ?_, ?_⟩
  · simp only [hn, join_counted_length]
  · intro x hx
    have hw : ∀ w ∈ labels, ∀ y ∈ w, is_ws y = false := by
      intro w hw
      exact words_no_ws (cut_comment value) w (by
        show w ∈ fields value
        rw [hf]; exact List.mem_cons_of_mem _ hw)
    simp only [List.intercalate, List.mem_flatten] at hx
    obtain ⟨l, hl1, hl2⟩ := hx
    rcases mem_intersperse_imp [','] labels l hl1 with rfl | hmem
    · simp only [List.mem_singleton] at hl2
      subst hl2; decide
    · exact hw l hmem x hl2

/-- Claim C8, run on the value `3 A B C`. -/
theorem parse_speciesandtree_reorder_witness :
    ∃ t labels, fields "3 A B C".toList = t :: labels ∧
      (parse_speciesandtree "3 A B C".toList args_init_config).2.opt_reorder =
        some (List.intercalate [','] labels) ∧
      ∀ x ∈ List.intercalate [','] labels, is_ws x = false :=
  parse_speciesandtree_reorder "3 A B C".toList args_init_config (by decide)

/-! ## The species&tree record: the two further lines -/

theorem is_text_line_spec {l : List Char} (h : is_text_line l = true) :
    (∀ c ∈ l, c ≠ '\n') ∧ (∀ c ∈ l, c ≠ '\x00') := by
  simp only [is_text_line, List.all_eq_true, Bool.and_eq_true, bne_iff_ne] at h
  exact ⟨fun c hc => (h c hc).1, fun c hc => (h c hc).2⟩

theorem fgets_read_no_newline (k : Nat) (l : List Char) (hl : ∀ c ∈ l, c ≠ '\n') :
    fgets_read k l = (l.take k, l.drop k) := by
  induction k generalizing l with
  | zero => simp [fgets_read]
  | succ k ih =>
    cases l with
    | nil => simp [fgets_read]
    | cons c l =>
      have hc : c ≠ '\n' := hl c (List.mem_cons_self _ _)
      simp [fgets_read, hc, ih l (fun d hd => hl d (List.mem_cons_of_mem _ hd))]

theorem fgets_read_newline (k : Nat) (l rest : List Char) (hl : ∀ c ∈ l, c ≠ '\n') :
    fgets_read k (l ++ '\n' :: rest) =
      if l.length < k then (l ++ ['\n'], rest) else (l.take k, l.drop k ++ '\n' :: rest) := by
  induction k generalizing l with
  | zero => simp [fgets_read]
  | succ k ih =>
    cases l with
    | nil => simp [fgets_read]
    | cons c l =>
      have hc : c ≠ '\n' := hl c (List.mem_cons_self _ _)
      have ih' := ih l (fun d hd => hl d (List.mem_cons_of_mem _ hd))
      simp only [List.cons_append, fgets_read, hc, if_false, List.length_cons,
        Nat.add_lt_add_iff_right]
      have e : l.append ('\n' :: rest) = l ++ '\n' :: rest := rfl
      rw [e, ih']
      split <;> simp

theorem strlen_no_nul (b : List Char) (hb : ∀ c ∈ b, c ≠ '\x00') : strlen b = b.length := by
  unfold strlen
  rw [List.takeWhile_eq_self_iff.mpr (fun c hc => by simpa using hb c hc)]

theorem get?_ne_of_forall_ne (b : List Char) (x : Char) (i : Nat) (hb : ∀ c ∈ b, c ≠ x) :
    b.get? i ≠ some x := by
  intro h
  exact hb x (List.get?_mem h) rfl

theorem take_ne_nil (l : List Char) (k : Nat) (hk : 0 < k) (hl : l ≠ []) : l.take k ≠ [] := by
  cases l with
  | nil => exact absurd rfl hl
  | cons c l =>
    cases k with
    | zero => omega
    | succ k => simp

theorem fgets_of_two_le (N : Nat) (hN : 2 ≤ N) (c : Char) (fp : List Char) :
    fgets N (c :: fp) = some (fgets_read (N - 1) (c :: fp)) := by
  have h0 : N ≠ 0 := by omega
  have h1 : N ≠ 1 := by omega
  simp [fgets, h0, h1]

theorem fgets_nil (N : Nat) (hN : 2 ≤ N) : fgets N [] = none := by
  have h0 : N ≠ 0 := by omega
  have h1 : N ≠ 1 := by omega
  simp [fgets, h0, h1]

/-- One pass of the reading loop over a chunk that holds no newline and no NUL
and is not empty: the chunk is appended and the loop goes on. -/
theorem getnextline_loop_chunk (N fuel : Nat) (acc buffer fp fp' : List Char)
    (hf : fgets N fp = some (buffer, fp')) (hne : buffer ≠ [])
    (hnl : ∀ c ∈ buffer, c ≠ '\n') (hnul : ∀ c ∈ buffer, c ≠ '\x00') :
    getnextline_loop N (fuel + 1) acc fp = getnextline_loop N fuel (acc ++ buffer) fp' := by
  have hlen : strlen buffer = buffer.length := strlen_no_nul buffer hnul
  have hpos : buffer.length ≠ 0 := fun e => hne (List.length_eq_zero.mp e)
  rw [getnextline_loop, hf]
  simp only [hlen, hpos, if_false, List.take_length, get?_ne_of_forall_ne buffer '\n' _ hnl]

/-- One pass of the reading loop over a chunk that ends in the newline. -/
theorem getnextline_loop_last (N fuel : Nat) (acc l fp fp' : List Char)
    (hf : fgets N fp = some (l ++ ['\n'], fp')) (hnul : ∀ c ∈ l, c ≠ '\x00') :
    getnextline_loop N (fuel + 1) acc fp = some (.line (acc ++ l) fp') := by
  have hlen : strlen (l ++ ['\n']) = (l ++ ['\n']).length := by
    apply strlen_no_nul
    intro c hc
    rcases List.mem_append.mp hc with h | h
    · exact hnul c h
    · simp only [List.mem_singleton] at h; subst h; decide
  have hget : (l ++ ['\n']).get? ((l ++ ['\n']).length - 1) = some '\n' := by
    have : (l ++ ['\n']).length - 1 = l.length := by simp
    rw [this]; exact get?_append_length l '\n' []
  rw [getnextline_loop, hf]
  simp only [hlen, hget, List.take_length, if_true]
  have : (l ++ ['\n']).length ≠ 0 := by simp
  simp only [this, if_false, ← List.append_assoc, List.dropLast_concat]

/-- Reading a stream that starts with a text line and its newline gives the
line and the stream behind the newline, whatever the chunk size. -/
theorem getnextline_loop_newline (N : Nat) (hN : 2 ≤ N) (fuel : Nat) (acc l rest : List Char)
    (hl : is_text_line l = true) (hfuel : l.length < fuel) :
    getnextline_loop N fuel acc (l ++ '\n' :: rest) = some (.line (acc ++ l) rest) := by
  induction fuel generalizing acc l with
  | zero => omega
  | succ fuel ih =>
    obtain ⟨hnl, hnul⟩ := is_text_line_spec hl
    have hf : fgets N (l ++ '\n' :: rest) = some (fgets_read (N - 1) (l ++ '\n' :: rest)) := by
      cases l with
      | nil => exact fgets_of_two_le N hN _ _
      | cons c l => exact fgets_of_two_le N hN _ _
    rw [fgets_read_newline (N - 1) l rest hnl] at hf
    by_cases hshort : l.length < N - 1
    · rw [if_pos hshort] at hf
      exact getnextline_loop_last N fuel acc l _ rest hf hnul
    · rw [if_neg hshort] at hf
      have hne : l.take (N - 1) ≠ [] := by
        apply take_ne_nil _ _ (by omega)
        intro e
        rw [e] at hshort
        simp only [List.length_nil] at hshort
        omega
      rw [getnextline_loop_chunk N fuel acc _ _ _ hf hne
        (fun c hc => hnl c (List.mem_of_mem_take hc))
        (fun c hc => hnul c (List.mem_of_mem_take hc))]
      have hl' : is_text_line (l.drop (N - 1)) = true := by
        simp only [is_text_line, List.all_eq_true] at hl ⊢
        exact fun c hc => hl c (List.mem_of_mem_drop hc)
      have hlen : (l.drop (N - 1)).length < fuel := by
        simp only [List.length_drop]; omega
      rw [ih _ _ hl' hlen, List.append_assoc, List.take_append_drop]

/-- Reading a stream that ends without a newline gives its text as the last
line, or the end of the stream when nothing is left. -/
theorem getnextline_loop_end (N : Nat) (hN : 2 ≤ N) (fuel : Nat) (acc l : List Char)
    (hl : is_text_line l = true) (hfuel : l.length < fuel) :
    getnextline_loop N fuel acc l =
      some (if (acc ++ l).length = 0 then .eof else .line (acc ++ l) []) := by
  induction fuel generalizing acc l with
  | zero => omega
  | succ fuel ih =>
    obtain ⟨hnl, hnul⟩ := is_text_line_spec hl
    cases l with
    | nil =>
      rw [getnextline_loop, fgets_nil N hN]
      simp only [List.append_nil]
      split <;> rfl
    | cons c l =>
      have hf := fgets_of_two_le N hN c l
      rw [fgets_read_no_newline (N - 1) (c :: l) hnl] at hf
      have hne : (c :: l).take (N - 1) ≠ [] := take_ne_nil _ _ (by omega) (by simp)
      rw [getnextline_loop_chunk N fuel acc _ _ _ hf hne
        (fun d hd => hnl d (List.mem_of_mem_take hd))
        (fun d hd => hnul d (List.mem_of_mem_take hd))]
      have hl' : is_text_line ((c :: l).drop (N - 1)) = true := by
        simp only [is_text_line, List.all_eq_true] at hl ⊢
        exact fun d hd => hl d (List.mem_of_mem_drop hd)
      have hlen : ((c :: l).drop (N - 1)).length < fuel := by
        simp only [List.length_drop, List.length_cons] at hfuel ⊢; omega
      rw [ih _ _ hl' hlen, List.append_assoc, List.take_append_drop]

/-- The call `getnextline` on a stream that starts with a text line and its
newline. -/
theorem getnextline_newline (N : Nat) (hN : 2 ≤ N) (l rest : List Char)
    (hl : is_text_line l = true) : getnextline N (l ++ '\n' :: rest) = .line l rest := by
  unfold getnextline
  rw [getnextline_loop_newline N hN _ [] l rest hl (by simp; omega)]
  rfl

/-- The call `getnextline` at the end of the stream. -/
theorem getnextline_nil (N : Nat) (hN : 2 ≤ N) : getnextline N [] = .eof := by
  unfold getnextline
  rw [getnextline_loop_end N hN _ [] [] (by decide) (by simp)]
  rfl

/-- The call `getnextline` on a last line without newline. -/
theorem getnextline_last (N : Nat) (hN : 2 ≤ N) (l : List Char) (hl : is_text_line l = true)
    (hne : l ≠ []) : getnextline N l = .line l [] := by
  unfold getnextline
  rw [getnextline_loop_end N hN _ [] l hl (by simp)]
  have : l.length ≠ 0 := fun e => hne (List.length_eq_zero.mp e)
  simp only [this, if_false, Option.getD_some, List.nil_append]

/-- `parse_speciesandtree` writes no option variable but `opt_reorder`. -/
theorem parse_speciesandtree_frame {D : Type} (value : List Char) (c : Config D) :
    (parse_speciesandtree value c).2 =
      { c with opt_reorder := (parse_speciesandtree value c).2.opt_reorder } := by
  simp only [parse_speciesandtree]
  split
  · rfl
  · split
    · rfl
    · split
      · rfl
      · split <;> rfl

/-- The count that `get_string` returns and the text it stores on a value
that is not blank do not depend on the previous content of the target. -/
theorem get_string_old (s : List Char) (old : Option (List Char)) :
    (get_string s old).1 = (get_string s none).1 ∧
    ((get_string s none).1 ≠ 0 → (get_string s old).2 = (get_string s none).2) := by
  rcases get_string_spec s old with ⟨hb, h⟩ | ⟨hf, _, h2, _⟩
  · rcases get_string_spec s none with ⟨_, h'⟩ | ⟨hf', _⟩
    · rw [h, h']; exact ⟨rfl, fun e => absurd rfl e⟩
    · exact absurd hb hf'
  · rcases get_string_spec s none with ⟨hb', _⟩ | ⟨_, _, h2', _⟩
    · exact absurd hb' hf
    · refine ⟨?_, fun _ => by rw [h2, h2']⟩
      simp only [get_string]
      split <;> rfl

/-- The `species&tree` branch of `load_cfile` on a stream that holds the two
further lines of the record. -/
theorem load_body_speciesandtree_lines {D : Type} (E : Env D) (hN : 2 ≤ E.LINEALLOC)
    (line key value : List Char) (st : State D) (hl : KeyLine line key value)
    (hk : key.map tolower = "species&tree".toList)
    (hp : (parse_speciesandtree value st.cfg).1 = 1)
    (l1 l2 rest : List Char) (h1 : is_text_line l1 = true) (h2 : is_text_line l2 = true)
    (hfp : st.fp = l1 ++ '\n' :: (l2 ++ '\n' :: rest) ∨
      (st.fp = l1 ++ '\n' :: l2 ∧ l2 ≠ [] ∧ rest = [])) :
    load_body E line st =
      if (get_string l2 none).1 = 0 then .fatal (.expected_newick (st.line_count + 2))
      else .ok { fp := rest, line_count := st.line_count + 2,
                 cfg := { st.cfg with
                   opt_reorder := (parse_speciesandtree value st.cfg).2.opt_reorder,
                   opt_streenewick := (get_string l2 none).2 } } := by
  have hp0 : ¬ (parse_speciesandtree value st.cfg).1 = 0 := by rw [hp]; decide
  have e2 : st.line_count + 1 + 1 = st.line_count + 2 := by omega
  have hg1 : ∃ fp1, getnextline E.LINEALLOC st.fp = .line l1 fp1 ∧
      getnextline E.LINEALLOC fp1 = .line l2 rest := by
    rcases hfp with h | ⟨h, hne, hr⟩
    · exact ⟨l2 ++ '\n' :: rest, by rw [h]; exact getnextline_newline _ hN l1 _ h1,
        getnextline_newline _ hN l2 _ h2⟩
    · exact ⟨l2, by rw [h]; exact getnextline_newline _ hN l1 _ h1,
        by rw [hr]; exact getnextline_last _ hN l2 h2 hne⟩
  obtain ⟨fp1, ha, hb⟩ := hg1
  rw [load_body_speciesandtree E line key value st hl hk, if_neg hp0, ha]
  simp only [hb, e2]
  obtain ⟨hc1, hc2⟩ := get_string_old l2 (parse_speciesandtree value st.cfg).2.opt_streenewick
  rw [hc1]
  by_cases hz : (get_string l2 none).1 = 0
  · rw [if_pos hz, if_pos hz]
  · rw [if_neg hz, if_neg hz, hc2 hz]
    conv_lhs => rw [parse_speciesandtree_frame value st.cfg]

/-- Claim C9. When the loop body of `load_cfile` meets a `species&tree` line
whose value parses, the next two physical lines belong to the record: if the
stream ends before the first or before the second of them the parse is fatal;
otherwise neither line is dispatched as an option line, the outcome does not
depend on the text `l1` of the first one, the configuration changes in
`opt_reorder` and `opt_streenewick` only (a first line `seed = 5` changes
nothing), and the stream handed back to the main loop starts behind the second
line. -/
theorem load_cfile_speciesandtree_consumes_two_lines {D : Type} (E : Env D)
    (hN : 2 ≤ E.LINEALLOC) (line key value : List Char) (st : State D)
    (hl : KeyLine line key value) (hk : key.map tolower = "species&tree".toList)
    (hp : (parse_speciesandtree value st.cfg).1 = 1) :
    (st.fp = [] → load_body E line st = .fatal (.incomplete_record (st.line_count + 1))) ∧
    (∀ l1, is_text_line l1 = true → (st.fp = l1 ++ ['\n'] ∨ (st.fp = l1 ∧ l1 ≠ [])) →
      load_body E line st = .fatal (.incomplete_record (st.line_count + 2))) ∧
    (∀ l1 l2 rest, is_text_line l1 = true → is_text_line l2 = true →
      (st.fp = l1 ++ '\n' :: (l2 ++ '\n' :: rest) ∨
        (st.fp = l1 ++ '\n' :: l2 ∧ l2 ≠ [] ∧ rest = [])) →
      load_body E line st =
        if (get_string l2 none).1 = 0 then .fatal (.expected_newick (st.line_count + 2))
        else .ok { fp := rest, line_count := st.line_count + 2,
                   cfg := { st.cfg with
                     opt_reorder := (parse_speciesandtree value st.cfg).2.opt_reorder,
                     opt_streenewick := (get_string l2 none).2 } }) := by
  have hp0 : ¬ (parse_speciesandtree value st.cfg).1 = 0 := by rw [hp]; decide
  have e2 : st.line_count + 1 + 1 = st.line_count + 2 := by omega
  refine ⟨?_, ?_, ?_⟩
  · intro h
    rw [load_body_speciesandtree E line key value st hl hk, if_neg hp0, h,
      getnextline_nil _ hN]
  · intro l1 h1 h
    rw [load_body_speciesandtree E line key value st hl hk, if_neg hp0]
    rcases h with h | ⟨h, hne⟩
    · rw [h, getnextline_newline _ hN l1 [] h1]
      simp only [getnextline_nil _ hN, e2]
    · rw [h, getnextline_last _ hN l1 h1 hne]
      simp only [getnextline_nil _ hN, e2]
  · intro l1 l2 rest h1 h2 hfp
    exact load_body_speciesandtree_lines E hN line key value st hl hk hp l1 l2 rest h1 h2 hfp

/-- Claim C9, run on the record `species&tree = 3 A B C` followed by the
lines `seed = 5` and `(A,B);` and one more line. -/
theorem load_cfile_speciesandtree_consumes_two_lines_witness :
    load_body example_env "species&tree = 3 A B C".toList
        { fp := "seed = 5\n(A,B);\nburnin = 7\n".toList, line_count := 0,
          cfg := args_init_config } =
      .ok { fp := "burnin = 7\n".toList, line_count := 2,
            cfg := { args_init_config with opt_reorder := some "A,B,C".toList,
                                           opt_streenewick := some "(A,B);".toList } } :=
  ((load_cfile_speciesandtree_consumes_two_lines example_env (by decide)
      "species&tree = 3 A B C".toList "species&tree".toList " 3 A B C".toList
      { fp := "seed = 5\n(A,B);\nburnin = 7\n".toList, line_count := 0,
        cfg := args_init_config }
      ⟨[], [' '], by decide, by decide, by decide, by decide⟩ (by decide) (by decide)).2.2
    "seed = 5".toList "(A,B);".toList "burnin = 7\n".toList (by decide) (by decide)
    (Or.inl (by decide))).trans (by decide)

theorem dropWhile_eq_self_of_head (p : Char → Bool) (l : List Char)
    (h : l.head?.all (fun c => !p c) = true) : l.dropWhile p = l := by
  cases l with
  | nil => rfl
  | cons c l =>
    have : p c = false := by simpa using h
    simp [List.dropWhile, this]

theorem trim_cut_of_bare (l : List Char) (h : is_bare l = true) : trim (cut_comment l) = l := by
  simp only [is_bare, Bool.and_eq_true] at h
  obtain ⟨⟨h1, h2⟩, h3⟩ := h
  have hc : cut_comment l = l := by
    unfold cut_comment
    exact List.takeWhile_eq_self_iff.mpr (List.all_eq_true.mp h1)
  rw [hc]
  unfold trim
  rw [dropWhile_eq_self_of_head is_ws l h2,
    dropWhile_eq_self_of_head is_ws l.reverse (by rw [List.head?_reverse]; exact h3),
    List.reverse_reverse]

/-- Claim C10 as stated fails: for the record whose second extra line is
` ((A:1,B:1):1,C:2):0; # tree`, the text kept in `opt_streenewick` is
`((A:1,B:1):1,C:2):0;`, which is not the whole line. -/
theorem load_cfile_newick_verbatim_counterexample :
    getnextline 8 " 1 1 1\n ((A:1,B:1):1,C:2):0; # tree\n".toList =
      .line " 1 1 1".toList " ((A:1,B:1):1,C:2):0; # tree\n".toList ∧
    getnextline 8 " ((A:1,B:1):1,C:2):0; # tree\n".toList =
      .line " ((A:1,B:1):1,C:2):0; # tree".toList [] ∧
    load_body example_env "species&tree = 3 A B C".toList
        { fp := " 1 1 1\n ((A:1,B:1):1,C:2):0; # tree\n".toList, line_count := 0,
          cfg := args_init_config } =
      .ok { fp := [], line_count := 2,
            cfg := { args_init_config with
              opt_reorder := some "A,B,C".toList,
              opt_streenewick := some "((A:1,B:1):1,C:2):0;".toList } } ∧
    "((A:1,B:1):1,C:2):0;".toList ≠ " ((A:1,B:1):1,C:2):0; # tree".toList := by
  decide

/-- Claim C10, amended. For every `species&tree` record whose second extra
physical line `l2` is not blank or a comment, the text kept in
`opt_streenewick` is `l2` cut at its first `*` or `#` and stripped of leading
and trailing white space; it is the whole line, character for character, when
the line has no `*`, no `#` and no white space at its ends (as
`((A:1,B:1):1,C:2):0;`). -/
theorem load_cfile_newick_text {D : Type} (E : Env D) (hN : 2 ≤ E.LINEALLOC)
    (line key value : List Char) (st : State D) (hl : KeyLine line key value)
    (hk : key.map tolower = "species&tree".toList)
    (hp : (parse_speciesandtree value st.cfg).1 = 1)
    (l1 l2 rest : List Char) (h1 : is_text_line l1 = true) (h2 : is_text_line l2 = true)
    (hfp : st.fp = l1 ++ '\n' :: (l2 ++ '\n' :: rest) ∨
      (st.fp = l1 ++ '\n' :: l2 ∧ l2 ≠ [] ∧ rest = []))
    (hnb : fields l2 ≠ []) :
    ∃ st', load_body E line st = .ok st' ∧
      st'.cfg.opt_streenewick = some (trim (cut_comment l2)) ∧
      (is_bare l2 = true → st'.cfg.opt_streenewick = some l2) := by
  rw [load_body_speciesandtree_lines E hN line key value st hl hk hp l1 l2 rest h1 h2 hfp]
  rcases get_string_spec l2 none with ⟨hb, _⟩ | ⟨_, hg1, hg2, _⟩
  · exact absurd hb hnb
  · rw [if_neg hg1]
    refine ⟨_, rfl, hg2, ?_⟩
    intro hbare
    show (get_string l2 none).2 = some l2
    rw [hg2, trim_cut_of_bare l2 hbare]

/-- Claim C10, amended, run on the record whose second extra line is
`((A:1,B:1):1,C:2):0;`. -/
theorem load_cfile_newick_text_witness :
    ∃ st', load_body example_env "species&tree = 3 A B C".toList
        { fp := "\n((A:1,B:1):1,C:2):0;\n".toList, line_count := 0,
          cfg := args_init_config } = .ok st' ∧
      st'.cfg.opt_streenewick = some (trim (cut_comment "((A:1,B:1):1,C:2):0;".toList)) ∧
      (is_bare "((A:1,B:1):1,C:2):0;".toList = true →
        st'.cfg.opt_streenewick = some "((A:1,B:1):1,C:2):0;".toList) :=
  load_cfile_newick_text example_env (by decide) "species&tree = 3 A B C".toList
    "species&tree".toList " 3 A B C".toList
    { fp := "\n((A:1,B:1):1,C:2):0;\n".toList, line_count := 0, cfg := args_init_config }
    ⟨[], [' '], by decide, by decide, by decide, by decide⟩ (by decide) (by decide)
    [] "((A:1,B:1):1,C:2):0;".toList [] (by decide) (by decide) (Or.inl (by decide))
    (by decide)

/-! ## Iteration budgets -/

/-- The label loop ends within one pass per character. -/
theorem reorder_loop_isSome (fuel : Nat) (p : List Char) (n : Int) (acc : List Char)
    (hfuel : p.length < fuel) : (reorder_loop fuel p n acc).isSome = true := by
  induction fuel generalizing p n acc with
  | zero => omega
  | succ fuel ih =>
    rw [reorder_loop]
    cases p with
    | nil => rfl
    | cons c r =>
      simp only [List.isEmpty_cons, Bool.false_eq_true, if_false]
      split
      · rfl
      · apply ih
        simp only [strcspn_label, strspn_label, drop_length_takeWhile]
        have h1 := congrArg List.length
          (List.takeWhile_append_dropWhile (fun x => !is_ws x) (c :: r))
        have h2 := congrArg List.length
          (List.takeWhile_append_dropWhile is_ws ((c :: r).dropWhile (fun x => !is_ws x)))
        rw [List.length_append] at h1 h2
        by_cases hc : is_ws c = true
        · have e1 : (c :: r).dropWhile (fun x => !is_ws x) = c :: r := by
            simp [List.dropWhile, hc]
          have e2 : 0 < ((c :: r).takeWhile is_ws).length := by
            simp [List.takeWhile, hc]
          rw [e1] at h2 ⊢
          omega
        · have e1 : 0 < ((c :: r).takeWhile (fun x => !is_ws x)).length := by
            simp [List.takeWhile, hc]
          omega

theorem strlen_le (b : List Char) : strlen b ≤ b.length := by
  unfold strlen
  have := congrArg List.length (List.takeWhile_append_dropWhile (fun c => c != '\x00') b)
  rw [List.length_append] at this
  omega

theorem fgets_read_append (k : Nat) (fp : List Char) :
    (fgets_read k fp).1 ++ (fgets_read k fp).2 = fp := by
  induction k generalizing fp with
  | zero => rfl
  | succ k ih =>
    cases fp with
    | nil => rfl
    | cons c fp =>
      by_cases hc : c = '\n'
      · simp [fgets_read, hc]
      · simp [fgets_read, hc, ih fp]

theorem fgets_append (N : Nat) (fp buffer fp' : List Char)
    (h : fgets N fp = some (buffer, fp')) : buffer ++ fp' = fp := by
  unfold fgets at h
  split at h
  · exact absurd h (by simp)
  · split at h
    · simp only [Option.some.injEq, Prod.mk.injEq] at h
      rw [← h.1, ← h.2]; rfl
    · split at h
      · exact absurd h (by simp)
      · simp only [Option.some.injEq] at h
        have := fgets_read_append (N - 1) fp
        rw [h] at this
        exact this

/-- The reading loop ends within one pass per character, and a line it
returns leaves a shorter stream unless characters were gathered before. -/
theorem getnextline_loop_progress (N fuel : Nat) (acc fp : List Char)
    (hfuel : fp.length < fuel) :
    (getnextline_loop N fuel acc fp).isSome = true ∧
    ∀ l rest, getnextline_loop N fuel acc fp = some (.line l rest) →
      rest.length ≤ fp.length ∧ (acc = [] → rest.length < fp.length) := by
  induction fuel generalizing acc fp with
  | zero => omega
  | succ fuel ih =>
    rw [getnextline_loop]
    rcases hf : fgets N fp with _ | ⟨buffer, fp'⟩
    · simp only
      split
      · exact ⟨rfl, fun l rest h => by simp at h⟩
      · rename_i hacc
        refine ⟨rfl, fun l rest h => ?_⟩
        simp only [Option.some.injEq, ReadResult.line.injEq] at h
        rw [← h.2]
        exact ⟨Nat.le_refl _, fun e => by rw [e] at hacc; exact absurd rfl hacc⟩
    · simp only
      have happ := congrArg List.length (fgets_append N fp buffer fp' hf)
      rw [List.length_append] at happ
      split
      · exact ⟨rfl, fun l rest h => by simp at h⟩
      · rename_i hlen
        have hb : 0 < buffer.length := by
          have : strlen buffer ≤ buffer.length := strlen_le buffer
          omega
        split
        · refine ⟨rfl, fun l rest h => ?_⟩
          simp only [Option.some.injEq, ReadResult.line.injEq] at h
          rw [← h.2]
          exact ⟨by omega, fun _ => by omega⟩
        · obtain ⟨i1, i2⟩ := ih (acc ++ buffer.take (strlen buffer)) fp' (by omega)
          refine ⟨i1, fun l rest h => ?_⟩
          have := (i2 l rest h).1
          exact ⟨by omega, fun _ => by omega⟩

theorem getnextline_loop_isSome (N fuel : Nat) (acc fp : List Char) (hfuel : fp.length < fuel) :
    (getnextline_loop N fuel acc fp).isSome = true :=
  (getnextline_loop_progress N fuel acc fp hfuel).1

/-- A line returned by `getnextline` leaves a shorter stream. -/
theorem getnextline_shorter (N : Nat) (fp l rest : List Char)
    (h : getnextline N fp = .line l rest) : rest.length < fp.length := by
  unfold getnextline at h
  obtain ⟨h1, h2⟩ := getnextline_loop_progress N (fp.length + 1) [] fp (Nat.lt_succ_self _)
  rcases hr : getnextline_loop N (fp.length + 1) [] fp with _ | r
  · rw [hr] at h1; exact absurd h1 (by simp)
  · rw [hr] at h
    simp only [Option.getD_some] at h
    rw [h] at hr
    exact (h2 l rest hr).2 rfl

theorem StreamAtMost.ite {D : Type} {n : Nat} (c : Prop) [Decidable c]
    (a b : Outcome (State D)) (ha : StreamAtMost n a) (hb : StreamAtMost n b) :
    StreamAtMost n (if c then a else b) := by
  split
  · exact ha
  · exact hb

theorem StreamAtMost.fatal {D : Type} {n : Nat} (e : Fatal) :
    StreamAtMost n (Outcome.fatal e : Outcome (State D)) := by
  intro st' h; exact absurd h (by simp)

theorem StreamAtMost.undefined {D : Type} {n : Nat} :
    StreamAtMost n (Outcome.undefined : Outcome (State D)) := by
  intro st' h; exact absurd h (by simp)

theorem StreamAtMost.ok {D : Type} {n : Nat} (st : State D) (h : st.fp.length ≤ n) :
    StreamAtMost n (Outcome.ok st) := by
  intro st' e
  injection e with e
  rw [← e]; exact h

/-- The loop body of `load_cfile` never hands back a longer stream. -/
theorem load_body_fp {D : Type} (E : Env D) (line : List Char) (st st' : State D)
    (h : load_body E line st = .ok st') : st'.fp.length ≤ st.fp.length := by
  have key : StreamAtMost st.fp.length (load_body E line st) := by
    simp only [load_body, string_option]
    rcases get_token line with _ | ⟨token_len, token, value⟩
    · exact StreamAtMost.undefined
    simp only
    repeat' (first
      | exact StreamAtMost.fatal _
      | exact StreamAtMost.undefined
      | exact StreamAtMost.ok _ (Nat.le_refl _)
      | apply StreamAtMost.ite
      | split)
    rename_i fp1 _ h1 _ _ fp2 h2
    apply StreamAtMost.ok
    have a := getnextline_shorter _ _ _ _ h1
    have b := getnextline_shorter _ _ _ _ h2
    simp only
    omega
  exact key st' h

/-- The main loop of `load_cfile` ends within one pass per character of the
control file. -/
theorem load_loop_isSome {D : Type} (E : Env D) (fuel : Nat) (st : State D)
    (hfuel : st.fp.length < fuel) : (load_loop E fuel st).isSome = true := by
  induction fuel generalizing st with
  | zero => omega
  | succ fuel ih =>
    rw [load_loop]
    split
    · rfl
    · rfl
    · rename_i line fp hg
      have hs := getnextline_shorter _ _ _ _ hg
      split
      · rename_i st2 hb
        have := load_body_fp E line _ st2 hb
        apply ih
        simp only at this
        omega
      · rfl
      · rfl

/-- The content of `load_cfile` is that of its main loop: the budget is never
used up. -/
theorem load_cfile_eq {D : Type} (E : Env D) (content : List Char) (cfg : Config D) :
    load_loop E (content.length + 1) { fp := content, line_count := 0, cfg := cfg } =
      some (load_cfile E content cfg) := by
  have h := load_loop_isSome E (content.length + 1)
    { fp := content, line_count := 0, cfg := cfg } (Nat.lt_succ_self _)
  unfold load_cfile
  rcases hr : load_loop E (content.length + 1) { fp := content, line_count := 0, cfg := cfg }
    with _ | r
  · rw [hr] at h; exact absurd h (by simp)
  · rfl

/-- The backward scan of `get_string` never leaves the buffer. -/
theorem scan_back_get_string (line : List Char)
    (h : at_end_or_comment (line.drop (strspn line WS)) = false) :
    (scan_back line (strcspn line ['*', '#'])).isSome = true := by
  rw [strspn_WS, drop_length_takeWhile] at h
  rw [strcspn_comment]
  -- the first character behind the white space is kept by the cut
  rcases hd : line.dropWhile is_ws with _ | ⟨k, ks⟩
  · rw [hd] at h; simp [at_end_or_comment] at h
  rw [hd] at h
  have hkc : (k == '*' || k == '#') = false := by simpa [at_end_or_comment] using h
  have hkw : is_ws k = false := by
    rcases dropWhile_head is_ws line with h' | ⟨d, r, h', hdw⟩
    · rw [hd] at h'; simp at h'
    · rw [hd] at h'; injection h' with e1 _; rw [e1]; exact hdw
  have hs : line = line.takeWhile is_ws ++ k :: ks := by
    rw [← hd]; exact (List.takeWhile_append_dropWhile _ _).symm
  have hwc : ∀ c ∈ line.takeWhile is_ws, (c == '*' || c == '#') = false :=
    fun c hc => is_ws_not_comment (List.mem_takeWhile_imp hc)
  generalize line.takeWhile is_ws = w at *
  have hcc : cut_comment line = w ++ k :: cut_comment ks := by
    rw [hs, cut_comment_append w _ hwc]
    simp [cut_comment, List.takeWhile, hkc]
  obtain ⟨core, w2, hsplit, hw2, hcore, _⟩ := rstrip_split (k :: cut_comment ks)
  have hcne : core ≠ [] := by
    intro e
    rw [e, List.nil_append] at hsplit
    have : is_ws k = true := hw2 k (by rw [← hsplit]; simp)
    rw [hkw] at this; exact absurd this (by decide)
  obtain ⟨ini, z, hiz, hz⟩ : ∃ ini z, core = ini ++ [z] ∧ is_ws z = false := by
    rcases hcore with h' | h'
    · exact absurd h' hcne
    · exact h'
  have hcut : cut_comment line = w ++ core ++ w2 := by
    rw [hcc, hsplit, List.append_assoc]
  have htail : line = cut_comment line ++ line.dropWhile (fun c => !(c == '*' || c == '#')) :=
    (List.takeWhile_append_dropWhile _ _).symm
  generalize line.dropWhile (fun c => !(c == '*' || c == '#')) = tl at htail
  have hs2 : line = (w ++ ini) ++ z :: (w2 ++ tl) := by
    rw [htail, hcut, hiz]; simp
  have hlen : (cut_comment line).length = (w ++ ini).length + 1 + w2.length := by
    rw [hcut, hiz]; simp; omega
  rw [hlen]
  conv_lhs => rw [hs2]
  rw [scan_back_ws (w ++ ini) z w2 tl hz hw2]
  rfl

/-! ## The fields of a value, spelled out -/

/-- A value has no field exactly when it is white space followed by nothing
or by a comment. -/
theorem fields_nil_iff (s : List Char) :
    fields s = [] ↔
      ∃ w r, s = w ++ r ∧ (∀ c ∈ w, is_ws c = true) ∧
        (r = [] ∨ ∃ c r', r = c :: r' ∧ (c = '*' ∨ c = '#')) := by
  constructor
  · intro h
    rcases scan_token s with ⟨h1, _⟩ | ⟨_, _, h3⟩
    · refine ⟨s.takeWhile is_ws, s.dropWhile is_ws,
        (List.takeWhile_append_dropWhile _ _).symm, fun c hc => List.mem_takeWhile_imp hc, ?_⟩
      rcases hd : s.dropWhile is_ws with _ | ⟨c, r'⟩
      · exact Or.inl rfl
      · rw [hd] at h1
        simp only [at_end_or_comment, Bool.or_eq_true, beq_iff_eq] at h1
        exact Or.inr ⟨c, r', rfl, h1⟩
    · rw [h] at h3; exact absurd h3 (by simp)
  · rintro ⟨w, r, rfl, hw, hr⟩
    have hd : (w ++ r).dropWhile is_ws = r := by
      rcases hr with rfl | ⟨c, r', rfl, hc⟩
      · have := drop_length_takeWhile is_ws (w ++ [])
        rw [takeWhile_stop is_ws w [] hw (Or.inl rfl), List.drop_left] at this
        exact this.symm
      · exact (ws_front w c r' hw (by rcases hc with rfl | rfl <;> decide)).2
    rcases scan_token (w ++ r) with ⟨_, h2⟩ | ⟨h1, _, _⟩
    · exact h2
    · rw [hd] at h1
      rcases hr with rfl | ⟨c, r', rfl, hc⟩
      · simp [at_end_or_comment] at h1
      · rcases hc with rfl | rfl <;> simp [at_end_or_comment] at h1

/-- The first field of a value is the token behind the leading white space,
bounded by white space, `*`, `#` or the end; the other fields are those of the
text behind it. -/
theorem fields_cons_iff (s t : List Char) (rest : List (List Char)) :
    fields s = t :: rest ↔
      ∃ w r, s = w ++ t ++ r ∧ (∀ c ∈ w, is_ws c = true) ∧ t ≠ [] ∧
        (∀ c ∈ t, is_delim c = false) ∧
        (r = [] ∨ ∃ c r', r = c :: r' ∧ is_delim c = true) ∧ fields r = rest := by
  constructor
  · intro h
    rcases scan_token s with ⟨_, h2⟩ | ⟨_, hne, h3⟩
    · rw [h] at h2; exact absurd h2 (by simp)
    · rw [h] at h3
      injection h3 with e1 e2
      refine ⟨s.takeWhile is_ws, (s.dropWhile is_ws).dropWhile (fun c => !is_delim c), ?_,
        fun c hc => List.mem_takeWhile_imp hc, by rw [e1]; exact hne, ?_, ?_, ?_⟩
      · rw [e1, List.append_assoc, List.takeWhile_append_dropWhile,
          List.takeWhile_append_dropWhile]
      · intro c hc
        rw [e1] at hc
        simpa using List.mem_takeWhile_imp hc
      · rcases dropWhile_head (fun c => !is_delim c) (s.dropWhile is_ws) with h' | ⟨d, r', h', hd⟩
        · exact Or.inl h'
        · exact Or.inr ⟨d, r', h', by simpa using hd⟩
      · rw [e2, ← List.drop_drop, drop_length_takeWhile, drop_length_takeWhile]
  · rintro ⟨w, r, rfl, hw, hne, ht, hr, hf⟩
    obtain ⟨k, ks, rfl⟩ := List.exists_cons_of_ne_nil hne
    have hk : is_delim k = false := ht k (List.mem_cons_self _ _)
    have hkw : is_ws k = false := (not_delim_iff.mp hk).1
    have hfront := ws_front w k (ks ++ r) hw hkw
    have e : w ++ (k :: ks) ++ r = w ++ k :: (ks ++ r) := by simp
    have htk : (k :: (ks ++ r)).takeWhile (fun c => !is_delim c) = k :: ks := by
      have := takeWhile_stop (fun c => !is_delim c) (k :: ks) r
        (fun c hc => by simp [ht c hc])
        (by
          rcases hr with h | ⟨d, r', h, hd⟩
          · exact Or.inl h
          · exact Or.inr ⟨d, r', h, by simp [hd]⟩)
      simpa using this
    rcases scan_token (w ++ (k :: ks) ++ r) with ⟨h1, _⟩ | ⟨_, _, h3⟩
    · rw [e, hfront.2] at h1
      have := (not_delim_iff.mp hk).2
      simp [at_end_or_comment, this] at h1
    · rw [h3]
      rw [e, hfront.1, hfront.2, htk, ← List.drop_drop, List.drop_left]
      have : (k :: (ks ++ r)).drop (k :: ks).length = r := List.drop_left (k :: ks) r
      rw [this, hf]

/-! ## Blank, malformed and option lines -/

theorem blankLine_iff (line : List Char) :
    BlankLine line ↔ at_end_or_comment (line.dropWhile is_ws) = true := by
  unfold BlankLine
  rw [← fields_nil_iff]
  rcases scan_token line with ⟨h1, h2⟩ | ⟨h1, _, h3⟩
  · simp [h1, h2]
  · simp [h1, h3]

/-- Where the backward scan stops, it stands in front of its start on a
character that is no white space. -/
theorem scan_back_some (s : List Char) (q p : Nat) (h : scan_back s q = some p) :
    p < q ∧ ∀ c, s.get? p = some c → is_ws c = false := by
  induction q with
  | zero => simp [scan_back] at h
  | succ q ih =>
    rw [scan_back] at h
    rcases hg : s.get? q with _ | c
    · rw [hg] at h
      simp only [Option.some.injEq] at h
      subst h
      exact ⟨Nat.lt_succ_self _, fun c hc => by rw [hg] at hc; exact absurd hc (by simp)⟩
    · rw [hg] at h
      simp only at h
      by_cases hc : (c == ' ' || c == '\t' || c == '\r' || c == '\n') = true
      · rw [if_pos hc] at h
        obtain ⟨h1, h2⟩ := ih h
        exact ⟨by omega, h2⟩
      · rw [if_neg hc] at h
        simp only [Option.some.injEq] at h
        subst h
        refine ⟨Nat.lt_succ_self _, fun d hd => ?_⟩
        rw [hg] at hd
        injection hd with hd
        subst hd
        simpa [is_ws] using hc

theorem get?_takeWhile_ws (s : List Char) (p : Nat) (hp : p < (s.takeWhile is_ws).length) :
    ∃ c, s.get? p = some c ∧ is_ws c = true := by
  have hs := (List.takeWhile_append_dropWhile is_ws s).symm
  have hmem : ∀ c, (s.takeWhile is_ws).get? p = some c → is_ws c = true :=
    fun c hc => List.mem_takeWhile_imp (List.get?_mem hc)
  generalize s.takeWhile is_ws = w at *
  generalize s.dropWhile is_ws = r at *
  subst hs
  have : (w ++ r).get? p = w.get? p := by
    simp only [List.get?_eq_getElem?]
    exact List.getElem?_append_left hp
  rcases hw : w.get? p with _ | c
  · have := List.get?_eq_none.mp hw
    omega
  · exact ⟨c, by rw [this, hw], hmem c hw⟩

/-- Where `get_token` returns on a line that is not blank, its backward scan
having stayed inside the line, the length is not 0: it is -1 or positive. -/
theorem get_token_nonblank (line : List Char)
    (hb : at_end_or_comment (line.dropWhile is_ws) = false) (L : Int) (tok val : List Char)
    (h : get_token line = some (L, tok, val)) : L = -1 ∨ 0 < L := by
  rw [get_token_unfold, hb] at h
  simp only [Bool.false_eq_true, if_false] at h
  split at h
  · simp only [Option.some.injEq, Prod.mk.injEq] at h
    exact Or.inl h.1.symm
  · split at h
    · exact absurd h (by simp)
    · rename_i p hsb
      simp only [Option.some.injEq, Prod.mk.injEq] at h
      right
      obtain ⟨_, hp2⟩ := scan_back_some _ _ _ hsb
      have : (line.takeWhile is_ws).length ≤ p := by
        by_contra hlt
        obtain ⟨c, hc1, hc2⟩ := get?_takeWhile_ws line p (by omega)
        rw [hp2 c hc1] at hc2
        exact absurd hc2 (by decide)
      omega

/-- A text that holds a character other than white space splits into leading
white space, its trimmed part and trailing white space; the trimmed part is
not empty and neither starts nor ends with white space. -/
theorem trim_split (s : List Char) (h : ∃ c ∈ s, is_ws c = false) :
    ∃ w w', s = w ++ trim s ++ w' ∧ (∀ c ∈ w, is_ws c = true) ∧ (∀ c ∈ w', is_ws c = true) ∧
      w = s.takeWhile is_ws ∧ trim s ≠ [] ∧
      (∀ c, (trim s).head? = some c → is_ws c = false) ∧
      (∀ c, (trim s).getLast? = some c → is_ws c = false) := by
  obtain ⟨core, w', hsplit, hw', hcore, hrev⟩ := rstrip_split (s.dropWhile is_ws)
  have htrim : trim s = core := hrev
  have hs := (List.takeWhile_append_dropWhile is_ws s).symm
  have hdne : s.dropWhile is_ws ≠ [] := by
    intro e
    obtain ⟨c, hc, hcw⟩ := h
    rw [hs, e, List.append_nil] at hc
    rw [List.mem_takeWhile_imp hc] at hcw
    exact absurd hcw (by decide)
  obtain ⟨k, ks, hk, hkw⟩ : ∃ k ks, s.dropWhile is_ws = k :: ks ∧ is_ws k = false := by
    rcases dropWhile_head is_ws s with h' | h'
    · exact absurd h' hdne
    · exact h'
  have hcne : core ≠ [] := by
    intro e
    rw [e, List.nil_append] at hsplit
    have : is_ws k = true := hw' k (by rw [← hsplit, hk]; simp)
    rw [hkw] at this
    exact absurd this (by decide)
  refine ⟨s.takeWhile is_ws, w', ?_, fun c hc => List.mem_takeWhile_imp hc, hw', rfl, ?_, ?_, ?_⟩
  · rw [htrim, List.append_assoc, ← hsplit]; exact hs
  · rw [htrim]; exact hcne
  · rw [htrim]
    intro c hc
    cases core with
    | nil => exact absurd rfl hcne
    | cons a r =>
      rw [hk] at hsplit
      simp only [List.cons_append, List.cons.injEq] at hsplit
      simp only [List.head?_cons, Option.some.injEq] at hc
      rw [← hc, ← hsplit.1]; exact hkw
  · rw [htrim]
    intro c hc
    rcases hcore with e | ⟨ini, z, e, hz⟩
    · exact absurd e hcne
    · rw [e] at hc
      have hz' : (ini ++ [z]).getLast? = some z := by simp
      rw [hz'] at hc
      injection hc with hc
      rw [← hc]; exact hz

/-- Claim C20. For every line that is not blank, holds `=` and has a character
other than white space in front of the first `=`, `get_token` returns a
positive length `L`, reports as token position the first character that is no
white space and as value position the character right behind the first `=`;
the `L` characters from the token position are the text in front of the first
`=` with its leading and trailing white space removed. -/
theorem get_token_key_and_value (line pre value : List Char) (hb : ¬ BlankLine line)
    (hl : line = pre ++ '=' :: value) (hpre : '=' ∉ pre) (hc : ∃ c ∈ pre, is_ws c = false) :
    ∃ (L : Nat) (token : List Char), get_token line = some ((L : Int), token, value) ∧
      0 < L ∧ token = line.dropWhile is_ws ∧ token.take L = trim pre := by
  obtain ⟨w, w', hs, hw, hw', hwt, hne, hhead, hlast⟩ := trim_split pre hc
  have hsub : ∀ c ∈ trim pre, c ∈ pre := by
    intro c hc'
    rw [hs]
    exact List.mem_append_left _ (List.mem_append_right _ hc')
  obtain ⟨k, ks, hk⟩ := List.exists_cons_of_ne_nil hne
  have hkw : is_ws k = false := hhead k (by rw [hk]; rfl)
  have hline : line = w ++ trim pre ++ w' ++ '=' :: value := by rw [hl]; conv_lhs => rw [hs]
  have hdw : line.dropWhile is_ws = trim pre ++ (w' ++ '=' :: value) := by
    rw [hline, hk]
    have := (ws_front w k (ks ++ (w' ++ '=' :: value)) hw hkw).2
    simpa using this
  have hkey : KeyLine line (trim pre) value := by
    refine ⟨w, w', hline, hw, hw', ?_⟩
    have hkc : (k == '*' || k == '#') = false := by
      have := (blankLine_iff line).not.mp hb
      rw [hdw, hk] at this
      simpa [at_end_or_comment] using this
    have hkd : is_delim k = false := not_delim_iff.mpr ⟨hkw, hkc⟩
    have h1 : (trim pre).isEmpty = false := by rw [hk]; rfl
    have h2 : (trim pre).contains '=' = false := by
      rw [List.contains_eq_any_beq, List.any_eq_false]
      intro c hc' e
      have : '=' = c := by simpa using e
      exact hpre (by rw [this]; exact hsub c hc')
    have h3 : (trim pre).head?.all (fun c => !is_delim c) = true := by
      rw [hk]; simp [hkd]
    have h4 : (trim pre).getLast?.all (fun c => !is_ws c) = true := by
      rcases hg : (trim pre).getLast? with _ | z
      · rfl
      · simp [hlast z hg]
    simp only [is_key, h1, h2, h3, h4]
    rfl
  obtain ⟨rest, hg⟩ := get_token_keyline line (trim pre) value hkey
  have hrest : trim pre ++ rest = line.dropWhile is_ws := by
    have := get_token_unfold line
    rw [hg] at this
    have hpos : 0 < (trim pre).length := List.length_pos.mpr hne
    split at this
    · simp only [Option.some.injEq, Prod.mk.injEq] at this
      have := this.1
      omega
    · split at this
      · simp only [Option.some.injEq, Prod.mk.injEq] at this
        have := this.1
        omega
      · split at this
        · exact absurd this (by simp)
        · simp only [Option.some.injEq, Prod.mk.injEq] at this
          exact this.2.1
  refine ⟨(trim pre).length, trim pre ++ rest, hg, List.length_pos.mpr hne, hrest, ?_⟩
  rw [List.take_left]

/-- Claim C20, run on the line `  seed  = 5`. -/
theorem get_token_key_and_value_witness :
    ∃ (L : Nat) (token : List Char),
      get_token "  seed  = 5".toList = some ((L : Int), token, " 5".toList) ∧
      0 < L ∧ token = "  seed  = 5".toList.dropWhile is_ws ∧
      token.take L = trim "  seed  ".toList :=
  get_token_key_and_value "  seed  = 5".toList "  seed  ".toList " 5".toList
    (fun h => absurd ((blankLine_iff _).mp h) (by decide)) (by decide) (by decide)
    ⟨'s', by decide, by decide⟩

/-! ## The line counter and the `arch` option -/

/-- Claim C11 fails on the code. In the file whose lines are
`species&tree = 1 A`, `1`, `(A);` and `foo`, the fourth line has no `=`, and
`load_cfile` reports it as line 3: the counter advances for the first extra
line of the record but not for the second.  The same defect makes a blank
third line of a record be reported as line 2.  Without a record the counter
is the index of the line: `foo` as fourth line is reported as line 4. -/
theorem load_cfile_line_count_lags_after_record :
    load_cfile example_env "species&tree = 1 A\n1\n(A);\nfoo\n".toList args_init_config =
      .fatal (.no_equals 3) ∧
    load_cfile example_env "species&tree = 1 A\n1\n\n".toList args_init_config =
      .fatal (.expected_newick 2) ∧
    load_cfile example_env "seed = 1\nburnin = 2\nnsample = 3\nfoo\n".toList args_init_config =
      .fatal (.no_equals 4) := by
  decide

/-- Claim C12 fails on the code. The line `arch = CPU` is a fatal error, because
`cpu` is compared with `strcmp`, while `arch = cpu`, `arch = Sse` and
`arch = AVX2` are accepted and select their architecture. -/
theorem load_cfile_arch_cpu_is_case_sensitive :
    load_body example_env "arch = CPU".toList
        { fp := [], line_count := 0, cfg := args_init_config } = .fatal (.invalid_arch 1) ∧
    load_body example_env "arch = cpu".toList
        { fp := [], line_count := 0, cfg := args_init_config } =
      .ok { fp := [], line_count := 1,
            cfg := { args_init_config with opt_arch := example_env.PLL_ATTRIB_ARCH_CPU } } ∧
    load_body example_env "arch = Sse".toList
        { fp := [], line_count := 0, cfg := args_init_config } =
      .ok { fp := [], line_count := 1,
            cfg := { args_init_config with opt_arch := example_env.PLL_ATTRIB_ARCH_SSE } } ∧
    load_body example_env "arch = AVX2".toList
        { fp := [], line_count := 0, cfg := args_init_config } =
      .ok { fp := [], line_count := 1,
            cfg := { args_init_config with opt_arch := example_env.PLL_ATTRIB_ARCH_AVX2 } } := by
  decide

/-! ## Tree traversal -/

theorem store_append {D : Type} (pre rest : List (rnode_t D)) (x n : rnode_t D) :
    store (pre ++ x :: rest) pre.length n = some (pre ++ n :: rest) := by
  unfold store
  have h : pre.length < (pre ++ x :: rest).length := by simp
  rw [if_pos h]
  simp

/-- Storing into the first free slot of a buffer with room for one node. -/
theorem store_free {D : Type} (pre rest : List (rnode_t D)) (n : rnode_t D)
    (h : 1 ≤ rest.length) :
    store (pre ++ rest) pre.length n = some (pre ++ [n] ++ rest.drop 1) := by
  cases rest with
  | nil => simp at h
  | cons x rest => simpa using store_append pre rest x n

theorem is_binary_node {D : Type} {addr : Nat} {label : Option (List Char)} {length : D}
    {left right : rnode_t D} (h : is_binary (.node addr label length left right) = true) :
    left.is_null = right.is_null ∧ is_binary left = true ∧ is_binary right = true := by
  simp only [is_binary, Bool.and_eq_true, beq_iff_eq] at h
  exact ⟨h.1.1, h.1.2, h.2⟩

/-- The postorder walk of the code writes the traversal of the specification
into the free part of the buffer. -/
theorem rtree_traverse_postorder_run {D : Type} (cb : rnode_t D → Int) (p : rnode_t D → Bool)
    (hp : ∀ n, p n = true ↔ cb n ≠ 0) (t : rnode_t D)
    (hb : is_binary t = true) (ht : t.is_null = false) (pre rest : List (rnode_t D))
    (hlen : (traverse .postorder p t).length ≤ rest.length) :
    rtree_traverse_postorder cb t pre.length (pre ++ rest) =
      some (pre.length + (traverse .postorder p t).length,
        pre ++ traverse .postorder p t ++ rest.drop (traverse .postorder p t).length) := by
  induction t generalizing pre rest with
  | null => simp [rnode_t.is_null] at ht
  | node addr label length left right ihl ihr =>
    obtain ⟨hlr, hbl, hbr⟩ := is_binary_node hb
    rw [rtree_traverse_postorder]
    by_cases hcb : cb (.node addr label length left right) = 0
    · have hpn : p (.node addr label length left right) = false := by
        rw [← Bool.not_eq_true, hp]; simpa using hcb
      simp [traverse, hpn, hcb]
    · have hpn : p (.node addr label length left right) = true := (hp _).2 hcb
      by_cases hleaf : left.is_null = true
      · have hr : right.is_null = true := by rw [← hlr]; exact hleaf
        simp only [traverse, hpn, hleaf, hr, if_true, Bool.and_self,
          List.length_singleton] at hlen ⊢
        rw [if_pos hcb, store_free pre rest _ hlen]
        simp
      · have hl' : left.is_null = false := by simpa using hleaf
        have hr' : right.is_null = false := by rw [← hlr]; exact hl'
        simp only [traverse, hpn, hl', hr', if_true, Bool.and_self, Bool.false_eq_true,
          if_false, List.length_append, List.length_singleton] at hlen ⊢
        rw [if_neg hcb, ihl hbl hl' pre rest (by omega)]
        simp only
        have e1 : pre.length + (traverse .postorder p left).length =
            (pre ++ traverse .postorder p left).length := by simp
        rw [e1, ihr hbr hr' _ _ (by simp only [List.length_drop]; omega)]
        simp only
        have e2 : (pre ++ traverse .postorder p left).length +
            (traverse .postorder p right).length =
            (pre ++ traverse .postorder p left ++ traverse .postorder p right).length := by
          simp [Nat.add_assoc]
        rw [e2, store_free _ _ _ (by simp only [List.length_drop]; omega)]
        simp [List.drop_drop, Nat.add_comm, Nat.add_assoc, Nat.add_left_comm]
/-- The preorder walk of the code writes the traversal of the specification
into the free part of the buffer. -/
theorem rtree_traverse_preorder_run {D : Type} (cb : rnode_t D → Int) (p : rnode_t D → Bool)
    (hp : ∀ n, p n = true ↔ cb n ≠ 0) (t : rnode_t D)
    (hb : is_binary t = true) (ht : t.is_null = false) (pre rest : List (rnode_t D))
    (hlen : (traverse .preorder p t).length ≤ rest.length) :
    rtree_traverse_preorder cb t pre.length (pre ++ rest) =
      some (pre.length + (traverse .preorder p t).length,
        pre ++ traverse .preorder p t ++ rest.drop (traverse .preorder p t).length) := by
  induction t generalizing pre rest with
  | null => simp [rnode_t.is_null] at ht
  | node addr label length left right ihl ihr =>
    obtain ⟨hlr, hbl, hbr⟩ := is_binary_node hb
    rw [rtree_traverse_preorder]
    by_cases hcb : cb (.node addr label length left right) = 0
    · have hpn : p (.node addr label length left right) = false := by
        rw [← Bool.not_eq_true, hp]; simpa using hcb
      simp [traverse, hpn, hcb]
    · have hpn : p (.node addr label length left right) = true := (hp _).2 hcb
      by_cases hleaf : left.is_null = true
      · have hr : right.is_null = true := by rw [← hlr]; exact hleaf
        simp only [traverse, hpn, hleaf, hr, if_true, Bool.and_self,
          List.length_singleton] at hlen ⊢
        rw [if_pos hcb, store_free pre rest _ hlen]
        simp
      · have hl' : left.is_null = false := by simpa using hleaf
        have hr' : right.is_null = false := by rw [← hlr]; exact hl'
        simp only [traverse, hpn, hl', hr', if_true, Bool.and_self, Bool.false_eq_true,
          if_false, List.length_append, List.length_cons] at hlen ⊢
        rw [if_neg hcb, store_free pre rest _ (by omega)]
        simp only
        have e0 : pre.length + 1 = (pre ++ [rnode_t.node addr label length left right]).length := by
          simp
        rw [e0, ihl hbl hl' _ _ (by simp only [List.length_drop]; omega)]
        simp only
        have e1 : (pre ++ [rnode_t.node addr label length left right]).length +
            (traverse .preorder p left).length =
            (pre ++ [rnode_t.node addr label length left right] ++
              traverse .preorder p left).length := by
          simp only [List.length_append, List.length_singleton]
        rw [e1, ihr hbr hr' _ _ (by simp only [List.length_drop]; omega)]
        simp [List.drop_drop, Nat.add_comm, Nat.add_assoc, Nat.add_left_comm]
/-! ## Listings of a tree -/

theorem traverse_all_postorder {D : Type} (p : rnode_t D → Bool) (hp : ∀ n, p n = true)
    (t : rnode_t D) : traverse .postorder p t = postorder t := by
  induction t with
  | null => rfl
  | node addr label length left right ihl ihr =>
    simp only [traverse, hp, if_true, postorder, ihl, ihr]
    by_cases h : (left.is_null && right.is_null) = true
    · rw [if_pos h]
      simp only [Bool.and_eq_true] at h
      cases left with
      | null =>
        cases right with
        | null => rfl
        | node _ _ _ _ _ => simp [rnode_t.is_null] at h
      | node _ _ _ _ _ => simp [rnode_t.is_null] at h
    · rw [if_neg h]

theorem traverse_all_preorder {D : Type} (p : rnode_t D → Bool) (hp : ∀ n, p n = true)
    (t : rnode_t D) : traverse .preorder p t = preorder t := by
  induction t with
  | null => rfl
  | node addr label length left right ihl ihr =>
    simp only [traverse, hp, if_true, preorder, ihl, ihr]
    by_cases h : (left.is_null && right.is_null) = true
    · rw [if_pos h]
      simp only [Bool.and_eq_true] at h
      cases left with
      | null =>
        cases right with
        | null => rfl
        | node _ _ _ _ _ => simp [rnode_t.is_null] at h
      | node _ _ _ _ _ => simp [rnode_t.is_null] at h
    · rw [if_neg h]

theorem postorder_perm {D : Type} (t : rnode_t D) : (postorder t).Perm (nodes t) := by
  induction t with
  | null => exact List.Perm.refl _
  | node addr label length left right ihl ihr =>
    simp only [postorder, nodes, List.append_assoc]
    refine List.Perm.append ihl ?_
    refine List.Perm.trans (List.Perm.append_right _ ihr) ?_
    exact List.perm_append_comm

theorem preorder_perm {D : Type} (t : rnode_t D) : (preorder t).Perm (nodes t) := by
  induction t with
  | null => exact List.Perm.refl _
  | node addr label length left right ihl ihr =>
    simp only [preorder, nodes, List.append_assoc, List.singleton_append]
    refine List.Perm.trans ?_ List.perm_middle.symm
    exact List.Perm.cons _ (List.Perm.append ihl ihr)

theorem nodes_nodup {D : Type} (t : rnode_t D) (hd : ((nodes t).map rnode_t.addr).Nodup) :
    (nodes t).Nodup := List.Nodup.of_map _ hd

theorem mem_nodes_self {D : Type} (n : rnode_t D) (h : n.is_null = false) : n ∈ nodes n := by
  cases n with
  | null => simp [rnode_t.is_null] at h
  | node _ _ _ _ _ => simp [nodes]

theorem null_not_mem_nodes {D : Type} (t : rnode_t D) : rnode_t.null ∉ nodes t := by
  induction t with
  | null => simp [nodes]
  | node addr label length left right ihl ihr => simp [nodes, ihl, ihr]

theorem is_binary_of_mem {D : Type} (t n : rnode_t D) (hb : is_binary t = true)
    (hn : n ∈ nodes t) : is_binary n = true := by
  induction t with
  | null => simp [nodes] at hn
  | node addr label length left right ihl ihr =>
    obtain ⟨_, hbl, hbr⟩ := is_binary_node hb
    simp only [nodes, List.append_assoc, List.mem_append, List.mem_singleton, List.mem_cons,
      List.not_mem_nil, or_false] at hn
    rcases hn with h | h | h
    · exact ihl hbl h
    · rw [h]; exact hb
    · exact ihr hbr h

/-- An internal node of a binary tree has two children. -/
theorem is_internal_children {D : Type} (n : rnode_t D) (hb : is_binary n = true)
    (hi : is_internal n = true) : n.left.is_null = false ∧ n.right.is_null = false := by
  cases n with
  | null => simp [is_internal, rnode_t.is_null] at hi
  | node addr label length left right =>
    obtain ⟨hlr, _, _⟩ := is_binary_node hb
    simp only [is_internal, rnode_t.is_null, rnode_t.left, Bool.not_false, Bool.true_and,
      Bool.not_eq_true'] at hi
    simp only [rnode_t.left, rnode_t.right]
    exact ⟨hi, by rw [← hlr]; exact hi⟩

theorem postorder_part {D : Type} (t n : rnode_t D) (hn : n ∈ nodes t) :
    ∃ a b, postorder t = a ++ postorder n ++ b := by
  induction t with
  | null => simp [nodes] at hn
  | node addr label length left right ihl ihr =>
    simp only [nodes, List.append_assoc, List.mem_append, List.mem_singleton, List.mem_cons,
      List.not_mem_nil, or_false] at hn
    rcases hn with h | h | h
    · obtain ⟨a, b, e⟩ := ihl h
      exact ⟨a, b ++ postorder right ++ [.node addr label length left right], by
        simp [postorder, e]⟩
    · exact ⟨[], [], by rw [h]; simp⟩
    · obtain ⟨a, b, e⟩ := ihr h
      exact ⟨postorder left ++ a, b ++ [.node addr label length left right], by
        simp [postorder, e]⟩

theorem preorder_part {D : Type} (t n : rnode_t D) (hn : n ∈ nodes t) :
    ∃ a b, preorder t = a ++ preorder n ++ b := by
  induction t with
  | null => simp [nodes] at hn
  | node addr label length left right ihl ihr =>
    simp only [nodes, List.append_assoc, List.mem_append, List.mem_singleton, List.mem_cons,
      List.not_mem_nil, or_false] at hn
    rcases hn with h | h | h
    · obtain ⟨a, b, e⟩ := ihl h
      exact ⟨.node addr label length left right :: a, b ++ preorder right, by
        simp [preorder, e]⟩
    · exact ⟨[], [], by rw [h]; simp⟩
    · obtain ⟨a, b, e⟩ := ihr h
      exact ⟨.node addr label length left right :: (preorder left ++ a), b, by
        simp [preorder, e]⟩

theorem postorder_last {D : Type} (n : rnode_t D) (h : n.is_null = false) :
    ∃ a, postorder n = a ++ [n] := by
  cases n with
  | null => simp [rnode_t.is_null] at h
  | node addr label length left right => exact ⟨_, rfl⟩

theorem preorder_first {D : Type} (n : rnode_t D) (h : n.is_null = false) :
    ∃ a, preorder n = n :: a := by
  cases n with
  | null => simp [rnode_t.is_null] at h
  | node addr label length left right => exact ⟨_, rfl⟩

theorem Before.part {α : Type} {xs : List α} {a b : α} (h : Before xs a b) (u v : List α) :
    Before (u ++ xs ++ v) a b := by
  obtain ⟨p, q, r, e⟩ := h
  exact ⟨u ++ p, q, r ++ v, by simp [e]⟩

/-- In the postorder listing both children of an internal node stand in front
of the node. -/
theorem postorder_children_before {D : Type} (t n : rnode_t D) (hb : is_binary t = true)
    (hn : n ∈ nodes t) (hi : is_internal n = true) :
    Before (postorder t) n.left n ∧ Before (postorder t) n.right n := by
  obtain ⟨hl, hr⟩ := is_internal_children n (is_binary_of_mem t n hb hn) hi
  obtain ⟨a, b, e⟩ := postorder_part t n hn
  rw [e]
  cases n with
  | null => simp [is_internal, rnode_t.is_null] at hi
  | node addr label length left right =>
    simp only [rnode_t.left, rnode_t.right] at hl hr ⊢
    obtain ⟨x, hx⟩ := postorder_last left hl
    obtain ⟨y, hy⟩ := postorder_last right hr
    constructor
    · exact Before.part ⟨x, postorder right, [], by simp [postorder, hx]⟩ a b
    · exact Before.part ⟨postorder left ++ y, [], [], by simp [postorder, hy]⟩ a b

/-- In the preorder listing an internal node stands in front of both of its
children. -/
theorem preorder_children_after {D : Type} (t n : rnode_t D) (hb : is_binary t = true)
    (hn : n ∈ nodes t) (hi : is_internal n = true) :
    Before (preorder t) n n.left ∧ Before (preorder t) n n.right := by
  obtain ⟨hl, hr⟩ := is_internal_children n (is_binary_of_mem t n hb hn) hi
  obtain ⟨a, b, e⟩ := preorder_part t n hn
  rw [e]
  cases n with
  | null => simp [is_internal, rnode_t.is_null] at hi
  | node addr label length left right =>
    simp only [rnode_t.left, rnode_t.right] at hl hr ⊢
    obtain ⟨x, hx⟩ := preorder_first left hl
    obtain ⟨y, hy⟩ := preorder_first right hr
    constructor
    · exact Before.part ⟨[], [], x ++ preorder right, by simp [preorder, hx]⟩ a b
    · exact Before.part ⟨[], preorder left, y, by simp [preorder, hy]⟩ a b
theorem traverse_mem_nodes {D : Type} (order : Order) (p : rnode_t D → Bool) (t m : rnode_t D)
    (h : m ∈ traverse order p t) : m ∈ nodes t := by
  induction t with
  | null => simp [traverse] at h
  | node addr label length left right ihl ihr =>
    simp only [traverse] at h
    by_cases hp : p (.node addr label length left right) = true
    · rw [if_pos hp] at h
      by_cases hleaf : (left.is_null && right.is_null) = true
      · rw [if_pos hleaf] at h
        simp only [List.mem_singleton] at h
        rw [h]; simp [nodes]
      · rw [if_neg hleaf] at h
        cases order with
        | postorder =>
          simp only [List.mem_append, List.mem_singleton] at h
          rcases h with (h | h) | h
          · simp [nodes, ihl h]
          · simp [nodes, ihr h]
          · rw [h]; simp [nodes]
        | preorder =>
          simp only [List.mem_cons, List.mem_append] at h
          rcases h with h | h | h
          · rw [h]; simp [nodes]
          · simp [nodes, ihl h]
          · simp [nodes, ihr h]
    · rw [if_neg hp] at h
      simp at h

theorem traverse_length_le {D : Type} (order : Order) (p : rnode_t D → Bool) (t : rnode_t D) :
    (traverse order p t).length ≤ (nodes t).length := by
  induction t with
  | null => simp [traverse, nodes]
  | node addr label length left right ihl ihr =>
    simp only [traverse]
    by_cases hp : p (.node addr label length left right) = true
    · rw [if_pos hp]
      by_cases hleaf : (left.is_null && right.is_null) = true
      · rw [if_pos hleaf]
        simp [nodes]
        omega
      · rw [if_neg hleaf]
        cases order with
        | postorder => simp [nodes]; omega
        | preorder => simp [nodes]; omega
    · rw [if_neg hp]
      simp

/-- The call `rtree_traverse` on a binary tree with an internal root and a
buffer with room for every node: it succeeds, and the first `trav_size` slots
of the buffer hold the traversal of the specification. -/
theorem rtree_traverse_eq {D : Type} (K : TraverseConsts) (cb : rnode_t D → Int)
    (p : rnode_t D → Bool) (hp : ∀ n, p n = true ↔ cb n ≠ 0) (t : rnode_t D)
    (outbuffer : List (rnode_t D)) (hb : is_binary t = true) (hroot : is_internal t = true)
    (hroom : (nodes t).length ≤ outbuffer.length) :
    rtree_traverse K t K.TREE_TRAVERSE_POSTORDER cb outbuffer =
        .returned K.BPP_SUCCESS (traverse .postorder p t).length
          (traverse .postorder p t ++ outbuffer.drop (traverse .postorder p t).length) ∧
      (K.TREE_TRAVERSE_PREORDER ≠ K.TREE_TRAVERSE_POSTORDER →
        rtree_traverse K t K.TREE_TRAVERSE_PREORDER cb outbuffer =
          .returned K.BPP_SUCCESS (traverse .preorder p t).length
            (traverse .preorder p t ++ outbuffer.drop (traverse .preorder p t).length)) := by
  cases t with
  | null => simp [is_internal, rnode_t.is_null] at hroot
  | node addr label length left right =>
    have hl : left.is_null = false := by
      simpa [is_internal, rnode_t.is_null, rnode_t.left] using hroot
    have h1 := rtree_traverse_postorder_run cb p hp (.node addr label length left right) hb rfl
      [] outbuffer (Nat.le_trans (traverse_length_le _ _ _) hroom)
    have h2 := rtree_traverse_preorder_run cb p hp (.node addr label length left right) hb rfl
      [] outbuffer (Nat.le_trans (traverse_length_le _ _ _) hroom)
    simp only [List.length_nil, List.nil_append, Nat.zero_add] at h1 h2
    constructor
    · simp only [rtree_traverse, hl, Bool.false_eq_true, if_false, if_true, h1]
    · intro hK
      simp only [rtree_traverse, hl, Bool.false_eq_true, if_false, if_true, h2, if_neg hK]

/-! ## Claims C13 and C14: the two orders with a predicate that is always true -/

/-- Claim C13.  On a rooted binary tree with an internal root, a predicate
that always returns true and a buffer with room for every node, `rtree_traverse`
with `TREE_TRAVERSE_POSTORDER` returns `BPP_SUCCESS` with `trav_size` the number
of nodes, and the slots it wrote hold the left-right-self listing `postorder`,
in which every node of the tree occurs exactly once and both children of every
internal node stand in front of the node. -/
theorem rtree_traverse_postorder_visits_all {D : Type} (K : TraverseConsts)
    (cbtrav : rnode_t D → Int) (root : rnode_t D) (outbuffer : List (rnode_t D))
    (hb : is_binary root = true) (hroot : is_internal root = true)
    (hd : ((nodes root).map rnode_t.addr).Nodup) (hcb : ∀ n, cbtrav n ≠ 0)
    (hroom : (nodes root).length ≤ outbuffer.length) :
    rtree_traverse K root K.TREE_TRAVERSE_POSTORDER cbtrav outbuffer =
        .returned K.BPP_SUCCESS (nodes root).length
          (postorder root ++ outbuffer.drop (nodes root).length) ∧
      (postorder root).length = (nodes root).length ∧
      (postorder root).Nodup ∧ (∀ n, n ∈ postorder root ↔ n ∈ nodes root) ∧
      (∀ n ∈ nodes root, is_internal n = true →
        Before (postorder root) n.left n ∧ Before (postorder root) n.right n) := by
  have hlen : (postorder root).length = (nodes root).length := (postorder_perm root).length_eq
  have h := (rtree_traverse_eq K cbtrav (fun _ => true) (fun n => by simp [hcb n]) root
    outbuffer hb hroot hroom).1
  rw [traverse_all_postorder _ (fun _ => rfl), hlen] at h
  exact ⟨h, hlen, (postorder_perm root).nodup_iff.2 (nodes_nodup root hd),
    fun n => (postorder_perm root).mem_iff, fun n hn hi => postorder_children_before root n hb hn hi⟩

theorem rtree_traverse_postorder_visits_all_witness :
    rtree_traverse example_consts example_tree example_consts.TREE_TRAVERSE_POSTORDER
        (fun _ => 1) [.null, .null, .null, .null] =
        .returned example_consts.BPP_SUCCESS (nodes example_tree).length
          (postorder example_tree ++
            [rnode_t.null, .null, .null, .null].drop (nodes example_tree).length) ∧
      (postorder example_tree).length = (nodes example_tree).length ∧
      (postorder example_tree).Nodup ∧
      (∀ n, n ∈ postorder example_tree ↔ n ∈ nodes example_tree) ∧
      (∀ n ∈ nodes example_tree, is_internal n = true →
        Before (postorder example_tree) n.left n ∧ Before (postorder example_tree) n.right n) :=
  rtree_traverse_postorder_visits_all example_consts (fun _ => 1) example_tree
    [.null, .null, .null, .null] (by decide) (by decide) (by decide) (fun _ => Int.one_ne_zero)
    (by decide)

/-- Claim C14.  On a rooted binary tree with an internal root, a predicate
that always returns true and a buffer with room for every node, `rtree_traverse`
with `TREE_TRAVERSE_PREORDER` (a constant other than `TREE_TRAVERSE_POSTORDER`)
returns `BPP_SUCCESS` with `trav_size` the number of nodes, and the slots it
wrote hold the self-left-right listing `preorder`, in which every node of the
tree occurs exactly once and every internal node stands in front of both of its
children. -/
theorem rtree_traverse_preorder_visits_all {D : Type} (K : TraverseConsts)
    (cbtrav : rnode_t D → Int) (root : rnode_t D) (outbuffer : List (rnode_t D))
    (hK : K.TREE_TRAVERSE_PREORDER ≠ K.TREE_TRAVERSE_POSTORDER)
    (hb : is_binary root = true) (hroot : is_internal root = true)
    (hd : ((nodes root).map rnode_t.addr).Nodup) (hcb : ∀ n, cbtrav n ≠ 0)
    (hroom : (nodes root).length ≤ outbuffer.length) :
    rtree_traverse K root K.TREE_TRAVERSE_PREORDER cbtrav outbuffer =
        .returned K.BPP_SUCCESS (nodes root).length
          (preorder root ++ outbuffer.drop (nodes root).length) ∧
      (preorder root).length = (nodes root).length ∧
      (preorder root).Nodup ∧ (∀ n, n ∈ preorder root ↔ n ∈ nodes root) ∧
      (∀ n ∈ nodes root, is_internal n = true →
        Before (preorder root) n n.left ∧ Before (preorder root) n n.right) := by
  have hlen : (preorder root).length = (nodes root).length := (preorder_perm root).length_eq
  have h := (rtree_traverse_eq K cbtrav (fun _ => true) (fun n => by simp [hcb n]) root
    outbuffer hb hroot hroom).2 hK
  rw [traverse_all_preorder _ (fun _ => rfl), hlen] at h
  exact ⟨h, hlen, (preorder_perm root).nodup_iff.2 (nodes_nodup root hd),
    fun n => (preorder_perm root).mem_iff, fun n hn hi => preorder_children_after root n hb hn hi⟩

theorem rtree_traverse_preorder_visits_all_witness :
    rtree_traverse example_consts example_tree example_consts.TREE_TRAVERSE_PREORDER
        (fun _ => 1) [.null, .null, .null, .null] =
        .returned example_consts.BPP_SUCCESS (nodes example_tree).length
          (preorder example_tree ++
            [rnode_t.null, .null, .null, .null].drop (nodes example_tree).length) ∧
      (preorder example_tree).length = (nodes example_tree).length ∧
      (preorder example_tree).Nodup ∧
      (∀ n, n ∈ preorder example_tree ↔ n ∈ nodes example_tree) ∧
      (∀ n ∈ nodes example_tree, is_internal n = true →
        Before (preorder example_tree) n n.left ∧ Before (preorder example_tree) n n.right) :=
  rtree_traverse_preorder_visits_all example_consts (fun _ => 1) example_tree
    [.null, .null, .null, .null] (by decide) (by decide) (by decide) (by decide)
    (fun _ => Int.one_ne_zero) (by decide)
/-! ## Claim C15: pruning -/

theorem nodes_subset {D : Type} (t n m : rnode_t D) (hn : n ∈ nodes t) (hm : m ∈ nodes n) :
    m ∈ nodes t := by
  induction t with
  | null => simp [nodes] at hn
  | node addr label length left right ihl ihr =>
    simp only [nodes, List.append_assoc, List.mem_append, List.mem_singleton, List.mem_cons,
      List.not_mem_nil, or_false] at hn ⊢
    rcases hn with h | h | h
    · exact Or.inl (ihl h)
    · rw [h] at hm
      simpa only [nodes, List.append_assoc, List.mem_append, List.mem_singleton, List.mem_cons,
        List.not_mem_nil, or_false] using hm
    · exact Or.inr (Or.inr (ihr h))

/-- The traversal of the specification depends on the predicate only at the
nodes of the tree. -/
theorem traverse_congr {D : Type} (order : Order) (p q : rnode_t D → Bool) (t : rnode_t D)
    (h : ∀ m ∈ nodes t, p m = q m) : traverse order p t = traverse order q t := by
  induction t with
  | null => simp [traverse]
  | node addr label length left right ihl ihr =>
    have hl : traverse order p left = traverse order q left :=
      ihl (fun m hm => h m (by simp [nodes, hm]))
    have hr : traverse order p right = traverse order q right :=
      ihr (fun m hm => h m (by simp [nodes, hm]))
    have ht : p (.node addr label length left right) = q (.node addr label length left right) :=
      h _ (by simp [nodes])
    simp only [traverse, hl, hr, ht]

/-- Pruning at the node `n`: the traversal with a predicate that is false at
`n` is the traversal with any predicate that agrees with it outside the subtree
of `n`, with a block of nodes of that subtree taken out. -/
theorem traverse_prune {D : Type} (order : Order) (p q : rnode_t D → Bool) (n : rnode_t D)
    (hpn : p n = false) (t : rnode_t D) (hd : (nodes t).Nodup) (hn : n ∈ nodes t)
    (hq : ∀ m ∈ nodes t, m ∉ nodes n → p m = q m) :
    ∃ a s b, traverse order p t = a ++ b ∧ traverse order q t = a ++ s ++ b ∧
      (∀ m ∈ nodes n, m ∉ a ++ b) ∧ (∀ m ∈ s, m ∈ nodes n) := by
  induction t with
  | null => simp [nodes] at hn
  | node addr label length left right ihl ihr =>
    by_cases hnt : n = .node addr label length left right
    · refine ⟨[], traverse order q (.node addr label length left right), [], ?_, by simp, by simp,
        ?_⟩
      · rw [← hnt]
        cases n with
        | null => rfl
        | node _ _ _ _ _ => simp [traverse, hpn]
      · intro m hm
        rw [hnt]
        exact traverse_mem_nodes _ _ _ _ hm
    · simp only [nodes, List.append_assoc, List.singleton_append] at hd
      have hdl : (nodes left).Nodup := (List.nodup_append.1 hd).1
      have hdr : (nodes right).Nodup := ((List.nodup_append.1 hd).2.1).of_cons
      have htl : rnode_t.node addr label length left right ∉ nodes left := fun h =>
        (List.nodup_append.1 hd).2.2 h (List.mem_cons_self _ _)
      have htr : rnode_t.node addr label length left right ∉ nodes right :=
        (List.nodup_cons.1 (List.nodup_append.1 hd).2.1).1
      have hlr : ∀ m, m ∈ nodes left → m ∉ nodes right := fun m h1 h2 =>
        (List.nodup_append.1 hd).2.2 h1 (List.mem_cons_of_mem _ h2)
      have hn' : n ∈ nodes left ∨ n ∈ nodes right := by
        simp only [nodes, List.append_assoc, List.mem_append, List.mem_singleton, List.mem_cons,
          List.not_mem_nil, or_false] at hn
        rcases hn with h | h | h
        · exact Or.inl h
        · exact absurd h hnt
        · exact Or.inr h
      have hnotleaf : (left.is_null && right.is_null) = false := by
        cases left with
        | null =>
          cases right with
          | null => simp [nodes] at hn'
          | node _ _ _ _ _ => rfl
        | node _ _ _ _ _ => rfl
      have htn : rnode_t.node addr label length left right ∉ nodes n := by
        intro h
        rcases hn' with h1 | h1
        · exact htl (nodes_subset _ _ _ h1 h)
        · exact htr (nodes_subset _ _ _ h1 h)
      have hpt : p (.node addr label length left right) = q (.node addr label length left right) :=
        hq _ (by simp [nodes]) htn
      by_cases hp : q (.node addr label length left right) = true
      · rcases hn' with h1 | h1
        · obtain ⟨a, s, b, e1, e2, e3, e4⟩ := ihl hdl h1
            (fun m hm hmn => hq m (by simp [nodes, hm]) hmn)
          have hr : traverse order p right = traverse order q right :=
            traverse_congr order p q right (fun m hm => hq m (by simp [nodes, hm])
              (fun hmn => hlr m (nodes_subset _ _ _ h1 hmn) hm))
          have hrn : ∀ m ∈ nodes n, m ∉ traverse order q right := fun m hmn hm =>
            hlr m (nodes_subset _ _ _ h1 hmn) (traverse_mem_nodes _ _ _ _ hm)
          cases order with
          | postorder =>
            refine ⟨a, s, b ++ traverse .postorder q right ++ [.node addr label length left right],
              ?_, ?_, ?_, e4⟩
            · simp [traverse, hpt, hp, hnotleaf, e1, hr]
            · simp [traverse, hp, hnotleaf, e2]
            · intro m hmn hm
              simp only [List.mem_append, List.mem_singleton] at hm
              rcases hm with hm | (hm | hm) | hm
              · exact e3 m hmn (List.mem_append_left _ hm)
              · exact e3 m hmn (List.mem_append_right _ hm)
              · exact hrn m hmn hm
              · exact htn (hm ▸ hmn)
          | preorder =>
            refine ⟨.node addr label length left right :: a, s, b ++ traverse .preorder q right,
              ?_, ?_, ?_, e4⟩
            · simp [traverse, hpt, hp, hnotleaf, e1, hr]
            · simp [traverse, hp, hnotleaf, e2]
            · intro m hmn hm
              simp only [List.mem_append, List.mem_cons] at hm
              rcases hm with (hm | hm) | hm | hm
              · exact htn (hm ▸ hmn)
              · exact e3 m hmn (List.mem_append_left _ hm)
              · exact e3 m hmn (List.mem_append_right _ hm)
              · exact hrn m hmn hm
        · obtain ⟨a, s, b, e1, e2, e3, e4⟩ := ihr hdr h1
            (fun m hm hmn => hq m (by simp [nodes, hm]) hmn)
          have hl : traverse order p left = traverse order q left :=
            traverse_congr order p q left (fun m hm => hq m (by simp [nodes, hm])
              (fun hmn => hlr m hm (nodes_subset _ _ _ h1 hmn)))
          have hln : ∀ m ∈ nodes n, m ∉ traverse order q left := fun m hmn hm =>
            hlr m (traverse_mem_nodes _ _ _ _ hm) (nodes_subset _ _ _ h1 hmn)
          cases order with
          | postorder =>
            refine ⟨traverse .postorder q left ++ a, s,
              b ++ [.node addr label length left right], ?_, ?_, ?_, e4⟩
            · simp [traverse, hpt, hp, hnotleaf, e1, hl]
            · simp [traverse, hp, hnotleaf, e2]
            · intro m hmn hm
              simp only [List.mem_append, List.mem_singleton] at hm
              rcases hm with (hm | hm) | hm | hm
              · exact hln m hmn hm
              · exact e3 m hmn (List.mem_append_left _ hm)
              · exact e3 m hmn (List.mem_append_right _ hm)
              · exact htn (hm ▸ hmn)
          | preorder =>
            refine ⟨.node addr label length left right :: (traverse .preorder q left ++ a), s, b,
              ?_, ?_, ?_, e4⟩
            · simp [traverse, hpt, hp, hnotleaf, e1, hl]
            · simp [traverse, hp, hnotleaf, e2]
            · intro m hmn hm
              simp only [List.mem_append, List.mem_cons] at hm
              rcases hm with (hm | hm | hm) | hm
              · exact htn (hm ▸ hmn)
              · exact hln m hmn hm
              · exact e3 m hmn (List.mem_append_left _ hm)
              · exact e3 m hmn (List.mem_append_right _ hm)
      · refine ⟨[], [], [], ?_, ?_, by simp, by simp⟩
        · simp [traverse, hpt, hp]
        · simp [traverse, hp]
/-- Claim C15.  On a binary tree with an internal root and a buffer with room
for every node, in either order: when `cbtrav` returns false (0) for the node
`n` of the tree (internal or not), `rtree_traverse` succeeds and no node of the subtree of `n`
(neither `n` nor a descendant) is among the slots it wrote; and for every
`cbtrav'` that answers as `cbtrav` does outside that subtree, the output with
`cbtrav` is the output with `cbtrav'` with one block `s` of nodes of that
subtree taken out, so the nodes outside the subtree stand as they did. -/
theorem rtree_traverse_prunes_subtree {D : Type} (K : TraverseConsts) (traversal : Int)
    (cbtrav cbtrav' : rnode_t D → Int) (root n : rnode_t D) (outbuffer : List (rnode_t D))
    (htrav : traversal = K.TREE_TRAVERSE_POSTORDER ∨ traversal = K.TREE_TRAVERSE_PREORDER)
    (hb : is_binary root = true) (hroot : is_internal root = true)
    (hd : ((nodes root).map rnode_t.addr).Nodup)
    (hroom : (nodes root).length ≤ outbuffer.length)
    (hn : n ∈ nodes root) (hcb : cbtrav n = 0)
    (hout : ∀ m ∈ nodes root, m ∉ nodes n → (cbtrav' m = 0 ↔ cbtrav m = 0)) :
    ∃ a s b,
      rtree_traverse K root traversal cbtrav outbuffer =
        .returned K.BPP_SUCCESS (a ++ b).length (a ++ b ++ outbuffer.drop (a ++ b).length) ∧
      rtree_traverse K root traversal cbtrav' outbuffer =
        .returned K.BPP_SUCCESS (a ++ s ++ b).length
          (a ++ s ++ b ++ outbuffer.drop (a ++ s ++ b).length) ∧
      (∀ m ∈ nodes n, m ∉ a ++ b) ∧ (∀ m ∈ s, m ∈ nodes n) := by
  have hp : ∀ m, (fun m => decide (cbtrav m ≠ 0)) m = true ↔ cbtrav m ≠ 0 := fun m => by simp
  have hq : ∀ m, (fun m => decide (cbtrav' m ≠ 0)) m = true ↔ cbtrav' m ≠ 0 := fun m => by simp
  have hpn : (fun m => decide (cbtrav m ≠ 0)) n = false := by simp [hcb]
  have hpq : ∀ m ∈ nodes root, m ∉ nodes n →
      (fun m => decide (cbtrav m ≠ 0)) m = (fun m => decide (cbtrav' m ≠ 0)) m := by
    intro m hm hmn
    have := hout m hm hmn
    simp only [ne_eq, decide_not, this]
  have h1 := rtree_traverse_eq K cbtrav _ hp root outbuffer hb hroot hroom
  have h2 := rtree_traverse_eq K cbtrav' _ hq root outbuffer hb hroot hroom
  have post : ∃ a s b,
      rtree_traverse K root K.TREE_TRAVERSE_POSTORDER cbtrav outbuffer =
        .returned K.BPP_SUCCESS (a ++ b).length (a ++ b ++ outbuffer.drop (a ++ b).length) ∧
      rtree_traverse K root K.TREE_TRAVERSE_POSTORDER cbtrav' outbuffer =
        .returned K.BPP_SUCCESS (a ++ s ++ b).length
          (a ++ s ++ b ++ outbuffer.drop (a ++ s ++ b).length) ∧
      (∀ m ∈ nodes n, m ∉ a ++ b) ∧ (∀ m ∈ s, m ∈ nodes n) := by
    obtain ⟨a, s, b, e1, e2, e3, e4⟩ :=
      traverse_prune .postorder _ _ n hpn root (nodes_nodup root hd) hn hpq
    refine ⟨a, s, b, ?_, ?_, e3, e4⟩
    · rw [h1.1, e1]
    · rw [h2.1, e2]
  rcases htrav with h | h
  · rw [h]; exact post
  · by_cases hK : K.TREE_TRAVERSE_PREORDER = K.TREE_TRAVERSE_POSTORDER
    · rw [h, hK]; exact post
    · obtain ⟨a, s, b, e1, e2, e3, e4⟩ :=
        traverse_prune .preorder _ _ n hpn root (nodes_nodup root hd) hn hpq
      refine ⟨a, s, b, ?_, ?_, e3, e4⟩
      · rw [h, h1.2 hK, e1]
      · rw [h, h2.2 hK, e2]

theorem rtree_traverse_prunes_subtree_witness :
    is_internal (example_tree5.left) = true ∧
    ∃ a s b,
      rtree_traverse example_consts example_tree5 example_consts.TREE_TRAVERSE_PREORDER
          (fun m => if m.addr = 2 then 0 else 1) [.null, .null, .null, .null, .null] =
        .returned example_consts.BPP_SUCCESS (a ++ b).length
          (a ++ b ++ [rnode_t.null, .null, .null, .null, .null].drop (a ++ b).length) ∧
      rtree_traverse example_consts example_tree5 example_consts.TREE_TRAVERSE_PREORDER
          (fun _ => 1) [.null, .null, .null, .null, .null] =
        .returned example_consts.BPP_SUCCESS (a ++ s ++ b).length
          (a ++ s ++ b ++ [rnode_t.null, .null, .null, .null, .null].drop (a ++ s ++ b).length) ∧
      (∀ m ∈ nodes example_tree5.left, m ∉ a ++ b) ∧
      (∀ m ∈ s, m ∈ nodes example_tree5.left) :=
  ⟨by decide,
    rtree_traverse_prunes_subtree example_consts example_consts.TREE_TRAVERSE_PREORDER
      (fun m => if m.addr = 2 then 0 else 1) (fun _ => 1) example_tree5 example_tree5.left
      [.null, .null, .null, .null, .null] (Or.inr rfl) (by decide) (by decide) (by decide)
      (by decide) (by decide) (by decide) (by decide)⟩

/-! ## Newick export -/

/-- Without callback the recursive export returns the text `newick_text` for
every node of a tree whose leaves are labelled. -/
theorem rtree_export_newick_recursive_text {D : Type} (fmt : D → List Char) (t : rnode_t D)
    (ht : t.is_null = false) (hlab : leaves_labelled t = true) :
    rtree_export_newick_recursive fmt none t = .string (newick_text fmt t) := by
  induction t with
  | null => simp [rnode_t.is_null] at ht
  | node addr label length left right ihl ihr =>
    by_cases hleaf : left.is_null = true ∨ right.is_null = true
    · simp only [leaves_labelled, if_pos hleaf] at hlab
      obtain ⟨l, hl⟩ := Option.isSome_iff_exists.1 hlab
      simp [rtree_export_newick_recursive, newick_text, if_pos hleaf, hl]
    · simp only [leaves_labelled, if_neg hleaf, Bool.and_eq_true] at hlab
      have h1 : left.is_null = false := by
        simpa using fun h => hleaf (Or.inl h)
      have h2 : right.is_null = false := by
        simpa using fun h => hleaf (Or.inr h)
      simp [rtree_export_newick_recursive, newick_text, if_neg hleaf, ihl h1 hlab.1,
        ihr h2 hlab.2]

/-- With a callback that returns the text `text n` at every node, the
recursive export returns `newick_text_cb`. -/
theorem rtree_export_newick_recursive_cb {D : Type} (fmt : D → List Char)
    (cb : rnode_t D → Option (List Char)) (text : rnode_t D → List Char) (t : rnode_t D)
    (ht : t.is_null = false) (hcb : ∀ n ∈ nodes t, cb n = some (text n)) :
    rtree_export_newick_recursive fmt (some cb) t = .string (newick_text_cb text t) := by
  induction t with
  | null => simp [rnode_t.is_null] at ht
  | node addr label length left right ihl ihr =>
    have hself := hcb (.node addr label length left right) (by simp [nodes])
    by_cases hleaf : left.is_null = true ∨ right.is_null = true
    · simp [rtree_export_newick_recursive, newick_text_cb, if_pos hleaf, hself]
    · have h1 : left.is_null = false := by
        simpa using fun h => hleaf (Or.inl h)
      have h2 : right.is_null = false := by
        simpa using fun h => hleaf (Or.inr h)
      simp [rtree_export_newick_recursive, newick_text_cb, if_neg hleaf, hself,
        ihl h1 (fun n hn => hcb n (by simp [nodes, hn])),
        ihr h2 (fun n hn => hcb n (by simp [nodes, hn]))]

/-- Claim C16.  For a tree whose root is internal (has both children) and
whose leaves are labelled, `rtree_export_newick` without callback returns
`rec(root)` followed by `;`, where `rec` is `newick_text`: `label:fmt(length)`
for a node that lacks a child and `(rec(left),rec(right))label:fmt(length)`
otherwise, a missing label of an internal node giving the empty string. -/
theorem rtree_export_newick_default {D : Type} (fmt : D → List Char) (root : rnode_t D)
    (hl : root.left.is_null = false) (hr : root.right.is_null = false)
    (hlab : leaves_labelled root = true) :
    rtree_export_newick fmt none root = .string (newick_text fmt root ++ ";".toList) := by
  cases root with
  | null => simp [rnode_t.left, rnode_t.is_null] at hl
  | node addr label length left right =>
    simp only [rnode_t.left, rnode_t.right] at hl hr
    have hleaf : ¬ (left.is_null = true ∨ right.is_null = true) := by simp [hl, hr]
    simp only [leaves_labelled, if_neg hleaf, Bool.and_eq_true] at hlab
    simp [rtree_export_newick, newick_text, if_neg hleaf,
      rtree_export_newick_recursive_text fmt left hl hlab.1,
      rtree_export_newick_recursive_text fmt right hr hlab.2]

theorem rtree_export_newick_default_witness :
    rtree_export_newick example_fmt none example_tree5 =
        .string (newick_text example_fmt example_tree5 ++ ";".toList) ∧
      newick_text example_fmt example_tree5 = "((A:2,B:3)X:1,C:4)R:0".toList :=
  ⟨rtree_export_newick_default example_fmt example_tree5 (by decide) (by decide) (by decide),
    by decide⟩

/-- Claim C18.  With a callback that returns a string at every node of the
tree, `rtree_export_newick` returns `newick_text_cb`: the text of a leaf is
`cb(leaf)` and the text of an internal node is `(left,right)cb(node)`, at the
root as below it; neither a label nor a length rendered by `fmt` enters the
output. -/
theorem rtree_export_newick_callback {D : Type} (fmt : D → List Char)
    (cb : rnode_t D → Option (List Char)) (text : rnode_t D → List Char) (root : rnode_t D)
    (hroot : root.is_null = false) (hcb : ∀ n ∈ nodes root, cb n = some (text n)) :
    rtree_export_newick fmt (some cb) root = .string (newick_text_cb text root) := by
  cases root with
  | null => simp [rnode_t.is_null] at hroot
  | node addr label length left right =>
    have hself := hcb (.node addr label length left right) (by simp [nodes])
    by_cases hleaf : left.is_null = true ∨ right.is_null = true
    · simp [rtree_export_newick, newick_text_cb, if_pos hleaf, hself]
    · have h1 : left.is_null = false := by
        simpa using fun h => hleaf (Or.inl h)
      have h2 : right.is_null = false := by
        simpa using fun h => hleaf (Or.inr h)
      simp [rtree_export_newick, newick_text_cb, if_neg hleaf, hself,
        rtree_export_newick_recursive_cb fmt cb text left h1
          (fun n hn => hcb n (by simp [nodes, hn])),
        rtree_export_newick_recursive_cb fmt cb text right h2
          (fun n hn => hcb n (by simp [nodes, hn]))]

theorem rtree_export_newick_callback_witness :
    rtree_export_newick example_fmt (some (fun n => some (example_fmt n.addr))) example_tree5 =
        .string (newick_text_cb (fun n => example_fmt n.addr) example_tree5) ∧
      newick_text_cb (fun n => example_fmt n.addr) example_tree5 = "((3,4)2,5)1".toList :=
  ⟨rtree_export_newick_callback example_fmt (fun n => some (example_fmt n.addr))
      (fun n => example_fmt n.addr) example_tree5 (by decide) (fun _ _ => rfl),
    by decide⟩

/-! ## Claim C17: where the terminating `;` is appended -/

/-- Claim C17, counterexamples.  For the root `A` that is a leaf the export
without callback is `A:1`, and with a callback that prints the address of a
node the export of the leaf is `1` and the export of `((A,B)X,C)R` is
`((3,4)2,5)1`: none of the three ends in `;`. -/
theorem rtree_export_newick_without_semicolon :
    rtree_export_newick example_fmt none example_leaf = .string "A:1".toList ∧
      rtree_export_newick example_fmt (some (fun n => some (example_fmt n.addr))) example_leaf =
        .string "1".toList ∧
      rtree_export_newick example_fmt (some (fun n => some (example_fmt n.addr)))
        example_tree5 = .string "((3,4)2,5)1".toList := by
  decide

/-- Claim C17, amended.  For a non-null root whose leaves are labelled and a
callback that returns a string at every node: without callback the outermost
call returns the string of the recursive export of the root, followed by one
`;` when the root is internal and by nothing when the root lacks a child; with
the callback it returns the string of the recursive export with nothing
appended. -/
theorem rtree_export_newick_semicolon {D : Type} (fmt : D → List Char)
    (cb : rnode_t D → Option (List Char)) (text : rnode_t D → List Char) (root : rnode_t D)
    (hroot : root.is_null = false) (hlab : leaves_labelled root = true)
    (hcb : ∀ n ∈ nodes root, cb n = some (text n)) :
    rtree_export_newick_recursive fmt none root = .string (newick_text fmt root) ∧
      rtree_export_newick fmt none root =
        .string (newick_text fmt root ++
          if root.left.is_null = true ∨ root.right.is_null = true then [] else ";".toList) ∧
      rtree_export_newick_recursive fmt (some cb) root = .string (newick_text_cb text root) ∧
      rtree_export_newick fmt (some cb) root = .string (newick_text_cb text root) := by
  refine ⟨rtree_export_newick_recursive_text fmt root hroot hlab, ?_,
    rtree_export_newick_recursive_cb fmt cb text root hroot hcb, ?_⟩
  · cases root with
    | null => simp [rnode_t.is_null] at hroot
    | node addr label length left right =>
      simp only [rnode_t.left, rnode_t.right]
      by_cases hleaf : left.is_null = true ∨ right.is_null = true
      · simp only [leaves_labelled, if_pos hleaf] at hlab
        obtain ⟨l, hl⟩ := Option.isSome_iff_exists.1 hlab
        simp [rtree_export_newick, newick_text, if_pos hleaf, hl]
      · have h1 : left.is_null = false := by
          simpa using fun h => hleaf (Or.inl h)
        have h2 : right.is_null = false := by
          simpa using fun h => hleaf (Or.inr h)
        simp only [leaves_labelled, if_neg hleaf, Bool.and_eq_true] at hlab
        simp [rtree_export_newick, newick_text, if_neg hleaf,
          rtree_export_newick_recursive_text fmt left h1 hlab.1,
          rtree_export_newick_recursive_text fmt right h2 hlab.2]
  · cases root with
    | null => simp [rnode_t.is_null] at hroot
    | node addr label length left right =>
      have hself := hcb (.node addr label length left right) (by simp [nodes])
      by_cases hleaf : left.is_null = true ∨ right.is_null = true
      · simp [rtree_export_newick, newick_text_cb, if_pos hleaf, hself]
      · have h1 : left.is_null = false := by
          simpa using fun h => hleaf (Or.inl h)
        have h2 : right.is_null = false := by
          simpa using fun h => hleaf (Or.inr h)
        simp [rtree_export_newick, newick_text_cb, if_neg hleaf, hself,
          rtree_export_newick_recursive_cb fmt cb text left h1
            (fun n hn => hcb n (by simp [nodes, hn])),
          rtree_export_newick_recursive_cb fmt cb text right h2
            (fun n hn => hcb n (by simp [nodes, hn]))]

theorem rtree_export_newick_semicolon_witness :
    rtree_export_newick_recursive example_fmt none example_tree5 =
        .string (newick_text example_fmt example_tree5) ∧
      rtree_export_newick example_fmt none example_tree5 =
        .string (newick_text example_fmt example_tree5 ++
          if example_tree5.left.is_null = true ∨ example_tree5.right.is_null = true then []
          else ";".toList) ∧
      rtree_export_newick_recursive example_fmt (some (fun n => some (example_fmt n.addr)))
          example_tree5 = .string (newick_text_cb (fun n => example_fmt n.addr) example_tree5) ∧
      rtree_export_newick example_fmt (some (fun n => some (example_fmt n.addr)))
          example_tree5 = .string (newick_text_cb (fun n => example_fmt n.addr) example_tree5) :=
  rtree_export_newick_semicolon example_fmt (fun n => some (example_fmt n.addr))
    (fun n => example_fmt n.addr) example_tree5 (by decide) (by decide) (fun _ _ => rfl)

/-! ## The validators, with their counts -/

/-- The first field of a text is the run of characters other than delimiters
that follows its leading white space. -/
theorem first_field (s t : List Char) (rest : List (List Char)) (h : fields s = t :: rest) :
    t = (s.dropWhile is_ws).takeWhile (fun c => !is_delim c) ∧
      at_end_or_comment (s.dropWhile is_ws) = false ∧ t ≠ [] ∧
      fields (s.drop ((s.takeWhile is_ws).length + t.length)) = rest := by
  rcases scan_token s with ⟨_, h2⟩ | ⟨h1, hne, h3⟩
  · rw [h] at h2; exact absurd h2 (by simp)
  · rw [h] at h3
    injection h3 with ht hr
    refine ⟨ht, h1, by rw [ht]; exact hne, ?_⟩
    rw [ht]; exact hr.symm

/-- The count and the value that `get_double` gives on a text with a first
field. -/
theorem get_double_count {D : Type} (lf : List Char → Option (D × Nat)) (s : List Char) (old : D)
    (t : List Char) (rest : List (List Char)) (h : fields s = t :: rest) :
    get_double lf s old =
      (if converts lf t = true then (s.takeWhile is_ws).length + t.length else 0,
        stored lf t old) := by
  obtain ⟨ht, h1, _, _⟩ := first_field s t rest h
  rw [get_double_unfold, h1, ← ht]
  simp only [Bool.false_eq_true, if_false]
  rw [conversion_result]
  rfl

/-- The result of `get_e` on a text with a first field. -/
theorem get_e_count (s t : List Char) (rest : List (List Char)) (h : fields s = t :: rest) :
    get_e s = if t = ['E'] ∨ t = ['e'] then ((s.takeWhile is_ws).length + 1, 1) else (0, 2) := by
  obtain ⟨ht, h1, hne, _⟩ := first_field s t rest h
  rw [get_e_unfold, h1, ← ht]
  simp only [Bool.false_eq_true, if_false]
  have hhd : (s.dropWhile is_ws).head? = t.head? := by
    rw [ht]
    cases hd : s.dropWhile is_ws with
    | nil => simp
    | cons d r =>
      rw [hd] at ht
      by_cases hdd : is_delim d = true
      · rw [ht] at hne; simp [List.takeWhile, hdd] at hne
      · simp [List.takeWhile, hdd]
  rw [hhd]
  match t, hne with
  | [], hn => exact absurd rfl hn
  | [c], _ =>
    by_cases h1 : c = 'E'
    · simp [h1]
    · by_cases h2 : c = 'e'
      · simp [h2]
      · simp [h1, h2]
  | c :: d :: t, _ => simp

/-! ## Claim C23: the three answers of `get_e` -/

/-- Claim C23.  For every text `get_e` gives one of three answers: on a blank
or comment text it returns 0 and stores 0; when the first field is exactly `E`
or `e` it stores 1 and returns the count of leading white space plus 1; on
every other first field it returns 0 and stores 2.  So the stored value is 0
exactly when the field is absent and 2 exactly when it is present but wrong. -/
theorem get_e_three_cases (s : List Char) :
    (fields s = [] → get_e s = (0, 0)) ∧
    (∀ t rest, fields s = t :: rest → (t = ['E'] ∨ t = ['e']) →
      get_e s = ((s.takeWhile is_ws).length + 1, 1)) ∧
    (∀ t rest, fields s = t :: rest → ¬ (t = ['E'] ∨ t = ['e']) → get_e s = (0, 2)) ∧
    ((get_e s).2 = 0 ↔ fields s = []) ∧
    ((get_e s).2 = 2 ↔ ∃ t rest, fields s = t :: rest ∧ ¬ (t = ['E'] ∨ t = ['e'])) := by
  refine ⟨get_e_nil s, ?_, ?_, ?_, ?_⟩
  · intro t rest h ht
    rw [get_e_count s t rest h, if_pos ht]
  · intro t rest h ht
    rw [get_e_count s t rest h, if_neg ht]
  · rcases hf : fields s with _ | ⟨t, rest⟩
    · rw [get_e_nil s hf]; simp
    · rw [get_e_count s t rest hf]
      by_cases ht : t = ['E'] ∨ t = ['e']
      · rw [if_pos ht]; simp
      · rw [if_neg ht]; simp
  · rcases hf : fields s with _ | ⟨t, rest⟩
    · rw [get_e_nil s hf]; simp
    · rw [get_e_count s t rest hf]
      by_cases ht : t = ['E'] ∨ t = ['e']
      · rw [if_pos ht]
        constructor
        · intro h
          have h' : (1 : Int) = 2 := h
          exact absurd h' (by decide)
        · rintro ⟨t', rest', h1, h2⟩
          injection h1 with h1 _
          exact absurd (h1 ▸ ht) h2
      · rw [if_neg ht]
        simp only [true_iff]
        exact ⟨t, rest, rfl, ht⟩

theorem get_e_three_cases_witness :
    get_e "  # none".toList = (0, 0) ∧ get_e "  E 7".toList = (3, 1) ∧
      get_e " e".toList = (2, 1) ∧ get_e " Ex".toList = (0, 2) ∧ get_e "x".toList = (0, 2) :=
  ⟨(get_e_three_cases "  # none".toList).1 (by decide),
    (get_e_three_cases "  E 7".toList).2.1 "E".toList ["7".toList] (by decide) (by decide),
    (get_e_three_cases " e".toList).2.1 "e".toList [] (by decide) (by decide),
    (get_e_three_cases " Ex".toList).2.2.1 "Ex".toList [] (by decide) (by decide),
    (get_e_three_cases "x".toList).2.2.1 "x".toList [] (by decide) (by decide)⟩
/-! ## Dispatch on the key -/

/-- On a line whose key equals the name of the option `o` up to the case of
letters, the loop body of `load_cfile` runs the handler of `o`. -/
theorem load_body_option {D : Type} (E : Env D) (line key value : List Char) (st : State D)
    (hl : KeyLine line key value) (o : OptionName) (hk : key.map tolower = o.text) :
    load_body E line st =
      run_option E o value { fp := st.fp, line_count := st.line_count + 1, cfg := st.cfg } := by
  cases o
  case seed =>
    change key.map tolower = "seed".toList at hk
    obtain ⟨token, hg, hcmp⟩ := get_token_named line key value _ hl hk
    have c0 : strncasecmp token "seed".toList 4 = 0 :=
      (hcmp "seed".toList (by decide) (by decide)).mpr rfl
    have c1 : strncasecmp token "arch".toList 4 ≠ 0 :=
      fun e => absurd ((hcmp "arch".toList (by decide) (by decide)).mp e) (by decide)
    have hn : "seed".toList.length = 4 := by decide
    rw [hn] at hg
    simp only [load_body, run_option, hg, Nat.cast_ofNat, Int.reduceEq, Int.reduceLT, if_false,
      if_true, c0, c1]
  case arch =>
    change key.map tolower = "arch".toList at hk
    obtain ⟨token, hg, hcmp⟩ := get_token_named line key value _ hl hk
    have c0 : strncasecmp token "arch".toList 4 = 0 :=
      (hcmp "arch".toList (by decide) (by decide)).mpr rfl
    have c1 : strncasecmp token "seed".toList 4 ≠ 0 :=
      fun e => absurd ((hcmp "seed".toList (by decide) (by decide)).mp e) (by decide)
    have hn : "arch".toList.length = 4 := by decide
    rw [hn] at hg
    simp only [load_body, run_option, hg, Nat.cast_ofNat, Int.reduceEq, Int.reduceLT, if_false,
      if_true, c0, c1]
  case nloci =>
    change key.map tolower = "nloci".toList at hk
    obtain ⟨token, hg, hcmp⟩ := get_token_named line key value _ hl hk
    have c0 : strncasecmp token "nloci".toList 5 = 0 :=
      (hcmp "nloci".toList (by decide) (by decide)).mpr rfl
    have c1 : strncasecmp token "print".toList 5 ≠ 0 :=
      fun e => absurd ((hcmp "print".toList (by decide) (by decide)).mp e) (by decide)
    have hn : "nloci".toList.length = 5 := by decide
    rw [hn] at hg
    simp only [load_body, run_option, hg, Nat.cast_ofNat, Int.reduceEq, Int.reduceLT, if_false,
      if_true, c0, c1]
  case print =>
    change key.map tolower = "print".toList at hk
    obtain ⟨token, hg, hcmp⟩ := get_token_named line key value _ hl hk
    have c0 : strncasecmp token "print".toList 5 = 0 :=
      (hcmp "print".toList (by decide) (by decide)).mpr rfl
    have c1 : strncasecmp token "nloci".toList 5 ≠ 0 :=
      fun e => absurd ((hcmp "nloci".toList (by decide) (by decide)).mp e) (by decide)
    have hn : "print".toList.length = 5 := by decide
    rw [hn] at hg
    simp only [load_body, run_option, hg, Nat.cast_ofNat, Int.reduceEq, Int.reduceLT, if_false,
      if_true, c0, c1]
  case burnin =>
    change key.map tolower = "burnin".toList at hk
    obtain ⟨token, hg, hcmp⟩ := get_token_named line key value _ hl hk
    have c0 : strncasecmp token "burnin".toList 6 = 0 :=
      (hcmp "burnin".toList (by decide) (by decide)).mpr rfl
    have hn : "burnin".toList.length = 6 := by decide
    rw [hn] at hg
    simp only [load_body, run_option, hg, Nat.cast_ofNat, Int.reduceEq, Int.reduceLT, if_false,
      if_true, c0]
  case seqfile =>
    change key.map tolower = "seqfile".toList at hk
    obtain ⟨token, hg, hcmp⟩ := get_token_named line key value _ hl hk
    have c0 : strncasecmp token "seqfile".toList 7 = 0 :=
      (hcmp "seqfile".toList (by decide) (by decide)).mpr rfl
    have c1 : strncasecmp token "outfile".toList 7 ≠ 0 :=
      fun e => absurd ((hcmp "outfile".toList (by decide) (by decide)).mp e) (by decide)
    have c2 : strncasecmp token "usedata".toList 7 ≠ 0 :=
      fun e => absurd ((hcmp "usedata".toList (by decide) (by decide)).mp e) (by decide)
    have c3 : strncasecmp token "nsample".toList 7 ≠ 0 :=
      fun e => absurd ((hcmp "nsample".toList (by decide) (by decide)).mp e) (by decide)
    have hn : "seqfile".toList.length = 7 := by decide
    rw [hn] at hg
    simp only [load_body, run_option, hg, Nat.cast_ofNat, Int.reduceEq, Int.reduceLT, if_false,
      if_true, c0, c1, c2, c3]
  case outfile =>
    change key.map tolower = "outfile".toList at hk
    obtain ⟨token, hg, hcmp⟩ := get_token_named line key value _ hl hk
    have c0 : strncasecmp token "outfile".toList 7 = 0 :=
      (hcmp "outfile".toList (by decide) (by decide)).mpr rfl
    have c1 : strncasecmp token "seqfile".toList 7 ≠ 0 :=
      fun e => absurd ((hcmp "seqfile".toList (by decide) (by decide)).mp e) (by decide)
    have c2 : strncasecmp token "usedata".toList 7 ≠ 0 :=
      fun e => absurd ((hcmp "usedata".toList (by decide) (by decide)).mp e) (by decide)
    have c3 : strncasecmp token "nsample".toList 7 ≠ 0 :=
      fun e => absurd ((hcmp "nsample".toList (by decide) (by decide)).mp e) (by decide)
    have hn : "outfile".toList.length = 7 := by decide
    rw [hn] at hg
    simp only [load_body, run_option, hg, Nat.cast_ofNat, Int.reduceEq, Int.reduceLT, if_false,
      if_true, c0, c1, c2, c3]
  case usedata =>
    change key.map tolower = "usedata".toList at hk
    obtain ⟨token, hg, hcmp⟩ := get_token_named line key value _ hl hk
    have c0 : strncasecmp token "usedata".toList 7 = 0 :=
      (hcmp "usedata".toList (by decide) (by decide)).mpr rfl
    have c1 : strncasecmp token "seqfile".toList 7 ≠ 0 :=
      fun e => absurd ((hcmp "seqfile".toList (by decide) (by decide)).mp e) (by decide)
    have c2 : strncasecmp token "outfile".toList 7 ≠ 0 :=
      fun e => absurd ((hcmp "outfile".toList (by decide) (by decide)).mp e) (by decide)
    have c3 : strncasecmp token "nsample".toList 7 ≠ 0 :=
      fun e => absurd ((hcmp "nsample".toList (by decide) (by decide)).mp e) (by decide)
    have hn : "usedata".toList.length = 7 := by decide
    rw [hn] at hg
    simp only [load_body, run_option, hg, Nat.cast_ofNat, Int.reduceEq, Int.reduceLT, if_false,
      if_true, c0, c1, c2, c3]
  case nsample =>
    change key.map tolower = "nsample".toList at hk
    obtain ⟨token, hg, hcmp⟩ := get_token_named line key value _ hl hk
    have c0 : strncasecmp token "nsample".toList 7 = 0 :=
      (hcmp "nsample".toList (by decide) (by decide)).mpr rfl
    have c1 : strncasecmp token "seqfile".toList 7 ≠ 0 :=
      fun e => absurd ((hcmp "seqfile".toList (by decide) (by decide)).mp e) (by decide)
    have c2 : strncasecmp token "outfile".toList 7 ≠ 0 :=
      fun e => absurd ((hcmp "outfile".toList (by decide) (by decide)).mp e) (by decide)
    have c3 : strncasecmp token "usedata".toList 7 ≠ 0 :=
      fun e => absurd ((hcmp "usedata".toList (by decide) (by decide)).mp e) (by decide)
    have hn : "nsample".toList.length = 7 := by decide
    rw [hn] at hg
    simp only [load_body, run_option, hg, Nat.cast_ofNat, Int.reduceEq, Int.reduceLT, if_false,
      if_true, c0, c1, c2, c3]
  case imapfile =>
    change key.map tolower = "imapfile".toList at hk
    obtain ⟨token, hg, hcmp⟩ := get_token_named line key value _ hl hk
    have c0 : strncasecmp token "imapfile".toList 8 = 0 :=
      (hcmp "imapfile".toList (by decide) (by decide)).mpr rfl
    have c1 : strncasecmp token "mcmcfile".toList 8 ≠ 0 :=
      fun e => absurd ((hcmp "mcmcfile".toList (by decide) (by decide)).mp e) (by decide)
    have c2 : strncasecmp token "tauprior".toList 8 ≠ 0 :=
      fun e => absurd ((hcmp "tauprior".toList (by decide) (by decide)).mp e) (by decide)
    have c3 : strncasecmp token "heredity".toList 8 ≠ 0 :=
      fun e => absurd ((hcmp "heredity".toList (by decide) (by decide)).mp e) (by decide)
    have c4 : strncasecmp token "finetune".toList 8 ≠ 0 :=
      fun e => absurd ((hcmp "finetune".toList (by decide) (by decide)).mp e) (by decide)
    have c5 : strncasecmp token "sampfreq".toList 8 ≠ 0 :=
      fun e => absurd ((hcmp "sampfreq".toList (by decide) (by decide)).mp e) (by decide)
    have hn : "imapfile".toList.length = 8 := by decide
    rw [hn] at hg
    simp only [load_body, run_option, hg, Nat.cast_ofNat, Int.reduceEq, Int.reduceLT, if_false,
      if_true, c0, c1, c2, c3, c4, c5]
  case mcmcfile =>
    change key.map tolower = "mcmcfile".toList at hk
    obtain ⟨token, hg, hcmp⟩ := get_token_named line key value _ hl hk
    have c0 : strncasecmp token "mcmcfile".toList 8 = 0 :=
      (hcmp "mcmcfile".toList (by decide) (by decide)).mpr rfl
    have c1 : strncasecmp token "imapfile".toList 8 ≠ 0 :=
      fun e => absurd ((hcmp "imapfile".toList (by decide) (by decide)).mp e) (by decide)
    have c2 : strncasecmp token "tauprior".toList 8 ≠ 0 :=
      fun e => absurd ((hcmp "tauprior".toList (by decide) (by decide)).mp e) (by decide)
    have c3 : strncasecmp token "heredity".toList 8 ≠ 0 :=
      fun e => absurd ((hcmp "heredity".toList (by decide) (by decide)).mp e) (by decide)
    have c4 : strncasecmp token "finetune".toList 8 ≠ 0 :=
      fun e => absurd ((hcmp "finetune".toList (by decide) (by decide)).mp e) (by decide)
    have c5 : strncasecmp token "sampfreq".toList 8 ≠ 0 :=
      fun e => absurd ((hcmp "sampfreq".toList (by decide) (by decide)).mp e) (by decide)
    have hn : "mcmcfile".toList.length = 8 := by decide
    rw [hn] at hg
    simp only [load_body, run_option, hg, Nat.cast_ofNat, Int.reduceEq, Int.reduceLT, if_false,
      if_true, c0, c1, c2, c3, c4, c5]
  case tauprior =>
    change key.map tolower = "tauprior".toList at hk
    obtain ⟨token, hg, hcmp⟩ := get_token_named line key value _ hl hk
    have c0 : strncasecmp token "tauprior".toList 8 = 0 :=
      (hcmp "tauprior".toList (by decide) (by decide)).mpr rfl
    have c1 : strncasecmp token "imapfile".toList 8 ≠ 0 :=
      fun e => absurd ((hcmp "imapfile".toList (by decide) (by decide)).mp e) (by decide)
    have c2 : strncasecmp token "mcmcfile".toList 8 ≠ 0 :=
      fun e => absurd ((hcmp "mcmcfile".toList (by decide) (by decide)).mp e) (by decide)
    have c3 : strncasecmp token "heredity".toList 8 ≠ 0 :=
      fun e => absurd ((hcmp "heredity".toList (by decide) (by decide)).mp e) (by decide)
    have c4 : strncasecmp token "finetune".toList 8 ≠ 0 :=
      fun e => absurd ((hcmp "finetune".toList (by decide) (by decide)).mp e) (by decide)
    have c5 : strncasecmp token "sampfreq".toList 8 ≠ 0 :=
      fun e => absurd ((hcmp "sampfreq".toList (by decide) (by decide)).mp e) (by decide)
    have hn : "tauprior".toList.length = 8 := by decide
    rw [hn] at hg
    simp only [load_body, run_option, hg, Nat.cast_ofNat, Int.reduceEq, Int.reduceLT, if_false,
      if_true, c0, c1, c2, c3, c4, c5]
  case heredity =>
    change key.map tolower = "heredity".toList at hk
    obtain ⟨token, hg, hcmp⟩ := get_token_named line key value _ hl hk
    have c0 : strncasecmp token "heredity".toList 8 = 0 :=
      (hcmp "heredity".toList (by decide) (by decide)).mpr rfl
    have c1 : strncasecmp token "imapfile".toList 8 ≠ 0 :=
      fun e => absurd ((hcmp "imapfile".toList (by decide) (by decide)).mp e) (by decide)
    have c2 : strncasecmp token "mcmcfile".toList 8 ≠ 0 :=
      fun e => absurd ((hcmp "mcmcfile".toList (by decide) (by decide)).mp e) (by decide)
    have c3 : strncasecmp token "tauprior".toList 8 ≠ 0 :=
      fun e => absurd ((hcmp "tauprior".toList (by decide) (by decide)).mp e) (by decide)
    have c4 : strncasecmp token "finetune".toList 8 ≠ 0 :=
      fun e => absurd ((hcmp "finetune".toList (by decide) (by decide)).mp e) (by decide)
    have c5 : strncasecmp token "sampfreq".toList 8 ≠ 0 :=
      fun e => absurd ((hcmp "sampfreq".toList (by decide) (by decide)).mp e) (by decide)
    have hn : "heredity".toList.length = 8 := by decide
    rw [hn] at hg
    simp only [load_body, run_option, hg, Nat.cast_ofNat, Int.reduceEq, Int.reduceLT, if_false,
      if_true, c0, c1, c2, c3, c4, c5]
  case finetune =>
    change key.map tolower = "finetune".toList at hk
    obtain ⟨token, hg, hcmp⟩ := get_token_named line key value _ hl hk
    have c0 : strncasecmp token "finetune".toList 8 = 0 :=
      (hcmp "finetune".toList (by decide) (by decide)).mpr rfl
    have c1 : strncasecmp token "imapfile".toList 8 ≠ 0 :=
      fun e => absurd ((hcmp "imapfile".toList (by decide) (by decide)).mp e) (by decide)
    have c2 : strncasecmp token "mcmcfile".toList 8 ≠ 0 :=
      fun e => absurd ((hcmp "mcmcfile".toList (by decide) (by decide)).mp e) (by decide)
    have c3 : strncasecmp token "tauprior".toList 8 ≠ 0 :=
      fun e => absurd ((hcmp "tauprior".toList (by decide) (by decide)).mp e) (by decide)
    have c4 : strncasecmp token "heredity".toList 8 ≠ 0 :=
      fun e => absurd ((hcmp "heredity".toList (by decide) (by decide)).mp e) (by decide)
    have c5 : strncasecmp token "sampfreq".toList 8 ≠ 0 :=
      fun e => absurd ((hcmp "sampfreq".toList (by decide) (by decide)).mp e) (by decide)
    have hn : "finetune".toList.length = 8 := by decide
    rw [hn] at hg
    simp only [load_body, run_option, hg, Nat.cast_ofNat, Int.reduceEq, Int.reduceLT, if_false,
      if_true, c0, c1, c2, c3, c4, c5]
  case sampfreq =>
    change key.map tolower = "sampfreq".toList at hk
    obtain ⟨token, hg, hcmp⟩ := get_token_named line key value _ hl hk
    have c0 : strncasecmp token "sampfreq".toList 8 = 0 :=
      (hcmp "sampfreq".toList (by decide) (by decide)).mpr rfl
    have c1 : strncasecmp token "imapfile".toList 8 ≠ 0 :=
      fun e => absurd ((hcmp "imapfile".toList (by decide) (by decide)).mp e) (by decide)
    have c2 : strncasecmp token "mcmcfile".toList 8 ≠ 0 :=
      fun e => absurd ((hcmp "mcmcfile".toList (by decide) (by decide)).mp e) (by decide)
    have c3 : strncasecmp token "tauprior".toList 8 ≠ 0 :=
      fun e => absurd ((hcmp "tauprior".toList (by decide) (by decide)).mp e) (by decide)
    have c4 : strncasecmp token "heredity".toList 8 ≠ 0 :=
      fun e => absurd ((hcmp "heredity".toList (by decide) (by decide)).mp e) (by decide)
    have c5 : strncasecmp token "finetune".toList 8 ≠ 0 :=
      fun e => absurd ((hcmp "finetune".toList (by decide) (by decide)).mp e) (by decide)
    have hn : "sampfreq".toList.length = 8 := by decide
    rw [hn] at hg
    simp only [load_body, run_option, hg, Nat.cast_ofNat, Int.reduceEq, Int.reduceLT, if_false,
      if_true, c0, c1, c2, c3, c4, c5]
  case cleandata =>
    change key.map tolower = "cleandata".toList at hk
    obtain ⟨token, hg, hcmp⟩ := get_token_named line key value _ hl hk
    have c0 : strncasecmp token "cleandata".toList 9 = 0 :=
      (hcmp "cleandata".toList (by decide) (by decide)).mpr rfl
    have c1 : strncasecmp token "locusrate".toList 9 ≠ 0 :=
      fun e => absurd ((hcmp "locusrate".toList (by decide) (by decide)).mp e) (by decide)
    have hn : "cleandata".toList.length = 9 := by decide
    rw [hn] at hg
    simp only [load_body, run_option, hg, Nat.cast_ofNat, Int.reduceEq, Int.reduceLT, if_false,
      if_true, c0, c1]
  case locusrate =>
    change key.map tolower = "locusrate".toList at hk
    obtain ⟨token, hg, hcmp⟩ := get_token_named line key value _ hl hk
    have c0 : strncasecmp token "locusrate".toList 9 = 0 :=
      (hcmp "locusrate".toList (by decide) (by decide)).mpr rfl
    have c1 : strncasecmp token "cleandata".toList 9 ≠ 0 :=
      fun e => absurd ((hcmp "cleandata".toList (by decide) (by decide)).mp e) (by decide)
    have hn : "locusrate".toList.length = 9 := by decide
    rw [hn] at hg
    simp only [load_body, run_option, hg, Nat.cast_ofNat, Int.reduceEq, Int.reduceLT, if_false,
      if_true, c0, c1]
  case thetaprior =>
    change key.map tolower = "thetaprior".toList at hk
    obtain ⟨token, hg, hcmp⟩ := get_token_named line key value _ hl hk
    have c0 : strncasecmp token "thetaprior".toList 10 = 0 :=
      (hcmp "thetaprior".toList (by decide) (by decide)).mpr rfl
    have hn : "thetaprior".toList.length = 10 := by decide
    rw [hn] at hg
    simp only [load_body, run_option, hg, Nat.cast_ofNat, Int.reduceEq, Int.reduceLT, if_false,
      if_true, c0]
  case speciestree =>
    change key.map tolower = "speciestree".toList at hk
    obtain ⟨token, hg, hcmp⟩ := get_token_named line key value _ hl hk
    have c0 : strncasecmp token "speciestree".toList 11 = 0 :=
      (hcmp "speciestree".toList (by decide) (by decide)).mpr rfl
    have hn : "speciestree".toList.length = 11 := by decide
    rw [hn] at hg
    simp only [load_body, run_option, hg, Nat.cast_ofNat, Int.reduceEq, Int.reduceLT, if_false,
      if_true, c0]
  case speciesandtree =>
    change key.map tolower = "species&tree".toList at hk
    obtain ⟨token, hg, hcmp⟩ := get_token_named line key value _ hl hk
    have c0 : strncasecmp token "species&tree".toList 12 = 0 :=
      (hcmp "species&tree".toList (by decide) (by decide)).mpr rfl
    have hn : "species&tree".toList.length = 12 := by decide
    rw [hn] at hg
    simp only [load_body, run_option, hg, Nat.cast_ofNat, Int.reduceEq, Int.reduceLT, if_false,
      if_true, c0]
  case sequenceerror =>
    change key.map tolower = "sequenceerror".toList at hk
    obtain ⟨token, hg, hcmp⟩ := get_token_named line key value _ hl hk
    have c0 : strncasecmp token "sequenceerror".toList 13 = 0 :=
      (hcmp "sequenceerror".toList (by decide) (by decide)).mpr rfl
    have hn : "sequenceerror".toList.length = 13 := by decide
    rw [hn] at hg
    simp only [load_body, run_option, hg, Nat.cast_ofNat, Int.reduceEq, Int.reduceLT, if_false,
      if_true, c0]
  case speciesmodelprior =>
    change key.map tolower = "speciesmodelprior".toList at hk
    obtain ⟨token, hg, hcmp⟩ := get_token_named line key value _ hl hk
    have c0 : strncasecmp token "speciesmodelprior".toList 17 = 0 :=
      (hcmp "speciesmodelprior".toList (by decide) (by decide)).mpr rfl
    have hn : "speciesmodelprior".toList.length = 17 := by decide
    rw [hn] at hg
    simp only [load_body, run_option, hg, Nat.cast_ofNat, Int.reduceEq, Int.reduceLT, if_false,
      if_true, c0]
  case speciesdelimitation =>
    change key.map tolower = "speciesdelimitation".toList at hk
    obtain ⟨token, hg, hcmp⟩ := get_token_named line key value _ hl hk
    have c0 : strncasecmp token "speciesdelimitation".toList 19 = 0 :=
      (hcmp "speciesdelimitation".toList (by decide) (by decide)).mpr rfl
    have hn : "speciesdelimitation".toList.length = 19 := by decide
    rw [hn] at hg
    simp only [load_body, run_option, hg, Nat.cast_ofNat, Int.reduceEq, Int.reduceLT, if_false,
      if_true, c0]

theorem eq_ignoring_case_iff (key : List Char) (o : OptionName) :
    eq_ignoring_case key o.text = true ↔ key.map tolower = o.text := by
  have h : o.text.map tolower = o.text := by cases o <;> decide
  simp only [eq_ignoring_case, beq_iff_eq, h]

theorem OptionName.text_injective (o o' : OptionName) (h : o.text = o'.text) : o = o' := by
  cases o <;> cases o' <;> first | rfl | exact absurd h (by decide)

theorem OptionName.mem_all (o : OptionName) : o ∈ OptionName.all := by
  cases o <;> decide

theorem lookup_option_iff (key : List Char) (o : OptionName) :
    lookup_option key = some o ↔ eq_ignoring_case key o.text = true := by
  constructor
  · intro h
    unfold lookup_option at h
    have := List.find?_some h
    exact this
  · intro h
    cases hf : lookup_option key with
    | none =>
      unfold lookup_option at hf
      have := List.find?_eq_none.1 hf o (OptionName.mem_all o)
      exact absurd h this
    | some o' =>
      have h' : eq_ignoring_case key o'.text = true := by
        unfold lookup_option at hf
        have := List.find?_some hf
        exact this
      rw [eq_ignoring_case_iff] at h h'
      rw [OptionName.text_injective o' o (h'.symm.trans h)]

theorem option_names_eq : option_names = OptionName.all.map OptionName.text := by decide

/-! ## Claim C21: the dispatch is a lookup in the option table -/

/-- Claim C21.  On every option line `key = value` the loop body of
`load_cfile`, which first branches on the length of the trimmed key and then
compares with `strncasecmp`, does what a single lookup of the key in the table
of option names under case-insensitive equality prescribes: it runs the handler
of the option found, and it only advances the line counter when none is found.
The lookup finds the option `o` exactly when the whole key equals the name of
`o` ignoring case, and no key equals two names. -/
theorem load_cfile_dispatch_is_lookup {D : Type} (E : Env D) (line key value : List Char)
    (st : State D) (hl : KeyLine line key value) :
    load_body E line st =
      (match lookup_option key with
        | some o =>
          run_option E o value { fp := st.fp, line_count := st.line_count + 1, cfg := st.cfg }
        | none => .ok { fp := st.fp, line_count := st.line_count + 1, cfg := st.cfg }) ∧
    (∀ o : OptionName, lookup_option key = some o ↔ eq_ignoring_case key o.text = true) ∧
    (∀ o o' : OptionName, eq_ignoring_case key o.text = true → eq_ignoring_case key o'.text = true →
      o = o') := by
  refine ⟨?_, lookup_option_iff key, ?_⟩
  · cases hf : lookup_option key with
    | none =>
      have hnone : ∀ name ∈ option_names, key.map tolower ≠ name := by
        intro name hn e
        rw [option_names_eq, List.mem_map] at hn
        obtain ⟨o, ho, rfl⟩ := hn
        unfold lookup_option at hf
        have := List.find?_eq_none.1 hf o ho
        exact this ((eq_ignoring_case_iff key o).2 e)
      exact load_body_unknown_key E line key value st hl hnone
    | some o =>
      exact load_body_option E line key value st hl o
        ((eq_ignoring_case_iff key o).1 ((lookup_option_iff key o).1 hf))
  · intro o o' h h'
    rw [eq_ignoring_case_iff] at h h'
    exact OptionName.text_injective o o' (h.symm.trans h')

theorem load_cfile_dispatch_is_lookup_witness :
    lookup_option "SEED".toList = some .seed ∧ lookup_option "Seed".toList = some .seed ∧
    lookup_option "seed".toList = some .seed ∧ lookup_option "seeds".toList = none ∧
    load_body example_env " SEED = 5".toList
        { fp := [], line_count := 0, cfg := args_init_config } =
      run_option example_env .seed " 5".toList
        { fp := [], line_count := 1, cfg := args_init_config } ∧
    load_body example_env "Seed= 5".toList
        { fp := [], line_count := 0, cfg := args_init_config } =
      run_option example_env .seed " 5".toList
        { fp := [], line_count := 1, cfg := args_init_config } ∧
    load_body example_env "seeds = 5".toList
        { fp := [], line_count := 0, cfg := args_init_config } =
      .ok { fp := [], line_count := 1, cfg := args_init_config } :=
  ⟨by decide, by decide, by decide, by decide,
    (load_cfile_dispatch_is_lookup example_env " SEED = 5".toList "SEED".toList " 5".toList
      { fp := [], line_count := 0, cfg := args_init_config }
      ⟨[' '], [' '], by decide, by decide, by decide, by decide⟩).1,
    (load_cfile_dispatch_is_lookup example_env "Seed= 5".toList "Seed".toList " 5".toList
      { fp := [], line_count := 0, cfg := args_init_config }
      ⟨[], [], by decide, by decide, by decide, by decide⟩).1,
    (load_cfile_dispatch_is_lookup example_env "seeds = 5".toList "seeds".toList " 5".toList
      { fp := [], line_count := 0, cfg := args_init_config }
      ⟨[], [' '], by decide, by decide, by decide, by decide⟩).1⟩

/-! ## Claim C25: the tau prior -/

/-- What `parse_tauprior` returns and stores, by the fields of its value. -/
theorem parse_tauprior_fields {D : Type} (lf : List Char → Option (D × Nat)) (value : List Char)
    (c : Config D) :
    (fields value = [] ∧ (parse_tauprior lf value c).1 = 0) ∨
    (∃ t1 rest, fields value = t1 :: rest ∧ converts lf t1 = false ∧
      (parse_tauprior lf value c).1 = 0) ∨
    (∃ t1, fields value = [t1] ∧ converts lf t1 = true ∧ (parse_tauprior lf value c).1 = 0) ∨
    (∃ t1 t2 rest, fields value = t1 :: t2 :: rest ∧ converts lf t1 = true ∧
      converts lf t2 = false ∧ (parse_tauprior lf value c).1 = 0) ∨
    (∃ t1 t2 rest, fields value = t1 :: t2 :: rest ∧ converts lf t1 = true ∧
      converts lf t2 = true ∧
      (parse_tauprior lf value c).1 = (if rest = [] then 1 else 0) ∧
      (parse_tauprior lf value c).2.opt_tau_alpha = stored lf t1 c.opt_tau_alpha ∧
      (parse_tauprior lf value c).2.opt_tau_beta = stored lf t2 c.opt_tau_beta) := by
  rcases hf : fields value with _ | ⟨t1, rest⟩
  · left
    refine ⟨rfl, ?_⟩
    simp only [parse_tauprior, get_double_nil lf value _ hf, if_true]
  · right
    obtain ⟨_, _, _, hd1⟩ := first_field value t1 rest hf
    by_cases hc1 : converts lf t1 = true
    · right
      have h1 : get_double lf value c.opt_tau_alpha =
          ((value.takeWhile is_ws).length + t1.length, stored lf t1 c.opt_tau_alpha) := by
        rw [get_double_count lf value _ t1 rest hf, if_pos hc1]
      have hn1 : ¬ ((value.takeWhile is_ws).length + t1.length = 0) := by
        have : t1 ≠ [] := (first_field value t1 rest hf).2.2.1
        have := List.length_pos.mpr this
        omega
      simp only [parse_tauprior, h1, if_neg hn1]
      generalize List.drop ((value.takeWhile is_ws).length + t1.length) value = p1 at *
      rcases rest with _ | ⟨t2, rest2⟩
      · left
        refine ⟨t1, rfl, hc1, ?_⟩
        simp only [get_double_nil lf p1 _ hd1, if_true]
      · right
        by_cases hc2 : converts lf t2 = true
        · right
          have h2 : get_double lf p1 c.opt_tau_beta =
              ((p1.takeWhile is_ws).length + t2.length, stored lf t2 c.opt_tau_beta) := by
            rw [get_double_count lf p1 _ t2 rest2 hd1, if_pos hc2]
          have hn2 : ¬ ((p1.takeWhile is_ws).length + t2.length = 0) := by
            have : t2 ≠ [] := (first_field p1 t2 rest2 hd1).2.2.1
            have := List.length_pos.mpr this
            omega
          obtain ⟨_, _, _, hd2⟩ := first_field p1 t2 rest2 hd1
          refine ⟨t1, t2, rest2, rfl, hc1, hc2, ?_, ?_, ?_⟩
          · simp only [h2, if_neg hn2]
            by_cases hr : rest2 = []
            · have he : is_emptyline (List.drop ((p1.takeWhile is_ws).length + t2.length) p1)
                  = true := by rw [is_emptyline_iff, hd2, hr]
              rw [he, if_pos rfl, if_pos hr]
            · have he : is_emptyline (List.drop ((p1.takeWhile is_ws).length + t2.length) p1)
                  = false := by rw [is_emptyline_false_iff, hd2]; exact hr
              rw [he, if_neg hr]
              simp
          · simp only [h2, if_neg hn2]
          · simp only [h2, if_neg hn2]
        · left
          have hc2' : converts lf t2 = false := by simpa using hc2
          refine ⟨t1, t2, rest2, rfl, hc1, hc2', ?_⟩
          have h2 : (get_double lf p1 c.opt_tau_beta).1 = 0 := by
            rw [get_double_count lf p1 _ t2 rest2 hd1, if_neg hc2]
          simp only [h2, if_true]
    · left
      have hc1' : converts lf t1 = false := by simpa using hc1
      refine ⟨t1, rest, rfl, hc1', ?_⟩
      have h1 : (get_double lf value c.opt_tau_alpha).1 = 0 := by
        rw [get_double_count lf value _ t1 rest hf, if_neg hc1]
      simp only [parse_tauprior, h1, if_true]
/-- Claim C25.  `parse_tauprior` succeeds exactly when its value is two float
tokens followed by a blank-or-comment remainder (its fields are two tokens
that both convert); it returns 0 in every other case, among them one float,
three tokens and a token that is no number; after a success `opt_tau_alpha` and
`opt_tau_beta` hold the first and the second float; and on a `tauprior` line
of the control file a return of 0 ends `load_cfile` in the fatal error of that
option. -/
theorem parse_tauprior_succeeds_iff {D : Type} (E : Env D) (value : List Char) (c : Config D) :
    ((parse_tauprior E.sscanf_lf value c).1 = 1 ↔
      ∃ t1 t2, fields value = [t1, t2] ∧ converts E.sscanf_lf t1 = true ∧
        converts E.sscanf_lf t2 = true) ∧
    ((parse_tauprior E.sscanf_lf value c).1 ≠ 1 → (parse_tauprior E.sscanf_lf value c).1 = 0) ∧
    (∀ t1 t2, fields value = [t1, t2] → converts E.sscanf_lf t1 = true →
      converts E.sscanf_lf t2 = true →
      (E.sscanf_lf t1).map Prod.fst = some (parse_tauprior E.sscanf_lf value c).2.opt_tau_alpha ∧
      (E.sscanf_lf t2).map Prod.fst = some (parse_tauprior E.sscanf_lf value c).2.opt_tau_beta) ∧
    (∀ (line key : List Char) (st : State D), KeyLine line key value →
      key.map tolower = "tauprior".toList → st.cfg = c →
      (parse_tauprior E.sscanf_lf value c).1 = 0 →
      load_body E line st = .fatal (.tauprior (st.line_count + 1))) := by
  refine ⟨⟨?_, ?_⟩, ?_, ?_, ?_⟩
  · intro h
    rcases parse_tauprior_fields E.sscanf_lf value c with ⟨_, h0⟩ | ⟨_, _, _, _, h0⟩ |
      ⟨_, _, _, h0⟩ | ⟨_, _, _, _, _, _, h0⟩ | ⟨t1, t2, rest, hf, h1, h2, hr, _⟩
    · rw [h0] at h; exact absurd h (by decide)
    · rw [h0] at h; exact absurd h (by decide)
    · rw [h0] at h; exact absurd h (by decide)
    · rw [h0] at h; exact absurd h (by decide)
    · by_cases he : rest = []
      · subst he; exact ⟨t1, t2, hf, h1, h2⟩
      · rw [hr, if_neg he] at h; exact absurd h (by decide)
  · rintro ⟨t1, t2, hf, h1, h2⟩
    rcases parse_tauprior_fields E.sscanf_lf value c with ⟨hf', _⟩ | ⟨u1, r, hf', hc, _⟩ |
      ⟨u1, hf', _⟩ | ⟨u1, u2, r, hf', _, hc, _⟩ | ⟨u1, u2, r, hf', _, _, hr, _⟩
    · rw [hf] at hf'; exact absurd hf' (by simp)
    · rw [hf] at hf'; injection hf' with e1 _; rw [← e1, h1] at hc; exact absurd hc (by decide)
    · rw [hf] at hf'; simp at hf'
    · rw [hf] at hf'
      injection hf' with _ e2
      injection e2 with e2 _
      rw [← e2, h2] at hc; exact absurd hc (by decide)
    · rw [hf] at hf'
      injection hf' with _ e2
      injection e2 with _ e3
      rw [hr, if_pos e3.symm]
  · intro h
    rcases parse_tauprior_fields E.sscanf_lf value c with ⟨_, h0⟩ | ⟨_, _, _, _, h0⟩ |
      ⟨_, _, _, h0⟩ | ⟨_, _, _, _, _, _, h0⟩ | ⟨t1, t2, rest, hf, h1, h2, hr, _⟩
    · exact h0
    · exact h0
    · exact h0
    · exact h0
    · by_cases he : rest = []
      · rw [hr, if_pos he] at h; exact absurd rfl h
      · rw [hr, if_neg he]
  · intro t1 t2 hf h1 h2
    rcases parse_tauprior_fields E.sscanf_lf value c with ⟨hf', _⟩ | ⟨u1, r, hf', hc, _⟩ |
      ⟨u1, hf', _⟩ | ⟨u1, u2, r, hf', _, hc, _⟩ | ⟨u1, u2, r, hf', _, _, _, ha, hb⟩
    · rw [hf] at hf'; exact absurd hf' (by simp)
    · rw [hf] at hf'; injection hf' with e1 _; rw [← e1, h1] at hc; exact absurd hc (by decide)
    · rw [hf] at hf'; simp at hf'
    · rw [hf] at hf'
      injection hf' with _ e2
      injection e2 with e2 _
      rw [← e2, h2] at hc; exact absurd hc (by decide)
    · rw [hf] at hf'
      injection hf' with e1 e2
      injection e2 with e2 _
      subst e1 e2
      rw [ha, hb]
      exact ⟨stored_of_converts _ _ _ h1, stored_of_converts _ _ _ h2⟩
  · intro line key st hl hk hc h
    subst hc
    rw [load_body_option E line key value st hl .tauprior hk]
    simp only [run_option]
    rw [if_pos h]

theorem parse_tauprior_succeeds_iff_witness :
    load_body example_env "tauprior = 2.0".toList
        { fp := [], line_count := 4, cfg := args_init_config } = .fatal (.tauprior 5) ∧
    ((decimal_lf "2.0".toList).map Prod.fst =
        some (parse_tauprior decimal_lf " 2.0 0.5 # prior".toList args_init_config).2.opt_tau_alpha ∧
      (decimal_lf "0.5".toList).map Prod.fst =
        some (parse_tauprior decimal_lf " 2.0 0.5 # prior".toList
          args_init_config).2.opt_tau_beta) ∧
    (parse_tauprior decimal_lf " 2.0 0.5 # prior".toList args_init_config).1 = 1 ∧
    (parse_tauprior decimal_lf "2.0 0.5 7".toList args_init_config).1 = 0 ∧
    (parse_tauprior decimal_lf "2.0 x".toList args_init_config).1 = 0 :=
  ⟨(parse_tauprior_succeeds_iff example_env " 2.0".toList args_init_config).2.2.2
      "tauprior = 2.0".toList "tauprior".toList
      { fp := [], line_count := 4, cfg := args_init_config }
      ⟨[], [' '], by decide, by decide, by decide, by decide⟩ (by decide) rfl (by decide),
    (parse_tauprior_succeeds_iff example_env " 2.0 0.5 # prior".toList args_init_config).2.2.1
      "2.0".toList "0.5".toList (by decide) (by decide) (by decide),
    by decide, by decide, by decide⟩
/-! ## Claim C27: the species tree selector -/

/-- What `parse_speciestree` returns and stores, by the fields of its value. -/
theorem parse_speciestree_fields {D : Type} (value : List Char) (c : Config D) :
    (fields value = [] ∧ (parse_speciestree value c).1 = 0) ∨
    (∃ t rest, fields value = t :: rest ∧ converts sscanf_ld t = false ∧
      (parse_speciestree value c).1 = 0) ∨
    (∃ t rest, fields value = t :: rest ∧ converts sscanf_ld t = true ∧
      (parse_speciestree value c).2.opt_stree = stored sscanf_ld t c.opt_stree ∧
      (parse_speciestree value c).1 =
        if stored sscanf_ld t c.opt_stree = 0 ∨ stored sscanf_ld t c.opt_stree = 1 then 1
        else 0) := by
  rcases hf : fields value with _ | ⟨t, rest⟩
  · left
    refine ⟨rfl, ?_⟩
    simp only [parse_speciestree, get_long_eq, get_double_nil sscanf_ld value _ hf, if_true]
  · right
    have hne : t ≠ [] := (first_field value t rest hf).2.2.1
    have hpos := List.length_pos.mpr hne
    by_cases hc : converts sscanf_ld t = true
    · right
      refine ⟨t, rest, rfl, hc, ?_, ?_⟩
      · simp only [parse_speciestree, get_long_eq, get_double_count sscanf_ld value _ t rest hf]
        split_ifs <;> rfl
      · have hn : ¬ ((value.takeWhile is_ws).length + t.length = 0) := by omega
        simp only [parse_speciestree, get_long_eq, get_double_count sscanf_ld value _ t rest hf,
          if_pos hc, if_neg hn]
        split_ifs <;> rfl
    · left
      have hc' : converts sscanf_ld t = false := by simpa using hc
      refine ⟨t, rest, rfl, hc', ?_⟩
      simp only [parse_speciestree, get_long_eq, get_double_count sscanf_ld value _ t rest hf,
        if_neg hc, if_true]

/-- Claim C27.  `parse_speciestree` succeeds exactly when the first token of
its value is an integer equal to 0 or 1, whatever follows that token; it
returns 0 in every other case (another integer, a first token that is no
integer, a blank value); after a success `opt_stree` holds the selector; and on
a `speciestree` line of the control file a return of 0 ends `load_cfile` in the
fatal error of that option. -/
theorem parse_speciestree_succeeds_iff {D : Type} (E : Env D) (value : List Char)
    (c : Config D) :
    ((parse_speciestree value c).1 = 1 ↔
      ∃ t rest, fields value = t :: rest ∧ converts sscanf_ld t = true ∧
        ((sscanf_ld t).map Prod.fst = some 0 ∨ (sscanf_ld t).map Prod.fst = some 1)) ∧
    ((parse_speciestree value c).1 ≠ 1 → (parse_speciestree value c).1 = 0) ∧
    (∀ t rest, fields value = t :: rest → (parse_speciestree value c).1 = 1 →
      (sscanf_ld t).map Prod.fst = some (parse_speciestree value c).2.opt_stree) ∧
    (∀ (line key : List Char) (st : State D), KeyLine line key value →
      key.map tolower = "speciestree".toList → st.cfg = c →
      (parse_speciestree value c).1 = 0 →
      load_body E line st = .fatal (.speciestree (st.line_count + 1))) := by
  refine ⟨⟨?_, ?_⟩, ?_, ?_, ?_⟩
  · intro h
    rcases parse_speciestree_fields value c with ⟨_, h0⟩ | ⟨_, _, _, _, h0⟩ |
      ⟨t, rest, hf, hc, _, hr⟩
    · rw [h0] at h; exact absurd h (by decide)
    · rw [h0] at h; exact absurd h (by decide)
    · refine ⟨t, rest, hf, hc, ?_⟩
      rw [stored_of_converts sscanf_ld t c.opt_stree hc]
      by_cases hs : stored sscanf_ld t c.opt_stree = 0 ∨ stored sscanf_ld t c.opt_stree = 1
      · rcases hs with hs | hs
        · left; rw [hs]
        · right; rw [hs]
      · rw [hr, if_neg hs] at h; exact absurd h (by decide)
  · rintro ⟨t, rest, hf, hc, hv⟩
    rcases parse_speciestree_fields value c with ⟨hf', _⟩ | ⟨u, r, hf', hc', _⟩ |
      ⟨u, r, hf', _, _, hr⟩
    · rw [hf] at hf'; exact absurd hf' (by simp)
    · rw [hf] at hf'; injection hf' with e1 _; rw [← e1, hc] at hc'; exact absurd hc' (by decide)
    · rw [hf] at hf'
      injection hf' with e1 _
      subst e1
      rw [stored_of_converts sscanf_ld t c.opt_stree hc] at hv
      have hs : stored sscanf_ld t c.opt_stree = 0 ∨ stored sscanf_ld t c.opt_stree = 1 := by
        rcases hv with hv | hv
        · left; injection hv
        · right; injection hv
      rw [hr, if_pos hs]
  · intro h
    rcases parse_speciestree_fields value c with ⟨_, h0⟩ | ⟨_, _, _, _, h0⟩ |
      ⟨t, rest, hf, hc, _, hr⟩
    · exact h0
    · exact h0
    · by_cases hs : stored sscanf_ld t c.opt_stree = 0 ∨ stored sscanf_ld t c.opt_stree = 1
      · rw [hr, if_pos hs] at h; exact absurd rfl h
      · rw [hr, if_neg hs]
  · intro t rest hf h
    rcases parse_speciestree_fields value c with ⟨hf', _⟩ | ⟨u, r, hf', _, h0⟩ |
      ⟨u, r, hf', hc, hv, _⟩
    · rw [hf] at hf'; exact absurd hf' (by simp)
    · rw [h0] at h; exact absurd h (by decide)
    · rw [hf] at hf'
      injection hf' with e1 _
      subst e1
      rw [hv]
      exact stored_of_converts sscanf_ld t c.opt_stree hc
  · intro line key st hl hk hc h
    subst hc
    rw [load_body_option E line key value st hl .speciestree hk]
    simp only [run_option]
    rw [if_pos h]

theorem parse_speciestree_succeeds_iff_witness :
    load_body example_env "speciestree = 2".toList
        { fp := [], line_count := 0, cfg := args_init_config } = .fatal (.speciestree 1) ∧
    (sscanf_ld "1".toList).map Prod.fst =
      some (parse_speciestree " 1 0.2 0.1 0.1".toList args_init_config).2.opt_stree ∧
    (parse_speciestree " 1 0.2 0.1 0.1".toList args_init_config).1 = 1 ∧
    (parse_speciestree "0 anything".toList args_init_config).1 = 1 ∧
    (parse_speciestree "x".toList args_init_config).1 = 0 ∧
    (parse_speciestree " # 1".toList args_init_config).1 = 0 :=
  ⟨(parse_speciestree_succeeds_iff example_env " 2".toList args_init_config).2.2.2
      "speciestree = 2".toList "speciestree".toList
      { fp := [], line_count := 0, cfg := args_init_config }
      ⟨[], [' '], by decide, by decide, by decide, by decide⟩ (by decide) rfl (by decide),
    (parse_speciestree_succeeds_iff example_env " 1 0.2 0.1 0.1".toList args_init_config).2.2.1
      "1".toList ["0.2".toList, "0.1".toList, "0.1".toList] (by decide) (by decide),
    by decide, by decide, by decide, by decide⟩
/-! ## Claim C26: species delimitation -/

/-- What a call of `parse_speciesdelimitation` that does not return 0 has read
and stored. -/
theorem parse_speciesdelimitation_cases {D : Type} (lf : List Char → Option (D × Nat))
    (value : List Char) (c : Config D) :
    (parse_speciesdelimitation lf value c).1 = 0 ∨
    ((parse_speciesdelimitation lf value c).1 = 1 ∧
      ∃ t1, fields value = [t1] ∧ converts sscanf_ld t1 = true ∧
        stored sscanf_ld t1 c.opt_delimit = 0 ∧
        (parse_speciesdelimitation lf value c).2.opt_delimit = 0) ∨
    ((parse_speciesdelimitation lf value c).1 = 1 ∧
      ∃ t1 t2 t3, fields value = [t1, t2, t3] ∧ converts sscanf_ld t1 = true ∧
        stored sscanf_ld t1 c.opt_delimit = 1 ∧ converts sscanf_ld t2 = true ∧
        stored sscanf_ld t2 c.opt_rjmcmc_method = 0 ∧ converts lf t3 = true ∧
        (parse_speciesdelimitation lf value c).2.opt_delimit = 1 ∧
        (parse_speciesdelimitation lf value c).2.opt_rjmcmc_method = 0 ∧
        (parse_speciesdelimitation lf value c).2.opt_rjmcmc_epsilon =
          stored lf t3 c.opt_rjmcmc_epsilon) ∨
    ((parse_speciesdelimitation lf value c).1 = 1 ∧
      ∃ t1 t2 t3 t4, fields value = [t1, t2, t3, t4] ∧ converts sscanf_ld t1 = true ∧
        stored sscanf_ld t1 c.opt_delimit = 1 ∧ converts sscanf_ld t2 = true ∧
        stored sscanf_ld t2 c.opt_rjmcmc_method = 1 ∧ converts lf t3 = true ∧
        converts lf t4 = true ∧
        (parse_speciesdelimitation lf value c).2.opt_delimit = 1 ∧
        (parse_speciesdelimitation lf value c).2.opt_rjmcmc_method = 1 ∧
        (parse_speciesdelimitation lf value c).2.opt_rjmcmc_alpha =
          stored lf t3 c.opt_rjmcmc_alpha ∧
        (parse_speciesdelimitation lf value c).2.opt_rjmcmc_mean =
          stored lf t4 c.opt_rjmcmc_mean) := by
  simp only [parse_speciesdelimitation]
  by_cases h1 : (get_long value c.opt_delimit).1 = 0
  · left; simp only [h1, if_true]
  obtain ⟨t1, r1, hf1, hc1, hd1, hv1⟩ := get_long_inv value _ h1
  simp only [h1, if_false]
  generalize List.drop (get_long value c.opt_delimit).1 value = p1 at *
  by_cases hz : (get_long value c.opt_delimit).2 = 0
  · simp only [hz, if_true]
    by_cases he : is_emptyline p1 = true
    · right; left
      rw [is_emptyline_iff, hd1] at he
      subst he
      simp only [is_emptyline_iff, hd1, if_true, true_and]
      exact ⟨t1, hf1, hc1, hv1 ▸ hz, trivial⟩
    · left
      simp only [he, Bool.false_eq_true, if_false]
  simp only [hz, if_false]
  by_cases ho : (get_long value c.opt_delimit).2 = 1
  swap
  · left; simp only [ne_eq, ho, not_false_eq_true, if_true]
  simp only [ho, ne_eq, not_true_eq_false, if_false]
  by_cases h2 : (get_long p1 c.opt_rjmcmc_method).1 = 0
  · left; simp only [h2, if_true]
  obtain ⟨t2, r2, hf2, hc2, hd2, hv2⟩ := get_long_inv p1 _ h2
  simp only [h2, if_false]
  generalize List.drop (get_long p1 c.opt_rjmcmc_method).1 p1 = p2 at *
  have hr1 : r1 = t2 :: r2 := hd1.symm.trans hf2
  subst hr1
  by_cases hm0 : (get_long p1 c.opt_rjmcmc_method).2 = 0
  · -- algorithm 0: one float, stored as epsilon
    simp only [hm0, ne_eq, not_true_eq_false, false_and, if_false, if_true]
    by_cases h3 : (get_double lf p2 c.opt_rjmcmc_epsilon).1 = 0
    · left; simp only [h3, if_true]
    obtain ⟨t3, r3, hf3, hc3, hd3, hv3⟩ := get_double_inv lf p2 _ h3
    simp only [h3, if_false]
    generalize List.drop (get_double lf p2 c.opt_rjmcmc_epsilon).1 p2 = p3 at *
    have hr2 : r2 = t3 :: r3 := hd2.symm.trans hf3
    subst hr2
    by_cases he : is_emptyline p3 = true
    · right; right; left
      rw [is_emptyline_iff, hd3] at he
      subst he
      simp only [is_emptyline_iff, hd3, if_true, true_and]
      exact ⟨t1, t2, t3, hf1, hc1, hv1 ▸ ho, hc2, hv2 ▸ hm0, hc3, hv3⟩
    · left
      simp only [he, Bool.false_eq_true, if_false]
  by_cases hm1 : (get_long p1 c.opt_rjmcmc_method).2 = 1
  swap
  · left
    simp only [ne_eq, hm0, not_false_eq_true, hm1, and_self, if_true]
  -- algorithm 1: two floats, stored as alpha and mean
  simp only [hm1, ne_eq, one_ne_zero, not_false_eq_true, not_true_eq_false, and_false, if_false,
    if_true]
  by_cases h3 : (get_double lf p2 c.opt_rjmcmc_alpha).1 = 0
  · left; simp only [h3, if_true]
  obtain ⟨t3, r3, hf3, hc3, hd3, hv3⟩ := get_double_inv lf p2 _ h3
  simp only [h3, if_false]
  generalize List.drop (get_double lf p2 c.opt_rjmcmc_alpha).1 p2 = p3 at *
  have hr2 : r2 = t3 :: r3 := hd2.symm.trans hf3
  subst hr2
  by_cases h4 : (get_double lf p3 c.opt_rjmcmc_mean).1 = 0
  · left; simp only [h4, if_true]
  obtain ⟨t4, r4, hf4, hc4, hd4, hv4⟩ := get_double_inv lf p3 _ h4
  simp only [h4, if_false]
  generalize List.drop (get_double lf p3 c.opt_rjmcmc_mean).1 p3 = p4 at *
  have hr3 : r3 = t4 :: r4 := hd3.symm.trans hf4
  subst hr3
  by_cases he : is_emptyline p4 = true
  · right; right; right
    rw [is_emptyline_iff, hd4] at he
    subst he
    simp only [is_emptyline_iff, hd4, if_true, true_and]
    exact ⟨t1, t2, t3, t4, hf1, hc1, hv1 ▸ ho, hc2, hv2 ▸ hm1, hc3, hc4, hv3, hv4⟩
  · left
    simp only [he, Bool.false_eq_true, if_false]
theorem stored_eq_iff {D : Type} (lf : List Char → Option (D × Nat)) (t : List Char) (old v : D)
    (h : converts lf t = true) : stored lf t old = v ↔ (lf t).map Prod.fst = some v := by
  rw [stored_of_converts lf t old h]
  constructor
  · intro e; rw [e]
  · intro e; injection e

/-- `parse_speciesdelimitation` succeeds on each of the three shapes. -/
theorem parse_speciesdelimitation_ok {D : Type} (lf : List Char → Option (D × Nat))
    (value : List Char) (c : Config D) :
    (∀ t1, fields value = [t1] → converts sscanf_ld t1 = true →
      stored sscanf_ld t1 c.opt_delimit = 0 → (parse_speciesdelimitation lf value c).1 = 1) ∧
    (∀ t1 t2 t3, fields value = [t1, t2, t3] → converts sscanf_ld t1 = true →
      stored sscanf_ld t1 c.opt_delimit = 1 → converts sscanf_ld t2 = true →
      stored sscanf_ld t2 c.opt_rjmcmc_method = 0 → converts lf t3 = true →
      (parse_speciesdelimitation lf value c).1 = 1) ∧
    (∀ t1 t2 t3 t4, fields value = [t1, t2, t3, t4] → converts sscanf_ld t1 = true →
      stored sscanf_ld t1 c.opt_delimit = 1 → converts sscanf_ld t2 = true →
      stored sscanf_ld t2 c.opt_rjmcmc_method = 1 → converts lf t3 = true →
      converts lf t4 = true → (parse_speciesdelimitation lf value c).1 = 1) := by
  refine ⟨?_, ?_, ?_⟩
  · intro t1 hf hc1 hv1
    obtain ⟨h1, hd1, hs1⟩ := get_long_ok value c.opt_delimit t1 _ hf hc1
    simp only [parse_speciesdelimitation, h1, if_false]
    generalize List.drop (get_long value c.opt_delimit).1 value = p1 at *
    rw [hv1] at hs1
    have he : is_emptyline p1 = true := (is_emptyline_iff p1).2 hd1
    simp only [hs1, he, if_true]
  · intro t1 t2 t3 hf hc1 hv1 hc2 hv2 hc3
    obtain ⟨h1, hd1, hs1⟩ := get_long_ok value c.opt_delimit t1 _ hf hc1
    simp only [parse_speciesdelimitation, h1, if_false]
    generalize List.drop (get_long value c.opt_delimit).1 value = p1 at *
    rw [hv1] at hs1
    simp only [hs1, one_ne_zero, ne_eq, not_true_eq_false, if_false]
    obtain ⟨h2, hd2, hs2⟩ := get_long_ok p1 c.opt_rjmcmc_method t2 _ hd1 hc2
    simp only [h2, if_false]
    generalize List.drop (get_long p1 c.opt_rjmcmc_method).1 p1 = p2 at *
    rw [hv2] at hs2
    simp only [hs2, ne_eq, not_true_eq_false, false_and, if_false, if_true]
    obtain ⟨h3, hd3, _⟩ := get_double_ok lf p2 c.opt_rjmcmc_epsilon t3 _ hd2 hc3
    simp only [h3, if_false]
    generalize List.drop (get_double lf p2 c.opt_rjmcmc_epsilon).1 p2 = p3 at *
    have he : is_emptyline p3 = true := (is_emptyline_iff p3).2 hd3
    simp only [he, if_true]
  · intro t1 t2 t3 t4 hf hc1 hv1 hc2 hv2 hc3 hc4
    obtain ⟨h1, hd1, hs1⟩ := get_long_ok value c.opt_delimit t1 _ hf hc1
    simp only [parse_speciesdelimitation, h1, if_false]
    generalize List.drop (get_long value c.opt_delimit).1 value = p1 at *
    rw [hv1] at hs1
    simp only [hs1, one_ne_zero, ne_eq, not_true_eq_false, if_false]
    obtain ⟨h2, hd2, hs2⟩ := get_long_ok p1 c.opt_rjmcmc_method t2 _ hd1 hc2
    simp only [h2, if_false]
    generalize List.drop (get_long p1 c.opt_rjmcmc_method).1 p1 = p2 at *
    rw [hv2] at hs2
    simp only [hs2, ne_eq, one_ne_zero, not_false_eq_true, not_true_eq_false, and_false,
      if_false, if_true]
    obtain ⟨h3, hd3, _⟩ := get_double_ok lf p2 c.opt_rjmcmc_alpha t3 _ hd2 hc3
    simp only [h3, if_false]
    generalize List.drop (get_double lf p2 c.opt_rjmcmc_alpha).1 p2 = p3 at *
    obtain ⟨h4, hd4, _⟩ := get_double_ok lf p3 c.opt_rjmcmc_mean t4 _ hd3 hc4
    simp only [h4, if_false]
    generalize List.drop (get_double lf p3 c.opt_rjmcmc_mean).1 p3 = p4 at *
    have he : is_emptyline p4 = true := (is_emptyline_iff p4).2 hd4
    simp only [he, if_true]
/-- Claim C26.  `parse_speciesdelimitation` succeeds exactly when the fields of
its value have one of three shapes, each followed by a blank-or-comment
remainder: one integer equal to 0; the integers 1 and 0 and a float; the
integers 1 and 1 and two floats.  It returns 0 in every other case (another
first selector, another algorithm selector, a missing field, further text).
After a success of the second shape `opt_rjmcmc_epsilon` is the float, after
one of the third shape `opt_rjmcmc_alpha` and `opt_rjmcmc_mean` are the two
floats in that order; and on a `speciesdelimitation` line of the control file a
return of 0 ends `load_cfile` in the fatal error of that option. -/
theorem parse_speciesdelimitation_succeeds_iff {D : Type} (E : Env D) (value : List Char)
    (c : Config D) :
    ((parse_speciesdelimitation E.sscanf_lf value c).1 = 1 ↔
      (∃ t1, fields value = [t1] ∧ converts sscanf_ld t1 = true ∧
        (sscanf_ld t1).map Prod.fst = some 0) ∨
      (∃ t1 t2 t3, fields value = [t1, t2, t3] ∧ converts sscanf_ld t1 = true ∧
        (sscanf_ld t1).map Prod.fst = some 1 ∧ converts sscanf_ld t2 = true ∧
        (sscanf_ld t2).map Prod.fst = some 0 ∧ converts E.sscanf_lf t3 = true) ∨
      (∃ t1 t2 t3 t4, fields value = [t1, t2, t3, t4] ∧ converts sscanf_ld t1 = true ∧
        (sscanf_ld t1).map Prod.fst = some 1 ∧ converts sscanf_ld t2 = true ∧
        (sscanf_ld t2).map Prod.fst = some 1 ∧ converts E.sscanf_lf t3 = true ∧
        converts E.sscanf_lf t4 = true)) ∧
    ((parse_speciesdelimitation E.sscanf_lf value c).1 ≠ 1 →
      (parse_speciesdelimitation E.sscanf_lf value c).1 = 0) ∧
    (∀ t1 t2 t3, fields value = [t1, t2, t3] →
      (parse_speciesdelimitation E.sscanf_lf value c).1 = 1 →
      (E.sscanf_lf t3).map Prod.fst =
        some (parse_speciesdelimitation E.sscanf_lf value c).2.opt_rjmcmc_epsilon) ∧
    (∀ t1 t2 t3 t4, fields value = [t1, t2, t3, t4] →
      (parse_speciesdelimitation E.sscanf_lf value c).1 = 1 →
      (E.sscanf_lf t3).map Prod.fst =
          some (parse_speciesdelimitation E.sscanf_lf value c).2.opt_rjmcmc_alpha ∧
        (E.sscanf_lf t4).map Prod.fst =
          some (parse_speciesdelimitation E.sscanf_lf value c).2.opt_rjmcmc_mean) ∧
    (∀ (line key : List Char) (st : State D), KeyLine line key value →
      key.map tolower = "speciesdelimitation".toList → st.cfg = c →
      (parse_speciesdelimitation E.sscanf_lf value c).1 = 0 →
      load_body E line st = .fatal (.speciesdelimitation (st.line_count + 1))) := by
  refine ⟨⟨?_, ?_⟩, ?_, ?_, ?_, ?_⟩
  · intro h
    rcases parse_speciesdelimitation_cases E.sscanf_lf value c with h0 |
      ⟨_, t1, hf, hc1, hv1, _⟩ | ⟨_, t1, t2, t3, hf, hc1, hv1, hc2, hv2, hc3, _⟩ |
      ⟨_, t1, t2, t3, t4, hf, hc1, hv1, hc2, hv2, hc3, hc4, _⟩
    · rw [h0] at h; exact absurd h (by decide)
    · exact Or.inl ⟨t1, hf, hc1, (stored_eq_iff _ _ _ _ hc1).1 hv1⟩
    · exact Or.inr (Or.inl ⟨t1, t2, t3, hf, hc1, (stored_eq_iff _ _ _ _ hc1).1 hv1, hc2,
        (stored_eq_iff _ _ _ _ hc2).1 hv2, hc3⟩)
    · exact Or.inr (Or.inr ⟨t1, t2, t3, t4, hf, hc1, (stored_eq_iff _ _ _ _ hc1).1 hv1, hc2,
        (stored_eq_iff _ _ _ _ hc2).1 hv2, hc3, hc4⟩)
  · rintro (⟨t1, hf, hc1, hv1⟩ | ⟨t1, t2, t3, hf, hc1, hv1, hc2, hv2, hc3⟩ |
      ⟨t1, t2, t3, t4, hf, hc1, hv1, hc2, hv2, hc3, hc4⟩)
    · exact (parse_speciesdelimitation_ok E.sscanf_lf value c).1 t1 hf hc1
        ((stored_eq_iff _ _ _ _ hc1).2 hv1)
    · exact (parse_speciesdelimitation_ok E.sscanf_lf value c).2.1 t1 t2 t3 hf hc1
        ((stored_eq_iff _ _ _ _ hc1).2 hv1) hc2 ((stored_eq_iff _ _ _ _ hc2).2 hv2) hc3
    · exact (parse_speciesdelimitation_ok E.sscanf_lf value c).2.2 t1 t2 t3 t4 hf hc1
        ((stored_eq_iff _ _ _ _ hc1).2 hv1) hc2 ((stored_eq_iff _ _ _ _ hc2).2 hv2) hc3 hc4
  · intro h
    rcases parse_speciesdelimitation_cases E.sscanf_lf value c with h0 | ⟨h1, _⟩ | ⟨h1, _⟩ |
      ⟨h1, _⟩
    · exact h0
    · exact absurd h1 h
    · exact absurd h1 h
    · exact absurd h1 h
  · intro t1 t2 t3 hf h
    rcases parse_speciesdelimitation_cases E.sscanf_lf value c with h0 |
      ⟨_, u1, hf', _⟩ | ⟨_, u1, u2, u3, hf', _, _, _, _, hc3, _, _, he⟩ |
      ⟨_, u1, u2, u3, u4, hf', _⟩
    · rw [h0] at h; exact absurd h (by decide)
    · rw [hf] at hf'; simp at hf'
    · rw [hf] at hf'
      simp only [List.cons.injEq, and_true] at hf'
      obtain ⟨_, _, e3⟩ := hf'
      subst e3
      rw [he]
      exact stored_of_converts _ _ _ hc3
    · rw [hf] at hf'; simp at hf'
  · intro t1 t2 t3 t4 hf h
    rcases parse_speciesdelimitation_cases E.sscanf_lf value c with h0 |
      ⟨_, u1, hf', _⟩ | ⟨_, u1, u2, u3, hf', _⟩ |
      ⟨_, u1, u2, u3, u4, hf', _, _, _, _, hc3, hc4, _, _, ha, hm⟩
    · rw [h0] at h; exact absurd h (by decide)
    · rw [hf] at hf'; simp at hf'
    · rw [hf] at hf'; simp at hf'
    · rw [hf] at hf'
      simp only [List.cons.injEq, and_true] at hf'
      obtain ⟨_, _, e3, e4⟩ := hf'
      subst e3 e4
      rw [ha, hm]
      exact ⟨stored_of_converts _ _ _ hc3, stored_of_converts _ _ _ hc4⟩
  · intro line key st hl hk hc h
    subst hc
    rw [load_body_option E line key value st hl .speciesdelimitation hk]
    simp only [run_option]
    rw [if_pos h]

theorem parse_speciesdelimitation_succeeds_iff_witness :
    load_body example_env "speciesdelimitation = 1 2 0.5".toList
        { fp := [], line_count := 8, cfg := args_init_config } =
      .fatal (.speciesdelimitation 9) ∧
    (decimal_lf "0.5".toList).map Prod.fst =
      some (parse_speciesdelimitation decimal_lf " 1 0 0.5".toList
        args_init_config).2.opt_rjmcmc_epsilon ∧
    ((decimal_lf "2".toList).map Prod.fst =
        some (parse_speciesdelimitation decimal_lf " 1 1 2 0.5 # rj".toList
          args_init_config).2.opt_rjmcmc_alpha ∧
      (decimal_lf "0.5".toList).map Prod.fst =
        some (parse_speciesdelimitation decimal_lf " 1 1 2 0.5 # rj".toList
          args_init_config).2.opt_rjmcmc_mean) ∧
    (parse_speciesdelimitation decimal_lf "0".toList args_init_config).1 = 1 ∧
    (parse_speciesdelimitation decimal_lf "0 1".toList args_init_config).1 = 0 ∧
    (parse_speciesdelimitation decimal_lf "1 0".toList args_init_config).1 = 0 ∧
    (parse_speciesdelimitation decimal_lf "2".toList args_init_config).1 = 0 :=
  ⟨(parse_speciesdelimitation_succeeds_iff example_env " 1 2 0.5".toList
      args_init_config).2.2.2.2 "speciesdelimitation = 1 2 0.5".toList
      "speciesdelimitation".toList { fp := [], line_count := 8, cfg := args_init_config }
      ⟨[], [' '], by decide, by decide, by decide, by decide⟩ (by decide) rfl (by decide),
    (parse_speciesdelimitation_succeeds_iff example_env " 1 0 0.5".toList
      args_init_config).2.2.1 "1".toList "0".toList "0.5".toList (by decide) (by decide),
    (parse_speciesdelimitation_succeeds_iff example_env " 1 1 2 0.5 # rj".toList
      args_init_config).2.2.2.1 "1".toList "1".toList "2".toList "0.5".toList (by decide)
      (by decide),
    by decide, by decide, by decide, by decide⟩
/-! ## Claim C24: the bare string -/

/-- The count that `get_string` returns on a value that is not blank: the
leading white space plus the length of the text it stores. -/
theorem get_string_count (s : List Char) (old : Option (List Char)) (h : fields s ≠ []) :
    get_string s old =
      ((s.takeWhile is_ws).length + (trim (cut_comment s)).length,
        some (trim (cut_comment s))) := by
  rcases get_string_spec s old with ⟨h0, _⟩ | ⟨_, _, hv, _⟩
  · exact absurd h0 h
  have hb : at_end_or_comment (s.drop (strspn s WS)) = false := by
    rcases scan_token s with ⟨_, h2⟩ | ⟨h1, _, _⟩
    · exact absurd h2 h
    · rw [strspn_WS, drop_length_takeWhile]; exact h1
  obtain ⟨p, hp⟩ := Option.isSome_iff_exists.1 (scan_back_get_string s hb)
  have hpq := (scan_back_some s _ p hp).1
  have hq : strcspn s ['*', '#'] ≤ s.length := by
    unfold strcspn
    exact (List.takeWhile_sublist _).length_le
  have hg : get_string s old =
      (strspn s WS + (p + 1 - strspn s WS), some ((s.take (p + 1)).drop (strspn s WS))) := by
    simp only [get_string, hb, Bool.false_eq_true, if_false, hp, Option.getD_some]
  rw [hg] at hv ⊢
  simp only [Option.some.injEq] at hv
  have hlen : (trim (cut_comment s)).length = p + 1 - strspn s WS := by
    rw [← hv, List.length_drop, List.length_take]
    omega
  rw [hv, hlen, strspn_WS]

/-- Trimming a text that is white space, a run without white space, white
space. -/
theorem trim_sandwich (w t w' : List Char) (hw : ∀ c ∈ w, is_ws c = true)
    (hw' : ∀ c ∈ w', is_ws c = true) (ht : t ≠ []) (hnt : ∀ c ∈ t, is_ws c = false) :
    trim (w ++ t ++ w') = t := by
  unfold trim
  have h1 : (w ++ t ++ w').dropWhile is_ws = t ++ w' := by
    cases t with
    | nil => exact absurd rfl ht
    | cons c r =>
      rw [List.append_assoc, List.cons_append]
      exact (ws_front w c (r ++ w') hw (hnt c (List.mem_cons_self _ _))).2
  rw [h1, List.reverse_append]
  have h2 : (w'.reverse ++ t.reverse).dropWhile is_ws = t.reverse := by
    cases hr : t.reverse with
    | nil =>
      have : t = [] := by simpa using hr
      exact absurd this ht
    | cons z ini =>
      have hz : is_ws z = false := hnt z (by
        have : z ∈ t.reverse := by rw [hr]; exact List.mem_cons_self _ _
        exact List.mem_reverse.1 this)
      exact (ws_front w'.reverse z ini (fun c hc => hw' c (List.mem_reverse.1 hc)) hz).2
  rw [h2, List.reverse_reverse]

/-- The text in front of the comment, trimmed, of a value with one field is
that field. -/
theorem trim_cut_single (s t : List Char) (h : fields s = [t]) : trim (cut_comment s) = t := by
  obtain ⟨w, r, hs, hw, hne, hnt, _, hr⟩ := (fields_cons_iff s t []).1 h
  obtain ⟨w', r', hr', hw', hc⟩ := (fields_nil_iff r).1 hr
  have hntw : ∀ c ∈ t, is_ws c = false := fun c hc => (not_delim_iff.1 (hnt c hc)).1
  have hcut : cut_comment s = w ++ t ++ w' := by
    rw [hs, hr', ← List.append_assoc]
    have hfront : ∀ c ∈ w ++ t ++ w', (c == '*' || c == '#') = false := by
      intro c hc
      simp only [List.mem_append] at hc
      rcases hc with (hc | hc) | hc
      · exact is_ws_not_comment (hw c hc)
      · exact (not_delim_iff.1 (hnt c hc)).2
      · exact is_ws_not_comment (hw' c hc)
    rw [cut_comment_append _ _ hfront]
    have : cut_comment r' = [] := by
      rcases hc with rfl | ⟨c, r'', rfl, hcc⟩
      · rfl
      · rcases hcc with rfl | rfl <;> simp [cut_comment, List.takeWhile]
    rw [this, List.append_nil]
  rw [hcut]
  exact trim_sandwich w t w' hw hw' hne hntw

/-- Claim C24, counterexample.  On the value `ab cd # x` the first token is
`ab`, bounded at the blank, but `get_string` stores `ab cd` and returns 5. -/
theorem get_string_keeps_inner_space :
    fields "ab cd # x".toList = ["ab".toList, "cd".toList] ∧
    get_string "ab cd # x".toList none = (5, some "ab cd".toList) ∧
    get_string " a\tb  ".toList none = (4, some "a\tb".toList) := by
  decide

/-- Claim C24, amended.  On a blank or comment-only value `get_string` returns
0 and stores nothing.  On every other value it stores the text that starts at
the first character that is no white space and ends in front of the first `*`
or `#` (or at the end of the value), with the white space at its end removed
and the white space inside it kept, and it returns the number of leading
white-space characters plus the length of that text.  When the value has a
single field, that text is the token bounded at the first white space, `*` or
`#`. -/
theorem get_string_text (s : List Char) (old : Option (List Char)) :
    (fields s = [] → get_string s old = (0, old)) ∧
    (fields s ≠ [] →
      get_string s old =
        ((s.takeWhile is_ws).length + (trim (cut_comment s)).length,
          some (trim (cut_comment s)))) ∧
    (∀ t, fields s = [t] → trim (cut_comment s) = t ∧
      t = (s.dropWhile is_ws).takeWhile (fun c => !is_delim c)) := by
  refine ⟨?_, get_string_count s old, ?_⟩
  · intro h
    rcases get_string_spec s old with ⟨_, h0⟩ | ⟨h1, _⟩
    · exact h0
    · exact absurd h h1
  · intro t ht
    exact ⟨trim_cut_single s t ht, (first_field s t [] ht).1⟩

theorem get_string_text_witness :
    get_string "  # none".toList none = (0, none) ∧
    get_string " ab cd  # x".toList none = (6, some "ab cd".toList) ∧
    (trim (cut_comment " (A,B); ".toList) = "(A,B);".toList ∧
      "(A,B);".toList = (" (A,B); ".toList.dropWhile is_ws).takeWhile (fun c => !is_delim c)) :=
  ⟨(get_string_text "  # none".toList none).1 (by decide),
    (get_string_text " ab cd  # x".toList none).2.1 (by decide),
    (get_string_text " (A,B); ".toList none).2.2 "(A,B);".toList (by decide)⟩
/-! ## Claim C22: the integer validator -/

theorem digits_val_foldl (ds : List Char) (a : Nat) :
    ds.foldl (fun a c => 10 * a + (c.toNat - '0'.toNat)) a =
      a * 10 ^ ds.length + digits_denote ds := by
  induction ds generalizing a with
  | nil => simp [digits_denote]
  | cons c r ih =>
    simp only [List.foldl_cons, ih, digits_denote, List.length_cons]
    ring

/-- The Horner evaluation of the C library model gives the denoted number. -/
theorem digits_val_eq (ds : List Char) : digits_val ds = digits_denote ds := by
  unfold digits_val
  rw [digits_val_foldl]
  simp

theorem takeWhile_isspace_token (t : List Char) (ht : ∀ c ∈ t, is_ws c = false) :
    t.takeWhile isspace = t.takeWhile is_vt_ff := by
  induction t with
  | nil => rfl
  | cons c r ih =>
    have hc := ht c (List.mem_cons_self _ _)
    have hr : ∀ x ∈ r, is_ws x = false := fun x hx => ht x (List.mem_cons_of_mem _ hx)
    have e : isspace c = is_vt_ff c := by
      simp only [is_ws, Bool.or_eq_false_iff, beq_eq_false_iff_ne, ne_eq] at hc
      obtain ⟨⟨⟨h1, h2⟩, h3⟩, h4⟩ := hc
      have b1 : (c == ' ') = false := by simp [h1]
      have b2 : (c == '\t') = false := by simp [h2]
      have b3 : (c == '\r') = false := by simp [h3]
      have b4 : (c == '\n') = false := by simp [h4]
      simp only [isspace, is_vt_ff, b1, b2, b3, b4, Bool.false_or, Bool.or_false]
    simp only [List.takeWhile, e, ih hr]

theorem takeWhile_length_eq_iff (p : Char → Bool) (l : List Char) :
    l.length ≤ (l.takeWhile p).length ↔ l.all p = true := by
  induction l with
  | nil => simp
  | cons c r ih =>
    by_cases hc : p c = true
    · simp only [List.takeWhile, hc, List.length_cons, Nat.add_le_add_iff_right, ih,
        List.all_cons, Bool.true_and]
    · have hc' : p c = false := by simpa using hc
      simp [List.takeWhile, hc']

theorem takeWhile_of_all (p : Char → Bool) (l : List Char) (h : l.all p = true) :
    l.takeWhile p = l := by
  induction l with
  | nil => rfl
  | cons c r ih =>
    simp only [List.all_cons, Bool.and_eq_true] at h
    simp only [List.takeWhile, h.1, ih h.2]

theorem unsigned_part_length (u : List Char) :
    u.length = (if u.head? = some '-' ∨ u.head? = some '+' then 1 else 0) +
      (unsigned_part u).length := by
  unfold unsigned_part
  by_cases h : u.head? = some '-' ∨ u.head? = some '+'
  · rw [if_pos h, if_pos h]
    cases u with
    | nil => simp at h
    | cons c r => simp; omega
  · rw [if_neg h, if_neg h]; omega

/-- The conversion `%ld` on a token without white space, in the terms of the
specification. -/
theorem sscanf_ld_token (t : List Char) (ht : ∀ c ∈ t, is_ws c = false) :
    sscanf_ld t =
      if is_signed_decimal (t.dropWhile is_vt_ff) = true ∨
          ((unsigned_part (t.dropWhile is_vt_ff)).takeWhile isdigit ≠ []) then
        some (clamp_long
            (if (t.dropWhile is_vt_ff).head? = some '-' then
              -(digits_denote ((unsigned_part (t.dropWhile is_vt_ff)).takeWhile isdigit) : Int)
            else (digits_denote ((unsigned_part (t.dropWhile is_vt_ff)).takeWhile isdigit) : Int)),
          (t.takeWhile is_vt_ff).length +
            (if (t.dropWhile is_vt_ff).head? = some '-' ∨ (t.dropWhile is_vt_ff).head? = some '+'
              then 1 else 0) +
            ((unsigned_part (t.dropWhile is_vt_ff)).takeWhile isdigit).length)
      else none := by
  have hsp := takeWhile_isspace_token t ht
  have hdrop : t.drop (t.takeWhile is_vt_ff).length = t.dropWhile is_vt_ff :=
    drop_length_takeWhile _ _
  simp only [sscanf_ld, hsp, hdrop]
  generalize t.dropWhile is_vt_ff = u
  have hb : (u.head? == some '-' || u.head? == some '+') = true ↔
      (u.head? = some '-' ∨ u.head? = some '+') := by
    simp only [Bool.or_eq_true, beq_iff_eq]
  have hds : u.drop (if (u.head? == some '-' || u.head? == some '+') = true then 1 else 0) =
      unsigned_part u := by
    unfold unsigned_part
    by_cases h : u.head? = some '-' ∨ u.head? = some '+'
    · rw [if_pos (hb.2 h), if_pos h]
    · rw [if_neg (fun x => h (hb.1 x)), if_neg h, List.drop_zero]
  rw [hds]
  by_cases hd : (unsigned_part u).takeWhile isdigit = []
  · have hns : ¬ is_signed_decimal u = true := by
      intro h
      unfold is_signed_decimal at h
      simp only [Bool.and_eq_true, Bool.not_eq_true', List.isEmpty_eq_false] at h
      rw [takeWhile_of_all _ _ h.2] at hd
      exact h.1 hd
    have hcond : ¬ (is_signed_decimal u = true ∨
        (unsigned_part u).takeWhile isdigit ≠ []) := by
      rintro (h | h)
      · exact hns h
      · exact h hd
    rw [if_neg hcond, hd]
    rfl
  · rw [if_pos (Or.inr hd)]
    have he : ((unsigned_part u).takeWhile isdigit).isEmpty = false := by
      simpa [List.isEmpty_iff] using hd
    simp only [he, Bool.false_eq_true, if_false, digits_val_eq, clamp_long, beq_iff_eq]
    congr 2
    by_cases hm : u.head? = some '-'
    · simp [hm]
    · simp [hm]
/-- A token without white space converts under `%ld` exactly when, behind any
vertical tabs and form feeds at its front, it is an optionally signed decimal
integer; the number stored is then the denoted integer, limited to the range of
`long`. -/
theorem converts_ld_iff (t : List Char) (ht : ∀ c ∈ t, is_ws c = false) (old : Int) :
    converts sscanf_ld t = is_signed_decimal (t.dropWhile is_vt_ff) ∧
    (is_signed_decimal (t.dropWhile is_vt_ff) = true →
      stored sscanf_ld t old = clamp_long (decimal_denote (t.dropWhile is_vt_ff))) := by
  have hlen : t.length = (t.takeWhile is_vt_ff).length + (t.dropWhile is_vt_ff).length := by
    conv_lhs => rw [← List.takeWhile_append_dropWhile is_vt_ff t]
    rw [List.length_append]
  have hu := unsigned_part_length (t.dropWhile is_vt_ff)
  unfold converts stored
  rw [sscanf_ld_token t ht]
  generalize t.dropWhile is_vt_ff = u at *
  by_cases hs : is_signed_decimal u = true
  · have hs' := hs
    unfold is_signed_decimal at hs'
    simp only [Bool.and_eq_true, Bool.not_eq_true', List.isEmpty_eq_false] at hs'
    have htw := takeWhile_of_all _ _ hs'.2
    rw [if_pos (Or.inl hs), htw, hs]
    refine ⟨?_, fun _ => ?_⟩
    · simp only [Bool.not_eq_true', decide_eq_false_iff_not, not_lt]
      omega
    · simp only [decimal_denote]
  · have hs' : is_signed_decimal u = false := by simpa using hs
    rw [hs']
    refine ⟨?_, fun h => absurd h (by decide)⟩
    by_cases hd : (unsigned_part u).takeWhile isdigit = []
    · rw [if_neg (by rintro (h | h); exact absurd h (by decide); exact h hd)]
    · rw [if_pos (Or.inr hd)]
      simp only [Bool.not_eq_false', decide_eq_true_eq]
      have hall : ¬ ((unsigned_part u).all isdigit = true) := by
        intro hall
        apply hs
        unfold is_signed_decimal
        rw [takeWhile_of_all _ _ hall] at hd
        simp only [Bool.and_eq_true, Bool.not_eq_true', List.isEmpty_eq_false]
        exact ⟨hd, hall⟩
      have hlt : ((unsigned_part u).takeWhile isdigit).length < (unsigned_part u).length := by
        by_contra hge
        exact hall ((takeWhile_length_eq_iff _ _).1 (by omega))
      omega

theorem dropWhile_vt_ff_of_decimal (t : List Char) (h : is_signed_decimal t = true) :
    t.dropWhile is_vt_ff = t := by
  unfold is_signed_decimal at h
  simp only [Bool.and_eq_true, Bool.not_eq_true', List.isEmpty_eq_false] at h
  cases t with
  | nil => simp [unsigned_part] at h
  | cons c r =>
    have hc : is_vt_ff c = false := by
      by_cases hs : c = '-' ∨ c = '+'
      · rcases hs with rfl | rfl <;> decide
      · have hu : unsigned_part (c :: r) = c :: r := by
          unfold unsigned_part
          rw [if_neg (by simpa using hs)]
        rw [hu] at h
        have hd : isdigit c = true := by
          have := h.2
          simp only [List.all_cons, Bool.and_eq_true] at this
          exact this.1
        simp only [isdigit, decide_eq_true_eq] at hd
        simp only [is_vt_ff, Bool.or_eq_false_iff, beq_eq_false_iff_ne, ne_eq]
        constructor
        · rintro rfl; revert hd; decide
        · rintro rfl; revert hd; decide
    simp only [List.dropWhile, hc]

/-- Claim C22, counterexamples.  The token made of a vertical tab and `12` is
no optionally signed decimal integer, yet `get_long` accepts it, returns 3 and
stores 12; and for the numeral `9223372036854775808`, which is one more than
the largest `long`, it stores `9223372036854775807`, not the denoted
integer. -/
theorem get_long_accepts_vertical_tab :
    fields "\x0b12".toList = ["\x0b12".toList] ∧
    is_signed_decimal "\x0b12".toList = false ∧
    get_long "\x0b12".toList 0 = (3, 12) ∧
    is_signed_decimal "9223372036854775808".toList = true ∧
    decimal_denote "9223372036854775808".toList = 9223372036854775808 ∧
    get_long "9223372036854775808".toList 0 = (19, 9223372036854775807) := by
  decide

/-- Claim C22, amended.  `get_long` returns 0 on a text that is blank or a
comment.  Otherwise the token is the run from the first character that is no
white space to the first white space, `*` or `#`, and `get_long` returns the
count of leading white space plus the length of the token exactly when the
token, behind any vertical tabs and form feeds at its front (which `%ld`
skips), is an optionally signed decimal integer; the value stored is then the
denoted integer limited to the range of `long`, and in every other case the
return value is 0.  In particular a token that is itself an optionally signed
decimal integer within the range of `long` is accepted with its denoted
value. -/
theorem get_long_token (s : List Char) (old : Int) :
    (fields s = [] → get_long s old = (0, old)) ∧
    (∀ t rest, fields s = t :: rest →
      t = (s.dropWhile is_ws).takeWhile (fun c => !is_delim c) ∧
      (is_signed_decimal (t.dropWhile is_vt_ff) = true →
        get_long s old = ((s.takeWhile is_ws).length + t.length,
          clamp_long (decimal_denote (t.dropWhile is_vt_ff)))) ∧
      (is_signed_decimal (t.dropWhile is_vt_ff) = false → (get_long s old).1 = 0) ∧
      (is_signed_decimal t = true → LONG_MIN ≤ decimal_denote t →
        decimal_denote t ≤ LONG_MAX →
        get_long s old = ((s.takeWhile is_ws).length + t.length, decimal_denote t))) := by
  refine ⟨fun h => by rw [get_long_eq]; exact get_double_nil sscanf_ld s old h, ?_⟩
  intro t rest hf
  obtain ⟨ht, _, _, _⟩ := first_field s t rest hf
  have hnw : ∀ c ∈ t, is_ws c = false := by
    intro c hc
    rw [ht] at hc
    have := List.mem_takeWhile_imp hc
    simp only [Bool.not_eq_true'] at this
    exact (not_delim_iff.1 this).1
  obtain ⟨hconv, hval⟩ := converts_ld_iff t hnw old
  have hg := get_double_count sscanf_ld s old t rest hf
  rw [← get_long_eq] at hg
  have hyes : is_signed_decimal (t.dropWhile is_vt_ff) = true →
      get_long s old = ((s.takeWhile is_ws).length + t.length,
        clamp_long (decimal_denote (t.dropWhile is_vt_ff))) := by
    intro h
    rw [hg, hconv, h, if_pos rfl, hval h]
  refine ⟨ht, hyes, ?_, ?_⟩
  · intro h
    rw [hg, hconv, h]
    rfl
  · intro h hlo hhi
    have hd := dropWhile_vt_ff_of_decimal t h
    rw [hd] at hyes
    rw [hyes h]
    have : clamp_long (decimal_denote t) = decimal_denote t := by
      unfold clamp_long
      rw [min_eq_right hhi, max_eq_right hlo]
    rw [this]

theorem get_long_token_witness :
    get_long "  * 5".toList 7 = (0, 7) ∧
    get_long " -42 rest".toList 0 = (4, -42) ∧
    (get_long " 12abc".toList 0).1 = 0 ∧ (get_long "1.5".toList 0).1 = 0 ∧
    get_long " +7#c".toList 0 = (3, 7) :=
  ⟨(get_long_token "  * 5".toList 7).1 (by decide),
    ((get_long_token " -42 rest".toList 0).2 "-42".toList ["rest".toList] (by decide)).2.1
      (by decide),
    ((get_long_token " 12abc".toList 0).2 "12abc".toList [] (by decide)).2.2.1 (by decide),
    ((get_long_token "1.5".toList 0).2 "1.5".toList [] (by decide)).2.2.1 (by decide),
    ((get_long_token " +7#c".toList 0).2 "+7".toList [] (by decide)).2.2.2 (by decide)
      (by decide) (by decide)⟩

/-! ## Claim C28: the lines of a stream -/

theorem split_lines_newline (l rest : List Char) (hl : ∀ c ∈ l, c ≠ '\n') :
    split_lines (l ++ '\n' :: rest) = l :: split_lines rest := by
  induction l with
  | nil => simp [split_lines]
  | cons c r ih =>
    have hc : c ≠ '\n' := hl c (List.mem_cons_self _ _)
    have hr : ∀ x ∈ r, x ≠ '\n' := fun x hx => hl x (List.mem_cons_of_mem _ hx)
    have e : split_lines (c :: (r ++ '\n' :: rest)) =
        match split_lines (r ++ '\n' :: rest) with
        | [] => [[c]]
        | l :: ls => (c :: l) :: ls := by
      simp only [split_lines, if_neg hc]
    rw [List.cons_append, e, ih hr]

theorem split_lines_last (l : List Char) (hne : l ≠ []) (hl : ∀ c ∈ l, c ≠ '\n') :
    split_lines l = [l] := by
  induction l with
  | nil => exact absurd rfl hne
  | cons c r ih =>
    have hc : c ≠ '\n' := hl c (List.mem_cons_self _ _)
    have hr : ∀ x ∈ r, x ≠ '\n' := fun x hx => hl x (List.mem_cons_of_mem _ hx)
    cases r with
    | nil => simp [split_lines, hc]
    | cons d r' =>
      simp only [split_lines, if_neg hc] at ih ⊢
      rw [ih (by simp) hr]

/-- A stream is a first line without newline, followed by nothing or by a
newline and the rest. -/
theorem first_line_split (content : List Char) :
    ∃ l, (∀ c ∈ l, c ≠ '\n') ∧ (content = l ∨ ∃ rest, content = l ++ '\n' :: rest) := by
  refine ⟨content.takeWhile (fun c => c != '\n'), ?_, ?_⟩
  · intro c hc
    have := List.mem_takeWhile_imp hc
    simpa using this
  · rcases dropWhile_head (fun c => c != '\n') content with h | ⟨d, r, h, hd⟩
    · left
      conv_lhs => rw [← List.takeWhile_append_dropWhile (fun c => c != '\n') content]
      rw [h, List.append_nil]
    · right
      have hd' : d = '\n' := by simpa using hd
      refine ⟨r, ?_⟩
      conv_lhs => rw [← List.takeWhile_append_dropWhile (fun c => c != '\n') content]
      rw [h, hd']

theorem getnextline_all_spec (N : Nat) (hN : 2 ≤ N) (fuel : Nat) (content : List Char)
    (hnul : ∀ c ∈ content, c ≠ '\x00') (hfuel : content.length < fuel) :
    getnextline_all N fuel content = some (split_lines content) := by
  induction fuel generalizing content with
  | zero => omega
  | succ fuel ih =>
    obtain ⟨l, hl, hc⟩ := first_line_split content
    rcases hc with hc | ⟨rest, hc⟩
    · by_cases hne : l = []
      · rw [hc, hne]
        simp only [getnextline_all, getnextline_nil N hN, split_lines]
      · have htl : is_text_line l = true := by
          simp only [is_text_line, List.all_eq_true, Bool.and_eq_true, bne_iff_ne, ne_eq]
          exact fun c hx => ⟨hl c hx, hnul c (hc ▸ hx)⟩
        have hpos : 0 < fuel := by
          have := List.length_pos.mpr hne
          rw [hc] at hfuel
          omega
        rw [hc]
        simp only [getnextline_all, getnextline_last N hN l htl hne]
        rw [ih [] (by simp) (by simpa using hpos), split_lines_last l hne hl]
        rfl
    · have htl : is_text_line l = true := by
        simp only [is_text_line, List.all_eq_true, Bool.and_eq_true, bne_iff_ne, ne_eq]
        exact fun c hx => ⟨hl c hx, hnul c (by rw [hc]; simp [hx])⟩
      rw [hc]
      simp only [getnextline_all, getnextline_newline N hN l rest htl]
      rw [ih rest (fun c hx => hnul c (by rw [hc]; simp [hx])) (by rw [hc] at hfuel; simp at hfuel; omega),
        split_lines_newline l rest hl]
      rfl

/-- Claim C28.  For every chunk size of at least two bytes and every stream
content without NUL, the calls of `getnextline` up to the one that returns
`NULL` return the lines of `split_lines`, which does not mention the chunk
size: the content split at `\n` with the newlines removed, where a newline
ends a line (so nothing follows a final newline) and characters behind the
last newline form a last line. -/
theorem getnextline_all_eq_split_lines (LINEALLOC : Nat) (hN : 2 ≤ LINEALLOC)
    (content : List Char) (hnul : ∀ c ∈ content, c ≠ '\x00') :
    getnextline_all LINEALLOC (content.length + 1) content = some (split_lines content) ∧
    split_lines [] = [] ∧
    (∀ l rest, (∀ c ∈ l, c ≠ '\n') → split_lines (l ++ '\n' :: rest) = l :: split_lines rest) ∧
    (∀ l, l ≠ [] → (∀ c ∈ l, c ≠ '\n') → split_lines l = [l]) :=
  ⟨getnextline_all_spec LINEALLOC hN _ content hnul (Nat.lt_succ_self _), rfl,
    split_lines_newline, split_lines_last⟩

theorem getnextline_all_eq_split_lines_witness :
    getnextline_all 4 ("seed = 1\n\nlast".toList.length + 1) "seed = 1\n\nlast".toList =
      some (split_lines "seed = 1\n\nlast".toList) ∧
    split_lines "seed = 1\n\nlast".toList = ["seed = 1".toList, [], "last".toList] ∧
    split_lines "a\nb\n".toList = ["a".toList, "b".toList] ∧
    getnextline_all 2 6 "a\nb\n".toList = some ["a".toList, "b".toList] ∧
    getnextline_all 100 6 "a\nb\n".toList = some ["a".toList, "b".toList] :=
  ⟨(getnextline_all_eq_split_lines 4 (by decide) "seed = 1\n\nlast".toList (by decide)).1,
    by decide, by decide, by decide, by decide⟩
/-! ## Claim C29: a root that is a leaf -/

/-- Claim C29.  For every root without a left child `rtree_traverse` returns
`BPP_FAILURE` with `*trav_size` set to 0, whatever the traversal order, the
predicate and the buffer are; the buffer is as it was given, and `cbtrav` is
called on no node. -/
theorem rtree_traverse_lone_leaf {D : Type} (K : TraverseConsts) (root : rnode_t D)
    (traversal : Int) (cbtrav : rnode_t D → Int) (outbuffer : List (rnode_t D))
    (hroot : root.is_null = false) (hleaf : root.left.is_null = true) :
    rtree_traverse K root traversal cbtrav outbuffer = .returned K.BPP_FAILURE 0 outbuffer ∧
    rtree_traverse_calls K root traversal cbtrav = [] := by
  cases root with
  | null => simp [rnode_t.is_null] at hroot
  | node addr label length left right =>
    simp only [rnode_t.left] at hleaf
    simp only [rtree_traverse, rtree_traverse_calls, hleaf, if_true, and_self]

theorem rtree_traverse_lone_leaf_witness :
    (rtree_traverse example_consts example_leaf example_consts.TREE_TRAVERSE_POSTORDER
        (fun _ => 1) [.null, .null] = .returned example_consts.BPP_FAILURE 0 [.null, .null] ∧
      rtree_traverse_calls example_consts example_leaf example_consts.TREE_TRAVERSE_POSTORDER
        (fun _ => 1) = []) ∧
    rtree_traverse example_consts example_leaf example_consts.TREE_TRAVERSE_PREORDER
      (fun _ => 1) [] = .returned 0 0 [] ∧
    rtree_traverse_calls example_consts example_tree example_consts.TREE_TRAVERSE_POSTORDER
      (fun _ => 1) = preorder example_tree :=
  ⟨rtree_traverse_lone_leaf example_consts example_leaf example_consts.TREE_TRAVERSE_POSTORDER
      (fun _ => 1) [.null, .null] (by decide) (by decide),
    by decide, by decide⟩
/-! ## Claim C30: export and import again -/

theorem dropWhile_stop (p : Char → Bool) (t r : List Char) (ht : ∀ c ∈ t, p c = true)
    (hr : r = [] ∨ ∃ d r', r = d :: r' ∧ p d = false) :
    (t ++ r).dropWhile p = r := by
  rw [← drop_length_takeWhile, takeWhile_stop p t r ht hr, List.drop_left]

theorem is_newick_token_spec {x : List Char} (h : is_newick_token x = true) :
    x ≠ [] ∧ ∀ c ∈ x, (!newick_special c) = true := by
  simp only [is_newick_token, Bool.and_eq_true, Bool.not_eq_true', List.isEmpty_eq_false,
    List.all_eq_true] at h
  exact ⟨h.1, fun c hc => by simpa using h.2 c hc⟩

/-- The importer reads back a label and a length that are printed in front of
a structuring character or of the end of the text. -/
theorem import_tail_text {D : Type} (I : NewickEnv D) (label : Option (List Char))
    (hl : label_ok label = true) (num : List Char) (hn : is_newick_token num = true)
    (rest : List Char)
    (hrest : rest = [] ∨ ∃ d r', rest = d :: r' ∧ (!newick_special d) = false) :
    some (label, I.atof num, rest) = import_tail I (label.getD [] ++ ':' :: (num ++ rest)) := by
  obtain ⟨hne, hnum⟩ := is_newick_token_spec hn
  have hlab : ∀ c ∈ label.getD [], (!newick_special c) = true := by
    cases label with
    | none => simp
    | some l => exact (is_newick_token_spec hl).2
  have hcolon : (':' :: (num ++ rest)) = [] ∨ ∃ d r', (':' :: (num ++ rest)) = d :: r' ∧
      (!newick_special d) = false := Or.inr ⟨':', _, rfl, by decide⟩
  have h1 := takeWhile_stop _ (label.getD []) (':' :: (num ++ rest)) hlab hcolon
  have h2 := dropWhile_stop _ (label.getD []) (':' :: (num ++ rest)) hlab hcolon
  have h3 := takeWhile_stop _ num rest hnum hrest
  have h4 := dropWhile_stop _ num rest hnum hrest
  have hnum' : num.isEmpty = false := by simpa using hne
  have hlabel : (if (label.getD []).isEmpty = true then none else some (label.getD [])) =
      label := by
    cases label with
    | none => rfl
    | some l =>
      have := (is_newick_token_spec hl).1
      have hl' : l.isEmpty = false := by simpa using this
      simp [hl']
  symm
  simp only [import_tail, h1, h2, expect, if_true, h3, h4, hnum', Bool.false_eq_true,
    if_false, hlabel]
theorem importable_leaf {D : Type} {addr : Nat} {label : Option (List Char)} {length : D}
    {left right : rnode_t D} (h : importable (.node addr label length left right) = true)
    (hl : left.is_null = true) :
    left = .null ∧ right = .null ∧ ∃ l, label = some l ∧ is_newick_token l = true := by
  simp only [importable, hl, if_true, Bool.and_eq_true] at h
  obtain ⟨⟨hr, hs⟩, hok⟩ := h
  refine ⟨?_, ?_, ?_⟩
  · cases left with
    | null => rfl
    | node _ _ _ _ _ => simp [rnode_t.is_null] at hl
  · cases right with
    | null => rfl
    | node _ _ _ _ _ => simp [rnode_t.is_null] at hr
  · cases label with
    | none => simp at hs
    | some l => exact ⟨l, rfl, hok⟩

theorem importable_internal {D : Type} {addr : Nat} {label : Option (List Char)} {length : D}
    {left right : rnode_t D} (h : importable (.node addr label length left right) = true)
    (hl : left.is_null = false) :
    right.is_null = false ∧ importable left = true ∧ importable right = true ∧
      label_ok label = true := by
  simp only [importable, hl, Bool.false_eq_true, if_false, Bool.and_eq_true,
    Bool.not_eq_true'] at h
  exact ⟨h.1.1.1, h.1.2, h.2, h.1.1.2⟩

theorem newick_text_leaf {D : Type} (fmt : D → List Char) (addr : Nat) (l : List Char)
    (length : D) :
    newick_text fmt (.node addr (some l) length .null .null) = l ++ ':' :: fmt length := by
  simp [newick_text, rnode_t.is_null]

theorem newick_text_internal {D : Type} (fmt : D → List Char) (addr : Nat)
    (label : Option (List Char)) (length : D) (left right : rnode_t D)
    (hl : left.is_null = false) (hr : right.is_null = false) (rest : List Char) :
    newick_text fmt (.node addr label length left right) ++ rest =
      '(' :: (newick_text fmt left ++ ',' :: (newick_text fmt right ++
        ')' :: (label.getD [] ++ ':' :: (fmt length ++ rest)))) := by
  simp [newick_text, hl, hr]

/-- The importer reads the text of a tree as a tree of the same topology and
labels, with the lengths as printed and converted back. -/
theorem import_subtree_text {D : Type} (I : NewickEnv D) (fmt : D → List Char) (t : rnode_t D)
    (ht : t.is_null = false) (hc : importable t = true)
    (hf : ∀ d ∈ lengths t, is_newick_token (fmt d) = true) (rest : List Char) (next fuel : Nat)
    (hrest : rest = [] ∨ ∃ d r', rest = d :: r' ∧ (!newick_special d) = false)
    (hfuel : (newick_text fmt t ++ rest).length < fuel) :
    ∃ t' n', import_subtree I fuel (newick_text fmt t ++ rest) next = some (t', rest, n') ∧
      same_tree (fun d => I.atof (fmt d)) t t' := by
  induction t generalizing rest next fuel with
  | null => simp [rnode_t.is_null] at ht
  | node addr label length left right ihl ihr =>
    cases fuel with
    | zero => omega
    | succ fuel =>
    have hnum : is_newick_token (fmt length) = true := hf length (by simp [lengths])
    by_cases hl : left.is_null = true
    · obtain ⟨rfl, rfl, l, rfl, hlab⟩ := importable_leaf hc hl
      obtain ⟨hne, hchars⟩ := is_newick_token_spec hlab
      have hexp : expect '(' (l ++ ':' :: (fmt length ++ rest)) = none := by
        cases l with
        | nil => exact absurd rfl hne
        | cons c r =>
          have hcs := hchars c (List.mem_cons_self _ _)
          have : c ≠ '(' := by rintro rfl; revert hcs; decide
          simp [expect, this]
      have htail := (import_tail_text I (some l) hlab (fmt length) hnum rest hrest).symm
      simp only [Option.getD_some] at htail
      refine ⟨.node next (some l) (I.atof (fmt length)) .null .null, next + 1, ?_, ?_⟩
      · rw [newick_text_leaf, List.append_assoc, List.cons_append]
        simp only [import_subtree, hexp, htail, Option.some_bind]
      · simp only [same_tree, and_self]
    · have hl' : left.is_null = false := by simpa using hl
      obtain ⟨hr', hcl, hcr, hlab⟩ := importable_internal hc hl'
      rw [newick_text_internal fmt addr label length left right hl' hr' rest] at hfuel ⊢
      have hfl : ∀ d ∈ lengths left, is_newick_token (fmt d) = true :=
        fun d hd => hf d (by simp [lengths, hd])
      have hfr : ∀ d ∈ lengths right, is_newick_token (fmt d) = true :=
        fun d hd => hf d (by simp [lengths, hd])
      obtain ⟨l', n2, hil, hsl⟩ := ihl hl' hcl hfl
        (',' :: (newick_text fmt right ++ ')' :: (label.getD [] ++ ':' :: (fmt length ++ rest))))
        (next + 1) fuel (Or.inr ⟨',', _, rfl, by decide⟩)
        (by simp only [List.length_cons] at hfuel; omega)
      obtain ⟨r', n3, hir, hsr⟩ := ihr hr' hcr hfr
        (')' :: (label.getD [] ++ ':' :: (fmt length ++ rest))) n2 fuel
        (Or.inr ⟨')', _, rfl, by decide⟩)
        (by simp only [List.length_cons, List.length_append] at hfuel ⊢; omega)
      have htail := (import_tail_text I label hlab (fmt length) hnum rest hrest).symm
      refine ⟨.node next label (I.atof (fmt length)) l' r', n3, ?_, ?_⟩
      · simp only [import_subtree, expect, if_true, hil, Option.some_bind, hir, htail]
      · simp only [same_tree, true_and]
        exact ⟨hsl, hsr⟩
theorem import_tail_label {D : Type} (I : NewickEnv D) (s : List Char)
    (label : Option (List Char)) (d : D) (rest : List Char)
    (h : import_tail I s = some (label, d, rest)) : label_ok label = true := by
  have key : label_ok (if (s.takeWhile (fun c => !newick_special c)).isEmpty = true then none
      else some (s.takeWhile (fun c => !newick_special c))) = true := by
    by_cases he : (s.takeWhile (fun c => !newick_special c)).isEmpty = true
    · rw [if_pos he]; rfl
    · rw [if_neg he]
      simp only [label_ok, is_newick_token, Bool.and_eq_true, Bool.not_eq_true',
        List.all_eq_true]
      exact ⟨by simpa using he, fun c hc => by simpa using List.mem_takeWhile_imp hc⟩
  simp only [import_tail] at h
  cases he : expect ':' (s.dropWhile (fun c => !newick_special c)) with
  | none =>
    rw [he] at h
    simp only [Option.some.injEq, Prod.mk.injEq] at h
    rw [← h.1]; exact key
  | some s2 =>
    rw [he] at h
    by_cases hn : (s2.takeWhile (fun c => !newick_special c)).isEmpty = true
    · simp [hn] at h
    · simp only [hn, Bool.false_eq_true, if_false, Option.some.injEq, Prod.mk.injEq] at h
      rw [← h.1]; exact key

/-- What the importer builds is a node of a tree as `importable` describes
it. -/
theorem import_subtree_importable {D : Type} (I : NewickEnv D) (fuel : Nat) (s : List Char)
    (next : Nat) (t : rnode_t D) (rest : List Char) (n' : Nat)
    (h : import_subtree I fuel s next = some (t, rest, n')) :
    t.is_null = false ∧ importable t = true ∧ (t.left.is_null = false ↔ ∃ s1, expect '(' s = some s1) := by
  induction fuel generalizing s next t rest n' with
  | zero => simp [import_subtree] at h
  | succ fuel ih =>
    cases hexp : expect '(' s with
    | some s1 =>
      simp only [import_subtree, hexp, Option.bind_eq_some] at h
      obtain ⟨⟨l, s2, n2⟩, h1, s3, _, ⟨r, s4, n3⟩, h2, s5, _, ⟨label, d, s6⟩, h3, h⟩ := h
      simp only [Option.some.injEq, Prod.mk.injEq] at h
      obtain ⟨rfl, _, _⟩ := h
      obtain ⟨hl, hil, _⟩ := ih s1 (next + 1) l s2 n2 h1
      obtain ⟨hr, hir, _⟩ := ih s3 n2 r s4 n3 h2
      have hlab := import_tail_label I s5 label d s6 h3
      refine ⟨rfl, ?_, ?_⟩
      · simp only [importable, hl, Bool.false_eq_true, if_false, hr, Bool.not_false, hlab,
          hil, hir, Bool.and_self]
      · simp only [rnode_t.left, hl, Option.some.injEq, exists_eq', iff_true]
    | none =>
      simp only [import_subtree, hexp, Option.bind_eq_some] at h
      obtain ⟨⟨label, d, s1⟩, h3, h⟩ := h
      have hlab := import_tail_label I s label d s1 h3
      cases label with
      | none => simp at h
      | some l =>
        simp only [Option.some.injEq, Prod.mk.injEq] at h
        obtain ⟨rfl, _, _⟩ := h
        refine ⟨rfl, ?_, ?_⟩
        · simp only [importable, rnode_t.is_null, if_true, Option.isSome_some, hlab,
            Bool.and_self]
        · simp [rnode_t.left, rnode_t.is_null]
theorem importable_leaves_labelled {D : Type} (t : rnode_t D) (h : importable t = true) :
    leaves_labelled t = true := by
  induction t with
  | null => rfl
  | node addr label length left right ihl ihr =>
    by_cases hl : left.is_null = true
    · obtain ⟨_, _, l, rfl, _⟩ := importable_leaf h hl
      simp [leaves_labelled, hl]
    · have hl' : left.is_null = false := by simpa using hl
      obtain ⟨hr, hcl, hcr, _⟩ := importable_internal h hl'
      simp [leaves_labelled, hl', hr, ihl hcl, ihr hcr]

/-- The export, without callback, of a tree with labelled leaves and an
internal root. -/
theorem rtree_export_newick_internal {D : Type} (fmt : D → List Char) (root : rnode_t D)
    (hl : root.left.is_null = false) (hr : root.right.is_null = false)
    (hlab : leaves_labelled root = true) :
    rtree_export_newick fmt none root = .string (newick_text fmt root ++ [';']) := by
  cases root with
  | null => simp [rnode_t.left, rnode_t.is_null] at hl
  | node addr label length left right =>
    simp only [rnode_t.left, rnode_t.right] at hl hr
    have hleaf : ¬ (left.is_null = true ∨ right.is_null = true) := by simp [hl, hr]
    simp only [leaves_labelled, if_neg hleaf, Bool.and_eq_true] at hlab
    simp [rtree_export_newick, newick_text, if_neg hleaf,
      rtree_export_newick_recursive_text fmt left hl hlab.1,
      rtree_export_newick_recursive_text fmt right hr hlab.2]

/-- Claim C30.  For every tree that the Newick importer builds from a string,
and a rendering `fmt` of the branch lengths that the importer reads back as one
number each: `rtree_export_newick` without callback returns a string, the importer
accepts that string, and the tree it builds from it has the topology
and the labels of the first tree, every branch length being the number that
the importer reads from the rendering of the first one. -/
theorem rtree_export_import_round_trip {D : Type} (I : NewickEnv D) (fmt : D → List Char)
    (s : List Char) (t : rnode_t D) (h : rtree_import I s = some t)
    (hf : ∀ d ∈ lengths t, is_newick_token (fmt d) = true) :
    ∃ s' t', rtree_export_newick fmt none t = .string s' ∧ rtree_import I s' = some t' ∧
      same_tree (fun d => I.atof (fmt d)) t t' := by
  -- what the importer has built
  have hroot : t.is_null = false ∧ importable t = true ∧ t.left.is_null = false := by
    unfold rtree_import at h
    cases hexp : expect '(' s with
    | none => rw [hexp] at h; exact absurd h (by simp)
    | some s1 =>
      rw [hexp] at h
      cases hi : import_subtree I (s.length + 1) s 1 with
      | none => rw [hi] at h; exact absurd h (by simp)
      | some r =>
        obtain ⟨root, rest, n⟩ := r
        rw [hi] at h
        by_cases hrest : rest = [';']
        · simp only [hrest, if_true, Option.some.injEq] at h
          subst h
          obtain ⟨h1, h2, h3⟩ := import_subtree_importable I _ s 1 root rest n hi
          exact ⟨h1, h2, h3.2 ⟨s1, hexp⟩⟩
        · simp [hrest] at h
  obtain ⟨hnn, himp, hleft⟩ := hroot
  cases t with
  | null => simp [rnode_t.is_null] at hnn
  | node addr label length left right =>
    simp only [rnode_t.left] at hleft
    obtain ⟨hright, _, _, _⟩ := importable_internal himp hleft
    have hexport := rtree_export_newick_internal fmt (.node addr label length left right)
      hleft hright (importable_leaves_labelled _ himp)
    obtain ⟨t', n', hi, hsame⟩ := import_subtree_text I fmt (.node addr label length left right)
      rfl himp hf [';'] 1
      ((newick_text fmt (.node addr label length left right) ++ [';']).length + 1)
      (Or.inr ⟨';', [], rfl, by decide⟩) (Nat.lt_succ_self _)
    refine ⟨_, t', hexport, ?_, hsame⟩
    have hopen : expect '(' (newick_text fmt (.node addr label length left right) ++ [';']) =
        some (newick_text fmt left ++ ',' :: (newick_text fmt right ++
          ')' :: (label.getD [] ++ ':' :: (fmt length ++ [';'])))) := by
      rw [newick_text_internal fmt addr label length left right hleft hright]
      simp [expect]
    unfold rtree_import
    rw [hopen]
    simp only [hi, if_true]

theorem rtree_export_import_round_trip_witness :
    rtree_import example_newick "((A:1,B:1):1,C:2):0;".toList =
      some (.node 1 none 0 (.node 2 none 1 (.node 3 (some "A".toList) 1 .null .null)
        (.node 4 (some "B".toList) 1 .null .null)) (.node 5 (some "C".toList) 2 .null .null)) ∧
    (∃ s' t', rtree_export_newick example_fmt none
        (.node 1 none 0 (.node 2 none 1 (.node 3 (some "A".toList) 1 .null .null)
          (.node 4 (some "B".toList) 1 .null .null)) (.node 5 (some "C".toList) 2 .null .null))
        = .string s' ∧
      rtree_import example_newick s' = some t' ∧
      same_tree (fun d => example_newick.atof (example_fmt d))
        (.node 1 none 0 (.node 2 none 1 (.node 3 (some "A".toList) 1 .null .null)
          (.node 4 (some "B".toList) 1 .null .null)) (.node 5 (some "C".toList) 2 .null .null))
        t') :=
  ⟨by decide,
    rtree_export_import_round_trip example_newick example_fmt "((A:1,B:1):1,C:2):0;".toList _
      (by decide) (by decide)⟩

/-! ## Claim C31: the bars of the ASCII drawing -/

set_option maxRecDepth 4000 in
/-- Claim C31, the code at `((A,B)X,(C,D)Y)R` and at `(((A,B)X,(C,D)Y)Z,E)R`,
labels shown.  In the first drawing the lines of `C` and `D`, which lie in the
right subtree of the root, start with `|` in the column of level 0, although
nothing of the root is left to draw.  In the second drawing the lines of `C`
and `D`, which lie in the right subtree of `Z`, have a blank in the column of
level 1 and `|` in the column of level 0, as the claim says: the marker of a
level is set to 2 for the right child by `print_tree_recurse`, but not for the
root by `rtree_show_ascii`. -/
theorem rtree_show_ascii_bar_under_root :
    rtree_show_ascii example_show example_fmt example_tree7 1 =
      .ok (" R\n" ++
        "|   \n" ++
        "+---+ X\n" ++
        "|   |   \n" ++
        "|   +--- A\n" ++
        "|   |   \n" ++
        "|   +--- B\n" ++
        "|   \n" ++
        "+---+ Y\n" ++
        "|   |   \n" ++
        "|   +--- C\n" ++
        "|   |   \n" ++
        "|   +--- D\n").toList ∧
    rtree_show_ascii example_show example_fmt example_tree9 1 =
      .ok (" R\n" ++
        "|   \n" ++
        "+---+ Z\n" ++
        "|   |   \n" ++
        "|   +---+ X\n" ++
        "|   |   |   \n" ++
        "|   |   +--- A\n" ++
        "|   |   |   \n" ++
        "|   |   +--- B\n" ++
        "|   |   \n" ++
        "|   +---+ Y\n" ++
        "|       |   \n" ++
        "|       +--- C\n" ++
        "|       |   \n" ++
        "|       +--- D\n" ++
        "|   \n" ++
        "+--- E\n").toList := by
  decide

/-! ## Claim C32: the marker array of the ASCII drawing -/

theorem tree_indent_level_eq {D : Type} (t : rnode_t D) (indent : Nat) :
    tree_indent_level t indent = indent + height t := by
  induction t generalizing indent with
  | null => simp [tree_indent_level, height]
  | node addr label length left right ihl ihr =>
    simp only [tree_indent_level, ihl, ihr, height]
    split_ifs with h
    · have := Nat.max_eq_left (Nat.le_of_lt (by omega : height right < height left))
      omega
    · have := Nat.max_eq_right (by omega : height left ≤ height right)
      omega

theorem marker_get_nat (a : List (Option Int)) (i : Nat) (v : Int)
    (h : a.get? i = some (some v)) : marker_get a (i : Int) = .ok v := by
  have hneg : ¬ ((i : Int) < 0) := by omega
  simp only [marker_get, if_neg hneg, Int.toNat_ofNat, h]

theorem marker_set_nat (a : List (Option Int)) (i : Nat) (v : Int) (h : i < a.length) :
    marker_set a (i : Int) v = .ok (a.set i (some v)) := by
  have hneg : ¬ ((i : Int) < 0) := by omega
  have hlen : ¬ (a.length ≤ i) := by omega
  simp only [marker_set, if_neg hneg, Int.toNat_ofNat, if_neg hlen]

/-- The entries `0 .. n - 1` of the marker array have been written. -/
theorem written_set (a : List (Option Int)) (n i : Nat) (v : Int)
    (h : ∀ j < n, ∃ w, a.get? j = some (some w)) (hi : i < a.length) :
    (∀ j < n, ∃ w, (a.set i (some v)).get? j = some (some w)) ∧
      ∃ w, (a.set i (some v)).get? i = some (some w) := by
  constructor
  · intro j hj
    by_cases hij : i = j
    · subst hij
      exact ⟨v, by simp [List.getElem?_set, hi]⟩
    · obtain ⟨w, hw⟩ := h j hj
      refine ⟨w, ?_⟩
      simp only [List.get?_eq_getElem?] at hw ⊢
      rw [List.getElem?_set_ne hij]
      exact hw
  · exact ⟨v, by simp [List.getElem?_set, hi]⟩

theorem print_columns_loop_ok (a : List (Option Int)) (count i : Nat)
    (h : ∀ j < i + count, ∃ w, a.get? j = some (some w)) :
    ∃ text, print_columns_loop a count i = .ok text := by
  induction count generalizing i with
  | zero => exact ⟨[], rfl⟩
  | succ count ih =>
    obtain ⟨w, hw⟩ := h i (by omega)
    obtain ⟨text, ht⟩ := ih (i + 1) (fun j hj => h j (by omega))
    exact ⟨(if w ≠ 0 then '|' else ' ') :: (List.replicate (indent_space - 1) ' ' ++ text),
      by simp only [print_columns_loop, marker_get_nat a i w hw, ht]⟩

theorem print_columns_ok (a : List (Option Int)) (n : Nat)
    (h : ∀ j < n, ∃ w, a.get? j = some (some w)) :
    ∃ text, print_columns a (n : Int) = .ok text := by
  unfold print_columns
  rw [Int.toNat_ofNat]
  exact print_columns_loop_ok a n 0 (fun j hj => h j (by omega))

/-- The only fault of `print_node_info` is a label that is `NULL` and
shown. -/
theorem print_node_info_fault {D : Type} (K : ShowConsts) (fmt : D → List Char) (addr : Nat)
    (label : Option (List Char)) (length : D) (left right : rnode_t D) (options : Nat) :
    (∃ text, print_node_info K fmt (.node addr label length left right) options = .ok text) ∨
    (print_node_info K fmt (.node addr label length left right) options =
        .fault .null_pointer ∧ options &&& K.RTREE_SHOW_LABEL ≠ 0 ∧ label = none) := by
  unfold print_node_info
  by_cases h1 : options &&& K.RTREE_SHOW_LABEL ≠ 0
  · cases label with
    | none => right; simp only [if_pos h1]; exact ⟨trivial, h1, trivial⟩
    | some l =>
      left
      simp only [if_pos h1]
      by_cases h2 : options &&& K.RTREE_SHOW_BRANCH_LENGTH ≠ 0
      · simp only [if_pos h2]; exact ⟨_, rfl⟩
      · simp only [if_neg h2]; exact ⟨_, rfl⟩
  · left
    simp only [if_neg h1]
    by_cases h2 : options &&& K.RTREE_SHOW_BRANCH_LENGTH ≠ 0
    · simp only [if_pos h2]; exact ⟨_, rfl⟩
    · simp only [if_neg h2]; exact ⟨_, rfl⟩

/-- A call of `print_tree_recurse` at level `L ≥ 1`, on an array whose entries
below `L` are written and that has room for the levels of the subtree, stays
inside the array and reads written entries only; it leaves the array at its
length and the entries below `L` written. -/
theorem print_tree_recurse_safe {D : Type} (K : ShowConsts) (fmt : D → List Char)
    (options : Nat) (t : rnode_t D) (L : Nat) (a : List (Option Int)) (hL : 1 ≤ L)
    (hlen : L + height t ≤ a.length)
    (hw : ∀ j < L, ∃ w, a.get? j = some (some w)) :
    (∀ e, print_tree_recurse K fmt options t (L : Int) a = .fault e →
        e = .null_pointer ∧ options &&& K.RTREE_SHOW_LABEL ≠ 0 ∧ all_labelled t = false) ∧
    (∀ a' text, print_tree_recurse K fmt options t (L : Int) a = .ok (a', text) →
        a'.length = a.length ∧ ∀ j < L, ∃ w, a'.get? j = some (some w)) := by
  induction t generalizing L a with
  | null =>
    simp only [print_tree_recurse]
    constructor
    · intro e h
      cases h
    · intro a' text h
      cases h
      exact ⟨rfl, hw⟩
  | node addr label length left right ihl ihr =>
    have hh : height (.node addr label length left right) =
        1 + max (height left) (height right) := rfl
    have hhl : height left ≤ max (height left) (height right) := Nat.le_max_left _ _
    have hhr : height right ≤ max (height left) (height right) := Nat.le_max_right _ _
    obtain ⟨c1, hc1⟩ := print_columns_ok a L hw
    obtain ⟨c2, hc2⟩ := print_columns_ok a (L - 1) (fun j hj => hw j (by omega))
    have hcast : ((L : Int) - 1) = ((L - 1 : Nat) : Int) := by omega
    obtain ⟨v, hv⟩ := hw (L - 1) (by omega)
    have hget := marker_get_nat a (L - 1) v hv
    have ha1 : ∃ a1, (if v = 2 then marker_set a ((L - 1 : Nat) : Int) 0
          else .ok a : Checked (List (Option Int))) = .ok a1 ∧ a1.length = a.length ∧
        ∀ j < L, ∃ w, a1.get? j = some (some w) := by
      by_cases h2 : v = 2
      · rw [if_pos h2, marker_set_nat a (L - 1) 0 (by omega)]
        exact ⟨_, rfl, by simp, (written_set a L (L - 1) 0 hw (by omega)).1⟩
      · rw [if_neg h2]
        exact ⟨a, rfl, rfl, hw⟩
    obtain ⟨a1, ha1, hl1, hw1⟩ := ha1
    have hs2 := marker_set_nat a1 L 1 (by omega)
    have hw2 : ∀ j < L + 1, ∃ w, (a1.set L (some 1)).get? j = some (some w) := by
      intro j hj
      have := written_set a1 L L 1 hw1 (by omega)
      by_cases hjl : j = L
      · subst hjl
        exact this.2
      · exact this.1 j (by omega)
    have hl2 : (a1.set L (some 1)).length = a.length := by simp [hl1]
    have ihl' := ihl (L + 1) (a1.set L (some 1)) (by omega) (by omega) hw2
    rw [Nat.cast_succ] at ihl'
    simp only [print_tree_recurse, hcast, hc1, hc2, hget, ha1, hs2]
    rcases print_node_info_fault K fmt addr label length left right options with
      ⟨info, hinfo⟩ | ⟨hinfo, hbit, hnone⟩
    · simp only [hinfo]
      cases hl : print_tree_recurse K fmt options left ((L : Int) + 1) (a1.set L (some 1)) with
      | fault e =>
        obtain ⟨he, hb, hlab⟩ := ihl'.1 e hl
        constructor
        · intro e' h
          cases h
          exact ⟨he, hb, by simp [all_labelled, hlab]⟩
        · intro a' text h
          cases h
      | ok p =>
        obtain ⟨a3, text_left⟩ := p
        obtain ⟨hl3, hw3⟩ := ihl'.2 a3 text_left hl
        have hs4 := marker_set_nat a3 L 2 (by omega)
        have hw4 : ∀ j < L + 1, ∃ w, (a3.set L (some 2)).get? j = some (some w) := by
          intro j hj
          have := written_set a3 (L + 1) L 2 hw3 (by omega)
          exact this.1 j hj
        have hl4 : (a3.set L (some 2)).length = a.length := by simp [hl3, hl2]
        have ihr' := ihr (L + 1) (a3.set L (some 2)) (by omega) (by omega) hw4
        rw [Nat.cast_succ] at ihr'
        simp only [hs4]
        cases hr : print_tree_recurse K fmt options right ((L : Int) + 1)
            (a3.set L (some 2)) with
        | fault e =>
          obtain ⟨he, hb, hlab⟩ := ihr'.1 e hr
          constructor
          · intro e' h
            cases h
            exact ⟨he, hb, by simp [all_labelled, hlab]⟩
          · intro a' text h
            cases h
        | ok q =>
          obtain ⟨a5, text_right⟩ := q
          obtain ⟨hl5, hw5⟩ := ihr'.2 a5 text_right hr
          constructor
          · intro e' h
            cases h
          · intro a' text h
            cases h
            exact ⟨by rw [hl5, hl4], fun j hj => hw5 j (by omega)⟩
    · simp only [hinfo]
      constructor
      · intro e' h
        cases h
        exact ⟨rfl, hbit, by simp [all_labelled, hnone]⟩
      · intro a' text h
        cases h

/-- Claim C32. For a tree that is not empty, `tree_indent_level(root, 0)` is
the number of nodes on the longest path from the root down to a leaf, and a run
of `rtree_show_ascii` and of the calls of `print_tree_recurse` in it never
uses an index of the marker array outside `[0, indent_max]`, the
`indent_max + 1` entries allocated, nor reads an entry that was not written;
the run ends normally unless a label that is to be shown is `NULL`. -/
theorem rtree_show_ascii_markers_in_bounds {D : Type} (K : ShowConsts) (fmt : D → List Char)
    (addr : Nat) (label : Option (List Char)) (length : D) (left right : rnode_t D)
    (options : Nat) :
    tree_indent_level (.node addr label length left right) 0 =
        height (.node addr label length left right) ∧
      rtree_show_ascii K fmt (.node addr label length left right) options ≠
        .fault .out_of_bounds ∧
      rtree_show_ascii K fmt (.node addr label length left right) options ≠
        .fault .uninitialised ∧
      (options &&& K.RTREE_SHOW_LABEL = 0 ∨
          all_labelled (.node addr label length left right) = true →
        ∃ text, rtree_show_ascii K fmt (.node addr label length left right) options =
          .ok text) := by
  have hlevel := tree_indent_level_eq (.node addr label length left right) 0
  rw [Nat.zero_add] at hlevel
  have hh : height (.node addr label length left right) =
      1 + max (height left) (height right) := rfl
  have hhl : height left ≤ max (height left) (height right) := Nat.le_max_left _ _
  have hhr : height right ≤ max (height left) (height right) := Nat.le_max_right _ _
  have key : (∃ text, rtree_show_ascii K fmt (.node addr label length left right) options =
        .ok text) ∨
      (rtree_show_ascii K fmt (.node addr label length left right) options =
          .fault .null_pointer ∧ options &&& K.RTREE_SHOW_LABEL ≠ 0 ∧
        all_labelled (.node addr label length left right) = false) := by
    generalize ha : List.replicate (height (.node addr label length left right) + 1)
      (none : Option Int) = a
    have hal : a.length = height (.node addr label length left right) + 1 := by
      rw [← ha, List.length_replicate]
    have hs0 := marker_set_nat a 0 1 (by omega)
    have hs1 := marker_set_nat (a.set 0 (some 1)) 1 1 (by simp only [List.length_set]; omega)
    have hw1 : ∀ j < 1, ∃ w, ((a.set 0 (some 1)).set 1 (some 1)).get? j = some (some w) := by
      intro j hj
      have hj0 : j = 0 := by omega
      subst hj0
      refine ⟨1, ?_⟩
      simp only [List.get?_eq_getElem?]
      rw [List.getElem?_set_ne (by decide)]
      simp [List.getElem?_set, hal]
    have hl1 : ((a.set 0 (some 1)).set 1 (some 1)).length = a.length := by simp
    have hleft := print_tree_recurse_safe K fmt options left 1
      ((a.set 0 (some 1)).set 1 (some 1)) (Nat.le_refl 1) (by omega) hw1
    rw [Nat.cast_one] at hleft
    rw [Nat.cast_zero] at hs0
    rw [Nat.cast_one] at hs1
    simp only [rtree_show_ascii, hlevel, ha, hs0, hs1]
    rcases print_node_info_fault K fmt addr label length left right options with
      ⟨info, hinfo⟩ | ⟨hinfo, hbit, hnone⟩
    · simp only [hinfo]
      cases hl : print_tree_recurse K fmt options left 1
          ((a.set 0 (some 1)).set 1 (some 1)) with
      | fault e =>
        obtain ⟨he, hb, hlab⟩ := hleft.1 e hl
        right
        exact ⟨by rw [he], hb, by simp [all_labelled, hlab]⟩
      | ok p =>
        obtain ⟨a2, text_left⟩ := p
        obtain ⟨hl2, hw2⟩ := hleft.2 a2 text_left hl
        have hright := print_tree_recurse_safe K fmt options right 1 a2 (Nat.le_refl 1)
          (by omega) hw2
        rw [Nat.cast_one] at hright
        cases hr : print_tree_recurse K fmt options right 1 a2 with
        | fault e =>
          obtain ⟨he, hb, hlab⟩ := hright.1 e hr
          right
          exact ⟨by simp only [hr, he], hb, by simp [all_labelled, hlab]⟩
        | ok q =>
          obtain ⟨a3, text_right⟩ := q
          left
          exact ⟨info ++ text_left ++ text_right, by simp only [hr]⟩
    · right
      simp only [hinfo]
      exact ⟨trivial, hbit, by simp [all_labelled, hnone]⟩
  refine ⟨hlevel, ?_, ?_, ?_⟩
  · intro h
    rcases key with ⟨text, ht⟩ | ⟨hf, _, _⟩
    · rw [ht] at h
      cases h
    · rw [hf] at h
      cases h
  · intro h
    rcases key with ⟨text, ht⟩ | ⟨hf, _, _⟩
    · rw [ht] at h
      cases h
    · rw [hf] at h
      cases h
  · intro hlab
    rcases key with ⟨text, ht⟩ | ⟨_, hbit, hno⟩
    · exact ⟨text, ht⟩
    · rcases hlab with h0 | hall
      · exact absurd h0 hbit
      · rw [hall] at hno
        cases hno

/-- Claim C32 at `((A,B)X,(C,D)Y)R`, labels shown. -/
theorem rtree_show_ascii_markers_in_bounds_witness :
    tree_indent_level example_tree7 0 = 3 ∧
      ∃ text, rtree_show_ascii example_show example_fmt example_tree7 1 = .ok text :=
  ⟨by decide,
    (rtree_show_ascii_markers_in_bounds example_show example_fmt 1 (some "R".toList) 0
      (.node 2 (some "X".toList) 1
        (.node 3 (some "A".toList) 1 .null .null) (.node 4 (some "B".toList) 1 .null .null))
      (.node 5 (some "Y".toList) 1
        (.node 6 (some "C".toList) 1 .null .null) (.node 7 (some "D".toList) 1 .null .null))
      1).2.2.2 (Or.inr (by decide))⟩

/-! ## Claim C33: the backward scan of `get_token` on an empty key -/

theorem scan_back_all_ws (w r : List Char) (hw : ∀ c ∈ w, is_ws c = true) (n : Nat)
    (hn : n ≤ w.length) : scan_back (w ++ r) n = none := by
  induction n with
  | zero => rfl
  | succ n ih =>
    have hlt : n < w.length := by omega
    have hg : (w ++ r).get? n = some (w.get ⟨n, hlt⟩) := by
      simp only [List.get?_eq_getElem?]
      rw [List.getElem?_append_left hlt]
      exact List.getElem?_eq_getElem hlt
    have hc : (w.get ⟨n, hlt⟩ == ' ' || w.get ⟨n, hlt⟩ == '\t' || w.get ⟨n, hlt⟩ == '\r' ||
        w.get ⟨n, hlt⟩ == '\n') = true := hw _ (List.get_mem w n hlt)
    simp only [scan_back, hg, hc, if_true]
    exact ih (by omega)

/-- Claim C33 fails on the code. On a line whose first character behind the
leading white space is `=`, the backward scan of `get_token` starts on the
character in front of `=` and runs over white space only: it moves before the
first character of the line, where the C loop reads `line[-1]`, and the run
of `load_cfile` on that line is undefined. -/
theorem get_token_empty_key_leaves_line {D : Type} (E : Env D) (w rest : List Char)
    (st : State D) (hw : ∀ c ∈ w, is_ws c = true) :
    scan_back (w ++ '=' :: rest) w.length = none ∧
      get_token (w ++ '=' :: rest) = none ∧
      load_body E (w ++ '=' :: rest) st = .undefined := by
  have hsb := scan_back_all_ws w ('=' :: rest) hw w.length (Nat.le_refl _)
  have htw : (w ++ '=' :: rest).takeWhile is_ws = w :=
    takeWhile_stop is_ws w _ hw (Or.inr ⟨'=', rest, rfl, by decide⟩)
  have hdw : (w ++ '=' :: rest).dropWhile is_ws = '=' :: rest :=
    dropWhile_stop is_ws w _ hw (Or.inr ⟨'=', rest, rfl, by decide⟩)
  have hkey : ('=' :: rest).takeWhile (fun c => c != '=') = [] := by
    simp [List.takeWhile]
  have hg : get_token (w ++ '=' :: rest) = none := by
    rw [get_token_unfold, htw, hdw, hkey]
    simp only [List.length_nil, Nat.add_zero, List.drop_left, hsb]
    rfl
  refine ⟨hsb, hg, ?_⟩
  simp only [load_body, hg]

/-- Claim C33 at the lines `= 5` and `   =x`. -/
theorem get_token_empty_key_leaves_line_witness :
    (get_token "= 5".toList = none ∧
        load_body example_env "= 5".toList
          { fp := [], line_count := 0, cfg := args_init_config } = .undefined) ∧
      scan_back "   =x".toList 3 = none ∧ get_token "   =x".toList = none :=
  ⟨(get_token_empty_key_leaves_line example_env [] " 5".toList
      { fp := [], line_count := 0, cfg := args_init_config } (by decide)).2,
    (get_token_empty_key_leaves_line example_env "   ".toList "x".toList
      { fp := [], line_count := 0, cfg := args_init_config } (by decide)).1,
    (get_token_empty_key_leaves_line example_env "   ".toList "x".toList
      { fp := [], line_count := 0, cfg := args_init_config } (by decide)).2.1⟩
/-! ## Claim C34: the integer options -/

theorem stored_old {D : Type} (lf : List Char → Option (D × Nat)) (t : List Char)
    (old old' : D) (h : converts lf t = true) : stored lf t old = stored lf t old' := by
  have h1 := stored_of_converts lf t old h
  have h2 := stored_of_converts lf t old' h
  rw [h1] at h2
  injection h2

theorem single_integer_some (value : List Char) (v : Int) (h : single_integer value = some v) :
    ∃ t, fields value = [t] ∧ converts sscanf_ld t = true ∧ v = stored sscanf_ld t 0 := by
  unfold single_integer at h
  split at h
  · rename_i t hf
    by_cases hc : converts sscanf_ld t = true
    · rw [if_pos hc] at h
      injection h with h
      exact ⟨t, hf, hc, h.symm⟩
    · rw [if_neg hc] at h
      cases h
  · cases h

theorem parse_long_some (value : List Char) (old v : Int) (h : single_integer value = some v) :
    parse_long value old = (1, v) := by
  obtain ⟨t, hf, hc, hv⟩ := single_integer_some value v h
  obtain ⟨h1, h2, h3⟩ := get_long_ok value old t [] hf hc
  have he := (is_emptyline_iff _).mpr h2
  simp only [parse_long, if_neg h1, he, if_true, h3, hv]
  rw [stored_old sscanf_ld t old 0 hc]

theorem parse_long_none (value : List Char) (old : Int) (h : single_integer value = none) :
    (parse_long value old).1 = 0 := by
  by_contra hne
  by_cases h1 : (get_long value old).1 = 0
  · simp only [parse_long, if_pos h1] at hne
    exact hne trivial
  · obtain ⟨t, rest, hf, hc, hr, _⟩ := get_long_inv value old h1
    simp only [parse_long, if_neg h1] at hne
    by_cases he : is_emptyline (value.drop (get_long value old).1) = true
    · rw [is_emptyline_iff, hr] at he
      subst he
      simp only [single_integer, hf, hc, if_true] at h
      cases h
    · simp only [he, Bool.false_eq_true, if_false] at hne
      exact hne trivial

/-- Claim C34, amended. On an option line whose key is one of `burnin`,
`nsample`, `sampfreq`, `nloci`, `usedata`, `cleandata` and `speciesmodelprior`
(in any case), the loop body of `load_cfile` ends normally exactly when the
value is a single integer token followed by a blank or comment remainder and
the integer lies in the range of the option (`burnin >= 0`, `nsample > 0`,
`sampfreq > 0`, `nloci >= 1`, the three others 0 or 1); every other value is
fatal.  On acceptance the variable of the option holds the integer and nothing
else of the configuration changes; for `nloci`, which is checked in a local
variable, the configuration is left as it was. -/
theorem load_cfile_integer_options {D : Type} (E : Env D) (line key value : List Char)
    (st : State D) (hl : KeyLine line key value) :
    (key.map tolower = "burnin".toList →
      load_body E line st =
        match single_integer value with
        | some v =>
          if 0 ≤ v then
            .ok { fp := st.fp, line_count := st.line_count + 1, cfg := { st.cfg with opt_burnin := v } }
          else .fatal (.burnin (st.line_count + 1))
        | none => .fatal (.burnin (st.line_count + 1))) ∧
    (key.map tolower = "nsample".toList →
      load_body E line st =
        match single_integer value with
        | some v =>
          if 0 < v then
            .ok { fp := st.fp, line_count := st.line_count + 1, cfg := { st.cfg with opt_samples := v } }
          else .fatal (.nsample (st.line_count + 1))
        | none => .fatal (.nsample (st.line_count + 1))) ∧
    (key.map tolower = "sampfreq".toList →
      load_body E line st =
        match single_integer value with
        | some v =>
          if 0 < v then
            .ok { fp := st.fp, line_count := st.line_count + 1, cfg := { st.cfg with opt_samplefreq := v } }
          else .fatal (.sampfreq (st.line_count + 1))
        | none => .fatal (.sampfreq (st.line_count + 1))) ∧
    (key.map tolower = "nloci".toList →
      load_body E line st =
        match single_integer value with
        | some v =>
          if 1 ≤ v then
            .ok { fp := st.fp, line_count := st.line_count + 1, cfg := st.cfg }
          else .fatal (.nloci (st.line_count + 1))
        | none => .fatal (.nloci (st.line_count + 1))) ∧
    (key.map tolower = "usedata".toList →
      load_body E line st =
        match single_integer value with
        | some v =>
          if v = 0 ∨ v = 1 then
            .ok { fp := st.fp, line_count := st.line_count + 1, cfg := { st.cfg with opt_usedata := v } }
          else .fatal (.usedata (st.line_count + 1))
        | none => .fatal (.usedata (st.line_count + 1))) ∧
    (key.map tolower = "cleandata".toList →
      load_body E line st =
        match single_integer value with
        | some v =>
          if v = 0 ∨ v = 1 then
            .ok { fp := st.fp, line_count := st.line_count + 1, cfg := { st.cfg with opt_cleandata := v } }
          else .fatal (.cleandata (st.line_count + 1))
        | none => .fatal (.cleandata (st.line_count + 1))) ∧
    (key.map tolower = "speciesmodelprior".toList →
      load_body E line st =
        match single_integer value with
        | some v =>
          if v = 0 ∨ v = 1 then
            .ok { fp := st.fp, line_count := st.line_count + 1, cfg := { st.cfg with opt_delimit_prior := v } }
          else .fatal (.speciesmodelprior (st.line_count + 1))
        | none => .fatal (.speciesmodelprior (st.line_count + 1))) := by
  refine ⟨?_, ?_, ?_, ?_, ?_, ?_, ?_⟩
  · intro hk
    rw [load_body_option E line key value st hl .burnin hk]
    cases h : single_integer value with
    | none =>
      have hp := parse_long_none value st.cfg.opt_burnin h
      simp only [run_option, hp, true_or, if_true]
    | some v =>
      have hp := parse_long_some value st.cfg.opt_burnin v h
      simp only [run_option, hp]
      by_cases hr : 0 ≤ v
      · rw [if_neg (by omega), if_pos hr]
      · rw [if_pos (by omega), if_neg hr]
  · intro hk
    rw [load_body_option E line key value st hl .nsample hk]
    cases h : single_integer value with
    | none =>
      have hp := parse_long_none value st.cfg.opt_samples h
      simp only [run_option, hp, true_or, if_true]
    | some v =>
      have hp := parse_long_some value st.cfg.opt_samples v h
      simp only [run_option, hp]
      by_cases hr : 0 < v
      · rw [if_neg (by omega), if_pos hr]
      · rw [if_pos (by omega), if_neg hr]
  · intro hk
    rw [load_body_option E line key value st hl .sampfreq hk]
    cases h : single_integer value with
    | none =>
      have hp := parse_long_none value st.cfg.opt_samplefreq h
      simp only [run_option, hp, true_or, if_true]
    | some v =>
      have hp := parse_long_some value st.cfg.opt_samplefreq v h
      simp only [run_option, hp]
      by_cases hr : 0 < v
      · rw [if_neg (by omega), if_pos hr]
      · rw [if_pos (by omega), if_neg hr]
  · intro hk
    rw [load_body_option E line key value st hl .nloci hk]
    cases h : single_integer value with
    | none =>
      have hp := parse_long_none value 0 h
      simp only [run_option, hp, true_or, if_true]
    | some v =>
      have hp := parse_long_some value 0 v h
      simp only [run_option, hp]
      by_cases hr : 1 ≤ v
      · rw [if_neg (by omega), if_pos hr]
      · rw [if_pos (by omega), if_neg hr]
  · intro hk
    rw [load_body_option E line key value st hl .usedata hk]
    cases h : single_integer value with
    | none =>
      have hp := parse_long_none value st.cfg.opt_usedata h
      simp only [run_option, hp, true_or, if_true]
    | some v =>
      have hp := parse_long_some value st.cfg.opt_usedata v h
      simp only [run_option, hp]
      by_cases hr : v = 0 ∨ v = 1
      · rw [if_neg (by omega), if_pos hr]
      · rw [if_pos (by omega), if_neg hr]
  · intro hk
    rw [load_body_option E line key value st hl .cleandata hk]
    cases h : single_integer value with
    | none =>
      have hp := parse_long_none value st.cfg.opt_cleandata h
      simp only [run_option, hp, true_or, if_true]
    | some v =>
      have hp := parse_long_some value st.cfg.opt_cleandata v h
      simp only [run_option, hp]
      by_cases hr : v = 0 ∨ v = 1
      · rw [if_neg (by omega), if_pos hr]
      · rw [if_pos (by omega), if_neg hr]
  · intro hk
    rw [load_body_option E line key value st hl .speciesmodelprior hk]
    cases h : single_integer value with
    | none =>
      have hp := parse_long_none value st.cfg.opt_delimit_prior h
      simp only [run_option, hp, true_or, if_true]
    | some v =>
      have hp := parse_long_some value st.cfg.opt_delimit_prior v h
      simp only [run_option, hp]
      by_cases hr : v = 0 ∨ v = 1
      · rw [if_neg (by omega), if_pos hr]
      · rw [if_pos (by omega), if_neg hr]

/-- Claim C34 as stated fails for `nloci`: the line `nloci = 12345` is accepted
and the configuration is what it was, so no variable of it holds 12345, while
`burnin = 12345` stores the integer in `opt_burnin`. -/
theorem load_cfile_nloci_is_not_stored :
    load_body example_env "nloci = 12345".toList
        { fp := [], line_count := 0, cfg := args_init_config } =
      .ok { fp := [], line_count := 1, cfg := args_init_config } ∧
    load_body example_env "burnin = 12345".toList
        { fp := [], line_count := 0, cfg := args_init_config } =
      .ok { fp := [], line_count := 1,
            cfg := { args_init_config with opt_burnin := 12345 } } := by
  decide

/-- Claim C34, amended, at the lines `burnin = 250 # warm-up`, `usedata = 2`,
`nsample = 10 20` and `NLoci = 3`. -/
theorem load_cfile_integer_options_witness :
    load_body example_env "burnin = 250 # warm-up".toList
        { fp := [], line_count := 0, cfg := args_init_config } =
      .ok { fp := [], line_count := 1, cfg := { args_init_config with opt_burnin := 250 } } ∧
    load_body example_env "usedata = 2".toList
        { fp := [], line_count := 0, cfg := args_init_config } = .fatal (.usedata 1) ∧
    load_body example_env "nsample = 10 20".toList
        { fp := [], line_count := 0, cfg := args_init_config } = .fatal (.nsample 1) ∧
    load_body example_env "NLoci = 3".toList
        { fp := [], line_count := 0, cfg := args_init_config } =
      .ok { fp := [], line_count := 1, cfg := args_init_config } :=
  ⟨((load_cfile_integer_options example_env "burnin = 250 # warm-up".toList "burnin".toList
      " 250 # warm-up".toList { fp := [], line_count := 0, cfg := args_init_config }
      ⟨[], [' '], by decide, by decide, by decide, by decide⟩).1 (by decide)).trans
      (by decide),
    ((load_cfile_integer_options example_env "usedata = 2".toList "usedata".toList
      " 2".toList { fp := [], line_count := 0, cfg := args_init_config }
      ⟨[], [' '], by decide, by decide, by decide, by decide⟩).2.2.2.2.1 (by decide)).trans
      (by decide),
    ((load_cfile_integer_options example_env "nsample = 10 20".toList "nsample".toList
      " 10 20".toList { fp := [], line_count := 0, cfg := args_init_config }
      ⟨[], [' '], by decide, by decide, by decide, by decide⟩).2.1 (by decide)).trans
      (by decide),
    ((load_cfile_integer_options example_env "NLoci = 3".toList "NLoci".toList
      " 3".toList { fp := [], line_count := 0, cfg := args_init_config }
      ⟨[], [' '], by decide, by decide, by decide, by decide⟩).2.2.2.1 (by decide)).trans
      (by decide)⟩
/-! ## Claim C35: fields that are validated but not stored -/

theorem ite_ind {α : Type} (P : α → Prop) (c : Prop) [Decidable c] (a b : α) (ha : P a)
    (hb : P b) : P (if c then a else b) := by
  split <;> assumption

/-- Claim C35. For every input `parse_print` leaves the configuration as it
was, in particular `opt_print_samples`, `opt_print_locusrate`,
`opt_print_hscalars` and `opt_print_genetrees`, and it succeeds on any four
integer fields, whatever their values; `parse_finetune` leaves
`opt_finetune_locusrate` unchanged for every input: the only variables it can
change are `opt_finetune_reset`, `opt_finetune_gtage`, `opt_finetune_gtspr`,
`opt_finetune_theta`, `opt_finetune_tau` and `opt_finetune_mix`, its sixth and
seventh fields going to local variables. -/
theorem parse_print_and_finetune_frame {D : Type} (lf : List Char → Option (D × Nat))
    (value : List Char) (c : Config D) :
    (parse_print value c).2 = c ∧
    ((parse_print value c).2.opt_print_samples = c.opt_print_samples ∧
      (parse_print value c).2.opt_print_locusrate = c.opt_print_locusrate ∧
      (parse_print value c).2.opt_print_hscalars = c.opt_print_hscalars ∧
      (parse_print value c).2.opt_print_genetrees = c.opt_print_genetrees) ∧
    (∀ t1 t2 t3 t4, fields value = [t1, t2, t3, t4] →
      (∀ t ∈ [t1, t2, t3, t4], converts sscanf_ld t = true) → (parse_print value c).1 = 1) ∧
    (parse_finetune lf value c).2.opt_finetune_locusrate = c.opt_finetune_locusrate ∧
    ∃ reset gtage gtspr theta tau mix,
      (parse_finetune lf value c).2 =
        { c with opt_finetune_reset := reset, opt_finetune_gtage := gtage,
                 opt_finetune_gtspr := gtspr, opt_finetune_theta := theta,
                 opt_finetune_tau := tau, opt_finetune_mix := mix } := by
  have hp : (parse_print value c).2 = c := by
    rcases parse_print_cases value c with ⟨_, h⟩ | ⟨_, h, _⟩ <;> exact h
  have hf : ∃ reset gtage gtspr theta tau mix,
      (parse_finetune lf value c).2 =
        { c with opt_finetune_reset := reset, opt_finetune_gtage := gtage,
                 opt_finetune_gtspr := gtspr, opt_finetune_theta := theta,
                 opt_finetune_tau := tau, opt_finetune_mix := mix } := by
    simp only [parse_finetune]
    have step := fun (cnd : Prop) (inst : Decidable cnd) (a b : Int × Config D) =>
      @ite_ind _ (fun r : Int × Config D => ∃ reset gtage gtspr theta tau mix,
        r.2 = { c with opt_finetune_reset := reset, opt_finetune_gtage := gtage,
                       opt_finetune_gtspr := gtspr, opt_finetune_theta := theta,
                       opt_finetune_tau := tau, opt_finetune_mix := mix }) cnd inst a b
    refine step _ _ _ _ ⟨_, _, _, _, _, _, rfl⟩ ?_
    refine step _ _ _ _ ⟨_, _, _, _, _, _, rfl⟩ ?_
    refine step _ _ _ _ ⟨_, _, _, _, _, _, rfl⟩ ?_
    refine step _ _ _ _ ⟨_, _, _, _, _, _, rfl⟩ ?_
    refine step _ _ _ _ ⟨_, _, _, _, _, _, rfl⟩ ?_
    refine step _ _ _ _ ⟨_, _, _, _, _, _, rfl⟩ ?_
    refine step _ _ _ _ ⟨_, _, _, _, _, _, rfl⟩ ?_
    refine step _ _ _ _ ⟨_, _, _, _, _, _, rfl⟩ ?_
    refine step _ _ _ _ ⟨_, _, _, _, _, _, rfl⟩ ?_
    exact ⟨_, _, _, _, _, _, rfl⟩
  refine ⟨hp, ?_, ?_, ?_, hf⟩
  · rw [hp]
    exact ⟨rfl, rfl, rfl, rfl⟩
  · intro t1 t2 t3 t4 hfl hc
    exact parse_print_ok value c t1 t2 t3 t4 hfl hc
  · obtain ⟨reset, gtage, gtspr, theta, tau, mix, h⟩ := hf
    rw [h]

/-- Claim C35 at the values `5 -3 7 2` of `print` and
`1: 5 0.001 0.001 0.001 0.3 0.77 0.9` of `finetune`. -/
theorem parse_print_and_finetune_frame_witness :
    (parse_print "5 -3 7 2".toList args_init_config).1 = 1 ∧
    (parse_print "5 -3 7 2".toList args_init_config).2 = args_init_config ∧
    (parse_finetune decimal_lf "1: 5 0.001 0.001 0.001 0.3 0.77 0.9".toList
      args_init_config).1 = 1 ∧
    (parse_finetune decimal_lf "1: 5 0.001 0.001 0.001 0.3 0.77 0.9".toList
      args_init_config).2.opt_finetune_locusrate = (33, 2) :=
  ⟨(parse_print_and_finetune_frame decimal_lf "5 -3 7 2".toList args_init_config).2.2.1
      "5".toList "-3".toList "7".toList "2".toList (by decide) (by decide),
    (parse_print_and_finetune_frame decimal_lf "5 -3 7 2".toList args_init_config).1,
    by decide,
    (parse_print_and_finetune_frame decimal_lf "1: 5 0.001 0.001 0.001 0.3 0.77 0.9".toList
      args_init_config).2.2.2.1⟩
/-! ## Claim C36: the size of the traversal output -/

theorem traverse_preorder_sublist {D : Type} (p : rnode_t D → Bool) (t : rnode_t D) :
    List.Sublist (traverse .preorder p t) (preorder t) := by
  induction t with
  | null => simp [traverse, preorder]
  | node addr label length left right ihl ihr =>
    simp only [traverse, preorder]
    by_cases hp : p (.node addr label length left right) = true
    · rw [if_pos hp]
      by_cases hleaf : (left.is_null && right.is_null) = true
      · rw [if_pos hleaf]
        exact List.Sublist.cons₂ _ (List.nil_sublist _)
      · rw [if_neg hleaf]
        exact List.Sublist.cons₂ _ (List.Sublist.append ihl ihr)
    · rw [if_neg hp]
      exact List.nil_sublist _

/-- The two orders list the same nodes. -/
theorem traverse_perm {D : Type} (p : rnode_t D → Bool) (t : rnode_t D) :
    (traverse .postorder p t).Perm (traverse .preorder p t) := by
  induction t with
  | null => simp [traverse]
  | node addr label length left right ihl ihr =>
    simp only [traverse]
    by_cases hp : p (.node addr label length left right) = true
    · rw [if_pos hp, if_pos hp]
      by_cases hleaf : (left.is_null && right.is_null) = true
      · rw [if_pos hleaf, if_pos hleaf]
      · rw [if_neg hleaf, if_neg hleaf]
        refine List.Perm.trans (List.perm_append_singleton _ _) ?_
        exact List.Perm.cons _ (List.Perm.append ihl ihr)
    · rw [if_neg hp, if_neg hp]

/-- Claim C36. On a binary tree with an internal root whose nodes have distinct
addresses, with any predicate `cbtrav` and a buffer that has a slot for every
node, `rtree_traverse` returns in either order with a final `*trav_size` that is
at most the number of nodes: it writes the first `*trav_size` slots, inside the
buffer, and leaves the others as they were.  No node is written twice, every
node written is a node of the tree, and the slots written in postorder and
those written in preorder hold the same nodes. -/
theorem rtree_traverse_output_bounded {D : Type} (K : TraverseConsts)
    (cbtrav : rnode_t D → Int) (root : rnode_t D) (outbuffer : List (rnode_t D))
    (hb : is_binary root = true) (hroot : is_internal root = true)
    (hd : ((nodes root).map rnode_t.addr).Nodup)
    (hroom : (nodes root).length ≤ outbuffer.length) :
    ∃ post pre : List (rnode_t D),
      rtree_traverse K root K.TREE_TRAVERSE_POSTORDER cbtrav outbuffer =
        .returned K.BPP_SUCCESS post.length (post ++ outbuffer.drop post.length) ∧
      rtree_traverse K root K.TREE_TRAVERSE_PREORDER cbtrav outbuffer =
        .returned K.BPP_SUCCESS pre.length (pre ++ outbuffer.drop pre.length) ∧
      post.length ≤ (nodes root).length ∧ pre.length ≤ (nodes root).length ∧
      post.length ≤ outbuffer.length ∧ pre.length ≤ outbuffer.length ∧
      post.Nodup ∧ pre.Nodup ∧
      (∀ n ∈ post, n ∈ nodes root) ∧ (∀ n ∈ pre, n ∈ nodes root) ∧
      (∀ n, n ∈ post ↔ n ∈ pre) ∧ post.length = pre.length := by
  have hp : ∀ m, (fun m => decide (cbtrav m ≠ 0)) m = true ↔ cbtrav m ≠ 0 := fun m => by simp
  obtain ⟨h1, h2⟩ := rtree_traverse_eq K cbtrav _ hp root outbuffer hb hroot hroom
  have hperm := traverse_perm (fun m => decide (cbtrav m ≠ 0)) root
  have hnd_pre : (traverse .preorder (fun m => decide (cbtrav m ≠ 0)) root).Nodup :=
    List.Nodup.sublist (traverse_preorder_sublist _ root)
      ((preorder_perm root).nodup_iff.2 (nodes_nodup root hd))
  have hnd_post : (traverse .postorder (fun m => decide (cbtrav m ≠ 0)) root).Nodup :=
    hperm.nodup_iff.2 hnd_pre
  have hl_post := traverse_length_le .postorder (fun m => decide (cbtrav m ≠ 0)) root
  have hl_pre := traverse_length_le .preorder (fun m => decide (cbtrav m ≠ 0)) root
  by_cases hK : K.TREE_TRAVERSE_PREORDER = K.TREE_TRAVERSE_POSTORDER
  · refine ⟨_, _, h1, by rw [hK]; exact h1, hl_post, hl_post, Nat.le_trans hl_post hroom,
      Nat.le_trans hl_post hroom, hnd_post, hnd_post,
      fun n hn => traverse_mem_nodes _ _ _ _ hn, fun n hn => traverse_mem_nodes _ _ _ _ hn,
      fun n => Iff.rfl, rfl⟩
  · refine ⟨_, _, h1, h2 hK, hl_post, hl_pre, Nat.le_trans hl_post hroom,
      Nat.le_trans hl_pre hroom, hnd_post, hnd_pre,
      fun n hn => traverse_mem_nodes _ _ _ _ hn, fun n hn => traverse_mem_nodes _ _ _ _ hn,
      fun n => hperm.mem_iff, hperm.length_eq⟩

/-- Claim C36 at `((A,B)X,C)R` with a predicate that rejects the leaf `B` and a
buffer of five slots. -/
theorem rtree_traverse_output_bounded_witness :
    (is_binary example_tree5 = true ∧ is_internal example_tree5 = true ∧
      (nodes example_tree5).length ≤ example_outbuffer.length) ∧
    ∃ post pre : List (rnode_t Nat),
      rtree_traverse example_consts example_tree5 example_consts.TREE_TRAVERSE_POSTORDER
          (fun n => if n.addr = 4 then 0 else 1) example_outbuffer =
        .returned example_consts.BPP_SUCCESS post.length
          (post ++ example_outbuffer.drop post.length) ∧
      rtree_traverse example_consts example_tree5 example_consts.TREE_TRAVERSE_PREORDER
          (fun n => if n.addr = 4 then 0 else 1) example_outbuffer =
        .returned example_consts.BPP_SUCCESS pre.length
          (pre ++ example_outbuffer.drop pre.length) ∧
      post.length ≤ (nodes example_tree5).length ∧ pre.length ≤ (nodes example_tree5).length ∧
      post.length ≤ example_outbuffer.length ∧
      pre.length ≤ example_outbuffer.length ∧
      post.Nodup ∧ pre.Nodup ∧
      (∀ n ∈ post, n ∈ nodes example_tree5) ∧ (∀ n ∈ pre, n ∈ nodes example_tree5) ∧
      (∀ n, n ∈ post ↔ n ∈ pre) ∧ post.length = pre.length :=
  ⟨⟨by decide, by decide, by decide⟩,
    rtree_traverse_output_bounded example_consts (fun n => if n.addr = 4 then 0 else 1)
      example_tree5 example_outbuffer (by decide) (by decide) (by decide)
      (by decide)⟩

/-! ## Claim C37: the text stored by `get_string` and the label loop -/

theorem trim_mem (s : List Char) (x : Char) (h : x ∈ trim s) : x ∈ s := by
  unfold trim at h
  have h1 := (List.dropWhile_sublist is_ws).subset (List.mem_reverse.1 h)
  exact (List.dropWhile_sublist is_ws).subset (List.mem_reverse.1 h1)

/-- The text that `get_string` stores when it returns a non-zero count. -/
theorem get_string_shape (s : List Char) (old : Option (List Char))
    (h : (get_string s old).1 ≠ 0) :
    (get_string s old).2 = some (trim (cut_comment s)) ∧ trim (cut_comment s) ≠ [] ∧
      (∀ c, (trim (cut_comment s)).head? = some c → is_ws c = false ∧ c ≠ '*' ∧ c ≠ '#') ∧
      (∀ c ∈ trim (cut_comment s), c ≠ '*' ∧ c ≠ '#') ∧
      (∀ c, (trim (cut_comment s)).getLast? = some c → is_ws c = false) := by
  rcases get_string_spec s old with ⟨_, h0⟩ | ⟨_, _, hv, hne, _, k, r, hk, hkw⟩
  · rw [h0] at h
    exact absurd rfl h
  have hmem : ∀ c ∈ trim (cut_comment s), c ≠ '*' ∧ c ≠ '#' := by
    intro c hc
    have h1 := List.mem_takeWhile_imp (trim_mem _ _ hc)
    simp only [Bool.not_eq_true', Bool.or_eq_false_iff, beq_eq_false_iff_ne, ne_eq] at h1
    exact h1
  have hk_mem : k ∈ trim (cut_comment s) := by rw [hk]; exact List.mem_cons_self _ _
  obtain ⟨_, _, _, _, _, _, _, _, hlast⟩ :=
    trim_split (cut_comment s) ⟨k, trim_mem _ _ hk_mem, hkw⟩
  refine ⟨hv, hne, ?_, hmem, hlast⟩
  intro c hc
  rw [hk] at hc
  simp only [List.head?_cons, Option.some.injEq] at hc
  subst hc
  exact ⟨hkw, hmem k hk_mem⟩

theorem seqnames_assertion_holds (v : List Char) (hne : v ≠ [])
    (hlast : ∀ c, v.getLast? = some c → is_ws c = false) : seqnames_assertion v = true := by
  rcases List.eq_nil_or_concat v with h | ⟨ini, z, h⟩
  · exact absurd h hne
  · subst h
    have hz : is_ws z = false := hlast z (by simp)
    have hd : (ini ++ [z]).drop ((ini ++ [z]).length - 1) = [z] := by simp
    simp only [seqnames_assertion, hd, strcspn_label]
    simp [List.takeWhile, hz]

theorem reorder_loop_labels_pos (fuel : Nat) (p : List Char) (n : Int)
    (hp : p = [] ∨ ∃ c r, p = c :: r ∧ is_ws c = false) :
    ∀ label ∈ reorder_loop_labels fuel p n, 0 < label.length := by
  induction fuel generalizing p n with
  | zero => intro label h; simp [reorder_loop_labels] at h
  | succ fuel ih =>
    rcases hp with rfl | ⟨c, r, rfl, hc⟩
    · intro label h; simp [reorder_loop_labels] at h
    · obtain ⟨hne, _⟩ := words_step c r hc
      have hpos : 0 < ((c :: r).takeWhile (fun x => !is_ws x)).length := List.length_pos.mpr hne
      have hcount : ¬ (((c :: r).takeWhile (fun x => !is_ws x)).length = 0 ∧ n ≠ 0) := by omega
      intro label h
      rw [reorder_loop_labels] at h
      simp only [List.isEmpty_cons, Bool.false_eq_true, if_false, strcspn_label, hcount,
        take_length_takeWhile, drop_length_takeWhile, strspn_label, List.mem_cons] at h
      rcases h with h | h
      · rw [h]; exact hpos
      · exact ih _ _ (dropWhile_head is_ws _) label h

/-- The labels that the loop takes are the words of the string. -/
theorem reorder_loop_labels_words (fuel : Nat) (p : List Char) (n : Int)
    (hp : p = [] ∨ ∃ c r, p = c :: r ∧ is_ws c = false) (hfuel : p.length < fuel) :
    reorder_loop_labels fuel p n = words p := by
  induction fuel generalizing p n with
  | zero => omega
  | succ fuel ih =>
    rcases hp with rfl | ⟨c, r, rfl, hc⟩
    · simp [reorder_loop_labels, words]
    · obtain ⟨hne, hw⟩ := words_step c r hc
      have hpos : 0 < ((c :: r).takeWhile (fun x => !is_ws x)).length := List.length_pos.mpr hne
      have hcount : ¬ (((c :: r).takeWhile (fun x => !is_ws x)).length = 0 ∧ n ≠ 0) := by omega
      rw [reorder_loop_labels]
      simp only [List.isEmpty_cons, Bool.false_eq_true, if_false, strcspn_label, hcount,
        take_length_takeWhile, drop_length_takeWhile, strspn_label]
      have hlen : (((c :: r).dropWhile (fun x => !is_ws x)).dropWhile is_ws).length < fuel := by
        have h1 := congrArg List.length
          (List.takeWhile_append_dropWhile (fun x => !is_ws x) (c :: r))
        have h2 := congrArg List.length
          (List.takeWhile_append_dropWhile is_ws ((c :: r).dropWhile (fun x => !is_ws x)))
        rw [List.length_append] at h1 h2
        omega
      rw [ih _ _ (dropWhile_head is_ws _) hlen, hw]

/-- Claim C37. Whenever `get_string` returns a non-zero count, the string it
stores in `*value` is not empty, starts with a character that is not white
space, `*` or `#`, holds no `*` and no `#`, and does not end in white space.
So for every input with which `parse_speciesandtree` reaches its `assert`, the
asserted condition holds, the loop runs to the end of `seqnames`, the labels it
takes are the words of `seqnames`, and every one of them has positive
length. -/
theorem get_string_value_is_trimmed (line : List Char) (old : Option (List Char)) :
    ((get_string line old).1 ≠ 0 →
      ∃ v, (get_string line old).2 = some v ∧ v ≠ [] ∧
        (∀ c, v.head? = some c → is_ws c = false ∧ c ≠ '*' ∧ c ≠ '#') ∧
        (∀ c ∈ v, c ≠ '*' ∧ c ≠ '#') ∧
        (∀ c, v.getLast? = some c → is_ws c = false)) ∧
    (∀ seqnames, parse_speciesandtree_seqnames line = some seqnames →
      seqnames_assertion seqnames = true ∧
      reorder_loop (seqnames.length + 1) seqnames (get_long line 0).2 [] =
        some (true, (get_long line 0).2 - (words seqnames).length,
          join_counted (get_long line 0).2 (words seqnames)) ∧
      reorder_loop_labels (seqnames.length + 1) seqnames (get_long line 0).2 =
        words seqnames ∧
      ∀ label ∈ reorder_loop_labels (seqnames.length + 1) seqnames (get_long line 0).2,
        0 < label.length) := by
  constructor
  · intro h
    obtain ⟨hv, hne, hhead, hmem, hlast⟩ := get_string_shape line old h
    exact ⟨_, hv, hne, hhead, hmem, hlast⟩
  · intro seqnames hs
    simp only [parse_speciesandtree_seqnames] at hs
    by_cases h1 : (get_long line 0).1 = 0
    · rw [if_pos h1] at hs
      cases hs
    rw [if_neg h1] at hs
    by_cases h2 : (get_string (line.drop (get_long line 0).1) none).1 = 0
    · rw [if_pos h2] at hs
      cases hs
    rw [if_neg h2] at hs
    obtain ⟨hv, hne, hhead, _, hlast⟩ :=
      get_string_shape (line.drop (get_long line 0).1) none h2
    rw [hv] at hs
    simp only [Option.getD_some, Option.some.injEq] at hs
    rw [hs] at hne hhead hlast
    have hp : seqnames = [] ∨ ∃ c r, seqnames = c :: r ∧ is_ws c = false := by
      cases seqnames with
      | nil => exact Or.inl rfl
      | cons c r => exact Or.inr ⟨c, r, rfl, (hhead c rfl).1⟩
    refine ⟨seqnames_assertion_holds seqnames hne hlast, ?_,
      reorder_loop_labels_words _ _ _ hp (Nat.lt_succ_self _),
      reorder_loop_labels_pos _ _ _ hp⟩
    rw [reorder_loop_spec _ _ _ _ hp (Nat.lt_succ_self _), List.nil_append]

/-- Claim C37 at the value ` ab cd  # x` of `get_string` and at the value
`3 A B C # names` of `parse_speciesandtree`. -/
theorem get_string_value_is_trimmed_witness :
    (∃ v, (get_string " ab cd  # x".toList none).2 = some v ∧ v ≠ [] ∧
      (∀ c, v.head? = some c → is_ws c = false ∧ c ≠ '*' ∧ c ≠ '#') ∧
      (∀ c ∈ v, c ≠ '*' ∧ c ≠ '#') ∧
      (∀ c, v.getLast? = some c → is_ws c = false)) ∧
    (seqnames_assertion "A B C".toList = true ∧
      reorder_loop ("A B C".toList.length + 1) "A B C".toList
          (get_long "3 A B C # names".toList 0).2 [] =
        some (true, (get_long "3 A B C # names".toList 0).2 - (words "A B C".toList).length,
          join_counted (get_long "3 A B C # names".toList 0).2 (words "A B C".toList)) ∧
      reorder_loop_labels ("A B C".toList.length + 1) "A B C".toList
          (get_long "3 A B C # names".toList 0).2 = words "A B C".toList ∧
      ∀ label ∈ reorder_loop_labels ("A B C".toList.length + 1) "A B C".toList
          (get_long "3 A B C # names".toList 0).2, 0 < label.length) ∧
    get_string " ab cd  # x".toList none = (6, some "ab cd".toList) ∧
    words "A B C".toList = ["A".toList, "B".toList, "C".toList] :=
  ⟨(get_string_value_is_trimmed " ab cd  # x".toList none).1 (by decide),
    (get_string_value_is_trimmed "3 A B C # names".toList none).2 "A B C".toList (by decide),
    by decide, by decide⟩

/-! ## Claim C19: blank lines, malformed lines and the empty key -/

/-- A backward scan that leaves the buffer has run over white space only. -/
theorem scan_back_none (s : List Char) (q : Nat) (h : scan_back s q = none) :
    ∀ i < q, ∃ c, s.get? i = some c ∧ is_ws c = true := by
  induction q with
  | zero => intro i hi; omega
  | succ q ih =>
    rw [scan_back] at h
    rcases hg : s.get? q with _ | c
    · rw [hg] at h
      cases h
    · rw [hg] at h
      simp only at h
      by_cases hc : (c == ' ' || c == '\t' || c == '\r' || c == '\n') = true
      · rw [if_pos hc] at h
        intro i hi
        by_cases hiq : i = q
        · subst hiq
          exact ⟨c, hg, hc⟩
        · exact ih h i (by omega)
      · rw [if_neg hc] at h
        cases h

/-- Claim C19 fails on the code at the lines whose first character behind the
leading white space is `=`, such as `= 5`: such a line is not blank and holds
`=`, but `get_token` gives it no classification, because its backward scan
leaves the line and the run of `load_cfile` is undefined from there.  On every
other line the classification is as the claim says: a line that, behind its
leading white space (space, tab, CR, LF), is empty or begins with `*` or `#`
gets 0 and is skipped without any effect but the advance of the line counter;
a line that is not blank gets -1 or a positive length, never 0; and a line
that is not blank and holds no `=` gets -1 and makes `load_cfile` abort. -/
theorem get_token_blank_unless_empty_key {D : Type} (E : Env D) (line : List Char)
    (st : State D) :
    (BlankLine line →
      get_token line = some (0, [], []) ∧
      load_body E line st =
        .ok { fp := st.fp, line_count := st.line_count + 1, cfg := st.cfg }) ∧
    (¬ BlankLine line → (line.dropWhile is_ws).head? ≠ some '=' →
      ∃ L tok val, get_token line = some (L, tok, val) ∧ (L = -1 ∨ 0 < L)) ∧
    (¬ BlankLine line → '=' ∉ line →
      (∃ tok val, get_token line = some (-1, tok, val)) ∧
      load_body E line st = .fatal (.no_equals (st.line_count + 1))) ∧
    (¬ BlankLine line → (line.dropWhile is_ws).head? = some '=' →
      get_token line = none ∧ load_body E line st = .undefined) := by
  have hsplit := (List.takeWhile_append_dropWhile is_ws line).symm
  have hww : ∀ c ∈ line.takeWhile is_ws, is_ws c = true := fun c hc => List.mem_takeWhile_imp hc
  refine ⟨?_, ?_, ?_, ?_⟩
  · intro hb
    rw [blankLine_iff] at hb
    have hg : get_token line = some (0, [], []) := by rw [get_token_unfold, if_pos hb]
    refine ⟨hg, ?_⟩
    simp only [load_body, hg, if_true]
  · intro hb hne
    have hb' : at_end_or_comment (line.dropWhile is_ws) = false := by
      rw [blankLine_iff] at hb
      simpa using hb
    cases hg : get_token line with
    | some r =>
      obtain ⟨L, tok, val⟩ := r
      exact ⟨L, tok, val, rfl, get_token_nonblank line hb' L tok val hg⟩
    | none =>
      exfalso
      obtain ⟨k, ks, hk, hkw⟩ : ∃ k ks, line.dropWhile is_ws = k :: ks ∧ is_ws k = false := by
        rcases dropWhile_head is_ws line with h' | h'
        · rw [h'] at hb'
          exact absurd hb' (by decide)
        · exact h'
      have hkeq : k ≠ '=' := by
        intro e
        rw [hk, e] at hne
        exact hne rfl
      have hpos : 0 < ((line.dropWhile is_ws).takeWhile (fun c => c != '=')).length := by
        have hk' : (k != '=') = true := by simpa using hkeq
        rw [hk]
        simp [List.takeWhile, hk']
      have hget : line.get? (line.takeWhile is_ws).length = some k := by
        have := get?_append_length (line.takeWhile is_ws) k ks
        rw [← hk, ← hsplit] at this
        exact this
      rw [get_token_unfold, hb'] at hg
      simp only [Bool.false_eq_true, if_false] at hg
      split at hg
      · cases hg
      · split at hg
        · rename_i hsb
          obtain ⟨c, hc1, hc2⟩ := scan_back_none _ _ hsb (line.takeWhile is_ws).length (by omega)
          rw [hget] at hc1
          injection hc1 with hc1
          rw [← hc1, hkw] at hc2
          exact absurd hc2 (by decide)
        · cases hg
  · intro hb hne
    have hb' : at_end_or_comment (line.dropWhile is_ws) = false := by
      rw [blankLine_iff] at hb
      simpa using hb
    have hall : (line.dropWhile is_ws).takeWhile (fun c => c != '=') = line.dropWhile is_ws := by
      apply List.takeWhile_eq_self_iff.mpr
      intro c hc
      have hcl : c ∈ line := by
        rw [hsplit]
        exact List.mem_append_right _ hc
      have : c ≠ '=' := fun e => hne (e ▸ hcl)
      simpa using this
    have hdrop : line.drop ((line.takeWhile is_ws).length + (line.dropWhile is_ws).length) = [] := by
      apply List.drop_eq_nil_of_le
      have := congrArg List.length (List.takeWhile_append_dropWhile is_ws line)
      rw [List.length_append] at this
      omega
    have hg : get_token line = some (-1, line.dropWhile is_ws, []) := by
      rw [get_token_unfold, hb', hall, hdrop]
      rfl
    refine ⟨⟨_, _, hg⟩, ?_⟩
    simp only [load_body, hg, Int.reduceNeg, Int.reduceEq, Int.reduceLT, if_false, if_true]
  · intro _ hhead
    obtain ⟨rest, hrest⟩ : ∃ rest, line.dropWhile is_ws = '=' :: rest := by
      cases hd : line.dropWhile is_ws with
      | nil => rw [hd] at hhead; cases hhead
      | cons c r =>
        rw [hd] at hhead
        simp only [List.head?_cons, Option.some.injEq] at hhead
        exact ⟨r, by rw [hhead]⟩
    have hsb := scan_back_all_ws (line.takeWhile is_ws) ('=' :: rest) hww
      (line.takeWhile is_ws).length (Nat.le_refl _)
    rw [← hrest, ← hsplit] at hsb
    have hkey : ('=' :: rest).takeWhile (fun c => c != '=') = [] := by
      simp [List.takeWhile]
    have hne : (line.drop (line.takeWhile is_ws).length).isEmpty = false := by
      rw [drop_length_takeWhile, hrest]
      rfl
    have hg : get_token line = none := by
      rw [get_token_unfold, hrest, hkey]
      simp only [List.length_nil, Nat.add_zero, hsb, hne]
      rfl
    refine ⟨hg, ?_⟩
    simp only [load_body, hg]

/-- Claim C19 at the line `= 5`, at a comment line and at the lines `seed 5`
and `seed = 5`. -/
theorem get_token_blank_unless_empty_key_witness :
    (¬ BlankLine "= 5".toList ∧ '=' ∈ "= 5".toList ∧ get_token "= 5".toList = none ∧
      load_body example_env "= 5".toList
        { fp := [], line_count := 2, cfg := args_init_config } = .undefined) ∧
    load_body example_env "  # seed = 5".toList
        { fp := [], line_count := 2, cfg := args_init_config } =
      .ok { fp := [], line_count := 3, cfg := args_init_config } ∧
    ((∃ tok val, get_token "seed 5".toList = some (-1, tok, val)) ∧
      load_body example_env "seed 5".toList
        { fp := [], line_count := 2, cfg := args_init_config } = .fatal (.no_equals 3)) ∧
    (∃ L tok val, get_token "seed = 5".toList = some (L, tok, val) ∧ (L = -1 ∨ 0 < L)) :=
  ⟨⟨fun h => absurd ((blankLine_iff _).mp h) (by decide), by decide,
      (get_token_blank_unless_empty_key example_env "= 5".toList
        { fp := [], line_count := 2, cfg := args_init_config }).2.2.2
        (fun h => absurd ((blankLine_iff _).mp h) (by decide)) (by decide)⟩,
    ((get_token_blank_unless_empty_key example_env "  # seed = 5".toList
      { fp := [], line_count := 2, cfg := args_init_config }).1
      ⟨"  ".toList, "# seed = 5".toList, by decide, by decide,
        Or.inr ⟨'#', _, rfl, Or.inr rfl⟩⟩).2,
    (get_token_blank_unless_empty_key example_env "seed 5".toList
      { fp := [], line_count := 2, cfg := args_init_config }).2.2.1
      (fun h => absurd ((blankLine_iff _).mp h) (by decide)) (by decide),
    (get_token_blank_unless_empty_key example_env "seed = 5".toList
      { fp := [], line_count := 2, cfg := args_init_config }).2.1
      (fun h => absurd ((blankLine_iff _).mp h) (by decide)) (by decide)⟩

end Bpp
